import Mathlib

/-!
# klolang: lexer, parser and Go code generator

A shallow embedding of `parser/lexer.go`, `parser/ast.go`, `parser/parser.go`
and `transpiler/generator.go`, followed by theorems about them.

Conventions of the embedding

* A Go `string` is a sequence of bytes: `GoString := List Nat` (every element
  of a real input is below 256; nothing in the model depends on that bound).
  `str "abc"` writes an ASCII literal of the source as its bytes.
* Go `int` counters (`position`, `line`, `column`, `current`, `indent`) are
  `Nat`; they only ever count up from 0 or 1 by steps of one, or are
  decremented right after a matching increment.
* A Go function returning `(T, error)` returns `Result T`: `ok`, a returned
  `error` with its message, `fault` for a run-time panic (slice index out of
  range), and `outOfFuel` when a bounded loop or recursion of the model
  exhausts its bound (the Go code has no such bound).
* Methods that mutate their receiver return the new receiver.
-/

namespace Klo

/-! ## Strings and results -/

/-- A Go string: a sequence of bytes. -/
abbrev GoString := List Nat

/-- The bytes of an ASCII literal. -/
def str (s : String) : GoString := s.toList.map Char.toNat

/-- The verb `%d` of package fmt on a non-negative integer. -/
def fmtD (n : Nat) : GoString := str (toString n)

/-- The verb `%c` of package fmt on a byte: the UTF-8 encoding of the code point
with that number. -/
def fmtC (ch : Nat) : GoString :=
  if ch < 128 then [ch] else [192 + ch / 64, 128 + ch % 64]

/-- Outcome of a Go call that returns a value and an `error`. -/
inductive Result (α : Type) where
  | ok (val : α)
  | error (msg : GoString)
  | fault
  | outOfFuel
  deriving Repr, DecidableEq

/-- Sequencing: everything but `ok` is propagated. -/
def Result.bind {α β : Type} (r : Result α) (f : α → Result β) : Result β :=
  match r with
  | .ok a => f a
  | .error m => .error m
  | .fault => .fault
  | .outOfFuel => .outOfFuel

/-! ## Tokens (`parser/lexer.go`) -/

/-- The enumeration `TokenType`, in the order of its `iota` declaration. -/
inductive TokenType where
  | EOF | NEWLINE | INDENT | DEDENT
  | IDENTIFIER | STRING | NUMBER
  | PRINT | IF | ELSE | DEF | FOR | IN | WHILE | RETURN
  | ASSIGN | PLUS | MINUS | MULTIPLY | DIVIDE | MODULO
  | EQUAL | NOT_EQUAL | LESS | LESS_EQ | GREATER | GREATER_EQ
  | LPAREN | RPAREN | LBRACKET | RBRACKET | COMMA | COLON | DOT
  deriving Repr, DecidableEq

open TokenType

/-- The integer value of a `TokenType` constant. -/
def TokenType.code : TokenType → Nat
  | EOF => 0 | NEWLINE => 1 | INDENT => 2 | DEDENT => 3
  | IDENTIFIER => 4 | STRING => 5 | NUMBER => 6
  | PRINT => 7 | IF => 8 | ELSE => 9 | DEF => 10 | FOR => 11 | IN => 12
  | WHILE => 13 | RETURN => 14
  | ASSIGN => 15 | PLUS => 16 | MINUS => 17 | MULTIPLY => 18 | DIVIDE => 19
  | MODULO => 20
  | EQUAL => 21 | NOT_EQUAL => 22 | LESS => 23 | LESS_EQ => 24 | GREATER => 25
  | GREATER_EQ => 26
  | LPAREN => 27 | RPAREN => 28 | LBRACKET => 29 | RBRACKET => 30 | COMMA => 31
  | COLON => 32 | DOT => 33

/-- The struct `Token`; its field `Type` is `Typ` here. -/
structure Token where
  Typ : TokenType
  Value : GoString
  Line : Nat
  Column : Nat
  deriving Repr, DecidableEq

/-- The verb `%v` of package fmt on a `Token`: `{Type Value Line Column}`. -/
def Token.fmtV (t : Token) : GoString :=
  str "\x7b" ++ fmtD t.Typ.code ++ str " " ++ t.Value ++ str " " ++ fmtD t.Line
    ++ str " " ++ fmtD t.Column ++ str "\x7d"

/-! ## Lexer (`parser/lexer.go`) -/

/-- The struct `Lexer`. -/
structure Lexer where
  input : GoString
  position : Nat
  line : Nat
  column : Nat
  tokens : List Token
  deriving Repr, DecidableEq

/-- `NewLexer`. -/
def NewLexer (input : GoString) : Lexer :=
  { input := input, position := 0, line := 1, column := 1, tokens := [] }

/-- `isDigit`. -/
def isDigit (ch : Nat) : Bool := 48 ≤ ch && ch ≤ 57

/-- `isAlpha`. -/
def isAlpha (ch : Nat) : Bool :=
  (97 ≤ ch && ch ≤ 122) || (65 ≤ ch && ch ≤ 90) || ch == 95

/-- `isAlnum`. -/
def isAlnum (ch : Nat) : Bool := isAlpha ch || isDigit ch

/-- `identifierType`: lookup in the keyword map. -/
def identifierType (value : GoString) : TokenType :=
  if value = str "print" then PRINT
  else if value = str "if" then IF
  else if value = str "else" then ELSE
  else if value = str "def" then DEF
  else if value = str "for" then FOR
  else if value = str "in" then IN
  else if value = str "while" then WHILE
  else if value = str "return" then RETURN
  else if value = str "range" then IDENTIFIER
  else IDENTIFIER

namespace Lexer

/-- `currentChar`. -/
def currentChar (l : Lexer) : Nat :=
  if l.position ≥ l.input.length then 0 else l.input.getD l.position 0

/-- `peekChar`. -/
def peekChar (l : Lexer) : Nat :=
  if l.position + 1 ≥ l.input.length then 0 else l.input.getD (l.position + 1) 0

/-- `advance`. -/
def advance (l : Lexer) : Lexer :=
  { l with position := l.position + 1, column := l.column + 1 }

/-- `addToken`. -/
def addToken (l : Lexer) (tokenType : TokenType) (value : GoString) : Lexer :=
  { l with tokens := l.tokens ++
      [{ Typ := tokenType, Value := value, Line := l.line, Column := l.column }] }

/-- The slice `l.input[start:l.position]` (always `start ≤ l.position ≤ len`). -/
def slice (l : Lexer) (start : Nat) : GoString :=
  (l.input.drop start).take (l.position - start)

/-- The loop `for l.position < len(l.input) && cond(l.currentChar()) { l.advance() }`,
run for at most `n` iterations. -/
def advanceWhileLoop (cond : Nat → Bool) : Nat → Lexer → Lexer
  | 0, l => l
  | n + 1, l =>
    if l.position < l.input.length && cond l.currentChar then
      advanceWhileLoop cond n l.advance
    else l

/-- The same loop with the number of bytes left as its bound: every iteration
advances by one byte, so the bound is never what stops it. -/
def advanceWhile (cond : Nat → Bool) (l : Lexer) : Lexer :=
  advanceWhileLoop cond (l.input.length - l.position) l

/-- `skipWhitespace`. -/
def skipWhitespace (l : Lexer) : Lexer :=
  advanceWhile (fun ch => ch == 32 || ch == 9) l

/-- `skipComment`. -/
def skipComment (l : Lexer) : Lexer :=
  advanceWhile (fun ch => ch != 10) l

/-- The loop of `scanString`, run for at most `n` iterations. -/
def scanStringLoop (quote : Nat) : Nat → Lexer → Lexer
  | 0, l => l
  | n + 1, l =>
    if l.position < l.input.length && l.currentChar != quote then
      let l1 := if l.currentChar == 10 then { l with line := l.line + 1, column := 1 } else l
      scanStringLoop quote n l1.advance
    else l

/-- `scanString`. -/
def scanString (l : Lexer) : Result Lexer :=
  let quote := l.currentChar
  let l := l.advance
  let start := l.position
  let l := scanStringLoop quote (l.input.length - l.position) l
  if l.position ≥ l.input.length then
    .error (str "unterminated string at line " ++ fmtD l.line)
  else
    let value := l.slice start
    let l := l.advance
    .ok (l.addToken STRING value)

/-- `scanNumber`. -/
def scanNumber (l : Lexer) : Result Lexer :=
  let start := l.position
  let l := advanceWhile (fun ch => isDigit ch || ch == 46) l
  let value := l.slice start
  .ok (l.addToken NUMBER value)

/-- `scanIdentifier`. -/
def scanIdentifier (l : Lexer) : Result Lexer :=
  let start := l.position
  let l := advanceWhile (fun ch => isAlnum ch || ch == 95) l
  let value := l.slice start
  let tokenType := identifierType value
  .ok (l.addToken tokenType value)

/-- The message of the two `unexpected character` errors of `scanToken`. -/
def unexpectedCharacter (l : Lexer) (ch : Nat) : GoString :=
  str "unexpected character '" ++ fmtC ch ++ str "' at line " ++ fmtD l.line
    ++ str ", column " ++ fmtD l.column

/-- `scanToken`; the cases of its `switch` in order. -/
def scanToken (l : Lexer) : Result Lexer :=
  let ch := l.currentChar
  if ch == 10 || ch == 13 then
    let l1 := if ch == 13 && l.peekChar == 10 then l.advance.advance else l.advance
    let l2 := l1.addToken NEWLINE (str "\n")
    .ok { l2 with line := l2.line + 1, column := 1 }
  else if ch == 32 || ch == 9 then .ok l.skipWhitespace
  else if ch == 35 then .ok l.skipComment
  else if ch == 34 || ch == 39 then l.scanString
  else if isDigit ch then l.scanNumber
  else if isAlpha ch then l.scanIdentifier
  else if ch == 61 then
    if l.peekChar == 61 then .ok ((l.addToken EQUAL (str "==")).advance.advance)
    else .ok ((l.addToken ASSIGN (str "=")).advance)
  else if ch == 33 then
    if l.peekChar == 61 then .ok ((l.addToken NOT_EQUAL (str "!=")).advance.advance)
    else .error (unexpectedCharacter l 33)
  else if ch == 60 then
    if l.peekChar == 61 then .ok ((l.addToken LESS_EQ (str "<=")).advance.advance)
    else .ok ((l.addToken LESS (str "<")).advance)
  else if ch == 62 then
    if l.peekChar == 61 then .ok ((l.addToken GREATER_EQ (str ">=")).advance.advance)
    else .ok ((l.addToken GREATER (str ">")).advance)
  else if ch == 43 then .ok ((l.addToken PLUS (str "+")).advance)
  else if ch == 45 then .ok ((l.addToken MINUS (str "-")).advance)
  else if ch == 42 then .ok ((l.addToken MULTIPLY (str "*")).advance)
  else if ch == 47 then .ok ((l.addToken DIVIDE (str "/")).advance)
  else if ch == 37 then .ok ((l.addToken MODULO (str "%")).advance)
  else if ch == 40 then .ok ((l.addToken LPAREN (str "(")).advance)
  else if ch == 41 then .ok ((l.addToken RPAREN (str ")")).advance)
  else if ch == 91 then .ok ((l.addToken LBRACKET (str "[")).advance)
  else if ch == 93 then .ok ((l.addToken RBRACKET (str "]")).advance)
  else if ch == 44 then .ok ((l.addToken COMMA (str ",")).advance)
  else if ch == 58 then .ok ((l.addToken COLON (str ":")).advance)
  else if ch == 46 then .ok ((l.addToken DOT (str ".")).advance)
  else .error (unexpectedCharacter l ch)

/-- The loop of `Tokenize`, run for at most `fuel` iterations. -/
def tokenizeLoop : Nat → Lexer → Result Lexer
  | 0, l => if l.position < l.input.length then .outOfFuel else .ok l
  | fuel + 1, l =>
    if l.position < l.input.length then
      match l.scanToken with
      | .ok l1 => tokenizeLoop fuel l1
      | .error e => .error e
      | .fault => .fault
      | .outOfFuel => .outOfFuel
    else .ok l

/-- `Tokenize`; the loop gets one iteration per input byte. -/
def Tokenize (l : Lexer) : Result (List Token) :=
  match tokenizeLoop l.input.length l with
  | .ok l1 => .ok (l1.addToken EOF (str "")).tokens
  | .error e => .error e
  | .fault => .fault
  | .outOfFuel => .outOfFuel

end Lexer

/-! ## Syntax trees (`parser/ast.go`) -/

/-- The implementations of the interface `Expression`. -/
inductive Expression where
  | Identifier (Value : GoString)
  | StringLiteral (Value : GoString)
  | NumberLiteral (Value : GoString)
  | BinaryExpression (Left : Expression) (Operator : GoString) (Right : Expression)
  | RangeExpression (End : Expression)
  deriving Repr, DecidableEq

/-- The implementations of the interface `Statement`. -/
inductive Statement where
  | PrintStatement (Arguments : List Expression)
  | AssignmentStatement (Name : GoString) (Value : Expression)
  | IfStatement (Condition : Expression) (Body : List Statement) (Else : List Statement)
  | ForStatement (Variable : GoString) (Iterable : Expression) (Body : List Statement)
  | ExpressionStatement (Expression : Expression)
  deriving Repr

/-- The struct `Program`. -/
structure Program where
  Statements : List Statement
  deriving Repr

/-! ## Parser (`parser/parser.go`) -/

/-- The struct `Parser` (its field `indentLevel` is never read or written). -/
structure Parser where
  tokens : List Token
  current : Nat
  deriving Repr, DecidableEq

/-- Result of a parser method: the returned value and the parser afterwards. -/
abbrev Res (α : Type) := Result (α × Parser)

namespace Parser

/-- `peek`: `p.tokens[p.current]`, a run-time panic when out of range. -/
def peek (p : Parser) : Result Token :=
  match p.tokens[p.current]? with
  | some t => .ok t
  | none => .fault

/-- `previous`: `p.tokens[p.current-1]`, a run-time panic when out of range. -/
def previous (p : Parser) : Result Token :=
  if p.current = 0 then .fault
  else match p.tokens[p.current - 1]? with
    | some t => .ok t
    | none => .fault

/-- `isAtEnd`. -/
def isAtEnd (p : Parser) : Result Bool :=
  (p.peek).bind fun t => .ok (t.Typ == EOF)

/-- `check`. -/
def check (p : Parser) (tokenType : TokenType) : Result Bool :=
  (p.isAtEnd).bind fun atEnd =>
    if atEnd then .ok false
    else (p.peek).bind fun t => .ok (t.Typ == tokenType)

/-- `checkNext`. -/
def checkNext (p : Parser) (tokenType : TokenType) : Result Bool :=
  if p.current + 1 ≥ p.tokens.length then .ok false
  else match p.tokens[p.current + 1]? with
    | some t => .ok (t.Typ == tokenType)
    | none => .fault

/-- `advance`. -/
def advance (p : Parser) : Res Token :=
  (p.isAtEnd).bind fun atEnd =>
    let p1 : Parser := if !atEnd then { p with current := p.current + 1 } else p
    (p1.previous).bind fun t => .ok (t, p1)

/-- `match` (a keyword of Lean, hence the name): the first of `types` that the
current token has is consumed. -/
def matchTypes (p : Parser) : List TokenType → Res Bool
  | [] => .ok (false, p)
  | tokenType :: types =>
    (p.check tokenType).bind fun c =>
      if c then (p.advance).bind fun r => .ok (true, r.2)
      else matchTypes p types

/-- `consume`: the returned `error` is the first component (`none` for `nil`). -/
def consume (p : Parser) (tokenType : TokenType) (message : GoString) :
    Res (Option GoString) :=
  (p.check tokenType).bind fun c =>
    if c then (p.advance).bind fun r => .ok (none, r.2)
    else (p.peek).bind fun t => .ok (some (message ++ str ", got " ++ t.fmtV), p)

/-- The loop `for p.check(NEWLINE) { p.advance() }`, at most `n` iterations. -/
def skipNewlinesLoop : Nat → Parser → Result Parser
  | 0, _ => .outOfFuel
  | n + 1, p =>
    (p.check NEWLINE).bind fun c =>
      if c then (p.advance).bind fun r => skipNewlinesLoop n r.2
      else .ok p

/-- The loop `for p.check(NEWLINE) { p.advance() }`; every iteration consumes a
token, so one more iteration than there are tokens is allowed. -/
def skipNewlines (p : Parser) : Result Parser :=
  skipNewlinesLoop (p.tokens.length + 1) p

/-- The loop shared by `parseComparison`, `parseAddition` and
`parseMultiplication`: `for p.match(types...) { operator := p.previous().Value;
right, err := operand(); ...; expr = &BinaryExpression{expr, operator, right} }`,
at most `n` iterations. -/
def binaryLoop (types : List TokenType) (operand : Parser → Res Expression) :
    Nat → Expression → Parser → Res Expression
  | 0, _, _ => .outOfFuel
  | n + 1, expr, p =>
    (p.matchTypes types).bind fun m =>
      if m.1 then
        (m.2.previous).bind fun operator =>
          (operand m.2).bind fun right =>
            binaryLoop types operand n
              (.BinaryExpression expr operator.Value right.1) right.2
      else .ok (expr, m.2)

/-- The body shared by `parseComparison`, `parseAddition` and
`parseMultiplication`: one operand, then the loop (every iteration consumes a
token, so one more iteration than there are tokens is allowed). -/
def binaryLevel (types : List TokenType) (operand : Parser → Res Expression)
    (p : Parser) : Res Expression :=
  (operand p).bind fun first =>
    binaryLoop types operand (first.2.tokens.length + 1) first.1 first.2

/-- `parsePrimary`; `expression` is its recursive call of `parseExpression`. -/
def parsePrimary (expression : Parser → Res Expression) (p : Parser) : Res Expression :=
  (p.matchTypes [NUMBER]).bind fun m1 =>
    if m1.1 then (m1.2.previous).bind fun t => .ok (.NumberLiteral t.Value, m1.2)
    else (m1.2.matchTypes [STRING]).bind fun m2 =>
      if m2.1 then (m2.2.previous).bind fun t => .ok (.StringLiteral t.Value, m2.2)
      else (m2.2.matchTypes [IDENTIFIER]).bind fun m3 =>
        if m3.1 then
          (m3.2.previous).bind fun t =>
            let name := t.Value
            (m3.2.check LPAREN).bind fun c =>
              if c && name == str "range" then
                (m3.2.advance).bind fun a =>
                  (expression a.2).bind fun e =>
                    (e.2.consume RPAREN (str "Expected ')' after range argument")).bind
                      fun r => .ok (.RangeExpression e.1, r.2)
              else .ok (.Identifier name, m3.2)
        else (m3.2.matchTypes [LPAREN]).bind fun m4 =>
          if m4.1 then
            (expression m4.2).bind fun e =>
              (e.2.consume RPAREN (str "Expected ')' after expression")).bind
                fun r => .ok (e.1, r.2)
          else (m4.2.peek).bind fun t => .error (str "unexpected token: " ++ t.fmtV)

/-- `parseMultiplication`. -/
def parseMultiplication (expression : Parser → Res Expression) : Parser → Res Expression :=
  binaryLevel [DIVIDE, MULTIPLY, MODULO] (parsePrimary expression)

/-- `parseAddition`. -/
def parseAddition (expression : Parser → Res Expression) : Parser → Res Expression :=
  binaryLevel [MINUS, PLUS] (parseMultiplication expression)

/-- `parseComparison`. -/
def parseComparison (expression : Parser → Res Expression) : Parser → Res Expression :=
  binaryLevel [GREATER, GREATER_EQ, LESS, LESS_EQ, EQUAL, NOT_EQUAL]
    (parseAddition expression)

/-- `parseExpression` with a bound on the depth of its recursion through
`parsePrimary` (the nesting of parentheses). -/
def parseExpressionDepth : Nat → Parser → Res Expression
  | 0, _ => .outOfFuel
  | depth + 1, p => parseComparison (parseExpressionDepth depth) p

/-- `parseExpression`; each level of nesting consumes a `(`, so the depth is
below the number of tokens. -/
def parseExpression (p : Parser) : Res Expression :=
  parseExpressionDepth (p.tokens.length + 1) p

/-- The loop `for p.match(COMMA) { ... }` of `parsePrintStatement`, at most `n`
iterations. -/
def printArgsLoop : Nat → List Expression → Parser → Res (List Expression)
  | 0, _, _ => .outOfFuel
  | n + 1, args, p =>
    (p.matchTypes [COMMA]).bind fun m =>
      if m.1 then
        (m.2.parseExpression).bind fun e => printArgsLoop n (args ++ [e.1]) e.2
      else .ok (args, m.2)

/-- `parsePrintStatement`. -/
def parsePrintStatement (p : Parser) : Res Statement :=
  (p.consume PRINT (str "Expected 'print'")).bind fun c =>
    let p := c.2
    (p.check NEWLINE).bind fun isNewline =>
      (if isNewline then (.ok false) else (p.isAtEnd).bind fun e => .ok (!e)).bind
        fun hasArgs =>
          if hasArgs then
            (p.parseExpression).bind fun e =>
              (printArgsLoop (e.2.tokens.length + 1) [e.1] e.2).bind fun r =>
                .ok (.PrintStatement r.1, r.2)
          else .ok (.PrintStatement [], p)

/-- `parseAssignmentStatement`. -/
def parseAssignmentStatement (p : Parser) : Res Statement :=
  (p.check IDENTIFIER).bind fun c =>
    if !c then .error (str "expected identifier")
    else (p.peek).bind fun t =>
      let name := t.Value
      (p.advance).bind fun a =>
        (a.2.consume ASSIGN (str "Expected '='")).bind fun c =>
          (c.2.parseExpression).bind fun value =>
            .ok (.AssignmentStatement name value.1, value.2)

/-- The second loop of `parseIndentedBlock`, at most `n` iterations;
`statement` is its call of `parseStatement`. -/
def indentedBlockLoop (statement : Parser → Res Statement) :
    Nat → List Statement → Parser → Res (List Statement)
  | 0, _, _ => .outOfFuel
  | n + 1, statements, p =>
    (p.isAtEnd).bind fun atEnd =>
      if atEnd then .ok (statements, p)
      else (p.check NEWLINE).bind fun isNewline =>
        if isNewline then (p.advance).bind fun a => indentedBlockLoop statement n statements a.2
        else (p.check IF).bind fun isIf =>
          (if isIf then (.ok true) else (p.check FOR).bind fun isFor =>
            if isFor then .ok true else p.check ELSE).bind fun stop =>
              if stop then .ok (statements, p)
              else (statement p).bind fun stmt =>
                (stmt.2.skipNewlines).bind fun p1 =>
                  .ok (statements ++ [stmt.1], p1)

/-- `parseIndentedBlock`; `statement` is its call of `parseStatement`. -/
def parseIndentedBlock (statement : Parser → Res Statement) (p : Parser) :
    Res (List Statement) :=
  (p.skipNewlines).bind fun p1 =>
    indentedBlockLoop statement (p1.tokens.length + 1) [] p1

/-- `parseIfStatement`; `statement` is the call of `parseStatement` in
`parseIndentedBlock`. -/
def parseIfStatement (statement : Parser → Res Statement) (p : Parser) : Res Statement :=
  (p.consume IF (str "Expected 'if'")).bind fun c =>
    (c.2.parseExpression).bind fun condition =>
      (condition.2.consume COLON (str "Expected ':' after if condition")).bind fun c =>
        (c.2.check NEWLINE).bind fun isNewline =>
          (if isNewline then (c.2.advance).bind fun a => .ok a.2 else .ok c.2).bind fun p1 =>
            (parseIndentedBlock statement p1).bind fun body =>
              (body.2.check ELSE).bind fun isElse =>
                if isElse then
                  (body.2.advance).bind fun a =>
                    (a.2.consume COLON (str "Expected ':' after else")).bind fun c =>
                      (c.2.check NEWLINE).bind fun isNewline =>
                        (if isNewline then (c.2.advance).bind fun a => .ok a.2
                          else .ok c.2).bind fun p2 =>
                          (parseIndentedBlock statement p2).bind fun elseBody =>
                            .ok (.IfStatement condition.1 body.1 elseBody.1, elseBody.2)
                else .ok (.IfStatement condition.1 body.1 [], body.2)

/-- `parseForStatement`; `statement` is the call of `parseStatement` in
`parseIndentedBlock`. -/
def parseForStatement (statement : Parser → Res Statement) (p : Parser) : Res Statement :=
  (p.consume FOR (str "Expected 'for'")).bind fun c =>
    (c.2.check IDENTIFIER).bind fun isIdent =>
      if !isIdent then .error (str "expected variable name after 'for'")
      else (c.2.peek).bind fun t =>
        let var := t.Value
        (c.2.advance).bind fun a =>
          (a.2.consume IN (str "Expected 'in' after for variable")).bind fun c =>
            (c.2.parseExpression).bind fun iterable =>
              (iterable.2.consume COLON (str "Expected ':' after for expression")).bind
                fun c =>
                (c.2.check NEWLINE).bind fun isNewline =>
                  (if isNewline then (c.2.advance).bind fun a => .ok a.2
                    else .ok c.2).bind fun p1 =>
                    (parseIndentedBlock statement p1).bind fun body =>
                      .ok (.ForStatement var iterable.1 body.1, body.2)

/-- `parseStatement` with a bound on the depth of its recursion through
`parseIndentedBlock`. -/
def parseStatementDepth : Nat → Parser → Res Statement
  | 0, _ => .outOfFuel
  | depth + 1, p =>
    (p.check PRINT).bind fun isPrint =>
      if isPrint then p.parsePrintStatement
      else (p.check IF).bind fun isIf =>
        if isIf then parseIfStatement (parseStatementDepth depth) p
        else (p.check FOR).bind fun isFor =>
          if isFor then parseForStatement (parseStatementDepth depth) p
          else (p.check IDENTIFIER).bind fun isIdent =>
            (if isIdent then p.checkNext ASSIGN else .ok false).bind fun isAssign =>
              if isAssign then p.parseAssignmentStatement
              else (p.parseExpression).bind fun expr =>
                .ok (.ExpressionStatement expr.1, expr.2)

/-- `parseStatement`; a block never starts with `if` or `for`, so the depth of
the recursion is at most two. -/
def parseStatement (p : Parser) : Res Statement :=
  parseStatementDepth (p.tokens.length + 1) p

/-- The loop of `parseProgram`, at most `n` iterations. -/
def parseProgramLoop : Nat → List Statement → Parser → Result Program
  | 0, _, _ => .outOfFuel
  | n + 1, statements, p =>
    (p.isAtEnd).bind fun atEnd =>
      if atEnd then .ok { Statements := statements }
      else (p.check NEWLINE).bind fun isNewline =>
        if isNewline then (p.advance).bind fun a => parseProgramLoop n statements a.2
        else (p.parseStatement).bind fun stmt =>
          (stmt.2.skipNewlines).bind fun p1 =>
            parseProgramLoop n (statements ++ [stmt.1]) p1

/-- `parseProgram`; every iteration but the last consumes a token. -/
def parseProgram (p : Parser) : Result Program :=
  parseProgramLoop (p.tokens.length + 1) [] p

end Parser

/-- `Parse`. -/
def Parse (source : GoString) : Result Program :=
  match (NewLexer source).Tokenize with
  | .ok tokens => Parser.parseProgram { tokens := tokens, current := 0 }
  | .error e => .error e
  | .fault => .fault
  | .outOfFuel => .outOfFuel

/-! ## Code generator (`transpiler/generator.go`) -/

/-- The struct `GoGenerator`. -/
structure GoGenerator where
  indent : Nat
  deriving Repr, DecidableEq

/-- `strings.Join`. -/
def stringsJoin (elems : List GoString) (sep : GoString) : GoString :=
  sep.intercalate elems

/-- The verb `%T` of package fmt on an `Expression`. -/
def Expression.fmtT : Expression → GoString
  | .Identifier _ => str "*parser.Identifier"
  | .StringLiteral _ => str "*parser.StringLiteral"
  | .NumberLiteral _ => str "*parser.NumberLiteral"
  | .BinaryExpression _ _ _ => str "*parser.BinaryExpression"
  | .RangeExpression _ => str "*parser.RangeExpression"

namespace GoGenerator

/-- `indentString`. -/
def indentString (g : GoGenerator) : GoString := List.replicate g.indent 9

/-- `isStringExpression`. -/
def isStringExpression : Expression → Bool
  | .StringLiteral _ => true
  | _ => false

/-- `generateBinaryExpression`, after its first two statements: `left` and
`right` are the texts `g.generateExpression(expr.Left)` and
`g.generateExpression(expr.Right)`. -/
def generateBinaryExpression (Left : Expression) (Operator : GoString) (Right : Expression)
    (left right : GoString) : GoString :=
  if Operator = str "+" && (isStringExpression Left || isStringExpression Right) then
    str "fmt.Sprintf(\"%v%v\", " ++ left ++ str ", " ++ right ++ str ")"
  else
    str "(" ++ left ++ str " " ++ Operator ++ str " " ++ right ++ str ")"

/-- `generateExpression` (it does not use its receiver). -/
def generateExpression : Expression → GoString
  | .Identifier Value => Value
  | .StringLiteral Value => str "\"" ++ Value ++ str "\""
  | .NumberLiteral Value => Value
  | .BinaryExpression Left Operator Right =>
    generateBinaryExpression Left Operator Right
      (generateExpression Left) (generateExpression Right)
  | .RangeExpression End => generateExpression End

/-- `generatePrintStatement`. -/
def generatePrintStatement (Arguments : List Expression) : GoString :=
  if Arguments.length = 0 then str "fmt.Println()"
  else
    let args := Arguments.map generateExpression
    if args.length = 1 then str "fmt.Println(" ++ args.headD [] ++ str ")"
    else str "fmt.Println(" ++ stringsJoin args (str ", ") ++ str ")"

/-- `generateAssignmentStatement`. -/
def generateAssignmentStatement (Name : GoString) (Value : Expression) : GoString :=
  Name ++ str " := " ++ generateExpression Value

mutual

/-- `generateStatement`, with `generateIfStatement` and `generateForStatement`
as its two middle cases; it returns the text and the generator afterwards. -/
def generateStatement : GoGenerator → Statement → GoString × GoGenerator
  | g, .PrintStatement Arguments => (generatePrintStatement Arguments, g)
  | g, .AssignmentStatement Name Value => (generateAssignmentStatement Name Value, g)
  | g, .IfStatement Condition Body Else =>
    let condition := generateExpression Condition
    let output := str "if " ++ condition ++ str " \x7b\n"
    let body := generateStatements { g with indent := g.indent + 1 } Body
    let output := output ++ body.1
    let g : GoGenerator := { body.2 with indent := body.2.indent - 1 }
    if Else.length > 0 then
      let output := output ++ g.indentString ++ str "\x7d else \x7b\n"
      let els := generateStatements { g with indent := g.indent + 1 } Else
      let output := output ++ els.1
      let g : GoGenerator := { els.2 with indent := els.2.indent - 1 }
      (output ++ g.indentString ++ str "\x7d", g)
    else (output ++ g.indentString ++ str "\x7d", g)
  | g, .ForStatement Variable Iterable Body =>
    match Iterable with
    | .RangeExpression End =>
      let endText := generateExpression End
      let output := str "for " ++ Variable ++ str " := 0; " ++ Variable ++ str " < " ++ endText
        ++ str "; " ++ Variable ++ str "++ \x7b\n"
      let body := generateStatements { g with indent := g.indent + 1 } Body
      let output := output ++ body.1
      let g : GoGenerator := { body.2 with indent := body.2.indent - 1 }
      (output ++ g.indentString ++ str "\x7d", g)
    | other => (str "// TODO: Implement iteration over " ++ other.fmtT ++ str "\n", g)
  | g, .ExpressionStatement Expression => (generateExpression Expression, g)

/-- The loop `for _, stmt := range stmts { code := g.generateStatement(stmt);
if code != "" { output.WriteString(g.indentString() + code + "\n") } }` of
`generateProgram`, `generateIfStatement` and `generateForStatement`: the text
written and the generator afterwards. -/
def generateStatements : GoGenerator → List Statement → GoString × GoGenerator
  | g, [] => ([], g)
  | g, stmt :: stmts =>
    let code := generateStatement g stmt
    let line := if code.1 ≠ [] then code.2.indentString ++ code.1 ++ str "\n" else []
    let rest := generateStatements code.2 stmts
    (line ++ rest.1, rest.2)

end

/-- `generateProgram`. -/
def generateProgram (g : GoGenerator) (program : Program) : GoString :=
  let output := str "package main\n\n" ++ str "import (\n" ++ str "\t\"fmt\"\n" ++ str ")\n\n"
  let output := output ++ str "func main() \x7b\n"
  let body := generateStatements { g with indent := g.indent + 1 } program.Statements
  output ++ body.1 ++ str "\x7d\n"

end GoGenerator

/-- `GenerateGoCode`. -/
def GenerateGoCode (program : Program) : GoString :=
  GoGenerator.generateProgram { indent := 0 } program

/-! ## Vocabulary of the statements

Source texts are described as sequences of segments, each the text of one
call of `scanToken`; token sequences are compared by kind and text. -/

/-- A lexer that has read `pre` and has `rest` left to read. -/
def lexAt (pre rest : GoString) (line column : Nat) (tokens : List Token) : Lexer :=
  { input := pre ++ rest, position := pre.length, line := line, column := column,
    tokens := tokens }

/-- Kind and text of a token, its position left out. -/
def Token.key (t : Token) : TokenType × GoString := (t.Typ, t.Value)

/-- The bytes an identifier continues with. -/
def isIdentChar (ch : Nat) : Bool := isAlnum ch || ch == 95

/-- The bytes a number continues with. -/
def isNumberChar (ch : Nat) : Bool := isDigit ch || ch == 46

/-- Space or tab. -/
def isBlankChar (ch : Nat) : Bool := ch == 32 || ch == 9

/-- A letter or underscore followed by letters, digits and underscores. -/
def isWord : GoString → Bool
  | [] => false
  | c :: rest => isAlpha c && rest.all isIdentChar

/-- A word that is not a keyword: the text of an `IDENTIFIER` token. -/
def isIdentifierText (w : GoString) : Bool :=
  isWord w && decide (identifierType w = IDENTIFIER)

/-- A digit followed by digits and dots: the text of a `NUMBER` token. -/
def isNumberText : GoString → Bool
  | [] => false
  | c :: rest => isDigit c && rest.all isNumberChar

/-- A digit followed by digits. -/
def isDigits : GoString → Bool
  | [] => false
  | c :: rest => isDigit c && rest.all isDigit

/-- A non-empty run of spaces and tabs. -/
def isBlank : GoString → Bool
  | [] => false
  | c :: rest => isBlankChar c && rest.all isBlankChar

/-- The text of the operator and punctuation tokens (empty for the others). -/
def symbolText : TokenType → GoString
  | ASSIGN => str "=" | PLUS => str "+" | MINUS => str "-" | MULTIPLY => str "*"
  | DIVIDE => str "/" | MODULO => str "%"
  | EQUAL => str "==" | NOT_EQUAL => str "!=" | LESS => str "<" | LESS_EQ => str "<="
  | GREATER => str ">" | GREATER_EQ => str ">="
  | LPAREN => str "(" | RPAREN => str ")" | LBRACKET => str "[" | RBRACKET => str "]"
  | COMMA => str "," | COLON => str ":" | DOT => str "."
  | _ => []

/-- One segment of a source text. -/
inductive Seg where
  | word (w : GoString)
  | number (w : GoString)
  | blank (w : GoString)
  | symbol (t : TokenType)
  | newline
  | cr
  | crlf
  | comment (w : GoString)
  | string (quote : Nat) (v : GoString)
  deriving Repr, DecidableEq

/-- The text of a segment. -/
def Seg.text : Seg → GoString
  | .word w => w
  | .number w => w
  | .blank w => w
  | .symbol t => symbolText t
  | .newline => str "\n"
  | .cr => str "\r"
  | .crlf => str "\r\n"
  | .comment w => 35 :: w
  | .string quote v => quote :: v ++ [quote]

/-- The tokens of a segment, by kind and text. -/
def Seg.keys : Seg → List (TokenType × GoString)
  | .word w => [(identifierType w, w)]
  | .number w => [(NUMBER, w)]
  | .blank _ => []
  | .symbol t => [(t, symbolText t)]
  | .newline => [(NEWLINE, str "\n")]
  | .cr => [(NEWLINE, str "\n")]
  | .crlf => [(NEWLINE, str "\n")]
  | .comment _ => []
  | .string _ v => [(STRING, v)]

/-- The number of lines a segment advances the line counter by. -/
def Seg.lines : Seg → Nat
  | .newline => 1
  | .cr => 1
  | .crlf => 1
  | .string _ v => v.count 10
  | _ => 0

/-- The tokens of a segment read when the line counter is `line`, by kind, text
and line. -/
def Seg.keysAt (line : Nat) : Seg → List (TokenType × GoString × Nat)
  | .word w => [(identifierType w, w, line)]
  | .number w => [(NUMBER, w, line)]
  | .blank _ => []
  | .symbol t => [(t, symbolText t, line)]
  | .newline => [(NEWLINE, str "\n", line)]
  | .cr => [(NEWLINE, str "\n", line)]
  | .crlf => [(NEWLINE, str "\n", line)]
  | .comment _ => []
  | .string _ v => [(STRING, v, line + v.count 10)]

/-- Well-formed segment. -/
def Seg.wf : Seg → Bool
  | .word w => isWord w
  | .number w => isNumberText w
  | .blank w => isBlank w
  | .symbol t => decide (symbolText t ≠ [])
  | .newline => true
  | .cr => true
  | .crlf => true
  | .comment w => !w.contains 10
  | .string quote v => (quote == 34 || quote == 39) && !v.contains quote

/-- Whether a segment can be followed by the byte `next` (`none` at the end of
the input) without `scanToken` reading further than the segment. -/
def Seg.endsBefore (s : Seg) (next : Option Nat) : Bool :=
  match next with
  | none => true
  | some c =>
    match s with
    | .word _ => !isIdentChar c
    | .number _ => !isNumberChar c
    | .blank _ => !isBlankChar c
    | .symbol t => !((t = ASSIGN || t = LESS || t = GREATER) && c == 61)
    | .newline => true
    | .cr => c != 10
    | .crlf => true
    | .comment _ => c == 10
    | .string _ _ => true

/-- Kind, text and line of a token, its column left out. -/
def Token.keyLine (t : Token) : TokenType × GoString × Nat := (t.Typ, t.Value, t.Line)

/-- The text of a sequence of segments. -/
def segsText : List Seg → GoString
  | [] => []
  | s :: ss => s.text ++ segsText ss

/-- The tokens of a sequence of segments, by kind and text. -/
def segsKeys : List Seg → List (TokenType × GoString)
  | [] => []
  | s :: ss => s.keys ++ segsKeys ss

/-- Every segment is well formed and ends where the next one starts. -/
def segsWf : List Seg → Bool
  | [] => true
  | s :: ss => s.wf && s.endsBefore (segsText ss).head? && segsWf ss

/-- The segments followed by the text `rest`: every segment is well formed and
ends where the next one, or `rest`, starts. -/
def segsWfIn : List Seg → GoString → Bool
  | [], _ => true
  | s :: ss, rest => s.wf && s.endsBefore (segsText ss ++ rest).head? && segsWfIn ss rest

/-- The number of lines a sequence of segments advances the line counter by. -/
def segsLines : List Seg → Nat
  | [] => 0
  | s :: ss => s.lines + segsLines ss

/-- The tokens of a sequence of segments read from line `line` on, by kind,
text and line. -/
def segsKeysAt : Nat → List Seg → List (TokenType × GoString × Nat)
  | _, [] => []
  | line, s :: ss => s.keysAt line ++ segsKeysAt (line + s.lines) ss

/-- A parser that has consumed `pre` and has `rest` before it. -/
def parserAt (pre rest : List Token) : Parser :=
  { tokens := pre ++ rest, current := pre.length }

/-- The tree of a token that is an expression by itself. -/
def Token.leaf (t : Token) : Expression :=
  match t.Typ with
  | NUMBER => .NumberLiteral t.Value
  | STRING => .StringLiteral t.Value
  | _ => .Identifier t.Value

/-- A number, string or identifier token. -/
def Token.isPrimary (t : Token) : Bool :=
  t.Typ == NUMBER || t.Typ == STRING || t.Typ == IDENTIFIER

/-- `operand` reads exactly `toks` and returns `tree` whenever the token after
`toks` has a kind in `stop`. -/
def ParsesAs {α : Type} (operand : Parser → Res α) (stop : TokenType → Bool)
    (toks : List Token) (tree : α) : Prop :=
  ∀ (pre : List Token) (u : Token) (rest : List Token), stop u.Typ = true →
    operand (parserAt pre (toks ++ u :: rest)) = .ok (tree, parserAt (pre ++ toks) (u :: rest))

/-- The tokens of a chain `o1 x1 ... on xn`: each operator token followed by
the tokens of its right operand. -/
def chainTokens : List (Token × List Token × Expression) → List Token
  | [] => []
  | (o, toks, _) :: chain => o :: toks ++ chainTokens chain

/-- The left fold of a chain onto `first`. -/
def chainTree (first : Expression) : List (Token × List Token × Expression) → Expression
  | [] => first
  | (o, _, tree) :: chain => chainTree (.BinaryExpression first o.Value tree) chain

/-- What may follow a primary for `parsePrimary` to stop after it. -/
def stopPrimary (ty : TokenType) : Bool := ty != LPAREN

/-- What may follow an operand of `parseMultiplication` for it to stop there. -/
def stopMultiplication (ty : TokenType) : Bool :=
  stopPrimary ty && (ty == EOF || !decide (ty ∈ [DIVIDE, MULTIPLY, MODULO]))

/-- What may follow an operand of `parseAddition` for it to stop there. -/
def stopAddition (ty : TokenType) : Bool :=
  stopMultiplication ty && (ty == EOF || !decide (ty ∈ [MINUS, PLUS]))

/-- What may follow an operand of `parseComparison` for it to stop there. -/
def stopComparison (ty : TokenType) : Bool :=
  stopAddition ty
    && (ty == EOF || !decide (ty ∈ [GREATER, GREATER_EQ, LESS, LESS_EQ, EQUAL, NOT_EQUAL]))

/-- A primary of the claims: a number literal or an identifier. -/
inductive Primary where
  | number (w : GoString)
  | identifier (w : GoString)
  deriving Repr, DecidableEq

/-- The source text of a primary. -/
def Primary.text : Primary → GoString
  | .number w => w
  | .identifier w => w

/-- A number text, or a word that is not a keyword. -/
def Primary.wf : Primary → Bool
  | .number w => isNumberText w
  | .identifier w => isIdentifierText w

/-- The tree of a primary. -/
def Primary.tree : Primary → Expression
  | .number w => .NumberLiteral w
  | .identifier w => .Identifier w

/-- The segment of a primary. -/
def Primary.seg : Primary → Seg
  | .number w => .number w
  | .identifier w => .word w

/-- The token of a primary, by kind and text. -/
def Primary.key : Primary → TokenType × GoString
  | .number w => (NUMBER, w)
  | .identifier w => (IDENTIFIER, w)

/-- Segments other than runs of blanks and comments. -/
def Seg.isToken : Seg → Bool
  | .blank _ => false
  | .comment _ => false
  | _ => true

/-- The segments separated by single spaces. -/
def spaced : List Seg → List Seg
  | [] => []
  | [s] => [s]
  | s :: t :: ss => s :: .blank (str " ") :: spaced (t :: ss)

/-- The text ` o1 p1 ... on pn` of a chain of operators and primaries, single
spaces between the tokens. -/
def opChainText : List (TokenType × Primary) → GoString
  | [] => []
  | (o, p) :: chain => str " " ++ symbolText o ++ str " " ++ p.text ++ opChainText chain

/-- The left fold `Binary(...Binary(first, o1, p1)..., on, pn)`, each operator
being the text of its token. -/
def opChainTree (first : Expression) : List (TokenType × Primary) → Expression
  | [] => first
  | (o, p) :: chain => opChainTree (.BinaryExpression first (symbolText o) p.tree) chain

/-- The segments of a chain of operators and primaries. -/
def opChainSegs : List (TokenType × Primary) → List Seg
  | [] => []
  | (o, p) :: chain => .symbol o :: p.seg :: opChainSegs chain

/-- The tokens of a chain of operators and primaries, by kind and text. -/
def opChainKeys : List (TokenType × Primary) → List (TokenType × GoString)
  | [] => []
  | (o, p) :: chain => (o, symbolText o) :: p.key :: opChainKeys chain


/-! ## Vocabulary of the lexical and generation statements -/

/-- The bytes `scanToken` has no case for. -/
def isUnexpectedChar (c : Nat) : Bool :=
  !(c == 10 || c == 13 || c == 32 || c == 9 || c == 35 || c == 34 || c == 39
    || isDigit c || isAlpha c || c == 61 || c == 33 || c == 60 || c == 62
    || c == 43 || c == 45 || c == 42 || c == 47 || c == 37 || c == 40 || c == 41
    || c == 91 || c == 93 || c == 44 || c == 58 || c == 46)

/-- A text at whose first byte `scanToken` fails: a byte it has no case for, a
`!` without `=` after it, or a quote that is not closed. -/
def lexFails : GoString → Bool
  | [] => false
  | c :: rest =>
    isUnexpectedChar c || (c == 33 && rest.head? != some 61)
      || ((c == 34 || c == 39) && !rest.contains c)

/-- The message `scanToken` fails with at line `line`, column `col`, on a text
for which `lexFails` holds. -/
def lexFailure (line col : Nat) : GoString → GoString
  | [] => []
  | c :: rest =>
    if c == 34 || c == 39 then str "unterminated string at line " ++ fmtD (line + rest.count 10)
    else str "unexpected character '" ++ fmtC c ++ str "' at line " ++ fmtD line
      ++ str ", column " ++ fmtD col

/-- An ASCII letter. -/
def isLetter (c : Nat) : Bool := (65 ≤ c && c ≤ 90) || (97 ≤ c && c ≤ 122)

/-- The bytes the lexical grammar allows outside strings and comments: line
feed, carriage return, space, tab, letters, digits, underscore and the bytes of
the operators and punctuation. -/
def isAllowedByte (c : Nat) : Bool :=
  c == 10 || c == 13 || c == 32 || c == 9 || isLetter c || (48 ≤ c && c ≤ 57) || c == 95
    || decide (c ∈ [61, 33, 60, 62, 43, 45, 42, 47, 37, 40, 41, 91, 93, 44, 58, 46])

/-- Every `!` of the text is immediately followed by `=`. -/
def bangsFollowed : GoString → Bool
  | [] => true
  | c :: rest => (c != 33 || rest.head? == some 61) && bangsFollowed rest

/-- The keyword table of the lexical grammar. -/
def keywordTable : List (GoString × TokenType) :=
  [(str "print", PRINT), (str "if", IF), (str "else", ELSE), (str "def", DEF),
   (str "for", FOR), (str "in", IN), (str "while", WHILE), (str "return", RETURN)]

/-- A run of `k` tabs. -/
def tabs (k : Nat) : GoString := List.replicate k 9

/-- The lines of a block at indentation `k`: for each code that is not empty,
`k` tabs, the code and a line feed. -/
def blockLines (k : Nat) : List GoString → GoString
  | [] => []
  | code :: codes => (if code ≠ [] then tabs k ++ code ++ str "\n" else []) ++ blockLines k codes

/-- The token kinds that end a line: NEWLINE and EOF. -/
def stopLine (ty : TokenType) : Bool := ty == NEWLINE || ty == EOF

/-- The tokens `c1 p1 ... cn pn` of a list of pairs of a comma and a primary. -/
def argTokens : List (Token × Token) → List Token
  | [] => []
  | (c, p) :: args => c :: p :: argTokens args

/-- A simple statement of the claims: `print` with a list of primaries, or the
assignment of a primary to a name. -/
inductive Simple where
  | print (args : List Primary)
  | assign (name : GoString) (value : Primary)
  deriving Repr, DecidableEq

/-- The text `, p1, ..., pn` of further arguments. -/
def argsText : List Primary → GoString
  | [] => []
  | p :: ps => str ", " ++ p.text ++ argsText ps

/-- The source text of a simple statement: `print`, `print e1, ..., ek` or
`name = e`. -/
def Simple.text : Simple → GoString
  | .print [] => str "print"
  | .print (p :: ps) => str "print " ++ p.text ++ argsText ps
  | .assign name value => name ++ str " = " ++ value.text

/-- Every argument is a primary, the name is a word that is not a keyword. -/
def Simple.wf : Simple → Bool
  | .print args => args.all Primary.wf
  | .assign name value => isIdentifierText name && value.wf

/-- The tree of a simple statement. -/
def Simple.tree : Simple → Statement
  | .print args => .PrintStatement (args.map Primary.tree)
  | .assign name value => .AssignmentStatement name value.tree

/-- The segments of further arguments. -/
def argsSegs : List Primary → List Seg
  | [] => []
  | p :: ps => .symbol COMMA :: .blank (str " ") :: p.seg :: argsSegs ps

/-- The segments of a simple statement. -/
def Simple.segs : Simple → List Seg
  | .print [] => [.word (str "print")]
  | .print (p :: ps) => .word (str "print") :: .blank (str " ") :: p.seg :: argsSegs ps
  | .assign name value =>
    [.word name, .blank (str " "), .symbol ASSIGN, .blank (str " "), value.seg]

/-- The text of statements written one per line, each followed by `n + 1` line
feeds. -/
def linesText : List (Simple × Nat) → GoString
  | [] => []
  | (s, n) :: ls => s.text ++ List.replicate (n + 1) 10 ++ linesText ls

/-- The segments of statements written one per line. -/
def linesSegs : List (Simple × Nat) → List Seg
  | [] => []
  | (s, n) :: ls => s.segs ++ List.replicate (n + 1) Seg.newline ++ linesSegs ls

/-- The text of a last statement that has no line feed after it, if there is
one. -/
def lastText : Option Simple → GoString
  | none => []
  | some s => s.text

/-- The segments of a last statement that has no line feed after it. -/
def lastSegs : Option Simple → List Seg
  | none => []
  | some s => s.segs

/-- The segments of `if a q b:`, a line feed and two spaces. -/
def ifHeadSegs (a : Primary) (q : TokenType) (b : Primary) : List Seg :=
  [.word (str "if"), .blank (str " "), a.seg, .blank (str " "), .symbol q, .blank (str " "),
    b.seg, .symbol COLON, .newline, .blank (str "  ")]

/-- The segments of a line feed, `else:`, a line feed and two spaces. -/
def elseHeadSegs : List Seg :=
  [.newline, .word (str "else"), .symbol COLON, .newline, .blank (str "  ")]

/-- The module declaration of the generated text. -/
def packageMain : GoString := str "package main"

/-- The head of the entry-point function of the generated text. -/
def funcMain : GoString := str "func main()"

/-- The number of occurrences of the non-empty text `pat` in a text: the number
of positions at which `pat` starts. -/
def countOcc (pat : GoString) : GoString → Nat
  | [] => 0
  | c :: rest => (if pat.isPrefixOf (c :: rest) then 1 else 0) + countOcc pat rest

/-- A text of letters, digits, underscores and dots: the text of an
`IDENTIFIER` or `NUMBER` token. -/
def isAtomText (v : GoString) : Bool := v.all fun c => isIdentChar c || isNumberChar c

/-- The texts of the operator tokens the three binary levels match. -/
def operatorTexts : List GoString :=
  [str "/", str "*", str "%", str "-", str "+", str ">", str ">=", str "<", str "<=", str "==",
    str "!="]

/-- The kinds of the operator tokens the three binary levels match. -/
def operatorKinds : List TokenType :=
  [DIVIDE, MULTIPLY, MODULO, MINUS, PLUS, GREATER, GREATER_EQ, LESS, LESS_EQ, EQUAL, NOT_EQUAL]

/-- A text that contains neither `package main` nor `func main()`. -/
def noPhrase (v : GoString) : Bool :=
  !decide (packageMain <:+: v) && !decide (funcMain <:+: v)

/-- A tree as the parser builds it from the tokens of the lexer: identifiers
and numbers are texts of such tokens, operators are operator texts, and no
string literal contains `package main` or `func main()`. -/
def Expression.plain : Expression → Bool
  | .Identifier v => isAtomText v
  | .StringLiteral v => noPhrase v
  | .NumberLiteral v => isAtomText v
  | .BinaryExpression l op r => l.plain && decide (op ∈ operatorTexts) && r.plain
  | .RangeExpression e => e.plain

mutual

/-- A statement whose expressions are plain and whose names are identifier
texts. -/
def Statement.plain : Statement → Bool
  | .PrintStatement args => args.all Expression.plain
  | .AssignmentStatement name value => isAtomText name && value.plain
  | .IfStatement c body els => c.plain && Statement.plainList body && Statement.plainList els
  | .ForStatement v iterable body => isAtomText v && iterable.plain && Statement.plainList body
  | .ExpressionStatement e => e.plain

/-- Every statement of the list is plain. -/
def Statement.plainList : List Statement → Bool
  | [] => true
  | s :: ss => s.plain && Statement.plainList ss

end

/-- A token as the lexer makes it: the text of an identifier or a number is an
atom text, the text of an operator is an operator text; and the text of a
string contains neither `package main` nor `func main()`. -/
def Token.plain (t : Token) : Bool :=
  (!(t.Typ == IDENTIFIER || t.Typ == NUMBER) || isAtomText t.Value)
    && (!decide (t.Typ ∈ operatorKinds) || decide (t.Value ∈ operatorTexts))
    && (!(t.Typ == STRING) || noPhrase t.Value)

/-- On a parser whose tokens are all plain, `f` returns only values that are
`good`, and leaves the tokens as they are. -/
def Preserves {α : Type} (f : Parser → Res α) (good : α → Prop) : Prop :=
  ∀ (p : Parser) (a : α) (p1 : Parser), (∀ t ∈ p.tokens, t.plain = true) →
    f p = .ok (a, p1) → p1.tokens = p.tokens ∧ good a

/-- No string literal of the source contains `package main` or `func main()`:
the test is made on the texts of the STRING tokens of `Tokenize`. -/
def stringLiteralsPlain (source : GoString) : Bool :=
  match (NewLexer source).Tokenize with
  | .ok tokens => tokens.all fun t => !(t.Typ == STRING) || noPhrase t.Value
  | _ => true


/-! ## Vocabulary of the parser invariants -/

/-- The token list ends with an `EOF` token. -/
def endsInEOF (tokens : List Token) : Bool :=
  match tokens.getLast? with
  | some t => t.Typ == EOF
  | none => false

/-- The cursor is an index of the token list, and the list ends with `EOF`. -/
def Parser.inRange (p : Parser) : Bool :=
  decide (p.current < p.tokens.length) && endsInEOF p.tokens

/-- A call that returned: with a value or with an error, not stopped by a panic
and not by a bound of the model. -/
def Result.returned {α : Type} : Result α → Bool
  | .ok _ => true
  | .error _ => true
  | .fault => false
  | .outOfFuel => false

/-- Outcome `r` of a parsing method called on `p`: it returned, and when it
returned a value the tokens are those of `p`, the cursor is an index of them
and has moved forward by at least `k`. -/
def Runs {α : Type} (k : Nat) (p : Parser) (r : Res α) : Prop :=
  match r with
  | .ok (_, p1) => p1.tokens = p.tokens ∧ p1.inRange = true ∧ p.current + k ≤ p1.current
  | .error _ => True
  | .fault => False
  | .outOfFuel => False

/-- A statement that is neither an `IfStatement` nor a `ForStatement`; it holds
no statement list. -/
def Statement.isSimple : Statement → Bool
  | .PrintStatement _ => true
  | .AssignmentStatement _ _ => true
  | .ExpressionStatement _ => true
  | .IfStatement _ _ _ => false
  | .ForStatement _ _ _ => false

/-- A statement list of at most one statement, which is no `if` and no `for`. -/
def isFlatBlock (block : List Statement) : Bool :=
  decide (block.length ≤ 1) && block.all Statement.isSimple

/-- The statement lists held by a statement (`Body`, `Else`) are flat blocks. -/
def Statement.flat : Statement → Bool
  | .IfStatement _ body els => isFlatBlock body && isFlatBlock els
  | .ForStatement _ _ body => isFlatBlock body
  | _ => true

/-- Two parsers at the same cursor whose tokens agree, one by one, in kind and
text. -/
def Parser.alike (p q : Parser) : Prop :=
  p.current = q.current ∧ p.tokens.map Token.key = q.tokens.map Token.key

/-- Two outcomes of the same kind: values related by `R`, or two errors
(whatever their messages), or two panics, or two exhausted bounds. -/
def Result.alike {α : Type} (R : α → α → Prop) : Result α → Result α → Prop
  | .ok a, .ok b => R a b
  | .error _, .error _ => True
  | .fault, .fault => True
  | .outOfFuel, .outOfFuel => True
  | _, _ => False

/-- Two outcomes of a parsing method: the same value, and parsers that are
alike. -/
def Res.alike {α : Type} (r1 r2 : Res α) : Prop :=
  Result.alike (fun a b => a.1 = b.1 ∧ a.2.alike b.2) r1 r2

/-- The segments without the runs of spaces and tabs. -/
def dropBlankRuns : List Seg → List Seg
  | [] => []
  | .blank _ :: ss => dropBlankRuns ss
  | s :: ss => s :: dropBlankRuns ss

/-- Two calls of the parser that return the same tree, or both return an
error. -/
def sameTreeOrBothFail (r1 r2 : Result Program) : Prop :=
  (∃ prog, r1 = .ok prog ∧ r2 = .ok prog) ∨ (∃ e1 e2, r1 = .error e1 ∧ r2 = .error e2)

/-- The kind of the token of a binary operator text (`EOF` for other texts). -/
def operatorKind (op : GoString) : TokenType :=
  (operatorKinds.find? fun k => symbolText k == op).getD EOF

/-- The trees of the round trip: number literals whose text is a digit followed
by digits and dots, identifiers whose text is a word that is no keyword, and
binary nodes with one of the eleven operators over such trees. -/
def Expression.isArithmetic : Expression → Bool
  | .NumberLiteral v => isNumberText v
  | .Identifier v => isIdentifierText v
  | .BinaryExpression l op r => l.isArithmetic && decide (op ∈ operatorTexts) && r.isArithmetic
  | _ => false

/-- The nesting of binary nodes: the parentheses around a leaf of the text. -/
def Expression.nesting : Expression → Nat
  | .BinaryExpression l _ r => max l.nesting r.nesting + 1
  | _ => 0

/-- The segments of the text `generateExpression` emits for a tree of the round
trip: `(`, left operand, space, operator, space, right operand, `)`. -/
def exprSegs : Expression → List Seg
  | .NumberLiteral v => [.number v]
  | .Identifier v => [.word v]
  | .BinaryExpression l op r =>
    .symbol LPAREN :: (exprSegs l ++ (.blank (str " ") :: .symbol (operatorKind op)
      :: .blank (str " ") :: (exprSegs r ++ [.symbol RPAREN])))
  | _ => []

/-- The parser `p` stands at a `for`, the token after it is the variable named
`var`, and `parseExpression`, called where `parseForStatement` calls it (after
`consume(FOR)`, `advance` over the variable and `consume(IN)`), returns
`iterable`. -/
def forHeadAt (p : Parser) (var : GoString) (iterable : Expression) : Prop :=
  ∃ (c : Option GoString × Parser) (t : Token) (a : Token × Parser)
    (c1 : Option GoString × Parser) (p2 : Parser),
    p.check FOR = .ok true
    ∧ p.consume FOR (str "Expected 'for'") = .ok c
    ∧ c.2.check IDENTIFIER = .ok true ∧ c.2.peek = .ok t ∧ var = t.Value
    ∧ c.2.advance = .ok a
    ∧ a.2.consume IN (str "Expected 'in' after for variable") = .ok c1
    ∧ c1.2.parseExpression = .ok (iterable, p2)
/-! ## Basic facts -/

open Expression Statement Parser GoGenerator

@[simp] theorem Result.bind_ok {α β : Type} (a : α) (f : α → Result β) :
    (Result.ok a).bind f = f a := rfl

@[simp] theorem Result.bind_error {α β : Type} (m : GoString) (f : α → Result β) :
    (Result.error m : Result α).bind f = .error m := rfl

@[simp] theorem Result.bind_fault {α β : Type} (f : α → Result β) :
    (Result.fault : Result α).bind f = .fault := rfl

@[simp] theorem Result.bind_outOfFuel {α β : Type} (f : α → Result β) :
    (Result.outOfFuel : Result α).bind f = .outOfFuel := rfl

theorem Result.bind_eq_ok {α β : Type} (r : Result α) (f : α → Result β) (b : β) :
    r.bind f = .ok b ↔ ∃ a, r = .ok a ∧ f a = .ok b := by
  cases r <;> simp [Result.bind]

/-! ## Blocks keep one statement (C1) -/

/-- C1 (the code departs from the claim): on a source whose `if` or `for`
header is followed by two simple statements, one per line, `Parse` keeps only
the first in the body and makes the second a top-level statement of its own. -/
theorem C1_block_truncated_after_first_statement :
    Parse (str "if x:\n  a = 1\n  b = 2") =
      .ok ⟨[IfStatement (Identifier (str "x"))
              [AssignmentStatement (str "a") (NumberLiteral (str "1"))] [],
            AssignmentStatement (str "b") (NumberLiteral (str "2"))]⟩
    ∧ Parse (str "for i in range(3):\n  print i\n  print 2") =
      .ok ⟨[ForStatement (str "i") (RangeExpression (NumberLiteral (str "3")))
              [PrintStatement [Identifier (str "i")]],
            PrintStatement [NumberLiteral (str "2")]]⟩ :=
  ⟨rfl, rfl⟩

/-! ## Heads and parentheses with a token missing (C4, C5) -/

/-- C4 (the code departs from the claim): `consume` reports the missing `:` or
`in`, but every caller drops what it returns, so the sources of the claim are
accepted. -/
theorem C4_missing_head_token_accepted :
    Parse (str "if x\n  print 1") =
      .ok ⟨[IfStatement (Identifier (str "x")) [PrintStatement [NumberLiteral (str "1")]] []]⟩
    ∧ Parse (str "for i range(5): print i") =
      .ok ⟨[ForStatement (str "i") (RangeExpression (NumberLiteral (str "5")))
              [PrintStatement [Identifier (str "i")]]]⟩
    ∧ Parse (str "if x:\n  print 1\nelse\n  print 2") =
      .ok ⟨[IfStatement (Identifier (str "x")) [PrintStatement [NumberLiteral (str "1")]]
              [PrintStatement [NumberLiteral (str "2")]]]⟩
    ∧ Parse (str "for i in range(5)\n  print i") =
      .ok ⟨[ForStatement (str "i") (RangeExpression (NumberLiteral (str "5")))
              [PrintStatement [Identifier (str "i")]]]⟩
    ∧ (⟨[⟨IF, str "if", 1, 3⟩, ⟨IDENTIFIER, str "x", 1, 5⟩, ⟨EOF, [], 1, 5⟩], 2⟩ : Parser).consume
        COLON (str "Expected ':' after if condition") =
      .ok (some (str "Expected ':' after if condition, got \x7b0  1 5\x7d"),
           ⟨[⟨IF, str "if", 1, 3⟩, ⟨IDENTIFIER, str "x", 1, 5⟩, ⟨EOF, [], 1, 5⟩], 2⟩) :=
  ⟨rfl, rfl, rfl, rfl, rfl⟩

/-- C5 (the code departs from the claim): `parsePrimary` drops the error that
`consume` returns for the missing `)`, so the sources of the claim are
accepted. -/
theorem C5_missing_closing_parenthesis_accepted :
    Parse (str "x = (1 + 2") =
      .ok ⟨[AssignmentStatement (str "x")
              (BinaryExpression (NumberLiteral (str "1")) (str "+") (NumberLiteral (str "2")))]⟩
    ∧ Parse (str "for i in range(5: print i") =
      .ok ⟨[ForStatement (str "i") (RangeExpression (NumberLiteral (str "5")))
              [PrintStatement [Identifier (str "i")]]]⟩ :=
  ⟨rfl, rfl⟩

/-! ## Generated expressions and print statements (C8, C9) -/

theorem isStringExpression_iff (e : Expression) :
    isStringExpression e = true ↔ ∃ v, e = StringLiteral v := by
  cases e <;> simp [isStringExpression]

/-- C8: the text generated for `BinaryExpression(l, op, r)` is the
`fmt.Sprintf("%v%v", L, R)` call exactly when `op` is `+` and `l` or `r` is a
`StringLiteral` node, and is `(L op R)` in every other case; `"a" + "b"` and
`"a" + x` give the call, `x + y` gives `(x + y)`. -/
theorem C8_string_concatenation_rewrite (l r : Expression) (op : GoString) :
    (generateExpression (BinaryExpression l op r) =
        str "fmt.Sprintf(\"%v%v\", " ++ generateExpression l ++ str ", "
          ++ generateExpression r ++ str ")"
      ↔ (op = str "+" ∧ ((∃ v, l = StringLiteral v) ∨ (∃ v, r = StringLiteral v))))
    ∧ (generateExpression (BinaryExpression l op r) =
        str "(" ++ generateExpression l ++ str " " ++ op ++ str " "
          ++ generateExpression r ++ str ")"
      ↔ ¬ (op = str "+" ∧ ((∃ v, l = StringLiteral v) ∨ (∃ v, r = StringLiteral v))))
    ∧ generateExpression (BinaryExpression (StringLiteral (str "a")) (str "+")
        (StringLiteral (str "b"))) = str "fmt.Sprintf(\"%v%v\", \"a\", \"b\")"
    ∧ generateExpression (BinaryExpression (StringLiteral (str "a")) (str "+")
        (Identifier (str "x"))) = str "fmt.Sprintf(\"%v%v\", \"a\", x)"
    ∧ generateExpression (BinaryExpression (Identifier (str "x")) (str "+")
        (Identifier (str "y"))) = str "(x + y)" := by
  have hne : ∀ a b c d : GoString,
      str "fmt.Sprintf(\"%v%v\", " ++ a ++ b ≠ str "(" ++ c ++ d := by
    intro a b c d h
    have h1 : (str "fmt.Sprintf(\"%v%v\", " ++ a ++ b).head? = (str "(" ++ c ++ d).head? := by
      rw [h]
    simp [str] at h1
  have hcond : (op = str "+" ∧ ((∃ v, l = StringLiteral v) ∨ (∃ v, r = StringLiteral v))) ↔
      (decide (op = str "+") && (isStringExpression l || isStringExpression r)) = true := by
    simp [isStringExpression_iff]
  refine ⟨?_, ?_, rfl, rfl, rfl⟩
  · rw [hcond, generateExpression, generateBinaryExpression]
    constructor
    · intro h
      by_contra hc
      rw [if_neg hc] at h
      simp only [List.append_assoc] at h
      exact hne _ _ _ _ h.symm
    · intro h
      rw [if_pos h]
  · rw [hcond, generateExpression, generateBinaryExpression]
    constructor
    · intro h hc
      rw [if_pos hc] at h
      simp only [List.append_assoc] at h
      exact hne _ _ _ _ h
    · intro h
      rw [if_neg h]

theorem stringsJoin_singleton (a sep : GoString) : stringsJoin [a] sep = a := by
  simp [stringsJoin, List.intercalate]

/-- C9: the statement generated for a `PrintStatement` with arguments
`e1..eN` is `fmt.Println(` followed by the generated texts of `e1..eN` joined
by `, ` in order and by `)`, the generator being left as it was; the joined
list has exactly `N` texts, and for `N = 0` the statement is `fmt.Println()`. -/
theorem C9_print_generation (g : GoGenerator) (Arguments : List Expression) :
    generateStatement g (PrintStatement Arguments) =
      (str "fmt.Println(" ++ stringsJoin (Arguments.map generateExpression) (str ", ")
        ++ str ")", g)
    ∧ (Arguments.map generateExpression).length = Arguments.length
    ∧ generateStatement g (PrintStatement []) = (str "fmt.Println()", g) := by
  refine ⟨?_, by simp, rfl⟩
  rw [generateStatement, generatePrintStatement]
  cases Arguments with
  | nil => rfl
  | cons a rest =>
    cases rest with
    | nil => simp [stringsJoin_singleton]
    | cons b rest => simp

/-! ## The lexer on a source given by segments -/

theorem lexAt_nil (input : GoString) : NewLexer input = lexAt [] input 1 1 [] := rfl

@[simp] theorem currentChar_lexAt_cons (pre r : GoString) (c line col : Nat) (toks : List Token) :
    (lexAt pre (c :: r) line col toks).currentChar = c := by
  have h : (pre ++ c :: r)[pre.length]? = some c := by
    rw [List.getElem?_append_right (le_refl _)]
    simp
  simp [Lexer.currentChar, lexAt, List.getD, h]

@[simp] theorem peekChar_lexAt_cons (pre r : GoString) (c line col : Nat) (toks : List Token) :
    (lexAt pre (c :: r) line col toks).peekChar = r.headD 0 := by
  cases r with
  | nil => simp [Lexer.peekChar, lexAt]
  | cons d r =>
    have h : (pre ++ c :: d :: r)[pre.length + 1]? = some d := by
      rw [List.getElem?_append_right (by omega)]
      simp
    simp [Lexer.peekChar, lexAt, List.getD, h]

@[simp] theorem position_lt_lexAt (pre r : GoString) (line col : Nat) (toks : List Token) :
    (lexAt pre r line col toks).position < (lexAt pre r line col toks).input.length ↔ r ≠ [] := by
  cases r <;> simp [lexAt]

@[simp] theorem advance_lexAt (pre r : GoString) (c line col : Nat) (toks : List Token) :
    (lexAt pre (c :: r) line col toks).advance = lexAt (pre ++ [c]) r line (col + 1) toks := by
  simp [Lexer.advance, lexAt]

@[simp] theorem addToken_lexAt (pre r : GoString) (line col : Nat) (toks : List Token)
    (ty : TokenType) (v : GoString) :
    (lexAt pre r line col toks).addToken ty v = lexAt pre r line col (toks ++ [⟨ty, v, line, col⟩]) :=
  rfl

theorem slice_lexAt (pre w r : GoString) (line col : Nat) (toks : List Token) :
    (lexAt (pre ++ w) r line col toks).slice pre.length = w := by
  simp [Lexer.slice, lexAt]

theorem advanceWhileLoop_lexAt (cond : Nat → Bool) (w : GoString) :
    ∀ (n : Nat) (pre r : GoString) (line col : Nat) (toks : List Token),
      w.length ≤ n → (∀ x ∈ w, cond x = true) → (∀ c, r.head? = some c → cond c = false) →
      Lexer.advanceWhileLoop cond n (lexAt pre (w ++ r) line col toks) =
        lexAt (pre ++ w) r line (col + w.length) toks := by
  induction w with
  | nil =>
    intro n pre r line col toks _ _ hr
    cases n with
    | zero => simp [Lexer.advanceWhileLoop]
    | succ n =>
      cases r with
      | nil => simp [Lexer.advanceWhileLoop]
      | cons c r => simp [Lexer.advanceWhileLoop, hr c]
  | cons a w ih =>
    intro n pre r line col toks hn hw hr
    cases n with
    | zero => simp at hn
    | succ n =>
      have ha : cond a = true := hw a (by simp)
      simp only [List.cons_append, Lexer.advanceWhileLoop, position_lt_lexAt,
        currentChar_lexAt_cons, ha, advance_lexAt]
      simp only [ne_eq, reduceCtorEq, not_false_eq_true, decide_True, Bool.and_self, ↓reduceIte]
      rw [ih n (pre ++ [a]) r line (col + 1) toks (by simpa using hn)
        (fun x hx => hw x (by simp [hx])) hr]
      simp [Nat.add_comm, Nat.add_left_comm]

theorem advanceWhile_lexAt (cond : Nat → Bool) (w pre r : GoString) (line col : Nat)
    (toks : List Token) (hw : ∀ x ∈ w, cond x = true)
    (hr : ∀ c, r.head? = some c → cond c = false) :
    Lexer.advanceWhile cond (lexAt pre (w ++ r) line col toks) =
      lexAt (pre ++ w) r line (col + w.length) toks := by
  rw [Lexer.advanceWhile]
  exact advanceWhileLoop_lexAt cond w _ pre r line col toks (by simp [lexAt]) hw hr

theorem position_lexAt (pre r : GoString) (line col : Nat) (toks : List Token) :
    (lexAt pre r line col toks).position = pre.length := rfl

theorem scanToken_word (w pre r : GoString) (line col : Nat) (toks : List Token)
    (hw : isWord w = true) (hr : ∀ c, r.head? = some c → isIdentChar c = false) :
    (lexAt pre (w ++ r) line col toks).scanToken =
      .ok (lexAt (pre ++ w) r line (col + w.length)
        (toks ++ [⟨identifierType w, w, line, col + w.length⟩])) := by
  cases w with
  | nil => simp [isWord] at hw
  | cons c rest =>
    simp only [isWord, Bool.and_eq_true, List.all_eq_true] at hw
    obtain ⟨hc, hrest⟩ := hw
    have hall : ∀ x ∈ c :: rest, (fun ch => isAlnum ch || ch == 95) x = true := by
      intro x hx
      rcases List.mem_cons.1 hx with rfl | hx
      · simp [isAlnum, hc]
      · simpa [isIdentChar] using hrest x hx
    have hloop := advanceWhile_lexAt (fun ch => isAlnum ch || ch == 95) (c :: rest) pre r
      line col toks hall (by simpa [isIdentChar] using hr)
    have h1 : (c == 10 || c == 13) = false := by
      simp [isAlpha] at hc; simp; omega
    have h2 : (c == 32 || c == 9) = false := by
      simp [isAlpha] at hc; simp; omega
    have h3 : (c == 35) = false := by
      simp [isAlpha] at hc; simp; omega
    have h4 : (c == 34 || c == 39) = false := by
      simp [isAlpha] at hc; simp; omega
    have h5 : isDigit c = false := by
      simp [isAlpha] at hc; simp [isDigit]; omega
    simp only [Lexer.scanToken, List.cons_append, currentChar_lexAt_cons, h1, h2, h3, h4, h5, hc,
      Bool.false_eq_true, ↓reduceIte, Lexer.scanIdentifier]
    rw [← List.cons_append, hloop, position_lexAt, slice_lexAt, addToken_lexAt]

theorem scanToken_number (w pre r : GoString) (line col : Nat) (toks : List Token)
    (hw : isNumberText w = true) (hr : ∀ c, r.head? = some c → isNumberChar c = false) :
    (lexAt pre (w ++ r) line col toks).scanToken =
      .ok (lexAt (pre ++ w) r line (col + w.length)
        (toks ++ [⟨NUMBER, w, line, col + w.length⟩])) := by
  cases w with
  | nil => simp [isNumberText] at hw
  | cons c rest =>
    simp only [isNumberText, Bool.and_eq_true, List.all_eq_true] at hw
    obtain ⟨hc, hrest⟩ := hw
    have hall : ∀ x ∈ c :: rest, (fun ch => isDigit ch || ch == 46) x = true := by
      intro x hx
      rcases List.mem_cons.1 hx with rfl | hx
      · simp [hc]
      · simpa [isNumberChar] using hrest x hx
    have hloop := advanceWhile_lexAt (fun ch => isDigit ch || ch == 46) (c :: rest) pre r
      line col toks hall (by simpa [isNumberChar] using hr)
    have h1 : (c == 10 || c == 13) = false := by
      simp [isDigit] at hc; simp; omega
    have h2 : (c == 32 || c == 9) = false := by
      simp [isDigit] at hc; simp; omega
    have h3 : (c == 35) = false := by
      simp [isDigit] at hc; simp; omega
    have h4 : (c == 34 || c == 39) = false := by
      simp [isDigit] at hc; simp; omega
    simp only [Lexer.scanToken, List.cons_append, currentChar_lexAt_cons, h1, h2, h3, h4, hc,
      Bool.false_eq_true, ↓reduceIte, Lexer.scanNumber]
    rw [← List.cons_append, hloop, position_lexAt, slice_lexAt, addToken_lexAt]

theorem scanToken_blank (w pre r : GoString) (line col : Nat) (toks : List Token)
    (hw : isBlank w = true) (hr : ∀ c, r.head? = some c → isBlankChar c = false) :
    (lexAt pre (w ++ r) line col toks).scanToken =
      .ok (lexAt (pre ++ w) r line (col + w.length) toks) := by
  cases w with
  | nil => simp [isBlank] at hw
  | cons c rest =>
    simp only [isBlank, Bool.and_eq_true, List.all_eq_true] at hw
    obtain ⟨hc, hrest⟩ := hw
    have hall : ∀ x ∈ c :: rest, (fun ch => ch == 32 || ch == 9) x = true := by
      intro x hx
      rcases List.mem_cons.1 hx with rfl | hx
      · simpa [isBlankChar] using hc
      · simpa [isBlankChar] using hrest x hx
    have hloop := advanceWhile_lexAt (fun ch => ch == 32 || ch == 9) (c :: rest) pre r
      line col toks hall (by simpa [isBlankChar] using hr)
    have h1 : (c == 10 || c == 13) = false := by
      simp [isBlankChar] at hc; simp; omega
    have h2 : (c == 32 || c == 9) = true := by
      simpa [isBlankChar] using hc
    simp only [Lexer.scanToken, List.cons_append, currentChar_lexAt_cons, h1, h2,
      Bool.false_eq_true, ↓reduceIte, Lexer.skipWhitespace]
    rw [← List.cons_append, hloop]

theorem scanToken_newline (pre r : GoString) (line col : Nat) (toks : List Token) :
    (lexAt pre (str "\n" ++ r) line col toks).scanToken =
      .ok (lexAt (pre ++ str "\n") r (line + 1) 1
        (toks ++ [⟨NEWLINE, str "\n", line, col + 1⟩])) := by
  have h : str "\n" = [10] := rfl
  rw [h]
  simp only [List.cons_append, List.nil_append, Lexer.scanToken, currentChar_lexAt_cons]
  simp [Lexer.advance, Lexer.addToken, lexAt, h]

theorem scanToken_symbol (t : TokenType) (pre r : GoString) (line col : Nat) (toks : List Token)
    (ht : symbolText t ≠ [])
    (hr : ∀ c, r.head? = some c → ((t = ASSIGN || t = LESS || t = GREATER) && c == 61) = false) :
    (lexAt pre (symbolText t ++ r) line col toks).scanToken =
      .ok (lexAt (pre ++ symbolText t) r line (col + (symbolText t).length)
        (toks ++ [⟨t, symbolText t, line, col⟩])) := by
  have hpeek : (t = ASSIGN ∨ t = LESS ∨ t = GREATER) → ¬ (r.head?).getD 0 = 61 := by
    intro h
    cases r with
    | nil => simp
    | cons c r =>
      have := hr c rfl
      rcases h with h | h | h <;> simpa [h] using this
  cases t <;> simp [symbolText] at ht <;>
    simp [symbolText, str, Lexer.scanToken, isDigit, isAlpha, hpeek]

theorem scanToken_cr (pre r : GoString) (line col : Nat) (toks : List Token)
    (hr : ∀ c, r.head? = some c → c ≠ 10) :
    (lexAt pre (str "\r" ++ r) line col toks).scanToken =
      .ok (lexAt (pre ++ str "\r") r (line + 1) 1
        (toks ++ [⟨NEWLINE, str "\n", line, col + 1⟩])) := by
  have h : str "\r" = [13] := rfl
  have h1 : str "\n" = [10] := rfl
  have hpeek : ¬ (r.head?).getD 0 = 10 := by
    cases r with
    | nil => simp
    | cons c r => simpa using hr c rfl
  rw [h]
  simp only [List.cons_append, List.nil_append, Lexer.scanToken, currentChar_lexAt_cons,
    peekChar_lexAt_cons]
  simp [Lexer.advance, Lexer.addToken, lexAt, h1, hpeek]

theorem scanToken_crlf (pre r : GoString) (line col : Nat) (toks : List Token) :
    (lexAt pre (str "\r\n" ++ r) line col toks).scanToken =
      .ok (lexAt (pre ++ str "\r\n") r (line + 1) 1
        (toks ++ [⟨NEWLINE, str "\n", line, col + 2⟩])) := by
  have h : str "\r\n" = [13, 10] := rfl
  have h1 : str "\n" = [10] := rfl
  rw [h]
  simp only [List.cons_append, List.nil_append, Lexer.scanToken, currentChar_lexAt_cons,
    peekChar_lexAt_cons]
  simp [Lexer.advance, Lexer.addToken, lexAt, h1]

theorem scanToken_comment (w pre r : GoString) (line col : Nat) (toks : List Token)
    (hw : 10 ∉ w) (hr : ∀ c, r.head? = some c → c = 10) :
    (lexAt pre (35 :: w ++ r) line col toks).scanToken =
      .ok (lexAt (pre ++ 35 :: w) r line (col + (w.length + 1)) toks) := by
  have hall : ∀ x ∈ 35 :: w, (fun ch => ch != 10) x = true := by
    intro x hx
    rcases List.mem_cons.1 hx with rfl | hx
    · rfl
    · simpa using fun h : x = 10 => hw (h ▸ hx)
  have hloop := advanceWhile_lexAt (fun ch => ch != 10) (35 :: w) pre r line col toks hall
    (by intro c hc; simp [hr c hc])
  simp only [Lexer.scanToken, List.cons_append, currentChar_lexAt_cons, Lexer.skipComment]
  simp only [List.cons_append] at hloop
  simp [hloop]

theorem scanStringLoop_lexAt (quote : Nat) (v : GoString) :
    ∀ (n : Nat) (pre r : GoString) (line col : Nat) (toks : List Token),
      v.length ≤ n → quote ∉ v → (∀ c, r.head? = some c → c = quote) →
      ∃ col1, Lexer.scanStringLoop quote n (lexAt pre (v ++ r) line col toks) =
        lexAt (pre ++ v) r (line + v.count 10) col1 toks := by
  induction v with
  | nil =>
    intro n pre r line col toks _ _ hr
    refine ⟨col, ?_⟩
    cases n with
    | zero => simp [Lexer.scanStringLoop]
    | succ n =>
      cases r with
      | nil => simp [Lexer.scanStringLoop]
      | cons c r => simp [Lexer.scanStringLoop, hr c]
  | cons a v ih =>
    intro n pre r line col toks hn hq hr
    cases n with
    | zero => simp at hn
    | succ n =>
      have ha : (a != quote) = true := by
        simp only [List.mem_cons, not_or] at hq
        simpa using fun h => hq.1 h.symm
      have hs : quote ∉ v := fun h => hq (List.mem_cons_of_mem _ h)
      have hlen : v.length ≤ n := by simpa using hn
      by_cases h10 : a = 10
      · subst h10
        obtain ⟨col1, h⟩ := ih n (pre ++ [10]) r (line + 1) (1 + 1) toks hlen hs hr
        refine ⟨col1, ?_⟩
        simp only [List.cons_append, Lexer.scanStringLoop, position_lt_lexAt,
          currentChar_lexAt_cons, ha]
        simp only [ne_eq, reduceCtorEq, not_false_eq_true, decide_True, Bool.and_self, ↓reduceIte,
          beq_self_eq_true]
        show Lexer.scanStringLoop quote n (lexAt pre (10 :: (v ++ r)) (line + 1) 1 toks).advance = _
        rw [advance_lexAt, h]
        have hc : List.count 10 (10 :: v) = List.count 10 v + 1 := by simp
        have hadd : line + 1 + List.count 10 v = line + (List.count 10 v + 1) := by omega
        rw [hc, hadd, List.append_assoc]
        rfl
      · obtain ⟨col1, h⟩ := ih n (pre ++ [a]) r line (col + 1) toks hlen hs hr
        refine ⟨col1, ?_⟩
        have h10b : (a == 10) = false := by simpa using h10
        simp only [List.cons_append, Lexer.scanStringLoop, position_lt_lexAt,
          currentChar_lexAt_cons, ha]
        simp only [ne_eq, reduceCtorEq, not_false_eq_true, decide_True, Bool.and_self, ↓reduceIte,
          h10b, Bool.false_eq_true, advance_lexAt]
        rw [h]
        have hc : List.count 10 (a :: v) = List.count 10 v := by
          simp [List.count_cons, h10]
        simp [hc]

theorem scanToken_string (quote : Nat) (v pre r : GoString) (line col : Nat)
    (toks : List Token) (hq : quote = 34 ∨ quote = 39) (hv : quote ∉ v) :
    ∃ col1, (lexAt pre (quote :: v ++ quote :: r) line col toks).scanToken =
      .ok (lexAt (pre ++ (quote :: v ++ [quote])) r (line + v.count 10) (col1 + 1)
        (toks ++ [⟨STRING, v, line + v.count 10, col1 + 1⟩])) := by
  obtain ⟨col1, h⟩ := scanStringLoop_lexAt quote v (v.length + (r.length + 1)) (pre ++ [quote])
    (quote :: r) line (col + 1) toks (by omega) hv (by intro c hc; simpa using hc.symm)
  refine ⟨col1, ?_⟩
  have hlen : (lexAt (pre ++ [quote]) (v ++ quote :: r) line (col + 1) toks).input.length
      - (lexAt (pre ++ [quote]) (v ++ quote :: r) line (col + 1) toks).position
      = v.length + (r.length + 1) := by
    simp [lexAt]
    omega
  have hscan : (lexAt pre (quote :: v ++ quote :: r) line col toks).scanString =
      .ok (lexAt (pre ++ (quote :: v ++ [quote])) r (line + v.count 10) (col1 + 1)
        (toks ++ [⟨STRING, v, line + v.count 10, col1 + 1⟩])) := by
    have hpos : ¬ (lexAt (pre ++ [quote] ++ v) (quote :: r) (line + v.count 10) col1 toks).position
        ≥ (lexAt (pre ++ [quote] ++ v) (quote :: r) (line + v.count 10) col1 toks).input.length := by
      simp [lexAt]
    have hslice := slice_lexAt (pre ++ [quote]) v (quote :: r) (line + v.count 10) col1 toks
    simp only [Lexer.scanString, List.cons_append, currentChar_lexAt_cons, advance_lexAt, hlen, h]
    rw [if_neg hpos]
    simp only [position_lexAt, hslice, addToken_lexAt, advance_lexAt]
    simp
  rw [← hscan]
  rcases hq with rfl | rfl <;> simp [Lexer.scanToken]

/-- One call of `scanToken` reads one segment: where it leaves the lexer, and
the tokens it adds by kind, text and line. -/
theorem scanToken_segAt (s : Seg) (pre r : GoString) (line col : Nat) (toks : List Token)
    (hwf : s.wf = true) (hend : s.endsBefore r.head? = true) :
    ∃ col1 ts,
      (lexAt pre (s.text ++ r) line col toks).scanToken =
        .ok (lexAt (pre ++ s.text) r (line + s.lines) col1 (toks ++ ts))
      ∧ ts.map Token.keyLine = s.keysAt line ∧ s.text ≠ [] := by
  cases s with
  | word w =>
    refine ⟨col + w.length, _, scanToken_word w pre r line col toks hwf ?_, rfl, ?_⟩
    · intro c hc
      simpa [Seg.endsBefore, hc] using hend
    · intro h
      simp [Seg.text] at h
      simp [Seg.wf, h, isWord] at hwf
  | number w =>
    refine ⟨col + w.length, _, scanToken_number w pre r line col toks hwf ?_, rfl, ?_⟩
    · intro c hc
      simpa [Seg.endsBefore, hc] using hend
    · intro h
      simp [Seg.text] at h
      simp [Seg.wf, h, isNumberText] at hwf
  | blank w =>
    refine ⟨col + w.length, [], ?_, rfl, ?_⟩
    · rw [List.append_nil]
      refine scanToken_blank w pre r line col toks hwf ?_
      intro c hc
      simpa [Seg.endsBefore, hc] using hend
    · intro h
      simp [Seg.text] at h
      simp [Seg.wf, h, isBlank] at hwf
  | symbol t =>
    have ht : symbolText t ≠ [] := by simpa [Seg.wf] using hwf
    refine ⟨col + (symbolText t).length, _,
      scanToken_symbol t pre r line col toks ht ?_, rfl, ht⟩
    intro c hc
    simp only [Seg.endsBefore, hc, Bool.not_eq_true'] at hend
    exact hend
  | newline =>
    exact ⟨1, _, scanToken_newline pre r line col toks, rfl, by simp [Seg.text, str]⟩
  | cr =>
    refine ⟨1, _, scanToken_cr pre r line col toks ?_, rfl, by simp [Seg.text, str]⟩
    intro c hc
    simpa [Seg.endsBefore, hc] using hend
  | crlf =>
    exact ⟨1, _, scanToken_crlf pre r line col toks, rfl, by simp [Seg.text, str]⟩
  | comment w =>
    refine ⟨col + (w.length + 1), [], ?_, rfl, by simp [Seg.text]⟩
    rw [List.append_nil]
    refine scanToken_comment w pre r line col toks (by simpa [Seg.wf] using hwf) ?_
    intro c hc
    simpa [Seg.endsBefore, hc] using hend
  | string quote v =>
    simp only [Seg.wf, Bool.and_eq_true, Bool.or_eq_true, beq_iff_eq, Bool.not_eq_true',
      List.contains_eq_any_beq, List.any_eq_false, beq_iff_eq] at hwf
    have hv : quote ∉ v := fun h => (hwf.2 quote h) rfl
    obtain ⟨col1, h⟩ := scanToken_string quote v pre r line col toks hwf.1 hv
    refine ⟨col1 + 1, [⟨STRING, v, line + v.count 10, col1 + 1⟩], ?_, rfl, by simp [Seg.text]⟩
    simp only [Seg.text, Seg.lines, List.cons_append, List.append_assoc, List.nil_append] at h ⊢
    exact h

theorem Seg.keys_of_keysAt (s : Seg) (line : Nat) :
    (s.keysAt line).map (fun k => (k.1, k.2.1)) = s.keys := by
  cases s <;> rfl

theorem Token.key_of_keyLine (ts : List Token) :
    (ts.map Token.keyLine).map (fun k => (k.1, k.2.1)) = ts.map Token.key := by
  simp [Token.keyLine, Token.key]

theorem segsKeys_of_segsKeysAt (segs : List Seg) :
    ∀ line, (segsKeysAt line segs).map (fun k => (k.1, k.2.1)) = segsKeys segs := by
  induction segs with
  | nil => intro _; rfl
  | cons s ss ih =>
    intro line
    simp only [segsKeysAt, List.map_append, Seg.keys_of_keysAt, ih, segsKeys]

theorem scanToken_seg (s : Seg) (pre r : GoString) (line col : Nat) (toks : List Token)
    (hwf : s.wf = true) (hend : s.endsBefore r.head? = true) :
    ∃ line1 col1 ts,
      (lexAt pre (s.text ++ r) line col toks).scanToken =
        .ok (lexAt (pre ++ s.text) r line1 col1 (toks ++ ts))
      ∧ ts.map Token.key = s.keys ∧ s.text ≠ [] := by
  obtain ⟨col1, ts, hscan, hkeys, hne⟩ := scanToken_segAt s pre r line col toks hwf hend
  refine ⟨_, col1, ts, hscan, ?_, hne⟩
  rw [← Token.key_of_keyLine, hkeys, Seg.keys_of_keysAt]

/-- The loop of `Tokenize` reads a sequence of segments one call of `scanToken`
at a time and goes on with the text after them. -/
theorem tokenizeLoop_segsIn (segs : List Seg) (rest : GoString) :
    segsWfIn segs rest = true →
    ∀ (fuel : Nat) (pre : GoString) (line col : Nat) (toks : List Token),
      (segsText segs ++ rest).length ≤ fuel →
      ∃ fuel1 col1 ts, rest.length ≤ fuel1
        ∧ Lexer.tokenizeLoop fuel (lexAt pre (segsText segs ++ rest) line col toks) =
          Lexer.tokenizeLoop fuel1
            (lexAt (pre ++ segsText segs) rest (line + segsLines segs) col1 (toks ++ ts))
        ∧ ts.map Token.keyLine = segsKeysAt line segs := by
  induction segs with
  | nil =>
    intro _ fuel pre line col toks hfuel
    exact ⟨fuel, col, [], by simpa [segsText] using hfuel, by simp [segsText, segsLines], rfl⟩
  | cons s ss ih =>
    intro hwf fuel pre line col toks hfuel
    simp only [segsWfIn, Bool.and_eq_true] at hwf
    obtain ⟨⟨hs, hend⟩, hss⟩ := hwf
    obtain ⟨col1, ts1, hscan, hkeys1, hne⟩ :=
      scanToken_segAt s pre (segsText ss ++ rest) line col toks hs hend
    have hlen : 0 < s.text.length := List.length_pos.2 hne
    cases fuel with
    | zero =>
      simp [segsText] at hfuel
      exact absurd hfuel.1 hne
    | succ fuel =>
      obtain ⟨fuel2, col2, ts2, hfuel2, hloop, hkeys2⟩ :=
        ih hss fuel (pre ++ s.text) (line + s.lines) col1 (toks ++ ts1)
          (by simp [segsText] at hfuel ⊢; omega)
      refine ⟨fuel2, col2, ts1 ++ ts2, hfuel2, ?_, ?_⟩
      · have hpos : (lexAt pre (segsText (s :: ss) ++ rest) line col toks).position <
            (lexAt pre (segsText (s :: ss) ++ rest) line col toks).input.length := by
          rw [position_lt_lexAt]
          simp [segsText, hne]
        rw [Lexer.tokenizeLoop, if_pos hpos]
        simp only [segsText, List.append_assoc]
        rw [hscan]
        simp only [hloop, List.append_assoc, segsLines, Nat.add_assoc]
      · simp [segsKeysAt, hkeys1, hkeys2]

theorem segsWfIn_nil (segs : List Seg) : segsWfIn segs [] = segsWf segs := by
  induction segs with
  | nil => rfl
  | cons s ss ih => simp [segsWfIn, segsWf, ih]

theorem tokenizeLoop_done (fuel : Nat) (pre : GoString) (line col : Nat) (toks : List Token) :
    Lexer.tokenizeLoop fuel (lexAt pre [] line col toks) = .ok (lexAt pre [] line col toks) := by
  cases fuel <;> simp [Lexer.tokenizeLoop]

theorem tokenizeLoop_segs (segs : List Seg) :
    segsWf segs = true →
    ∀ (fuel : Nat) (pre : GoString) (line col : Nat) (toks : List Token),
      (segsText segs).length ≤ fuel →
      ∃ line1 col1 ts,
        Lexer.tokenizeLoop fuel (lexAt pre (segsText segs) line col toks) =
          .ok (lexAt (pre ++ segsText segs) [] line1 col1 (toks ++ ts))
        ∧ ts.map Token.key = segsKeys segs := by
  intro hwf fuel pre line col toks hfuel
  obtain ⟨fuel1, col1, ts, -, hloop, hkeys⟩ :=
    tokenizeLoop_segsIn segs [] (by rw [segsWfIn_nil]; exact hwf) fuel pre line col toks
      (by simpa using hfuel)
  refine ⟨line + segsLines segs, col1, ts, ?_, ?_⟩
  · rw [List.append_nil] at hloop
    rw [hloop, tokenizeLoop_done]
  · rw [← Token.key_of_keyLine, hkeys, segsKeys_of_segsKeysAt]

/-- The tokens of a source made of segments, by kind, text and line. -/
theorem Tokenize_segsAt (segs : List Seg) (hwf : segsWf segs = true) :
    ∃ toks, (NewLexer (segsText segs)).Tokenize = .ok toks
      ∧ toks.map Token.keyLine = segsKeysAt 1 segs ++ [(EOF, [], 1 + segsLines segs)] := by
  obtain ⟨fuel1, col1, ts, -, hloop, hkeys⟩ :=
    tokenizeLoop_segsIn segs [] (by rw [segsWfIn_nil]; exact hwf) (segsText segs).length [] 1 1 []
      (by simp)
  refine ⟨ts ++ [⟨EOF, str "", 1 + segsLines segs, col1⟩], ?_, ?_⟩
  · rw [Lexer.Tokenize, lexAt_nil]
    have hin : (lexAt [] (segsText segs) 1 1 []).input = segsText segs := rfl
    rw [List.append_nil] at hloop
    rw [hin, hloop, tokenizeLoop_done]
    simp [lexAt, Lexer.addToken]
  · simp [hkeys, Token.keyLine, str]

theorem Tokenize_segs (segs : List Seg) (hwf : segsWf segs = true) :
    ∃ toks, (NewLexer (segsText segs)).Tokenize = .ok toks
      ∧ toks.map Token.key = segsKeys segs ++ [(EOF, [])] := by
  obtain ⟨line1, col1, ts, hloop, hkeys⟩ :=
    tokenizeLoop_segs segs hwf (segsText segs).length [] 1 1 [] (le_refl _)
  refine ⟨ts ++ [⟨EOF, str "", line1, col1⟩], ?_, ?_⟩
  · rw [Lexer.Tokenize, lexAt_nil]
    have hin : (lexAt [] (segsText segs) 1 1 []).input = segsText segs := rfl
    rw [hin, hloop]
    simp [lexAt, Lexer.addToken]
  · simp [hkeys, Token.key, str]

theorem Parse_segs (segs : List Seg) (hwf : segsWf segs = true) :
    ∃ toks, toks.map Token.key = segsKeys segs ++ [(EOF, [])]
      ∧ Parse (segsText segs) = Parser.parseProgram (parserAt [] toks) := by
  obtain ⟨toks, htok, hkeys⟩ := Tokenize_segs segs hwf
  exact ⟨toks, hkeys, by rw [Parse, htok]; rfl⟩

/-! ## The bounds of the lexer loops are never what stops them -/

theorem advanceWhileLoop_exit (cond : Nat → Bool) :
    ∀ (n : Nat) (l : Lexer), l.input.length - l.position ≤ n →
      ((Lexer.advanceWhileLoop cond n l).position < (Lexer.advanceWhileLoop cond n l).input.length
        ∧ cond (Lexer.advanceWhileLoop cond n l).currentChar = true) → False := by
  intro n
  induction n with
  | zero =>
    intro l hn h
    simp only [Lexer.advanceWhileLoop] at h
    omega
  | succ n ih =>
    intro l hn h
    simp only [Lexer.advanceWhileLoop] at h
    by_cases hc : (decide (l.position < l.input.length) && cond l.currentChar) = true
    · rw [if_pos hc] at h
      refine ih l.advance ?_ h
      simp only [Lexer.advance]
      omega
    · rw [if_neg hc] at h
      exact hc (by simp [h.1, h.2])

theorem advanceWhile_exit (cond : Nat → Bool) (l : Lexer) :
    ((Lexer.advanceWhile cond l).position < (Lexer.advanceWhile cond l).input.length
      ∧ cond (Lexer.advanceWhile cond l).currentChar = true) → False :=
  advanceWhileLoop_exit cond _ l (le_refl _)

theorem scanStringLoop_exit (quote : Nat) :
    ∀ (n : Nat) (l : Lexer), l.input.length - l.position ≤ n →
      ((Lexer.scanStringLoop quote n l).position < (Lexer.scanStringLoop quote n l).input.length
        ∧ (Lexer.scanStringLoop quote n l).currentChar ≠ quote) → False := by
  intro n
  induction n with
  | zero =>
    intro l hn h
    simp only [Lexer.scanStringLoop] at h
    omega
  | succ n ih =>
    intro l hn h
    simp only [Lexer.scanStringLoop] at h
    by_cases hc : (decide (l.position < l.input.length) && l.currentChar != quote) = true
    · rw [if_pos hc] at h
      refine ih _ ?_ h
      by_cases h10 : (l.currentChar == 10) = true
      · simp only [h10, ↓reduceIte, Lexer.advance]
        omega
      · simp only [h10, Bool.false_eq_true, ↓reduceIte, Lexer.advance]
        omega
    · rw [if_neg hc] at h
      exact hc (by simp [h.1, h.2])

/-! ## Unterminated strings (C6) -/

theorem scanStringLoop_unterminated (quote : Nat) (s : GoString) :
    ∀ (n : Nat) (pre : GoString) (line col : Nat) (toks : List Token),
      s.length ≤ n → quote ∉ s →
      ∃ col1, Lexer.scanStringLoop quote n (lexAt pre s line col toks) =
        lexAt (pre ++ s) [] (line + s.count 10) col1 toks := by
  induction s with
  | nil =>
    intro n pre line col toks _ _
    refine ⟨col, ?_⟩
    cases n <;> simp [Lexer.scanStringLoop]
  | cons a s ih =>
    intro n pre line col toks hn hq
    cases n with
    | zero => simp at hn
    | succ n =>
      have ha : (a != quote) = true := by
        simp only [List.mem_cons, not_or] at hq
        simpa using fun h => hq.1 h.symm
      have hs : quote ∉ s := fun h => hq (List.mem_cons_of_mem _ h)
      have hlen : s.length ≤ n := by simpa using hn
      by_cases h10 : a = 10
      · subst h10
        obtain ⟨col1, h⟩ := ih n (pre ++ [10]) (line + 1) (1 + 1) toks hlen hs
        refine ⟨col1, ?_⟩
        simp only [Lexer.scanStringLoop, position_lt_lexAt, currentChar_lexAt_cons, ha]
        simp only [ne_eq, reduceCtorEq, not_false_eq_true, decide_True, Bool.and_self, ↓reduceIte,
          beq_self_eq_true]
        show Lexer.scanStringLoop quote n (lexAt pre (10 :: s) (line + 1) 1 toks).advance = _
        rw [advance_lexAt, h]
        have hc : List.count 10 (10 :: s) = List.count 10 s + 1 := by simp
        have hadd : line + 1 + List.count 10 s = line + (List.count 10 s + 1) := by omega
        rw [hc, hadd, List.append_assoc]
        rfl
      · obtain ⟨col1, h⟩ := ih n (pre ++ [a]) line (col + 1) toks hlen hs
        refine ⟨col1, ?_⟩
        have h10b : (a == 10) = false := by simpa using h10
        simp only [Lexer.scanStringLoop, position_lt_lexAt, currentChar_lexAt_cons, ha]
        simp only [ne_eq, reduceCtorEq, not_false_eq_true, decide_True, Bool.and_self, ↓reduceIte,
          h10b, Bool.false_eq_true, advance_lexAt]
        rw [h]
        have hc : List.count 10 (a :: s) = List.count 10 s := by
          simp [List.count_cons, h10]
        simp [hc]

theorem scanString_unterminated (quote : Nat) (s pre : GoString) (line col : Nat)
    (toks : List Token) (hq : quote ∉ s) :
    (lexAt pre (quote :: s) line col toks).scanString =
      .error (str "unterminated string at line " ++ fmtD (line + s.count 10)) := by
  obtain ⟨col1, h⟩ := scanStringLoop_unterminated quote s s.length (pre ++ [quote]) line
    (col + 1) toks (le_refl _) hq
  have hlen : (lexAt (pre ++ [quote]) s line (col + 1) toks).input.length
      - (lexAt (pre ++ [quote]) s line (col + 1) toks).position = s.length := by
    simp [lexAt]
    omega
  simp only [Lexer.scanString, currentChar_lexAt_cons, advance_lexAt, hlen, h]
  simp [lexAt]

/-- C6: for a quote character `q` and a text `s` without `q`, `Tokenize` and
`Parse` of `print ` followed by `q` and `s` return an error and no tokens or
tree, with the message `unterminated string at line N`, where `N` is the line
the input ends on. -/
theorem C6_unterminated_string (q : Nat) (s : GoString) (hq : q = 34 ∨ q = 39) (hs : q ∉ s) :
    (NewLexer (str "print " ++ q :: s)).Tokenize =
      .error (str "unterminated string" ++ (str " at line " ++ fmtD (1 + s.count 10)))
    ∧ Parse (str "print " ++ q :: s) =
      .error (str "unterminated string" ++ (str " at line " ++ fmtD (1 + s.count 10))) := by
  have hsrc : str "print " ++ q :: s = str "print" ++ (str " " ++ q :: s) := by
    simp [str]
  have h1 := scanToken_word (str "print") [] (str " " ++ q :: s) 1 1 [] (by decide)
    (by intro c hc; simp [str] at hc; subst hc; decide)
  have h2 := scanToken_blank (str " ") ([] ++ str "print") (q :: s) 1 (1 + (str "print").length)
    ([] ++ [⟨identifierType (str "print"), str "print", 1, 1 + (str "print").length⟩])
    (by decide) (by intro c hc; simp at hc; subst hc; rcases hq with h | h <;> subst h <;> decide)
  have h3 : ∀ (pre : GoString) (line col : Nat) (toks : List Token),
      (lexAt pre (q :: s) line col toks).scanToken =
        .error (str "unterminated string at line " ++ fmtD (line + s.count 10)) := by
    intro pre line col toks
    rw [← scanString_unterminated q s pre line col toks hs]
    rcases hq with h | h <;> subst h <;>
      simp [Lexer.scanToken]
  have hmsg : str "unterminated string at line " ++ fmtD (1 + s.count 10) =
      str "unterminated string" ++ (str " at line " ++ fmtD (1 + s.count 10)) := by
    simp [str]
  have htok : (NewLexer (str "print " ++ q :: s)).Tokenize =
      .error (str "unterminated string" ++ (str " at line " ++ fmtD (1 + s.count 10))) := by
    rw [Lexer.Tokenize, lexAt_nil]
    have hin : (lexAt [] (str "print " ++ q :: s) 1 1 []).input.length = (s.length + 4) + 1 + 1 + 1 := by
      simp [lexAt, str]
    rw [hin, hsrc, Lexer.tokenizeLoop, if_pos (by rw [position_lt_lexAt]; simp [str]), h1]
    simp only []
    rw [Lexer.tokenizeLoop, if_pos (by rw [position_lt_lexAt]; simp [str]), h2]
    simp only []
    rw [Lexer.tokenizeLoop, if_pos (by rw [position_lt_lexAt]; simp), h3, hmsg]
  exact ⟨htok, by rw [Parse, htok]⟩

theorem C6_unterminated_string_witness :
    (NewLexer (str "print " ++ 34 :: str "abc")).Tokenize =
      .error (str "unterminated string" ++ (str " at line " ++ fmtD (1 + (str "abc").count 10)))
    ∧ Parse (str "print " ++ 34 :: str "abc") =
      .error (str "unterminated string" ++ (str " at line " ++ fmtD (1 + (str "abc").count 10))) :=
  C6_unterminated_string 34 (str "abc") (Or.inl rfl) (by decide)

/-! ## The parser on a token sequence -/

theorem parserAt_nil (toks : List Token) : ({ tokens := toks, current := 0 } : Parser) = parserAt [] toks :=
  rfl

@[simp] theorem tokens_parserAt (pre rest : List Token) :
    (parserAt pre rest).tokens = pre ++ rest := rfl

@[simp] theorem peek_parserAt (pre rest : List Token) (t : Token) :
    (parserAt pre (t :: rest)).peek = .ok t := by
  have h : (pre ++ t :: rest)[pre.length]? = some t := by
    rw [List.getElem?_append_right (le_refl _)]
    simp
  simp only [Parser.peek, parserAt, h]

@[simp] theorem previous_parserAt (pre rest : List Token) (t : Token) :
    (parserAt (pre ++ [t]) rest).previous = .ok t := by
  have h : (pre ++ [t] ++ rest)[(pre ++ [t]).length - 1]? = some t := by
    rw [List.append_assoc, List.getElem?_append_right (by simp)]
    simp
  simp only [Parser.previous, parserAt, h]
  simp

@[simp] theorem isAtEnd_parserAt (pre rest : List Token) (t : Token) :
    (parserAt pre (t :: rest)).isAtEnd = .ok (t.Typ == EOF) := by
  simp [Parser.isAtEnd]

@[simp] theorem check_parserAt (pre rest : List Token) (t : Token) (ty : TokenType) :
    (parserAt pre (t :: rest)).check ty = .ok (!(t.Typ == EOF) && t.Typ == ty) := by
  by_cases h : t.Typ = EOF <;> simp [Parser.check, h]

theorem advance_parserAt (pre rest : List Token) (t : Token) (h : t.Typ ≠ EOF) :
    (parserAt pre (t :: rest)).advance = .ok (t, parserAt (pre ++ [t]) rest) := by
  have hp : ({ tokens := pre ++ t :: rest, current := pre.length + 1 } : Parser) =
      parserAt (pre ++ [t]) rest := by
    simp [parserAt]
  have hb : (t.Typ == EOF) = false := by simpa using h
  simp only [Parser.advance, isAtEnd_parserAt, Result.bind_ok, hb]
  show ((⟨pre ++ t :: rest, pre.length + 1⟩ : Parser).previous.bind _) = _
  rw [hp, previous_parserAt]
  simp only [Result.bind_ok, Bool.not_false, ↓reduceIte]
  show Result.ok (t, (⟨pre ++ t :: rest, pre.length + 1⟩ : Parser)) = _
  rw [hp]

theorem checkNext_parserAt (pre rest : List Token) (t u : Token) (ty : TokenType) :
    (parserAt pre (t :: u :: rest)).checkNext ty = .ok (u.Typ == ty) := by
  have h : (pre ++ t :: u :: rest)[pre.length + 1]? = some u := by
    rw [List.getElem?_append_right (by omega)]
    simp
  simp [Parser.checkNext, parserAt, h]

theorem matchTypes_parserAt (types : List TokenType) (pre rest : List Token) (t : Token) :
    (parserAt pre (t :: rest)).matchTypes types =
      if t.Typ ≠ EOF ∧ t.Typ ∈ types then .ok (true, parserAt (pre ++ [t]) rest)
      else .ok (false, parserAt pre (t :: rest)) := by
  induction types with
  | nil => simp [Parser.matchTypes]
  | cons ty types ih =>
    by_cases h : t.Typ = EOF
    · simp [Parser.matchTypes, h, ih]
    · by_cases h2 : t.Typ = ty
      · subst h2
        simp [Parser.matchTypes, h, advance_parserAt]
      · simp [Parser.matchTypes, h, h2, ih]

theorem consume_parserAt (pre rest : List Token) (t : Token) (ty : TokenType) (msg : GoString) :
    (parserAt pre (t :: rest)).consume ty msg =
      if t.Typ ≠ EOF ∧ t.Typ = ty then .ok (none, parserAt (pre ++ [t]) rest)
      else .ok (some (msg ++ str ", got " ++ t.fmtV), parserAt pre (t :: rest)) := by
  by_cases h : t.Typ = EOF
  · simp [Parser.consume, h]
  · by_cases h2 : t.Typ = ty
    · subst h2
      simp [Parser.consume, h, advance_parserAt]
    · simp [Parser.consume, h, h2]

/-! ## Expressions: leaves, levels and chains -/

theorem parsePrimary_leaf (expression : Parser → Res Expression) (t : Token)
    (ht : t.isPrimary = true) :
    ParsesAs (parsePrimary expression) (fun ty => ty != LPAREN) [t] t.leaf := by
  intro pre u rest hu
  have hu1 : ¬ u.Typ = LPAREN := by simpa using hu
  obtain ⟨ty, v, ln, cl⟩ := t
  simp only [Token.isPrimary, Bool.or_eq_true, beq_iff_eq] at ht
  rcases ht with (h | h) | h <;> subst h <;>
    simp [parsePrimary, matchTypes_parserAt, Token.leaf, hu1]

theorem binaryLoop_stop (types : List TokenType) (operand : Parser → Res Expression) (n : Nat)
    (e : Expression) (pre rest : List Token) (u : Token) (hu : u.Typ = EOF ∨ u.Typ ∉ types) :
    binaryLoop types operand (n + 1) e (parserAt pre (u :: rest)) =
      .ok (e, parserAt pre (u :: rest)) := by
  have h : ¬ (u.Typ ≠ EOF ∧ u.Typ ∈ types) := by
    rintro ⟨h1, h2⟩
    rcases hu with h | h
    · exact h1 h
    · exact h h2
  simp [binaryLoop, matchTypes_parserAt, h]

theorem chainTokens_head (stop : TokenType → Bool)
    (chain : List (Token × List Token × Expression)) (u : Token) (rest : List Token)
    (hstop : ∀ x ∈ chain, stop x.1.Typ = true) (hu : stop u.Typ = true) :
    ∃ v rest1, chainTokens chain ++ u :: rest = v :: rest1 ∧ stop v.Typ = true := by
  cases chain with
  | nil => exact ⟨u, rest, rfl, hu⟩
  | cons x chain =>
    obtain ⟨o, toks, tree⟩ := x
    exact ⟨o, toks ++ chainTokens chain ++ u :: rest, by simp [chainTokens],
      hstop _ (List.mem_cons_self _ _)⟩

theorem binaryLoop_chain (types : List TokenType) (operand : Parser → Res Expression)
    (stop : TokenType → Bool) (chain : List (Token × List Token × Expression)) :
    ∀ (n : Nat) (e : Expression) (pre rest : List Token) (u : Token),
      (∀ x ∈ chain, x.1.Typ ∈ types ∧ x.1.Typ ≠ EOF ∧ stop x.1.Typ = true
        ∧ ParsesAs operand stop x.2.1 x.2.2) →
      stop u.Typ = true → (u.Typ = EOF ∨ u.Typ ∉ types) → chain.length < n →
      binaryLoop types operand n e (parserAt pre (chainTokens chain ++ u :: rest)) =
        .ok (chainTree e chain, parserAt (pre ++ chainTokens chain) (u :: rest)) := by
  induction chain with
  | nil =>
    intro n e pre rest u _ _ hu hn
    cases n with
    | zero => simp at hn
    | succ n => simpa [chainTokens, chainTree] using binaryLoop_stop types operand n e pre rest u hu
  | cons x chain ih =>
    intro n e pre rest u hchain hstop hu hn
    obtain ⟨o, toks, tree⟩ := x
    cases n with
    | zero => simp at hn
    | succ n =>
      have hx := hchain (o, toks, tree) (List.mem_cons_self _ _)
      obtain ⟨ho1, ho2, _, hparse⟩ := hx
      have hrest : ∀ x ∈ chain, x.1.Typ ∈ types ∧ x.1.Typ ≠ EOF ∧ stop x.1.Typ = true
          ∧ ParsesAs operand stop x.2.1 x.2.2 :=
        fun x hx => hchain x (List.mem_cons_of_mem _ hx)
      obtain ⟨v, rest1, hv, hvstop⟩ := chainTokens_head stop chain u rest
        (fun x hx => (hrest x hx).2.2.1) hstop
      have hop := hparse (pre ++ [o]) v rest1 hvstop
      simp only at hop
      have hm : o.Typ ≠ EOF ∧ o.Typ ∈ types := ⟨ho2, ho1⟩
      simp only [chainTokens, List.cons_append, List.append_assoc, binaryLoop,
        matchTypes_parserAt]
      rw [if_pos hm]
      simp only [Result.bind_ok, previous_parserAt, ↓reduceIte]
      rw [hv, hop]
      simp only [Result.bind_ok, chainTree]
      rw [← hv, ih n _ (pre ++ [o] ++ toks) rest u hrest hstop hu (by simpa using hn)]
      simp

theorem chainTokens_length (chain : List (Token × List Token × Expression)) :
    chain.length ≤ (chainTokens chain).length := by
  induction chain with
  | nil => simp
  | cons x chain ih =>
    obtain ⟨o, toks, tree⟩ := x
    simp [chainTokens]
    omega

theorem binaryLevel_chain (types : List TokenType) (operand : Parser → Res Expression)
    (stop : TokenType → Bool) (toks : List Token) (tree : Expression)
    (chain : List (Token × List Token × Expression))
    (hfirst : ParsesAs operand stop toks tree)
    (hchain : ∀ x ∈ chain, x.1.Typ ∈ types ∧ x.1.Typ ≠ EOF ∧ stop x.1.Typ = true
        ∧ ParsesAs operand stop x.2.1 x.2.2) :
    ParsesAs (binaryLevel types operand)
      (fun ty => stop ty && (ty == EOF || !decide (ty ∈ types)))
      (toks ++ chainTokens chain) (chainTree tree chain) := by
  intro pre u rest hu
  simp only [Bool.and_eq_true, Bool.or_eq_true, beq_iff_eq, Bool.not_eq_true',
    decide_eq_false_iff_not] at hu
  obtain ⟨hu1, hu2⟩ := hu
  obtain ⟨v, rest1, hv, hvstop⟩ := chainTokens_head stop chain u rest
    (fun x hx => (hchain x hx).2.2.1) hu1
  have hop := hfirst pre v rest1 hvstop
  rw [binaryLevel, List.append_assoc, hv, hop]
  simp only [Result.bind_ok, tokens_parserAt]
  rw [← hv, binaryLoop_chain types operand stop chain _ tree (pre ++ toks) rest u hchain hu1 hu2]
  · simp
  · have := chainTokens_length chain
    simp
    omega

theorem ParsesAs.mono {α : Type} {operand : Parser → Res α} {stop stop1 : TokenType → Bool}
    {toks : List Token} {tree : α} (h : ParsesAs operand stop toks tree)
    (hs : ∀ ty, stop1 ty = true → stop ty = true) : ParsesAs operand stop1 toks tree :=
  fun pre u rest hu => h pre u rest (hs _ hu)

theorem parseExpression_parsesAs (stop : TokenType → Bool) (toks : List Token)
    (tree : Expression)
    (h : ∀ expression, ParsesAs (parseComparison expression) stop toks tree) :
    ParsesAs parseExpression stop toks tree := by
  intro pre u rest hu
  rw [parseExpression, parseExpressionDepth]
  exact h _ pre u rest hu

theorem skipNewlines_parserAt (pre rest : List Token) (t : Token) (h : t.Typ ≠ NEWLINE) :
    (parserAt pre (t :: rest)).skipNewlines = .ok (parserAt pre (t :: rest)) := by
  simp [Parser.skipNewlines, Parser.skipNewlinesLoop, h]

/-- A source that is one expression, not starting like an assignment, is parsed
into one expression statement. -/
theorem parseProgram_expression (stop : TokenType → Bool) (toks rest : List Token)
    (t0 t1 eof : Token) (tree : Expression)
    (htoks : toks ++ [eof] = t0 :: t1 :: rest)
    (hparse : ParsesAs parseExpression stop toks tree)
    (hstop : stop EOF = true) (heof : eof.Typ = EOF)
    (h0 : t0.Typ ∉ [EOF, NEWLINE, PRINT, IF, FOR])
    (h1 : ¬ (t0.Typ = IDENTIFIER ∧ t1.Typ = ASSIGN)) :
    parseProgram (parserAt [] (toks ++ [eof])) = .ok ⟨[ExpressionStatement tree]⟩ := by
  have hexpr := hparse [] eof [] (by rw [heof]; exact hstop)
  simp only [List.mem_cons, List.mem_singleton, not_or, List.not_mem_nil, or_false] at h0
  obtain ⟨h01, h02, h03, h04, h05⟩ := h0
  rw [htoks] at hexpr
  rw [htoks]
  have hlen : (parserAt [] (t0 :: t1 :: rest)).tokens.length + 1 = (rest.length + 1) + 1 + 1 := by
    simp
  have hstmt : (parserAt [] (t0 :: t1 :: rest)).parseStatement =
      .ok (ExpressionStatement tree, parserAt ([] ++ toks) [eof]) := by
    rw [parseStatement, hlen, parseStatementDepth]
    by_cases hi : t0.Typ = IDENTIFIER
    · have h1b : ¬ t1.Typ = ASSIGN := fun h => h1 ⟨hi, h⟩
      simp [checkNext_parserAt, hi, h1b, hexpr]
    · simp [h01, h03, h04, h05, hi, hexpr]
  have hskip : (parserAt ([] ++ toks) [eof]).skipNewlines = .ok (parserAt ([] ++ toks) [eof]) :=
    skipNewlines_parserAt _ _ _ (by rw [heof]; decide)
  rw [parseProgram, hlen, parseProgramLoop]
  simp only [isAtEnd_parserAt, check_parserAt, Result.bind_ok, hstmt, hskip]
  simp [h01, h02, parseProgramLoop, heof]

/-! ## Sources written with single spaces between tokens -/

theorem Seg.text_head_of_token (s : Seg) (hwf : s.wf = true) (htok : s.isToken = true) :
    ∃ c rest, s.text = c :: rest ∧ isBlankChar c = false := by
  cases s with
  | word w =>
    cases w with
    | nil => simp [Seg.wf, isWord] at hwf
    | cons c rest =>
      refine ⟨c, rest, rfl, ?_⟩
      simp [Seg.wf, isWord, isAlpha] at hwf
      simp [isBlankChar]
      omega
  | number w =>
    cases w with
    | nil => simp [Seg.wf, isNumberText] at hwf
    | cons c rest =>
      refine ⟨c, rest, rfl, ?_⟩
      simp [Seg.wf, isNumberText, isDigit] at hwf
      simp [isBlankChar]
      omega
  | blank w => simp [Seg.isToken] at htok
  | symbol t =>
    cases t <;> simp [Seg.wf, symbolText] at hwf <;>
      simp [Seg.text, symbolText, str, isBlankChar]
  | newline => simp [Seg.text, str, isBlankChar]
  | cr => simp [Seg.text, str, isBlankChar]
  | crlf => simp [Seg.text, str, isBlankChar]
  | comment w => simp [Seg.isToken] at htok
  | string quote v =>
    simp [Seg.wf] at hwf
    refine ⟨quote, v ++ [quote], rfl, ?_⟩
    rcases hwf.1 with h | h <;> simp [h, isBlankChar]

theorem Seg.endsBefore_space (s : Seg) (htok : s.isToken = true) :
    s.endsBefore (some 32) = true := by
  cases s <;> first | (simp [Seg.isToken] at htok; done) | simp [Seg.endsBefore, isIdentChar, isNumberChar, isAlnum, isAlpha, isDigit]

theorem segsWf_spaced (segs : List Seg) :
    (∀ s ∈ segs, s.wf = true ∧ s.isToken = true) → segsWf (spaced segs) = true := by
  induction segs with
  | nil => intro _; rfl
  | cons s ss ih =>
    intro h
    have hs := h s (List.mem_cons_self _ _)
    have hss := ih (fun x hx => h x (List.mem_cons_of_mem _ hx))
    cases ss with
    | nil => simp [spaced, segsWf, hs.1, segsText, Seg.endsBefore]
    | cons t ss =>
      have ht := h t (List.mem_cons_of_mem _ (List.mem_cons_self _ _))
      obtain ⟨c, rest, hc, hblank⟩ := Seg.text_head_of_token t ht.1 ht.2
      have hhead : (segsText (spaced (t :: ss))).head? = some c := by
        cases ss <;> simp [spaced, segsText, hc]
      have hsp : (Seg.blank (str " ")).wf = true := by decide
      have htx : (Seg.blank (str " ")).text = 32 :: [] := by rfl
      simp only [spaced, segsWf, hs.1, hss, Bool.and_true, Bool.true_and, segsText, hsp, htx,
        List.cons_append, List.head?_cons, Seg.endsBefore_space s hs.2, hhead]
      simp [Seg.endsBefore, hblank]

theorem segsKeys_spaced (segs : List Seg) : segsKeys (spaced segs) = segsKeys segs := by
  induction segs with
  | nil => rfl
  | cons s ss ih =>
    cases ss with
    | nil => rfl
    | cons t ss =>
      have hb : (Seg.blank (str " ")).keys = [] := rfl
      simp only [spaced, segsKeys, hb, List.nil_append]
      simp only [segsKeys] at ih
      rw [ih]

theorem Primary.seg_text (p : Primary) : p.seg.text = p.text := by
  cases p <;> rfl

theorem Primary.seg_wf (p : Primary) (h : p.wf = true) :
    p.seg.wf = true ∧ p.seg.isToken = true := by
  cases p with
  | number w => exact ⟨h, rfl⟩
  | identifier w =>
    simp [Primary.wf, isIdentifierText] at h
    exact ⟨h.1, rfl⟩

theorem Primary.seg_keys (p : Primary) (h : p.wf = true) : p.seg.keys = [p.key] := by
  cases p with
  | number w => rfl
  | identifier w =>
    simp [Primary.wf, isIdentifierText] at h
    simp [Primary.seg, Seg.keys, Primary.key, h.2]

theorem Primary.leaf_of_key (p : Primary) (t : Token) (h : t.key = p.key) :
    t.isPrimary = true ∧ t.leaf = p.tree := by
  obtain ⟨ty, v, ln, cl⟩ := t
  cases p <;> simp [Token.key, Primary.key] at h <;> obtain ⟨rfl, rfl⟩ := h <;>
    exact ⟨rfl, rfl⟩

/-! ## The three binary levels -/

theorem stop_of_multiplicative (ty : TokenType) (h : ty ∈ [DIVIDE, MULTIPLY, MODULO]) :
    ty ≠ EOF ∧ stopPrimary ty = true := by
  simp only [List.mem_cons, List.mem_singleton, List.not_mem_nil, or_false] at h
  rcases h with rfl | rfl | rfl <;> exact ⟨by decide, rfl⟩

theorem stop_of_additive (ty : TokenType) (h : ty ∈ [MINUS, PLUS]) :
    ty ≠ EOF ∧ stopMultiplication ty = true := by
  simp only [List.mem_cons, List.mem_singleton, List.not_mem_nil, or_false] at h
  rcases h with rfl | rfl <;> exact ⟨by decide, rfl⟩

theorem stop_of_comparison (ty : TokenType)
    (h : ty ∈ [GREATER, GREATER_EQ, LESS, LESS_EQ, EQUAL, NOT_EQUAL]) :
    ty ≠ EOF ∧ stopAddition ty = true := by
  simp only [List.mem_cons, List.mem_singleton, List.not_mem_nil, or_false] at h
  rcases h with rfl | rfl | rfl | rfl | rfl | rfl <;> exact ⟨by decide, rfl⟩

theorem parseMultiplication_chain (expression : Parser → Res Expression) (toks : List Token)
    (tree : Expression) (chain : List (Token × List Token × Expression))
    (hfirst : ParsesAs (parsePrimary expression) stopPrimary toks tree)
    (hchain : ∀ x ∈ chain, x.1.Typ ∈ [DIVIDE, MULTIPLY, MODULO]
      ∧ ParsesAs (parsePrimary expression) stopPrimary x.2.1 x.2.2) :
    ParsesAs (parseMultiplication expression) stopMultiplication
      (toks ++ chainTokens chain) (chainTree tree chain) :=
  binaryLevel_chain _ _ stopPrimary toks tree chain hfirst fun x hx =>
    ⟨(hchain x hx).1, (stop_of_multiplicative _ (hchain x hx).1).1,
      (stop_of_multiplicative _ (hchain x hx).1).2, (hchain x hx).2⟩

theorem parseAddition_chain (expression : Parser → Res Expression) (toks : List Token)
    (tree : Expression) (chain : List (Token × List Token × Expression))
    (hfirst : ParsesAs (parseMultiplication expression) stopMultiplication toks tree)
    (hchain : ∀ x ∈ chain, x.1.Typ ∈ [MINUS, PLUS]
      ∧ ParsesAs (parseMultiplication expression) stopMultiplication x.2.1 x.2.2) :
    ParsesAs (parseAddition expression) stopAddition
      (toks ++ chainTokens chain) (chainTree tree chain) :=
  binaryLevel_chain _ _ stopMultiplication toks tree chain hfirst fun x hx =>
    ⟨(hchain x hx).1, (stop_of_additive _ (hchain x hx).1).1,
      (stop_of_additive _ (hchain x hx).1).2, (hchain x hx).2⟩

theorem parseComparison_chain (expression : Parser → Res Expression) (toks : List Token)
    (tree : Expression) (chain : List (Token × List Token × Expression))
    (hfirst : ParsesAs (parseAddition expression) stopAddition toks tree)
    (hchain : ∀ x ∈ chain, x.1.Typ ∈ [GREATER, GREATER_EQ, LESS, LESS_EQ, EQUAL, NOT_EQUAL]
      ∧ ParsesAs (parseAddition expression) stopAddition x.2.1 x.2.2) :
    ParsesAs (parseComparison expression) stopComparison
      (toks ++ chainTokens chain) (chainTree tree chain) :=
  binaryLevel_chain _ _ stopAddition toks tree chain hfirst fun x hx =>
    ⟨(hchain x hx).1, (stop_of_comparison _ (hchain x hx).1).1,
      (stop_of_comparison _ (hchain x hx).1).2, (hchain x hx).2⟩

theorem parsePrimary_token (expression : Parser → Res Expression) (t : Token)
    (ht : t.isPrimary = true) :
    ParsesAs (parsePrimary expression) stopPrimary [t] t.leaf :=
  parsePrimary_leaf expression t ht

theorem parseMultiplication_lift (expression : Parser → Res Expression) (toks : List Token)
    (tree : Expression) (h : ParsesAs (parsePrimary expression) stopPrimary toks tree) :
    ParsesAs (parseMultiplication expression) stopMultiplication toks tree := by
  simpa [chainTokens, chainTree] using parseMultiplication_chain expression toks tree [] h (by simp)

theorem parseAddition_lift (expression : Parser → Res Expression) (toks : List Token)
    (tree : Expression)
    (h : ParsesAs (parseMultiplication expression) stopMultiplication toks tree) :
    ParsesAs (parseAddition expression) stopAddition toks tree := by
  simpa [chainTokens, chainTree] using parseAddition_chain expression toks tree [] h (by simp)

theorem parseComparison_lift (expression : Parser → Res Expression) (toks : List Token)
    (tree : Expression) (h : ParsesAs (parseAddition expression) stopAddition toks tree) :
    ParsesAs (parseComparison expression) stopComparison toks tree := by
  simpa [chainTokens, chainTree] using parseComparison_chain expression toks tree [] h (by simp)

/-- A token sequence that starts with a primary and an operator and is one
expression for `parseComparison` is parsed into one expression statement. -/
theorem parseProgram_comparison (toks rest : List Token) (t0 t1 eof : Token) (tree : Expression)
    (htoks : toks ++ [eof] = t0 :: t1 :: rest)
    (hparse : ∀ expression, ParsesAs (parseComparison expression) stopComparison toks tree)
    (heof : eof.Typ = EOF) (h0 : t0.isPrimary = true) (h1 : t1.Typ ≠ ASSIGN) :
    parseProgram (parserAt [] (toks ++ [eof])) = .ok ⟨[ExpressionStatement tree]⟩ := by
  refine parseProgram_expression stopComparison toks rest t0 t1 eof tree htoks
    (parseExpression_parsesAs _ _ _ hparse) rfl heof ?_ (fun h => h1 h.2)
  simp only [Token.isPrimary, Bool.or_eq_true, beq_iff_eq] at h0
  rcases h0 with (h | h) | h <;> rw [h] <;> decide

/-! ## Operator precedence (C2) -/

theorem Parse_spaced (segs : List Seg) (hwf : ∀ s ∈ segs, s.wf = true ∧ s.isToken = true) :
    ∃ toks, toks.map Token.key = segsKeys segs ++ [(EOF, [])]
      ∧ Parse (segsText (spaced segs)) = parseProgram (parserAt [] toks) := by
  obtain ⟨toks, hkeys, hparse⟩ := Parse_segs (spaced segs) (segsWf_spaced segs hwf)
  exact ⟨toks, by rw [hkeys, segsKeys_spaced], hparse⟩

theorem map_key_cons {toks : List Token} {k : TokenType × GoString}
    {ks : List (TokenType × GoString)} (h : toks.map Token.key = k :: ks) :
    ∃ t ts, toks = t :: ts ∧ t.key = k ∧ ts.map Token.key = ks := by
  cases toks with
  | nil => simp at h
  | cons t ts =>
    simp only [List.map_cons, List.cons.injEq] at h
    exact ⟨t, ts, rfl, h.1, h.2⟩

theorem symbol_seg_wf (t : TokenType) (h : symbolText t ≠ []) :
    (Seg.symbol t).wf = true ∧ (Seg.symbol t).isToken = true := by
  simp [Seg.wf, Seg.isToken, h]

theorem Parse_five (a b c : Primary) (o1 o2 : TokenType)
    (ha : a.wf = true) (hb : b.wf = true) (hc : c.wf = true)
    (h1 : symbolText o1 ≠ []) (h2 : symbolText o2 ≠ []) :
    ∃ ta t1 tb t2 tc eof, ta.key = a.key ∧ t1.key = (o1, symbolText o1) ∧ tb.key = b.key
      ∧ t2.key = (o2, symbolText o2) ∧ tc.key = c.key ∧ eof.Typ = EOF
      ∧ Parse (a.text ++ str " " ++ symbolText o1 ++ str " " ++ b.text ++ str " "
          ++ symbolText o2 ++ str " " ++ c.text) =
        parseProgram (parserAt [] ([ta, t1, tb, t2, tc] ++ [eof])) := by
  obtain ⟨toks, hkeys, hparse⟩ :=
    Parse_spaced [a.seg, .symbol o1, b.seg, .symbol o2, c.seg] (by
      intro s hs
      simp only [List.mem_cons, List.mem_singleton, List.not_mem_nil, or_false] at hs
      rcases hs with rfl | rfl | rfl | rfl | rfl
      · exact Primary.seg_wf a ha
      · exact symbol_seg_wf o1 h1
      · exact Primary.seg_wf b hb
      · exact symbol_seg_wf o2 h2
      · exact Primary.seg_wf c hc)
  simp only [segsKeys] at hkeys
  rw [Primary.seg_keys a ha, Primary.seg_keys b hb, Primary.seg_keys c hc] at hkeys
  simp only [Seg.keys, List.cons_append, List.nil_append, List.append_nil] at hkeys
  obtain ⟨ta, ts, rfl, hka, hkeys⟩ := map_key_cons hkeys
  obtain ⟨t1, ts, rfl, hk1, hkeys⟩ := map_key_cons hkeys
  obtain ⟨tb, ts, rfl, hkb, hkeys⟩ := map_key_cons hkeys
  obtain ⟨t2, ts, rfl, hk2, hkeys⟩ := map_key_cons hkeys
  obtain ⟨tc, ts, rfl, hkc, hkeys⟩ := map_key_cons hkeys
  obtain ⟨eof, ts, rfl, hke, hkeys⟩ := map_key_cons hkeys
  have hnil : ts = [] := by simpa using hkeys
  subst hnil
  refine ⟨ta, t1, tb, t2, tc, eof, hka, hk1, hkb, hk2, hkc, ?_, ?_⟩
  · simpa [Token.key] using (congrArg Prod.fst hke)
  · have htext : segsText (spaced [a.seg, .symbol o1, b.seg, .symbol o2, c.seg]) =
        a.text ++ str " " ++ symbolText o1 ++ str " " ++ b.text ++ str " "
          ++ symbolText o2 ++ str " " ++ c.text := by
      simp only [spaced, segsText, Primary.seg_text]
      simp [Seg.text, str]
    rw [← htext, hparse]
    rfl

theorem key_typ {t : Token} {ty : TokenType} {v : GoString} (h : t.key = (ty, v)) :
    t.Typ = ty ∧ t.Value = v := by
  simpa [Token.key] using h

/-- Tokens `a p b m c`: the multiplication binds tighter on the right. -/
theorem parseProgram_add_mul (ta tp tb tm tc eof : Token) (ha : ta.isPrimary = true)
    (hb : tb.isPrimary = true) (hc : tc.isPrimary = true) (hp : tp.Typ ∈ [MINUS, PLUS])
    (hm : tm.Typ ∈ [DIVIDE, MULTIPLY, MODULO]) (heof : eof.Typ = EOF) :
    parseProgram (parserAt [] ([ta, tp, tb, tm, tc] ++ [eof])) =
      .ok ⟨[ExpressionStatement (BinaryExpression ta.leaf tp.Value
        (BinaryExpression tb.leaf tm.Value tc.leaf))]⟩ := by
  refine parseProgram_comparison [ta, tp, tb, tm, tc] [tb, tm, tc, eof] ta tp eof _ rfl ?_ heof ha
    (by intro h; rw [h] at hp; simp at hp)
  intro expression
  refine parseComparison_lift expression _ _ ?_
  exact parseAddition_chain expression [ta] ta.leaf
    [(tp, [tb, tm, tc], BinaryExpression tb.leaf tm.Value tc.leaf)]
    (parseMultiplication_lift expression _ _ (parsePrimary_token expression ta ha))
    (by
      intro x hx
      simp only [List.mem_singleton] at hx
      subst hx
      exact ⟨hp, parseMultiplication_chain expression [tb] tb.leaf [(tm, [tc], tc.leaf)]
        (parsePrimary_token expression tb hb) (by
          intro y hy
          simp only [List.mem_singleton] at hy
          subst hy
          exact ⟨hm, parsePrimary_token expression tc hc⟩)⟩)

/-- Tokens `a m b p c`: the multiplication binds tighter on the left. -/
theorem parseProgram_mul_add (ta tm tb tp tc eof : Token) (ha : ta.isPrimary = true)
    (hb : tb.isPrimary = true) (hc : tc.isPrimary = true) (hp : tp.Typ ∈ [MINUS, PLUS])
    (hm : tm.Typ ∈ [DIVIDE, MULTIPLY, MODULO]) (heof : eof.Typ = EOF) :
    parseProgram (parserAt [] ([ta, tm, tb, tp, tc] ++ [eof])) =
      .ok ⟨[ExpressionStatement (BinaryExpression
        (BinaryExpression ta.leaf tm.Value tb.leaf) tp.Value tc.leaf)]⟩ := by
  refine parseProgram_comparison [ta, tm, tb, tp, tc] [tb, tp, tc, eof] ta tm eof _ rfl ?_ heof ha
    (by intro h; rw [h] at hm; simp at hm)
  intro expression
  refine parseComparison_lift expression _ _ ?_
  exact parseAddition_chain expression [ta, tm, tb] (BinaryExpression ta.leaf tm.Value tb.leaf)
    [(tp, [tc], tc.leaf)]
    (parseMultiplication_chain expression [ta] ta.leaf [(tm, [tb], tb.leaf)]
      (parsePrimary_token expression ta ha) (by
        intro y hy
        simp only [List.mem_singleton] at hy
        subst hy
        exact ⟨hm, parsePrimary_token expression tb hb⟩))
    (by
      intro x hx
      simp only [List.mem_singleton] at hx
      subst hx
      exact ⟨hp, parseMultiplication_lift expression _ _ (parsePrimary_token expression tc hc)⟩)

/-- Tokens `a q b p c`: the addition binds tighter than the comparison. -/
theorem parseProgram_cmp_add (ta tq tb tp tc eof : Token) (ha : ta.isPrimary = true)
    (hb : tb.isPrimary = true) (hc : tc.isPrimary = true) (hp : tp.Typ ∈ [MINUS, PLUS])
    (hq : tq.Typ ∈ [GREATER, GREATER_EQ, LESS, LESS_EQ, EQUAL, NOT_EQUAL])
    (heof : eof.Typ = EOF) :
    parseProgram (parserAt [] ([ta, tq, tb, tp, tc] ++ [eof])) =
      .ok ⟨[ExpressionStatement (BinaryExpression ta.leaf tq.Value
        (BinaryExpression tb.leaf tp.Value tc.leaf))]⟩ := by
  refine parseProgram_comparison [ta, tq, tb, tp, tc] [tb, tp, tc, eof] ta tq eof _ rfl ?_ heof ha
    (by intro h; rw [h] at hq; simp at hq)
  intro expression
  exact parseComparison_chain expression [ta] ta.leaf
    [(tq, [tb, tp, tc], BinaryExpression tb.leaf tp.Value tc.leaf)]
    (parseAddition_lift expression _ _
      (parseMultiplication_lift expression _ _ (parsePrimary_token expression ta ha)))
    (by
      intro x hx
      simp only [List.mem_singleton] at hx
      subst hx
      exact ⟨hq, parseAddition_chain expression [tb] tb.leaf [(tp, [tc], tc.leaf)]
        (parseMultiplication_lift expression _ _ (parsePrimary_token expression tb hb)) (by
          intro y hy
          simp only [List.mem_singleton] at hy
          subst hy
          exact ⟨hp, parseMultiplication_lift expression _ _
            (parsePrimary_token expression tc hc)⟩)⟩)

/-- C2: with `a`, `b`, `c` number literals or identifiers, `p` additive, `m`
multiplicative and `q` a comparison operator, `a p b m c` is parsed into
`Binary(a, p, Binary(b, m, c))`, `a m b p c` into `Binary(Binary(a, m, b), p, c)`
and `a q b p c` into `Binary(a, q, Binary(b, p, c))`; `result = 5 + 3 * 2` is an
assignment of `Binary(5, +, Binary(3, *, 2))` and not of
`Binary(Binary(5, +, 3), *, 2)`. -/
theorem C2_operator_precedence (a b c : Primary) (p m q : TokenType)
    (ha : a.wf = true) (hb : b.wf = true) (hc : c.wf = true)
    (hp : p ∈ [PLUS, MINUS]) (hm : m ∈ [MULTIPLY, DIVIDE, MODULO])
    (hq : q ∈ [EQUAL, NOT_EQUAL, LESS, LESS_EQ, GREATER, GREATER_EQ]) :
    Parse (a.text ++ str " " ++ symbolText p ++ str " " ++ b.text ++ str " "
        ++ symbolText m ++ str " " ++ c.text) =
      .ok ⟨[ExpressionStatement (BinaryExpression a.tree (symbolText p)
        (BinaryExpression b.tree (symbolText m) c.tree))]⟩
    ∧ Parse (a.text ++ str " " ++ symbolText m ++ str " " ++ b.text ++ str " "
        ++ symbolText p ++ str " " ++ c.text) =
      .ok ⟨[ExpressionStatement (BinaryExpression
        (BinaryExpression a.tree (symbolText m) b.tree) (symbolText p) c.tree)]⟩
    ∧ Parse (a.text ++ str " " ++ symbolText q ++ str " " ++ b.text ++ str " "
        ++ symbolText p ++ str " " ++ c.text) =
      .ok ⟨[ExpressionStatement (BinaryExpression a.tree (symbolText q)
        (BinaryExpression b.tree (symbolText p) c.tree))]⟩
    ∧ Parse (str "result = 5 + 3 * 2") =
      .ok ⟨[AssignmentStatement (str "result")
        (BinaryExpression (NumberLiteral (str "5")) (str "+")
          (BinaryExpression (NumberLiteral (str "3")) (str "*") (NumberLiteral (str "2"))))]⟩
    ∧ Parse (str "result = 5 + 3 * 2") ≠
      .ok ⟨[AssignmentStatement (str "result")
        (BinaryExpression
          (BinaryExpression (NumberLiteral (str "5")) (str "+") (NumberLiteral (str "3")))
          (str "*") (NumberLiteral (str "2")))]⟩ := by
  have hpt : symbolText p ≠ [] ∧ p ∈ [MINUS, PLUS] := by
    simp only [List.mem_cons, List.mem_singleton, List.not_mem_nil, or_false] at hp
    rcases hp with rfl | rfl <;> exact ⟨by decide, by decide⟩
  have hmt : symbolText m ≠ [] ∧ m ∈ [DIVIDE, MULTIPLY, MODULO] := by
    simp only [List.mem_cons, List.mem_singleton, List.not_mem_nil, or_false] at hm
    rcases hm with rfl | rfl | rfl <;> exact ⟨by decide, by decide⟩
  have hqt : symbolText q ≠ [] ∧ q ∈ [GREATER, GREATER_EQ, LESS, LESS_EQ, EQUAL, NOT_EQUAL] := by
    simp only [List.mem_cons, List.mem_singleton, List.not_mem_nil, or_false] at hq
    rcases hq with rfl | rfl | rfl | rfl | rfl | rfl <;> exact ⟨by decide, by decide⟩
  have hex : Parse (str "result = 5 + 3 * 2") =
      .ok ⟨[AssignmentStatement (str "result")
        (BinaryExpression (NumberLiteral (str "5")) (str "+")
          (BinaryExpression (NumberLiteral (str "3")) (str "*") (NumberLiteral (str "2"))))]⟩ :=
    rfl
  refine ⟨?_, ?_, ?_, hex, ?_⟩
  · obtain ⟨ta, t1, tb, t2, tc, eof, hka, hk1, hkb, hk2, hkc, heof, hparse⟩ :=
      Parse_five a b c p m ha hb hc hpt.1 hmt.1
    obtain ⟨ha1, ha2⟩ := Primary.leaf_of_key a ta hka
    obtain ⟨hb1, hb2⟩ := Primary.leaf_of_key b tb hkb
    obtain ⟨hc1, hc2⟩ := Primary.leaf_of_key c tc hkc
    obtain ⟨h1t, h1v⟩ := key_typ hk1
    obtain ⟨h2t, h2v⟩ := key_typ hk2
    rw [hparse, parseProgram_add_mul ta t1 tb t2 tc eof ha1 hb1 hc1 (by rw [h1t]; exact hpt.2)
      (by rw [h2t]; exact hmt.2) heof, ha2, hb2, hc2, h1v, h2v]
  · obtain ⟨ta, t1, tb, t2, tc, eof, hka, hk1, hkb, hk2, hkc, heof, hparse⟩ :=
      Parse_five a b c m p ha hb hc hmt.1 hpt.1
    obtain ⟨ha1, ha2⟩ := Primary.leaf_of_key a ta hka
    obtain ⟨hb1, hb2⟩ := Primary.leaf_of_key b tb hkb
    obtain ⟨hc1, hc2⟩ := Primary.leaf_of_key c tc hkc
    obtain ⟨h1t, h1v⟩ := key_typ hk1
    obtain ⟨h2t, h2v⟩ := key_typ hk2
    rw [hparse, parseProgram_mul_add ta t1 tb t2 tc eof ha1 hb1 hc1 (by rw [h2t]; exact hpt.2)
      (by rw [h1t]; exact hmt.2) heof, ha2, hb2, hc2, h1v, h2v]
  · obtain ⟨ta, t1, tb, t2, tc, eof, hka, hk1, hkb, hk2, hkc, heof, hparse⟩ :=
      Parse_five a b c q p ha hb hc hqt.1 hpt.1
    obtain ⟨ha1, ha2⟩ := Primary.leaf_of_key a ta hka
    obtain ⟨hb1, hb2⟩ := Primary.leaf_of_key b tb hkb
    obtain ⟨hc1, hc2⟩ := Primary.leaf_of_key c tc hkc
    obtain ⟨h1t, h1v⟩ := key_typ hk1
    obtain ⟨h2t, h2v⟩ := key_typ hk2
    rw [hparse, parseProgram_cmp_add ta t1 tb t2 tc eof ha1 hb1 hc1 (by rw [h2t]; exact hpt.2)
      (by rw [h1t]; exact hqt.2) heof, ha2, hb2, hc2, h1v, h2v]
  · rw [hex]
    intro h
    simp at h

theorem C2_operator_precedence_witness :
    Parse (str "5 + y * 2") =
      .ok ⟨[ExpressionStatement (BinaryExpression (NumberLiteral (str "5")) (str "+")
        (BinaryExpression (Identifier (str "y")) (str "*") (NumberLiteral (str "2"))))]⟩ :=
  (C2_operator_precedence (.number (str "5")) (.identifier (str "y")) (.number (str "2"))
    PLUS MULTIPLY LESS (by decide) (by decide) (by decide) (by decide) (by decide)
    (by decide)).1

/-! ## Left associativity (C3) -/

theorem segsText_spaced_opChain (chain : List (TokenType × Primary)) :
    ∀ s : Seg, segsText (spaced (s :: opChainSegs chain)) = s.text ++ opChainText chain := by
  induction chain with
  | nil => intro s; simp [opChainSegs, spaced, segsText, opChainText]
  | cons x chain ih =>
    intro s
    obtain ⟨o, p⟩ := x
    simp only [opChainSegs, spaced, segsText, ih, opChainText, Primary.seg_text]
    simp [Seg.text, str]

theorem segsKeys_opChain (chain : List (TokenType × Primary))
    (hwf : ∀ x ∈ chain, x.2.wf = true) : segsKeys (opChainSegs chain) = opChainKeys chain := by
  induction chain with
  | nil => rfl
  | cons x chain ih =>
    obtain ⟨o, p⟩ := x
    have hp : p.wf = true := hwf (o, p) (List.mem_cons_self _ _)
    simp only [opChainSegs, segsKeys, opChainKeys, Primary.seg_keys p hp,
      ih (fun x hx => hwf x (List.mem_cons_of_mem _ hx))]
    simp [Seg.keys]

theorem opChainSegs_wf (ops : List TokenType) (hops : ∀ o ∈ ops, symbolText o ≠ [])
    (chain : List (TokenType × Primary))
    (hwf : ∀ x ∈ chain, x.1 ∈ ops ∧ x.2.wf = true) :
    ∀ s ∈ opChainSegs chain, s.wf = true ∧ s.isToken = true := by
  induction chain with
  | nil => intro s hs; simp [opChainSegs] at hs
  | cons x chain ih =>
    obtain ⟨o, p⟩ := x
    intro s hs
    have hx := hwf (o, p) (List.mem_cons_self _ _)
    simp only [opChainSegs, List.mem_cons] at hs
    rcases hs with rfl | rfl | hs
    · exact symbol_seg_wf o (hops o hx.1)
    · exact Primary.seg_wf p hx.2
    · exact ih (fun x hx => hwf x (List.mem_cons_of_mem _ hx)) s hs

/-- Tokens with the kinds and texts of a chain of operators and primaries form
a chain whose operands are single primary tokens. -/
theorem tokens_of_opChainKeys (ops : List TokenType) (chain : List (TokenType × Primary)) :
    ∀ (toks : List Token) (ks : List (TokenType × GoString)),
      (∀ x ∈ chain, x.1 ∈ ops) →
      toks.map Token.key = opChainKeys chain ++ ks →
      ∃ (tchain : List (Token × List Token × Expression)) (ts : List Token),
        toks = chainTokens tchain ++ ts ∧ ts.map Token.key = ks
        ∧ (∀ x ∈ tchain, x.1.Typ ∈ ops
            ∧ ∃ tp : Token, x.2.1 = [tp] ∧ tp.isPrimary = true ∧ x.2.2 = tp.leaf)
        ∧ ∀ e, chainTree e tchain = opChainTree e chain := by
  induction chain with
  | nil =>
    intro toks ks _ h
    exact ⟨[], toks, rfl, h, by simp, fun e => rfl⟩
  | cons x chain ih =>
    obtain ⟨o, p⟩ := x
    intro toks ks hops h
    simp only [opChainKeys, List.cons_append] at h
    obtain ⟨top, ts, rfl, hko, h⟩ := map_key_cons h
    obtain ⟨tp, ts, rfl, hkp, h⟩ := map_key_cons h
    obtain ⟨tchain, ts1, rfl, hks, hchain, htree⟩ :=
      ih ts ks (fun x hx => hops x (List.mem_cons_of_mem _ hx)) h
    obtain ⟨hot, hov⟩ := key_typ hko
    obtain ⟨hp1, hp2⟩ := Primary.leaf_of_key p tp hkp
    refine ⟨(top, [tp], tp.leaf) :: tchain, ts1, by simp [chainTokens], hks, ?_, ?_⟩
    · intro x hx
      rcases List.mem_cons.1 hx with rfl | hx
      · exact ⟨by rw [hot]; exact hops (o, p) (List.mem_cons_self _ _), tp, rfl, hp1, rfl⟩
      · exact hchain x hx
    · intro e
      simp only [chainTree, opChainTree, hov, hp2, htree]

/-- A chain of operators of one level over primary tokens, as one statement. -/
theorem parseProgram_leaf_chain (ops : List TokenType)
    (hops : ops = [DIVIDE, MULTIPLY, MODULO] ∨ ops = [MINUS, PLUS]
      ∨ ops = [GREATER, GREATER_EQ, LESS, LESS_EQ, EQUAL, NOT_EQUAL])
    (t0 eof : Token) (tchain : List (Token × List Token × Expression))
    (h0 : t0.isPrimary = true) (heof : eof.Typ = EOF)
    (hchain : ∀ x ∈ tchain, x.1.Typ ∈ ops
      ∧ ∃ tp : Token, x.2.1 = [tp] ∧ tp.isPrimary = true ∧ x.2.2 = tp.leaf) :
    parseProgram (parserAt [] ((t0 :: chainTokens tchain) ++ [eof])) =
      .ok ⟨[ExpressionStatement (chainTree t0.leaf tchain)]⟩ := by
  have hne : ∀ ty ∈ ops, (ty != ASSIGN) = true := by
    intro ty hty
    rcases hops with rfl | rfl | rfl <;>
      simp only [List.mem_cons, List.mem_singleton, List.not_mem_nil, or_false] at hty
    · rcases hty with rfl | rfl | rfl <;> rfl
    · rcases hty with rfl | rfl <;> rfl
    · rcases hty with rfl | rfl | rfl | rfl | rfl | rfl <;> rfl
  obtain ⟨t1, rest, ht1, h1⟩ := chainTokens_head (fun ty => ty != ASSIGN) tchain eof []
    (fun x hx => hne _ (hchain x hx).1) (by rw [heof]; rfl)
  refine parseProgram_comparison (t0 :: chainTokens tchain) rest t0 t1 eof _
    (by rw [List.cons_append, ht1]) ?_ heof h0 (by simpa using h1)
  intro expression
  have hprim : ∀ x ∈ tchain, ParsesAs (parsePrimary expression) stopPrimary x.2.1 x.2.2 := by
    intro x hx
    obtain ⟨_, tp, h1, h2, h3⟩ := hchain x hx
    rw [h1, h3]
    exact parsePrimary_token expression tp h2
  have hfirst := parsePrimary_token expression t0 h0
  rcases hops with rfl | rfl | rfl
  · exact parseComparison_lift expression _ _ (parseAddition_lift expression _ _
      (parseMultiplication_chain expression [t0] t0.leaf tchain hfirst
        (fun x hx => ⟨(hchain x hx).1, hprim x hx⟩)))
  · exact parseComparison_lift expression _ _
      (parseAddition_chain expression [t0] t0.leaf tchain
        (parseMultiplication_lift expression _ _ hfirst)
        (fun x hx => ⟨(hchain x hx).1, parseMultiplication_lift expression _ _ (hprim x hx)⟩))
  · exact parseComparison_chain expression [t0] t0.leaf tchain
      (parseAddition_lift expression _ _ (parseMultiplication_lift expression _ _ hfirst))
      (fun x hx => ⟨(hchain x hx).1, parseAddition_lift expression _ _
        (parseMultiplication_lift expression _ _ (hprim x hx))⟩)

/-- C3: for primaries `p0..pn` (number literals or identifiers) and operators
`o1..on` all comparison, all additive or all multiplicative, `Parse` of
`p0 o1 p1 ... on pn` is the one expression statement with the left fold
`Binary(...Binary(Binary(p0, o1, p1), o2, p2)..., on, pn)`, each node's operator
being the source text of its operator. -/
theorem C3_left_associativity (first : Primary) (chain : List (TokenType × Primary))
    (hfirst : first.wf = true) (hwf : ∀ x ∈ chain, x.2.wf = true)
    (hlevel : (∀ x ∈ chain, x.1 ∈ [EQUAL, NOT_EQUAL, LESS, LESS_EQ, GREATER, GREATER_EQ])
      ∨ (∀ x ∈ chain, x.1 ∈ [PLUS, MINUS])
      ∨ (∀ x ∈ chain, x.1 ∈ [MULTIPLY, DIVIDE, MODULO])) :
    Parse (first.text ++ opChainText chain) =
      .ok ⟨[ExpressionStatement (opChainTree first.tree chain)]⟩ := by
  obtain ⟨ops, hops, hmem⟩ : ∃ ops : List TokenType,
      (ops = [DIVIDE, MULTIPLY, MODULO] ∨ ops = [MINUS, PLUS]
        ∨ ops = [GREATER, GREATER_EQ, LESS, LESS_EQ, EQUAL, NOT_EQUAL])
      ∧ ∀ x ∈ chain, x.1 ∈ ops := by
    rcases hlevel with h | h | h
    · exact ⟨_, Or.inr (Or.inr rfl), fun x hx => by
        have := h x hx
        simp only [List.mem_cons, List.mem_singleton, List.not_mem_nil, or_false] at this ⊢
        tauto⟩
    · exact ⟨_, Or.inr (Or.inl rfl), fun x hx => by
        have := h x hx
        simp only [List.mem_cons, List.mem_singleton, List.not_mem_nil, or_false] at this ⊢
        tauto⟩
    · exact ⟨_, Or.inl rfl, fun x hx => by
        have := h x hx
        simp only [List.mem_cons, List.mem_singleton, List.not_mem_nil, or_false] at this ⊢
        tauto⟩
  have hsym : ∀ o ∈ ops, symbolText o ≠ [] := by
    intro o ho
    rcases hops with rfl | rfl | rfl <;>
      simp only [List.mem_cons, List.mem_singleton, List.not_mem_nil, or_false] at ho
    · rcases ho with rfl | rfl | rfl <;> decide
    · rcases ho with rfl | rfl <;> decide
    · rcases ho with rfl | rfl | rfl | rfl | rfl | rfl <;> decide
  obtain ⟨toks, hkeys, hparse⟩ := Parse_spaced (first.seg :: opChainSegs chain) (by
    intro s hs
    rcases List.mem_cons.1 hs with rfl | hs
    · exact Primary.seg_wf first hfirst
    · exact opChainSegs_wf ops hsym chain (fun x hx => ⟨hmem x hx, hwf x hx⟩) s hs)
  rw [segsText_spaced_opChain, Primary.seg_text] at hparse
  simp only [segsKeys, Primary.seg_keys first hfirst, segsKeys_opChain chain hwf,
    List.cons_append, List.nil_append] at hkeys
  obtain ⟨t0, ts, rfl, hk0, hkeys⟩ := map_key_cons hkeys
  obtain ⟨tchain, ts1, rfl, hks, hchain, htree⟩ :=
    tokens_of_opChainKeys ops chain ts [(EOF, [])] hmem hkeys
  obtain ⟨eof, ts2, rfl, hke, hks⟩ := map_key_cons hks
  have hnil : ts2 = [] := by simpa using hks
  subst hnil
  obtain ⟨h01, h02⟩ := Primary.leaf_of_key first t0 hk0
  have heof : eof.Typ = EOF := (key_typ hke).1
  rw [hparse, ← List.cons_append,
    parseProgram_leaf_chain ops hops t0 eof tchain h01 heof hchain, htree, h02]

theorem C3_left_associativity_witness :
    Parse (str "a - 2 + c - d") =
      .ok ⟨[ExpressionStatement (BinaryExpression (BinaryExpression
        (BinaryExpression (Identifier (str "a")) (str "-") (NumberLiteral (str "2")))
        (str "+") (Identifier (str "c"))) (str "-") (Identifier (str "d")))]⟩ :=
  C3_left_associativity (.identifier (str "a"))
    [(MINUS, .number (str "2")), (PLUS, .identifier (str "c")), (MINUS, .identifier (str "d"))]
    (by decide) (by decide) (Or.inr (Or.inl (by decide)))

/-! ## Assignment without a right-hand side (C7) -/

theorem token_of_key {t : Token} {ty : TokenType} {v : GoString} (h : t.key = (ty, v)) :
    t = ⟨ty, v, t.Line, t.Column⟩ := by
  obtain ⟨ty1, v1, ln, cl⟩ := t
  simp only [Token.key, Prod.mk.injEq] at h
  obtain ⟨rfl, rfl⟩ := h
  rfl

theorem parseAssignmentStatement_value (p p1 : Parser) (stmt : Statement)
    (h : p.parseAssignmentStatement = .ok (stmt, p1)) :
    ∃ (name : GoString) (value : Expression) (p0 : Parser),
      stmt = AssignmentStatement name value ∧ p0.parseExpression = .ok (value, p1) := by
  simp only [parseAssignmentStatement, Result.bind_eq_ok] at h
  obtain ⟨c, -, h⟩ := h
  cases c with
  | false => simp at h
  | true =>
    simp only [Bool.not_true, Bool.false_eq_true, ↓reduceIte, Result.bind_eq_ok] at h
    obtain ⟨t, -, a, -, c1, -, value, hvalue, h⟩ := h
    simp only [Result.ok.injEq, Prod.mk.injEq] at h
    exact ⟨t.Value, value.1, c1.2, h.1.symm, by rw [hvalue, ← h.2]⟩

/-- C7: for an identifier `n` that is not a keyword, `Parse` of `n = ` and of
`n = ` followed by a line break returns an error and no tree: the message is
`unexpected token:` with the end marker, respectively the line break, that
stands where the right-hand side should. Whenever `parseAssignmentStatement`
does return a statement, it is an `AssignmentStatement` whose value is a tree
that `parseExpression` returned. -/
theorem C7_assignment_without_value (n : GoString) (hn : isIdentifierText n = true) :
    (∃ eof : Token, eof.key = (EOF, [])
      ∧ Parse (n ++ str " = ") = .error (str "unexpected token: " ++ eof.fmtV))
    ∧ (∃ nl : Token, nl.key = (NEWLINE, str "\n")
      ∧ Parse (n ++ str " = \n") = .error (str "unexpected token: " ++ nl.fmtV))
    ∧ ∀ (p p1 : Parser) (stmt : Statement), p.parseAssignmentStatement = .ok (stmt, p1) →
        ∃ (name : GoString) (value : Expression) (p0 : Parser),
          stmt = AssignmentStatement name value ∧ p0.parseExpression = .ok (value, p1) := by
  simp only [isIdentifierText, Bool.and_eq_true, decide_eq_true_eq] at hn
  obtain ⟨hw, hid⟩ := hn
  refine ⟨?_, ?_, parseAssignmentStatement_value⟩
  · obtain ⟨toks, hkeys, hparse⟩ := Parse_segs
      [.word n, .blank (str " "), .symbol ASSIGN, .blank (str " ")] (by
        simp [segsWf, Seg.wf, hw, Seg.endsBefore, segsText, Seg.text, symbolText, str, isBlank,
          isBlankChar, isIdentChar, isAlnum, isAlpha, isDigit])
    simp only [segsKeys, Seg.keys, hid, List.cons_append, List.nil_append] at hkeys
    obtain ⟨tn, ts, rfl, hk1, hkeys⟩ := map_key_cons hkeys
    obtain ⟨te, ts, rfl, hk2, hkeys⟩ := map_key_cons hkeys
    obtain ⟨eof, ts, rfl, hk3, hkeys⟩ := map_key_cons hkeys
    have hnil : ts = [] := by simpa using hkeys
    subst hnil
    refine ⟨eof, hk3, ?_⟩
    have htext : segsText [.word n, .blank (str " "), .symbol ASSIGN, .blank (str " ")] =
        n ++ str " = " := by
      simp [segsText, Seg.text, symbolText, str]
    rw [← htext, hparse, token_of_key hk1, token_of_key hk2, token_of_key hk3]
    rfl
  · obtain ⟨toks, hkeys, hparse⟩ := Parse_segs
      [.word n, .blank (str " "), .symbol ASSIGN, .blank (str " "), .newline] (by
        simp [segsWf, Seg.wf, hw, Seg.endsBefore, segsText, Seg.text, symbolText, str, isBlank,
          isBlankChar, isIdentChar, isAlnum, isAlpha, isDigit])
    simp only [segsKeys, Seg.keys, hid, List.cons_append, List.nil_append] at hkeys
    obtain ⟨tn, ts, rfl, hk1, hkeys⟩ := map_key_cons hkeys
    obtain ⟨te, ts, rfl, hk2, hkeys⟩ := map_key_cons hkeys
    obtain ⟨nl, ts, rfl, hk3, hkeys⟩ := map_key_cons hkeys
    obtain ⟨eof, ts, rfl, hk4, hkeys⟩ := map_key_cons hkeys
    have hnil : ts = [] := by simpa using hkeys
    subst hnil
    refine ⟨nl, hk3, ?_⟩
    have htext : segsText [.word n, .blank (str " "), .symbol ASSIGN, .blank (str " "),
        .newline] = n ++ str " = \n" := by
      simp [segsText, Seg.text, symbolText, str]
    rw [← htext, hparse, token_of_key hk1, token_of_key hk2, token_of_key hk3,
      token_of_key hk4]
    rfl

theorem C7_assignment_without_value_witness :
    (∃ eof : Token, eof.key = (EOF, [])
      ∧ Parse (str "x" ++ str " = ") = .error (str "unexpected token: " ++ eof.fmtV))
    ∧ (∃ nl : Token, nl.key = (NEWLINE, str "\n")
      ∧ Parse (str "x" ++ str " = \n") = .error (str "unexpected token: " ++ nl.fmtV)) :=
  ⟨(C7_assignment_without_value (str "x") (by decide)).1,
    (C7_assignment_without_value (str "x") (by decide)).2.1⟩

/-! ## Statements -/

theorem parseExpression_parsesAs_depth (stop : TokenType → Bool) (toks : List Token)
    (tree : Expression)
    (h : ∀ depth, ParsesAs (parseComparison (parseExpressionDepth (depth + 1))) stop toks tree) :
    ParsesAs parseExpression stop toks tree := by
  intro pre u rest hu
  have hlen : (parserAt pre (toks ++ u :: rest)).tokens.length + 1 =
      (pre.length + toks.length + rest.length) + 1 + 1 := by
    simp
    omega
  rw [parseExpression, hlen, parseExpressionDepth]
  exact h _ pre u rest hu

theorem parseExpressionDepth_leaf (depth : Nat) (t : Token) (ht : t.isPrimary = true) :
    ParsesAs (parseExpressionDepth (depth + 1)) stopComparison [t] t.leaf := by
  intro pre u rest hu
  rw [parseExpressionDepth]
  exact parseComparison_lift _ _ _ (parseAddition_lift _ _ _ (parseMultiplication_lift _ _ _
    (parsePrimary_token _ t ht))) pre u rest hu

theorem parsePrimary_range (expression : Parser → Res Expression) (toks : List Token)
    (tree : Expression) (tr tl tp : Token)
    (h : ParsesAs expression (fun ty => ty == RPAREN) toks tree)
    (hr : tr.Typ = IDENTIFIER) (hrv : tr.Value = str "range") (hl : tl.Typ = LPAREN)
    (hp : tp.Typ = RPAREN) :
    ParsesAs (parsePrimary expression) (fun _ => true) (tr :: tl :: toks ++ [tp])
      (RangeExpression tree) := by
  intro pre u rest _
  have hexpr := h (pre ++ [tr] ++ [tl]) tp (u :: rest) (by simp [hp])
  have hcons := consume_parserAt (pre ++ [tr] ++ [tl] ++ toks) (u :: rest) tp RPAREN
    (str "Expected ')' after range argument")
  rw [if_pos ⟨by rw [hp]; decide, hp⟩] at hcons
  have hadv := advance_parserAt (pre ++ [tr]) (toks ++ tp :: u :: rest) tl (by rw [hl]; decide)
  simp only [parsePrimary, matchTypes_parserAt, List.cons_append, List.append_assoc,
    List.nil_append, hr, hl]
  simp only [List.append_assoc, List.cons_append, List.nil_append] at hexpr hcons hadv
  simp [matchTypes_parserAt, hr, hl, hrv, hadv, hexpr, hcons]

theorem parsePrintStatement_one (stop : TokenType → Bool) (tpr t0 : Token) (ts : List Token)
    (tree : Expression) (h : ParsesAs parseExpression stop (t0 :: ts) tree)
    (hpr : tpr.Typ = PRINT) (h0 : t0.Typ ≠ NEWLINE ∧ t0.Typ ≠ EOF) :
    ParsesAs parsePrintStatement (fun ty => stop ty && ty != COMMA) (tpr :: t0 :: ts)
      (PrintStatement [tree]) := by
  intro pre u rest hu
  simp only [Bool.and_eq_true, bne_iff_ne, ne_eq] at hu
  have hexpr := h (pre ++ [tpr]) u rest hu.1
  have hcons := consume_parserAt pre (t0 :: ts ++ u :: rest) tpr PRINT (str "Expected 'print'")
  rw [if_pos ⟨by rw [hpr]; decide, hpr⟩] at hcons
  have hlen : (parserAt (pre ++ [tpr] ++ t0 :: ts) (u :: rest)).tokens.length + 1 =
      (pre.length + ts.length + rest.length + 3) + 1 := by
    simp
    omega
  have hm : ¬ (u.Typ ≠ EOF ∧ u.Typ ∈ [COMMA]) := by
    simp [hu.2]
  simp only [List.cons_append] at hexpr hcons ⊢
  simp only [parsePrintStatement, hcons, Result.bind_ok, check_parserAt, isAtEnd_parserAt]
  simp only [h0.1, h0.2, beq_iff_eq, Bool.and_false, Bool.false_eq_true, ↓reduceIte,
    Result.bind_ok, Bool.not_false, hexpr, hlen, printArgsLoop, matchTypes_parserAt, hm]
  simp [h0.1, h0.2, hexpr, hlen, printArgsLoop, matchTypes_parserAt, hm]

theorem parseIndentedBlock_one (statement : Parser → Res Statement) (stop : TokenType → Bool)
    (s0 : Token) (ss : List Token) (stmt : Statement)
    (h : ParsesAs statement stop (s0 :: ss) stmt)
    (h0 : s0.Typ ∉ [EOF, NEWLINE, IF, FOR, ELSE]) :
    ParsesAs (parseIndentedBlock statement) (fun ty => stop ty && ty != NEWLINE) (s0 :: ss)
      [stmt] := by
  intro pre u rest hu
  simp only [Bool.and_eq_true, bne_iff_ne, ne_eq] at hu
  simp only [List.mem_cons, List.mem_singleton, not_or, List.not_mem_nil, or_false] at h0
  obtain ⟨h01, h02, h03, h04, h05⟩ := h0
  have hstmt := h pre u rest hu.1
  have hskip0 := skipNewlines_parserAt pre (ss ++ u :: rest) s0 h02
  have hskip1 := skipNewlines_parserAt (pre ++ s0 :: ss) rest u hu.2
  simp only [List.cons_append] at hstmt hskip0 hskip1 ⊢
  simp only [parseIndentedBlock, hskip0, Result.bind_ok, tokens_parserAt, indentedBlockLoop,
    isAtEnd_parserAt, check_parserAt, hstmt, hskip1]
  simp [h01, h02, h03, h04, h05]

theorem parseForStatement_block (statement : Parser → Res Statement)
    (stop : TokenType → Bool) (tfor tv tin tc tnl : Token) (itoks btoks : List Token)
    (iterable : Expression) (body : List Statement)
    (hiter : ParsesAs parseExpression (fun ty => ty == COLON) itoks iterable)
    (hbody : ParsesAs (parseIndentedBlock statement) stop btoks body)
    (hfor : tfor.Typ = FOR) (hv : tv.Typ = IDENTIFIER) (hin : tin.Typ = IN)
    (hc : tc.Typ = COLON) (hnl : tnl.Typ = NEWLINE) :
    ParsesAs (parseForStatement statement) stop
      (tfor :: tv :: tin :: itoks ++ tc :: tnl :: btoks)
      (ForStatement tv.Value iterable body) := by
  intro pre u rest hu
  have h1 := consume_parserAt pre (tv :: tin :: itoks ++ tc :: tnl :: btoks ++ u :: rest) tfor FOR
    (str "Expected 'for'")
  rw [if_pos ⟨by rw [hfor]; decide, hfor⟩] at h1
  have h2 := advance_parserAt (pre ++ [tfor]) (tin :: itoks ++ tc :: tnl :: btoks ++ u :: rest)
    tv (by rw [hv]; decide)
  have h3 := consume_parserAt (pre ++ [tfor] ++ [tv]) (itoks ++ tc :: tnl :: btoks ++ u :: rest)
    tin IN (str "Expected 'in' after for variable")
  rw [if_pos ⟨by rw [hin]; decide, hin⟩] at h3
  have h4 := hiter (pre ++ [tfor] ++ [tv] ++ [tin]) tc (tnl :: btoks ++ u :: rest)
    (by simp [hc])
  have h5 := consume_parserAt (pre ++ [tfor] ++ [tv] ++ [tin] ++ itoks)
    (tnl :: btoks ++ u :: rest) tc COLON (str "Expected ':' after for expression")
  rw [if_pos ⟨by rw [hc]; decide, hc⟩] at h5
  have h6 := advance_parserAt (pre ++ [tfor] ++ [tv] ++ [tin] ++ itoks ++ [tc])
    (btoks ++ u :: rest) tnl (by rw [hnl]; decide)
  have h7 := hbody (pre ++ [tfor] ++ [tv] ++ [tin] ++ itoks ++ [tc] ++ [tnl]) u rest hu
  simp only [List.append_assoc, List.cons_append, List.nil_append] at h1 h2 h3 h4 h5 h6 h7 ⊢
  simp only [parseForStatement, h1, Result.bind_ok, check_parserAt, peek_parserAt, h2, h3, h4,
    h5, h6, h7, hv, hnl]
  simp [h7]

theorem parseStatementDepth_print (depth : Nat) (stop : TokenType → Bool) (t0 : Token)
    (ts : List Token) (stmt : Statement) (h0 : t0.Typ = PRINT)
    (h : ParsesAs parsePrintStatement stop (t0 :: ts) stmt) :
    ParsesAs (parseStatementDepth (depth + 1)) stop (t0 :: ts) stmt := by
  intro pre u rest hu
  have hp := h pre u rest hu
  simp only [List.cons_append] at hp ⊢
  simp [parseStatementDepth, h0, hp]

theorem parseStatementDepth_for (depth : Nat) (stop : TokenType → Bool) (t0 : Token)
    (ts : List Token) (stmt : Statement) (h0 : t0.Typ = FOR)
    (h : ParsesAs (parseForStatement (parseStatementDepth depth)) stop (t0 :: ts) stmt) :
    ParsesAs (parseStatementDepth (depth + 1)) stop (t0 :: ts) stmt := by
  intro pre u rest hu
  have hp := h pre u rest hu
  simp only [List.cons_append] at hp ⊢
  simp [parseStatementDepth, h0, hp]

theorem parseStatement_parsesAs (stop : TokenType → Bool) (toks : List Token) (stmt : Statement)
    (h : ∀ depth, ParsesAs (parseStatementDepth (depth + 2)) stop toks stmt) :
    ParsesAs parseStatement stop toks stmt := by
  intro pre u rest hu
  have hlen : (parserAt pre (toks ++ u :: rest)).tokens.length + 1 =
      (pre.length + toks.length + rest.length) + 2 := by
    simp
    omega
  rw [parseStatement, hlen]
  exact h _ pre u rest hu

/-- A token sequence that is one statement is parsed into a program of that
statement. -/
theorem parseProgram_one (stop : TokenType → Bool) (t0 eof : Token) (ts : List Token)
    (stmt : Statement) (h : ParsesAs parseStatement stop (t0 :: ts) stmt)
    (hstop : stop EOF = true) (heof : eof.Typ = EOF) (h0 : t0.Typ ≠ EOF ∧ t0.Typ ≠ NEWLINE) :
    parseProgram (parserAt [] (t0 :: ts ++ [eof])) = .ok ⟨[stmt]⟩ := by
  have hstmt := h [] eof [] (by rw [heof]; exact hstop)
  have hskip : (parserAt ([] ++ t0 :: ts) [eof]).skipNewlines =
      .ok (parserAt ([] ++ t0 :: ts) [eof]) :=
    skipNewlines_parserAt _ _ _ (by rw [heof]; decide)
  have hlen : (parserAt [] (t0 :: ts ++ [eof])).tokens.length + 1 = ts.length + 1 + 1 + 1 := by
    simp
  simp only [List.cons_append] at hstmt hlen ⊢
  rw [parseProgram, hlen, parseProgramLoop]
  simp only [isAtEnd_parserAt, check_parserAt, Result.bind_ok, hstmt, hskip]
  simp [h0.1, h0.2, parseProgramLoop, heof]

/-! ## End-to-end counting loop (C10) -/

theorem isWord_cons {w : GoString} (h : isWord w = true) :
    ∃ c rest, w = c :: rest ∧ isAlpha c = true ∧ isBlankChar c = false := by
  cases w with
  | nil => simp [isWord] at h
  | cons c rest =>
    simp only [isWord, Bool.and_eq_true] at h
    refine ⟨c, rest, rfl, h.1, ?_⟩
    have h1 := h.1
    simp [isAlpha] at h1
    simp [isBlankChar]
    omega

theorem isNumberText_of_isDigits {w : GoString} (h : isDigits w = true) :
    isNumberText w = true := by
  cases w with
  | nil => simp [isDigits] at h
  | cons c rest =>
    simp only [isDigits, Bool.and_eq_true, List.all_eq_true] at h
    simp only [isNumberText, Bool.and_eq_true, List.all_eq_true]
    exact ⟨h.1, fun x hx => by simp [isNumberChar, h.2 x hx]⟩

theorem isNumberText_cons {w : GoString} (h : isNumberText w = true) :
    ∃ c rest, w = c :: rest ∧ isDigit c = true := by
  cases w with
  | nil => simp [isNumberText] at h
  | cons c rest =>
    simp only [isNumberText, Bool.and_eq_true] at h
    exact ⟨c, rest, rfl, h.1⟩


theorem Parse_counting_loop (v n : GoString) (hv : isIdentifierText v = true)
    (hn : isNumberText n = true) :
    Parse (str "for " ++ v ++ str " in range(" ++ n ++ str "):\n  print " ++ v) =
      .ok ⟨[ForStatement v (RangeExpression (NumberLiteral n))
        [PrintStatement [Identifier v]]]⟩ := by
  simp only [isIdentifierText, Bool.and_eq_true, decide_eq_true_eq] at hv
  obtain ⟨hw, hid⟩ := hv
  have hfor : identifierType (str "for") = FOR := rfl
  have hin : identifierType (str "in") = IN := rfl
  have hrange : identifierType (str "range") = IDENTIFIER := rfl
  have hprint : identifierType (str "print") = PRINT := rfl
  obtain ⟨toks, hkeys, hparse⟩ := Parse_segs
    [.word (str "for"), .blank (str " "), .word v, .blank (str " "), .word (str "in"),
      .blank (str " "), .word (str "range"), .symbol LPAREN, .number n, .symbol RPAREN,
      .symbol COLON, .newline, .blank (str "  "), .word (str "print"), .blank (str " "),
      .word v] (by
      obtain ⟨c, rest, hveq, _, hcb⟩ := isWord_cons hw
      obtain ⟨d, ds, hneq, _⟩ := isNumberText_cons hn
      have h1 : isWord (str "for") = true := by decide
      have h2 : isWord (str "in") = true := by decide
      have h3 : isWord (str "range") = true := by decide
      have h4 : isWord (str "print") = true := by decide
      have h5 : isBlank (str " ") = true := by decide
      have h6 : isBlank (str "  ") = true := by decide
      simp only [segsWf, Seg.wf, hw, hn, h1, h2, h3, h4, h5, h6, segsText, Seg.text,
        Bool.true_and, Bool.and_true]
      subst hveq
      subst hneq
      have hcb1 : ¬c = 32 ∧ ¬c = 9 := by simpa [isBlankChar] using hcb
      simp [Seg.endsBefore, symbolText, str, hcb1, isIdentChar, isNumberChar, isBlankChar,
        isAlnum, isAlpha, isDigit])
  simp only [segsKeys, Seg.keys, hid, hfor, hin, hrange, hprint, List.cons_append,
    List.nil_append] at hkeys
  obtain ⟨t1, ts, rfl, hk1, hkeys⟩ := map_key_cons hkeys
  obtain ⟨t2, ts, rfl, hk2, hkeys⟩ := map_key_cons hkeys
  obtain ⟨t3, ts, rfl, hk3, hkeys⟩ := map_key_cons hkeys
  obtain ⟨t4, ts, rfl, hk4, hkeys⟩ := map_key_cons hkeys
  obtain ⟨t5, ts, rfl, hk5, hkeys⟩ := map_key_cons hkeys
  obtain ⟨t6, ts, rfl, hk6, hkeys⟩ := map_key_cons hkeys
  obtain ⟨t7, ts, rfl, hk7, hkeys⟩ := map_key_cons hkeys
  obtain ⟨t8, ts, rfl, hk8, hkeys⟩ := map_key_cons hkeys
  obtain ⟨t9, ts, rfl, hk9, hkeys⟩ := map_key_cons hkeys
  obtain ⟨t10, ts, rfl, hk10, hkeys⟩ := map_key_cons hkeys
  obtain ⟨t11, ts, rfl, hk11, hkeys⟩ := map_key_cons hkeys
  obtain ⟨t12, ts, rfl, hk12, hkeys⟩ := map_key_cons hkeys
  have hnil : ts = [] := by simpa using hkeys
  subst hnil
  have htext : segsText [.word (str "for"), .blank (str " "), .word v, .blank (str " "),
      .word (str "in"), .blank (str " "), .word (str "range"), .symbol LPAREN, .number n,
      .symbol RPAREN, .symbol COLON, .newline, .blank (str "  "), .word (str "print"),
      .blank (str " "), .word v] =
      str "for " ++ v ++ str " in range(" ++ n ++ str "):\n  print " ++ v := by
    simp [segsText, Seg.text, symbolText, str]
  rw [← htext, hparse]
  obtain ⟨h1t, -⟩ := key_typ hk1
  obtain ⟨h2t, h2v⟩ := key_typ hk2
  obtain ⟨h3t, -⟩ := key_typ hk3
  obtain ⟨h4t, h4v⟩ := key_typ hk4
  obtain ⟨h5t, -⟩ := key_typ hk5
  obtain ⟨h6t, h6v⟩ := key_typ hk6
  obtain ⟨h7t, -⟩ := key_typ hk7
  obtain ⟨h8t, -⟩ := key_typ hk8
  obtain ⟨h9t, -⟩ := key_typ hk9
  obtain ⟨h10t, -⟩ := key_typ hk10
  obtain ⟨h11t, h11v⟩ := key_typ hk11
  obtain ⟨h12t, -⟩ := key_typ hk12
  have h6p : t6.isPrimary = true := by simp [Token.isPrimary, h6t]
  have h6l : t6.leaf = NumberLiteral n := by simp [Token.leaf, h6t, h6v]
  have h11p : t11.isPrimary = true := by simp [Token.isPrimary, h11t]
  have h11l : t11.leaf = Identifier v := by simp [Token.leaf, h11t, h11v]
  have hiter : ParsesAs parseExpression (fun ty => ty == COLON) [t4, t5, t6, t7]
      (RangeExpression (NumberLiteral n)) := by
    refine ParsesAs.mono (parseExpression_parsesAs_depth stopComparison _ _ ?_)
      (by intro ty hty; simp only [beq_iff_eq] at hty; subst hty; rfl)
    intro depth
    rw [← h6l]
    exact parseComparison_lift _ _ _ (parseAddition_lift _ _ _ (parseMultiplication_lift _ _ _
      (ParsesAs.mono (parsePrimary_range _ [t6] t6.leaf t4 t5 t7
        (ParsesAs.mono (parseExpressionDepth_leaf depth t6 h6p)
          (by intro ty hty; simp only [beq_iff_eq] at hty; subst hty; rfl))
        h4t h4v h5t h7t) (fun _ _ => rfl))))
  have hprintExpr : ParsesAs parseExpression stopComparison [t11] (Identifier v) := by
    rw [← h11l]
    exact parseExpression_parsesAs _ _ _ (fun expression =>
      parseComparison_lift _ _ _ (parseAddition_lift _ _ _ (parseMultiplication_lift _ _ _
        (parsePrimary_token expression t11 h11p))))
  have hstmt : ParsesAs parseStatement
      (fun ty => (stopComparison ty && ty != COMMA) && ty != NEWLINE)
      (t1 :: t2 :: t3 :: [t4, t5, t6, t7] ++ t8 :: t9 :: [t10, t11])
      (ForStatement v (RangeExpression (NumberLiteral n)) [PrintStatement [Identifier v]]) := by
    refine parseStatement_parsesAs _ _ _ (fun depth => ?_)
    refine parseStatementDepth_for _ _ _ _ _ h1t ?_
    have hblock : ParsesAs (parseIndentedBlock (parseStatementDepth (depth + 1)))
        (fun ty => (stopComparison ty && ty != COMMA) && ty != NEWLINE) [t10, t11]
        [PrintStatement [Identifier v]] := by
      refine parseIndentedBlock_one _ _ t10 [t11] _ ?_ (by rw [h10t]; decide)
      refine parseStatementDepth_print _ _ _ _ _ h10t ?_
      exact parsePrintStatement_one _ t10 t11 [] _ hprintExpr h10t
        (by rw [h11t]; exact ⟨by decide, by decide⟩)
    have hfor := parseForStatement_block _ _ t1 t2 t3 t8 t9 _ _ _ _ hiter hblock
      h1t h2t h3t h8t h9t
    rw [h2v] at hfor
    exact hfor
  exact parseProgram_one _ t1 t12 _ _ hstmt rfl h12t (by rw [h1t]; exact ⟨by decide, by decide⟩)

/-- C10: for a non-keyword identifier `v` and a number literal `n` of digits,
`Parse` of `for v in range(n):` with `print v` on the next line is the one
`ForStatement` with variable `v`, iterable `RangeExpression(NumberLiteral n)` and
body `[print v]`, and `GenerateGoCode` of that tree is the Go program whose
`main` is the loop `for v := 0; v < n; v++` around `fmt.Println(v)`. -/
theorem C10_counting_loop (v n : GoString) (hv : isIdentifierText v = true)
    (hn : isDigits n = true) :
    Parse (str "for " ++ v ++ str " in range(" ++ n ++ str "):\n  print " ++ v) =
      .ok ⟨[ForStatement v (RangeExpression (NumberLiteral n))
        [PrintStatement [Identifier v]]]⟩
    ∧ GenerateGoCode ⟨[ForStatement v (RangeExpression (NumberLiteral n))
        [PrintStatement [Identifier v]]]⟩ =
      str "package main\n\nimport (\n\t\"fmt\"\n)\n\nfunc main() \x7b\n\tfor " ++ v
        ++ str " := 0; " ++ v ++ str " < " ++ n ++ str "; " ++ v
        ++ str "++ \x7b\n\t\tfmt.Println(" ++ v ++ str ")\n\t\x7d\n\x7d\n" := by
  refine ⟨Parse_counting_loop v n hv (isNumberText_of_isDigits hn), ?_⟩
  have hprint : ∀ g : GoGenerator, generateStatement g (PrintStatement [Identifier v]) =
      (str "fmt.Println(" ++ v ++ str ")", g) := fun g => rfl
  have hbody : generateStatements ⟨2⟩ [PrintStatement [Identifier v]] =
      (str "\t\tfmt.Println(" ++ v ++ str ")\n", ⟨2⟩) := by
    simp [generateStatements, hprint, indentString, str]
  have hfor : generateStatement ⟨1⟩ (ForStatement v (RangeExpression (NumberLiteral n))
      [PrintStatement [Identifier v]]) =
      (str "for " ++ v ++ str " := 0; " ++ v ++ str " < " ++ n ++ str "; " ++ v
        ++ str "++ \x7b\n\t\tfmt.Println(" ++ v ++ str ")\n\t\x7d", ⟨1⟩) := by
    rw [generateStatement]
    simp only [generateExpression]
    rw [show (1 : Nat) + 1 = 2 from rfl]
    simp only [hbody, indentString]
    simp [str]
  have hne : (str "for " ++ v ++ str " := 0; " ++ v ++ str " < " ++ n ++ str "; " ++ v
        ++ str "++ \x7b\n\t\tfmt.Println(" ++ v ++ str ")\n\t\x7d") ≠ [] := by
    simp [str]
  rw [GenerateGoCode, generateProgram]
  simp only [generateStatements, Nat.zero_add, hfor, hne, ne_eq, not_false_eq_true, ↓reduceIte,
    indentString]
  simp [str]

theorem C10_counting_loop_witness :
    Parse (str "for " ++ str "i" ++ str " in range(" ++ str "5" ++ str "):\n  print " ++ str "i") =
      .ok ⟨[ForStatement (str "i") (RangeExpression (NumberLiteral (str "5")))
        [PrintStatement [Identifier (str "i")]]]⟩
    ∧ GenerateGoCode ⟨[ForStatement (str "i") (RangeExpression (NumberLiteral (str "5")))
        [PrintStatement [Identifier (str "i")]]]⟩ =
      str "package main\n\nimport (\n\t\"fmt\"\n)\n\nfunc main() \x7b\n\tfor " ++ str "i"
        ++ str " := 0; " ++ str "i" ++ str " < " ++ str "5" ++ str "; " ++ str "i"
        ++ str "++ \x7b\n\t\tfmt.Println(" ++ str "i" ++ str ")\n\t\x7d\n\x7d\n" :=
  C10_counting_loop (str "i") (str "5") (by decide) (by decide)

/-! ## Every source is a sequence of segments up to its first lexical error -/

theorem head?_dropWhile_false (p : Nat → Bool) (l : GoString) :
    ∀ c, (l.dropWhile p).head? = some c → p c = false := by
  intro c hc
  have h := List.head?_dropWhile_not p l
  rw [hc] at h
  exact h

theorem takeWhile_all (p : Nat → Bool) (l : GoString) : ∀ x ∈ l.takeWhile p, p x = true :=
  fun _ hx => List.mem_takeWhile_imp hx

theorem single_symbol (c : Nat)
    (h : c ∈ [43, 45, 42, 47, 37, 40, 41, 91, 93, 44, 58, 46]) :
    ∃ t, symbolText t = [c] ∧ t ≠ ASSIGN ∧ t ≠ LESS ∧ t ≠ GREATER := by
  simp only [List.mem_cons, List.mem_singleton, List.not_mem_nil, or_false] at h
  rcases h with rfl | rfl | rfl | rfl | rfl | rfl | rfl | rfl | rfl | rfl | rfl | rfl
  · exact ⟨PLUS, rfl, by decide, by decide, by decide⟩
  · exact ⟨MINUS, rfl, by decide, by decide, by decide⟩
  · exact ⟨MULTIPLY, rfl, by decide, by decide, by decide⟩
  · exact ⟨DIVIDE, rfl, by decide, by decide, by decide⟩
  · exact ⟨MODULO, rfl, by decide, by decide, by decide⟩
  · exact ⟨LPAREN, rfl, by decide, by decide, by decide⟩
  · exact ⟨RPAREN, rfl, by decide, by decide, by decide⟩
  · exact ⟨LBRACKET, rfl, by decide, by decide, by decide⟩
  · exact ⟨RBRACKET, rfl, by decide, by decide, by decide⟩
  · exact ⟨COMMA, rfl, by decide, by decide, by decide⟩
  · exact ⟨COLON, rfl, by decide, by decide, by decide⟩
  · exact ⟨DOT, rfl, by decide, by decide, by decide⟩

/-- A symbol that may be followed by `=` to form a two-byte operator: the
segment read at `c` is the long operator `long` when `=` follows and the short
one otherwise. -/
theorem symbol_step (c : Nat) (r0 : GoString) (short long : TokenType)
    (hs : symbolText short = [c]) (hl : symbolText long = [c, 61]) :
    ∃ s r1, c :: r0 = Seg.text s ++ r1 ∧ s.wf = true ∧ s.endsBefore r1.head? = true
      ∧ s.text ≠ [] := by
  cases r0 with
  | nil =>
    exact ⟨.symbol short, [], by simp [Seg.text, hs], by simp [Seg.wf, hs],
      by simp [Seg.endsBefore], by simp [Seg.text, hs]⟩
  | cons d r00 =>
    by_cases hd : d = 61
    · subst hd
      refine ⟨.symbol long, r00, by simp [Seg.text, hl], by simp [Seg.wf, hl], ?_,
        by simp [Seg.text, hl]⟩
      have hne : long ≠ ASSIGN ∧ long ≠ LESS ∧ long ≠ GREATER := by
        refine ⟨?_, ?_, ?_⟩ <;> intro h <;> subst h <;> simp [symbolText, str] at hl
      cases r00 with
      | nil => simp [Seg.endsBefore]
      | cons e r => simp [Seg.endsBefore, hne]
    · exact ⟨.symbol short, d :: r00, by simp [Seg.text, hs], by simp [Seg.wf, hs],
        by simp [Seg.endsBefore, hd], by simp [Seg.text, hs]⟩

theorem segment_step (c : Nat) (r0 : GoString) (h : lexFails (c :: r0) = false) :
    ∃ s r1, c :: r0 = Seg.text s ++ r1 ∧ s.wf = true ∧ s.endsBefore r1.head? = true
      ∧ s.text ≠ [] := by
  simp only [lexFails, Bool.or_eq_false_iff, Bool.and_eq_false_imp, Bool.or_eq_true,
    beq_iff_eq, bne_eq_false_iff_eq, Bool.not_eq_false'] at h
  obtain ⟨⟨hun, hbang⟩, hquote⟩ := h
  by_cases h10 : c = 10
  · subst h10
    exact ⟨.newline, r0, rfl, rfl, by cases r0 <;> rfl, by simp [Seg.text, str]⟩
  by_cases h13 : c = 13
  · subst h13
    cases r0 with
    | nil => exact ⟨.cr, [], rfl, rfl, rfl, by simp [Seg.text, str]⟩
    | cons d r00 =>
      by_cases hd : d = 10
      · subst hd
        exact ⟨.crlf, r00, rfl, rfl, by cases r00 <;> rfl, by simp [Seg.text, str]⟩
      · exact ⟨.cr, d :: r00, rfl, rfl, by simp [Seg.endsBefore, hd], by simp [Seg.text, str]⟩
  by_cases hblank : isBlankChar c = true
  · refine ⟨.blank (c :: r0.takeWhile isBlankChar), r0.dropWhile isBlankChar, by simp [Seg.text],
      ?_, ?_, by simp [Seg.text]⟩
    · simp [Seg.wf, isBlank, hblank]
    · cases hd : (r0.dropWhile isBlankChar).head? with
      | none => rfl
      | some d => simp [Seg.endsBefore, head?_dropWhile_false isBlankChar r0 d hd]
  by_cases h35 : c = 35
  · subst h35
    refine ⟨.comment (r0.takeWhile (fun ch => ch != 10)), r0.dropWhile (fun ch => ch != 10),
      by simp [Seg.text], ?_, ?_, by simp [Seg.text]⟩
    · simp only [Seg.wf, Bool.not_eq_true', List.contains_eq_any_beq, List.any_eq_false,
        beq_iff_eq]
      intro x hx hx10
      have := takeWhile_all (fun ch => ch != 10) r0 x hx
      simp [hx10] at this
    · cases hd : (r0.dropWhile (fun ch => ch != 10)).head? with
      | none => rfl
      | some d =>
        have := head?_dropWhile_false (fun ch => ch != 10) r0 d hd
        simpa [Seg.endsBefore] using this
  by_cases hq : c = 34 ∨ c = 39
  · have hmem : c ∈ r0 := by simpa using hquote hq
    have hsplit := List.takeWhile_append_dropWhile (fun ch => ch != c) r0
    have hdrop : ∃ r1, r0.dropWhile (fun ch => ch != c) = c :: r1 := by
      cases hd : r0.dropWhile (fun ch => ch != c) with
      | nil =>
        rw [List.dropWhile_eq_nil_iff] at hd
        have := hd c hmem
        simp at this
      | cons d r1 =>
        have := head?_dropWhile_false (fun ch => ch != c) r0 d (by rw [hd]; rfl)
        simp only [bne_eq_false_iff_eq] at this
        exact ⟨r1, by rw [this]⟩
    obtain ⟨r1, hr1⟩ := hdrop
    refine ⟨.string c (r0.takeWhile (fun ch => ch != c)), r1, ?_, ?_, by cases r1 <;> rfl,
      by simp [Seg.text]⟩
    · rw [hr1] at hsplit
      simp only [Seg.text, List.cons_append, List.append_assoc, List.singleton_append,
        List.nil_append]
      rw [hsplit]
    · simp only [Seg.wf, Bool.and_eq_true, Bool.or_eq_true, beq_iff_eq, Bool.not_eq_true',
        List.contains_eq_any_beq, List.any_eq_false]
      refine ⟨hq, ?_⟩
      intro x hx hxc
      have := takeWhile_all (fun ch => ch != c) r0 x hx
      simp [hxc] at this
  by_cases hdig : isDigit c = true
  · refine ⟨.number (c :: r0.takeWhile isNumberChar), r0.dropWhile isNumberChar,
      by simp [Seg.text], ?_, ?_, by simp [Seg.text]⟩
    · simp [Seg.wf, isNumberText, hdig]
    · cases hd : (r0.dropWhile isNumberChar).head? with
      | none => rfl
      | some d => simp [Seg.endsBefore, head?_dropWhile_false isNumberChar r0 d hd]
  by_cases halpha : isAlpha c = true
  · refine ⟨.word (c :: r0.takeWhile isIdentChar), r0.dropWhile isIdentChar,
      by simp [Seg.text], ?_, ?_, by simp [Seg.text]⟩
    · simp [Seg.wf, isWord, halpha]
    · cases hd : (r0.dropWhile isIdentChar).head? with
      | none => rfl
      | some d => simp [Seg.endsBefore, head?_dropWhile_false isIdentChar r0 d hd]
  by_cases h61 : c = 61
  · subst h61
    exact symbol_step 61 r0 ASSIGN EQUAL rfl rfl
  by_cases h60 : c = 60
  · subst h60
    exact symbol_step 60 r0 LESS LESS_EQ rfl rfl
  by_cases h62 : c = 62
  · subst h62
    exact symbol_step 62 r0 GREATER GREATER_EQ rfl rfl
  by_cases h33 : c = 33
  · subst h33
    have hhead : r0.head? = some 61 := by simpa using hbang
    cases r0 with
    | nil => simp at hhead
    | cons d r00 =>
      simp only [List.head?_cons, Option.some.injEq] at hhead
      subst hhead
      exact ⟨.symbol NOT_EQUAL, r00, rfl, rfl, by cases r00 <;> rfl, by simp [Seg.text, symbolText, str]⟩
  by_cases hsym : c ∈ [43, 45, 42, 47, 37, 40, 41, 91, 93, 44, 58, 46]
  · obtain ⟨t, ht, h1, h2, h3⟩ := single_symbol c hsym
    refine ⟨.symbol t, r0, by simp [Seg.text, ht], by simp [Seg.wf, ht], ?_,
      by simp [Seg.text, ht]⟩
    cases r0 with
    | nil => rfl
    | cons d r00 => simp [Seg.endsBefore, h1, h2, h3]
  · exfalso
    simp only [isBlankChar, Bool.or_eq_true, beq_iff_eq, not_or] at hblank
    simp only [not_or] at hq
    simp only [List.mem_cons, List.mem_singleton, List.not_mem_nil, or_false, not_or] at hsym
    simp [isUnexpectedChar, h10, h13, hblank, h35, hq, hdig, halpha, h61, h60, h62, h33, hsym]
      at hun

/-- Every text is a sequence of well-formed segments, followed by nothing or by
a text at whose first byte `scanToken` fails. -/
theorem segment_exists (r : GoString) :
    ∃ segs r1, r = segsText segs ++ r1 ∧ segsWfIn segs r1 = true
      ∧ (r1 = [] ∨ lexFails r1 = true) := by
  generalize hn : r.length = n
  induction n using Nat.strong_induction_on generalizing r with
  | _ n ih =>
    subst hn
    cases r with
    | nil => exact ⟨[], [], rfl, rfl, Or.inl rfl⟩
    | cons c r0 =>
      by_cases hf : lexFails (c :: r0) = true
      · exact ⟨[], c :: r0, rfl, rfl, Or.inr hf⟩
      · obtain ⟨s, r1, hsplit, hwf, hend, hne⟩ := segment_step c r0 (by simpa using hf)
        have hlen : r1.length < (c :: r0).length := by
          have h1 := congrArg List.length hsplit
          have h2 : 0 < s.text.length := List.length_pos.2 hne
          simp only [List.length_append] at h1
          omega
        obtain ⟨segs, r2, hr1, hwf2, hr2⟩ := ih r1.length hlen r1 rfl
        refine ⟨s :: segs, r2, ?_, ?_, hr2⟩
        · rw [hsplit, hr1, segsText, List.append_assoc]
        · simp only [segsWfIn, hwf, hwf2, Bool.and_true, Bool.true_and]
          rw [← hr1]
          exact hend

theorem scanToken_fails (pre r : GoString) (line col : Nat) (toks : List Token)
    (h : lexFails r = true) :
    (lexAt pre r line col toks).scanToken = .error (lexFailure line col r) := by
  cases r with
  | nil => simp [lexFails] at h
  | cons c r0 =>
    simp only [lexFails, Bool.or_eq_true, Bool.and_eq_true, beq_iff_eq, bne_iff_ne, ne_eq,
      Bool.not_eq_true'] at h
    rcases h with (hun | ⟨h33, hhead⟩) | ⟨hq, hnot⟩
    · simp only [isUnexpectedChar, Bool.not_eq_true', Bool.or_eq_false_iff, beq_eq_false_iff_ne,
        ne_eq] at hun
      obtain ⟨⟨⟨⟨⟨⟨⟨⟨⟨⟨⟨⟨⟨⟨⟨⟨⟨⟨⟨⟨⟨⟨⟨⟨h1, h2⟩, h3⟩, h4⟩, h5⟩, h6⟩, h7⟩, h8⟩, h9⟩, h10⟩, h11⟩, h12⟩,
        h13⟩, h14⟩, h15⟩, h16⟩, h17⟩, h18⟩, h19⟩, h20⟩, h21⟩, h22⟩, h23⟩, h24⟩, h25⟩ := hun
      simp only [Lexer.scanToken, currentChar_lexAt_cons]
      simp [lexFailure, Lexer.unexpectedCharacter, lexAt,
        h1, h2, h3, h4, h5, h6, h7, h8, h9, h10, h11, h12, h13, h14, h15, h16, h17, h18, h19, h20,
        h21, h22, h23, h24, h25]
    · subst h33
      have hp : ¬ r0.head?.getD 0 = 61 := by
        cases r0 with
        | nil => simp
        | cons d r00 => simpa using hhead
      simp only [Lexer.scanToken, currentChar_lexAt_cons, peekChar_lexAt_cons]
      simp [lexFailure, Lexer.unexpectedCharacter, lexAt, hp, isDigit, isAlpha]
    · have hmem : c ∉ r0 := by simpa using hnot
      have hs := scanString_unterminated c r0 pre line col toks hmem
      rcases hq with rfl | rfl
      · simp only [Lexer.scanToken, currentChar_lexAt_cons]
        simp [hs, lexFailure]
      · simp only [Lexer.scanToken, currentChar_lexAt_cons]
        simp [hs, lexFailure, isDigit, isAlpha]

/-- A source made of well-formed segments followed by a text on which
`scanToken` fails: `Tokenize` returns that failure and no tokens. -/
theorem Tokenize_fails (segs : List Seg) (r1 : GoString) (hwf : segsWfIn segs r1 = true)
    (hf : lexFails r1 = true) :
    ∃ col1, (NewLexer (segsText segs ++ r1)).Tokenize =
      .error (lexFailure (1 + segsLines segs) col1 r1) := by
  obtain ⟨fuel1, col1, ts, hfuel, hloop, -⟩ :=
    tokenizeLoop_segsIn segs r1 hwf (segsText segs ++ r1).length [] 1 1 [] (le_refl _)
  refine ⟨col1, ?_⟩
  rw [Lexer.Tokenize, lexAt_nil]
  have hin : (lexAt [] (segsText segs ++ r1) 1 1 []).input = segsText segs ++ r1 := rfl
  rw [hin, hloop]
  cases r1 with
  | nil => simp [lexFails] at hf
  | cons c r0 =>
    cases fuel1 with
    | zero => simp at hfuel
    | succ f =>
      have hpos := (position_lt_lexAt ([] ++ segsText segs) (c :: r0) (1 + segsLines segs) col1
        ([] ++ ts)).2 (by simp)
      simp only [Lexer.tokenizeLoop, hpos, if_true, scanToken_fails _ _ _ _ _ hf]

/-! ## C15, C16: the end marker and the keyword table -/

theorem identifierType_ne_EOF (w : GoString) : identifierType w ≠ EOF := by
  unfold identifierType
  repeat' split
  all_goals decide

theorem Seg.keysAt_ne_EOF (s : Seg) (line : Nat) (hwf : s.wf = true) :
    ∀ k ∈ s.keysAt line, k.1 ≠ EOF := by
  intro k hk
  cases s with
  | word w =>
    simp only [Seg.keysAt, List.mem_singleton] at hk
    subst hk
    exact identifierType_ne_EOF w
  | symbol t =>
    simp only [Seg.keysAt, List.mem_singleton] at hk
    subst hk
    intro ht
    simp only at ht
    subst ht
    simp [Seg.wf, symbolText] at hwf
  | number w => simp only [Seg.keysAt, List.mem_singleton] at hk; subst hk; simp
  | blank w => simp [Seg.keysAt] at hk
  | newline => simp only [Seg.keysAt, List.mem_singleton] at hk; subst hk; simp
  | cr => simp only [Seg.keysAt, List.mem_singleton] at hk; subst hk; simp
  | crlf => simp only [Seg.keysAt, List.mem_singleton] at hk; subst hk; simp
  | comment w => simp [Seg.keysAt] at hk
  | string q v => simp only [Seg.keysAt, List.mem_singleton] at hk; subst hk; simp

theorem segsKeysAt_ne_EOF (segs : List Seg) (rest : GoString) :
    segsWfIn segs rest = true → ∀ line, ∀ k ∈ segsKeysAt line segs, k.1 ≠ EOF := by
  induction segs with
  | nil => intro _ line k hk; simp [segsKeysAt] at hk
  | cons s ss ih =>
    intro hwf line k hk
    simp only [segsWfIn, Bool.and_eq_true] at hwf
    simp only [segsKeysAt, List.mem_append] at hk
    rcases hk with hk | hk
    · exact Seg.keysAt_ne_EOF s line hwf.1.1 k hk
    · exact ih hwf.2 _ k hk

/-- Either `Tokenize` succeeds on a text of well-formed segments, or it fails at
the first byte after the longest such text. -/
theorem Tokenize_cases (src : GoString) :
    (∃ segs, src = segsText segs ∧ segsWf segs = true)
    ∨ (∃ segs r1 col1, src = segsText segs ++ r1 ∧ segsWfIn segs r1 = true
        ∧ lexFails r1 = true
        ∧ (NewLexer src).Tokenize = .error (lexFailure (1 + segsLines segs) col1 r1)) := by
  obtain ⟨segs, r1, hsrc, hwf, hr1⟩ := segment_exists src
  rcases hr1 with rfl | hf
  · left
    exact ⟨segs, by simpa using hsrc, by rw [← segsWfIn_nil]; exact hwf⟩
  · right
    obtain ⟨col1, h⟩ := Tokenize_fails segs r1 hwf hf
    exact ⟨segs, r1, col1, hsrc, hwf, hf, by rw [hsrc]; exact h⟩

/-- C15: when `Tokenize` succeeds, the tokens are some tokens of a kind other
than EOF followed by one last token of kind EOF with empty text, so the sequence
is not empty. -/
theorem C15_tokens_end_with_EOF (src : GoString) (toks : List Token)
    (h : (NewLexer src).Tokenize = .ok toks) :
    ∃ init eof, toks = init ++ [eof] ∧ eof.Typ = EOF ∧ eof.Value = []
      ∧ ∀ t ∈ init, t.Typ ≠ EOF := by
  rcases Tokenize_cases src with ⟨segs, hsrc, hwf⟩ | ⟨segs, r1, col1, -, -, -, herr⟩
  · obtain ⟨toks1, hok, hkeys⟩ := Tokenize_segsAt segs hwf
    rw [hsrc, hok] at h
    injection h with h
    subst h
    rcases List.eq_nil_or_concat toks1 with hnil | ⟨init, eof, hcat⟩
    · subst hnil
      simp at hkeys
    · subst hcat
      rw [List.concat_eq_append] at hkeys ⊢
      rw [List.map_append, List.map_singleton] at hkeys
      have h2 := List.append_inj' hkeys (by simp)
      refine ⟨init, eof, rfl, ?_, ?_, ?_⟩
      · have := h2.2
        simp only [Token.keyLine, List.cons.injEq, Prod.mk.injEq, and_true] at this
        exact this.1
      · have := h2.2
        simp only [Token.keyLine, List.cons.injEq, Prod.mk.injEq, and_true] at this
        exact this.2.1
      · intro t ht
        have hmem : t.keyLine ∈ segsKeysAt 1 segs := by
          rw [← h2.1]
          exact List.mem_map_of_mem _ ht
        exact segsKeysAt_ne_EOF segs [] (by rw [segsWfIn_nil]; exact hwf) 1 _ hmem
  · rw [herr] at h
    cases h

theorem C15_tokens_end_with_EOF_witness :
    (NewLexer []).Tokenize = .ok [⟨EOF, [], 1, 1⟩]
    ∧ (NewLexer (str "x\n")).Tokenize
        = .ok [⟨IDENTIFIER, str "x", 1, 2⟩, ⟨NEWLINE, str "\n", 1, 3⟩, ⟨EOF, [], 2, 1⟩]
    ∧ ∃ init eof, ([⟨IDENTIFIER, str "x", 1, 2⟩, ⟨NEWLINE, str "\n", 1, 3⟩, ⟨EOF, [], 2, 1⟩]
          : List Token) = init ++ [eof] ∧ eof.Typ = EOF ∧ eof.Value = [] ∧ ∀ t ∈ init, t.Typ ≠ EOF :=
  ⟨by decide, by decide, C15_tokens_end_with_EOF (str "x\n") _ (by decide)⟩

theorem identifierType_eq_lookup (w : GoString) :
    identifierType w = (keywordTable.lookup w).getD IDENTIFIER := by
  by_cases h1 : w = str "print"
  · subst h1; rfl
  by_cases h2 : w = str "if"
  · subst h2; rfl
  by_cases h3 : w = str "else"
  · subst h3; rfl
  by_cases h4 : w = str "def"
  · subst h4; rfl
  by_cases h5 : w = str "for"
  · subst h5; rfl
  by_cases h6 : w = str "in"
  · subst h6; rfl
  by_cases h7 : w = str "while"
  · subst h7; rfl
  by_cases h8 : w = str "return"
  · subst h8; rfl
  have b1 : (w == str "print") = false := by simpa using h1
  have b2 : (w == str "if") = false := by simpa using h2
  have b3 : (w == str "else") = false := by simpa using h3
  have b4 : (w == str "def") = false := by simpa using h4
  have b5 : (w == str "for") = false := by simpa using h5
  have b6 : (w == str "in") = false := by simpa using h6
  have b7 : (w == str "while") = false := by simpa using h7
  have b8 : (w == str "return") = false := by simpa using h8
  simp [identifierType, keywordTable, List.lookup, h1, h2, h3, h4, h5, h6, h7, h8, b1, b2, b3,
    b4, b5, b6, b7, b8]

/-- C16: for every word `w` (a letter or underscore followed by letters, digits
and underscores), `Tokenize` returns exactly two tokens, the first with text
`w` and the second the end marker; the first has the keyword kind of the
keyword table when `w` is in the table, and kind IDENTIFIER otherwise. -/
theorem C16_keyword_classification (w : GoString) (hw : isWord w = true) :
    ∃ t eof, (NewLexer w).Tokenize = .ok [t, eof] ∧ t.Value = w
      ∧ eof.Typ = EOF ∧ eof.Value = []
      ∧ t.Typ = ((keywordTable.lookup w).getD IDENTIFIER) := by
  obtain ⟨toks, hok, hkeys⟩ := Tokenize_segs [.word w] (by simp [segsWf, Seg.wf, hw, segsText, Seg.endsBefore])
  simp only [segsKeys, Seg.keys, List.singleton_append, List.append_nil] at hkeys
  obtain ⟨t, ts, rfl, ht, hkeys⟩ := map_key_cons hkeys
  obtain ⟨eof, ts, rfl, heof, hkeys⟩ := map_key_cons hkeys
  simp only [List.map_eq_nil_iff] at hkeys
  subst hkeys
  simp only [Token.key, Prod.mk.injEq] at ht heof
  refine ⟨t, eof, by simpa [segsText, Seg.text] using hok, ht.2, heof.1, heof.2, ?_⟩
  rw [ht.1]
  exact identifierType_eq_lookup w

theorem C16_keyword_classification_witness :
    (∃ t eof, (NewLexer (str "range")).Tokenize = .ok [t, eof] ∧ t.Value = str "range"
      ∧ eof.Typ = EOF ∧ eof.Value = []
      ∧ t.Typ = ((keywordTable.lookup (str "range")).getD IDENTIFIER))
    ∧ (keywordTable.lookup (str "range")).getD IDENTIFIER = IDENTIFIER
    ∧ (keywordTable.lookup (str "while")).getD IDENTIFIER = WHILE
    ∧ (keywordTable.lookup (str "While")).getD IDENTIFIER = IDENTIFIER :=
  ⟨C16_keyword_classification (str "range") (by decide), by decide, by decide, by decide⟩

/-! ## C17: lexical failure outside strings and comments -/

theorem bangsFollowed_append_right (a b : GoString) :
    bangsFollowed (a ++ b) = true → bangsFollowed b = true := by
  induction a with
  | nil => exact id
  | cons c a ih =>
    intro h
    simp only [List.cons_append, bangsFollowed, Bool.and_eq_true] at h
    exact ih h.2

theorem bangsFollowed_append_of_no_bang (a b : GoString) (ha : 33 ∉ a) :
    bangsFollowed (a ++ b) = bangsFollowed b := by
  induction a with
  | nil => rfl
  | cons c a ih =>
    simp only [List.mem_cons, not_or] at ha
    have hc : (c != 33) = true := by simpa using fun h => ha.1 h.symm
    simp only [List.cons_append, bangsFollowed, hc, Bool.true_or, Bool.true_and]
    exact ih ha.2

theorem isAllowedByte_of_isIdentChar (c : Nat) (h : isIdentChar c = true) :
    isAllowedByte c = true := by
  simp only [isIdentChar, isAlnum, isAlpha, isDigit, Bool.or_eq_true, Bool.and_eq_true,
    decide_eq_true_eq, beq_iff_eq] at h
  simp only [isAllowedByte, isLetter, Bool.or_eq_true, Bool.and_eq_true, decide_eq_true_eq,
    beq_iff_eq]
  omega

theorem isAllowedByte_of_isNumberChar (c : Nat) (h : isNumberChar c = true) :
    isAllowedByte c = true := by
  simp only [isNumberChar, isDigit, Bool.or_eq_true, Bool.and_eq_true,
    decide_eq_true_eq, beq_iff_eq] at h
  rcases h with h | h
  · simp only [isAllowedByte, isLetter, Bool.or_eq_true, Bool.and_eq_true, decide_eq_true_eq,
      beq_iff_eq]
    omega
  · subst h; decide

theorem ne_33_of_isIdentChar (c : Nat) (h : isIdentChar c = true) : c ≠ 33 := by
  rintro rfl; simp [isIdentChar, isAlnum, isAlpha, isDigit] at h

theorem ne_33_of_isNumberChar (c : Nat) (h : isNumberChar c = true) : c ≠ 33 := by
  rintro rfl; simp [isNumberChar, isDigit] at h

/-- The text of a well-formed segment other than a comment and a string is made
of allowed bytes, and a `!` in it is followed by `=`. -/
theorem Seg.text_allowed (s : Seg) (hwf : s.wf = true) (h35 : 35 ∉ s.text) (h34 : 34 ∉ s.text)
    (h39 : 39 ∉ s.text) :
    s.text.all isAllowedByte = true
      ∧ ∀ r, bangsFollowed (s.text ++ r) = bangsFollowed r := by
  cases s with
  | word w =>
    cases w with
    | nil => simp [Seg.wf, isWord] at hwf
    | cons c w =>
      simp only [Seg.wf, isWord, Bool.and_eq_true, List.all_eq_true] at hwf
      have hc : isIdentChar c = true := by simp [isIdentChar, isAlnum, hwf.1]
      refine ⟨?_, fun r => bangsFollowed_append_of_no_bang _ r ?_⟩
      · simp only [Seg.text, List.all_cons, Bool.and_eq_true, List.all_eq_true]
        exact ⟨isAllowedByte_of_isIdentChar c hc,
          fun x hx => isAllowedByte_of_isIdentChar x (hwf.2 x hx)⟩
      · simp only [Seg.text, List.mem_cons, not_or]
        exact ⟨fun h => ne_33_of_isIdentChar c hc h.symm,
          fun hx => ne_33_of_isIdentChar 33 (hwf.2 33 hx) rfl⟩
  | number w =>
    cases w with
    | nil => simp [Seg.wf, isNumberText] at hwf
    | cons c w =>
      simp only [Seg.wf, isNumberText, Bool.and_eq_true, List.all_eq_true] at hwf
      have hc : isNumberChar c = true := by simp [isNumberChar, hwf.1]
      refine ⟨?_, fun r => bangsFollowed_append_of_no_bang _ r ?_⟩
      · simp only [Seg.text, List.all_cons, Bool.and_eq_true, List.all_eq_true]
        exact ⟨isAllowedByte_of_isNumberChar c hc,
          fun x hx => isAllowedByte_of_isNumberChar x (hwf.2 x hx)⟩
      · simp only [Seg.text, List.mem_cons, not_or]
        exact ⟨fun h => ne_33_of_isNumberChar c hc h.symm,
          fun hx => ne_33_of_isNumberChar 33 (hwf.2 33 hx) rfl⟩
  | blank w =>
    have hall : ∀ x ∈ w, isBlankChar x = true := by
      cases w with
      | nil => simp [Seg.wf, isBlank] at hwf
      | cons c w =>
        simp only [Seg.wf, isBlank, Bool.and_eq_true, List.all_eq_true] at hwf
        intro x hx
        rcases List.mem_cons.1 hx with rfl | hx
        · exact hwf.1
        · exact hwf.2 x hx
    refine ⟨?_, fun r => bangsFollowed_append_of_no_bang _ r ?_⟩
    · simp only [Seg.text, List.all_eq_true]
      intro x hx
      have := hall x hx
      simp only [isBlankChar, Bool.or_eq_true, beq_iff_eq] at this
      rcases this with rfl | rfl <;> decide
    · intro hx
      have := hall 33 hx
      simp [isBlankChar] at this
  | symbol t =>
    cases t <;> first
      | (simp [Seg.wf, symbolText] at hwf; done)
      | exact ⟨by decide, fun r => by simp [Seg.text, symbolText, str, bangsFollowed]⟩
  | newline => exact ⟨by decide, fun r => by simp [Seg.text, str, bangsFollowed]⟩
  | cr => exact ⟨by decide, fun r => by simp [Seg.text, str, bangsFollowed]⟩
  | crlf => exact ⟨by decide, fun r => by simp [Seg.text, str, bangsFollowed]⟩
  | comment w => simp [Seg.text] at h35
  | string q v =>
    simp only [Seg.wf, Bool.and_eq_true, Bool.or_eq_true, beq_iff_eq] at hwf
    rcases hwf.1 with rfl | rfl
    · simp [Seg.text] at h34
    · simp [Seg.text] at h39

theorem segsText_allowed (segs : List Seg) :
    segsWf segs = true → 35 ∉ segsText segs → 34 ∉ segsText segs → 39 ∉ segsText segs →
    (segsText segs).all isAllowedByte = true ∧ bangsFollowed (segsText segs) = true := by
  induction segs with
  | nil => intros; exact ⟨rfl, rfl⟩
  | cons s ss ih =>
    intro hwf h35 h34 h39
    simp only [segsWf, Bool.and_eq_true] at hwf
    simp only [segsText, List.mem_append, not_or] at h35 h34 h39
    obtain ⟨h1, h2⟩ := Seg.text_allowed s hwf.1.1 h35.1 h34.1 h39.1
    obtain ⟨h3, h4⟩ := ih hwf.2 h35.2 h34.2 h39.2
    exact ⟨by simp only [segsText, List.all_append, h1, h3, Bool.and_self], by
      rw [segsText, h2, h4]⟩

theorem isUnexpectedChar_not_allowed (c : Nat) (h : isUnexpectedChar c = true) :
    isAllowedByte c = false := by
  simp only [isUnexpectedChar, isDigit, isAlpha, Bool.not_eq_true', Bool.or_eq_false_iff,
    beq_eq_false_iff_ne, ne_eq, Bool.and_eq_false_imp, decide_eq_true_eq,
    decide_eq_false_iff_not, not_le] at h
  simp only [isAllowedByte, isLetter, Bool.or_eq_false_iff, beq_eq_false_iff_ne, ne_eq,
    Bool.and_eq_false_imp, decide_eq_true_eq, decide_eq_false_iff_not, not_le, List.mem_cons,
    List.mem_singleton, List.not_mem_nil, or_false, not_or]
  omega

/-- C17: on a source without quotes and `#`, `Tokenize` succeeds exactly when
every byte is an allowed one and every `!` is immediately followed by `=`;
otherwise it returns an error, and so no tokens, whose message begins with
`unexpected character`. -/
theorem C17_unexpected_character (src : GoString)
    (h : ∀ c ∈ src, c ≠ 34 ∧ c ≠ 39 ∧ c ≠ 35) :
    ((∃ toks, (NewLexer src).Tokenize = .ok toks)
        ↔ (src.all isAllowedByte = true ∧ bangsFollowed src = true))
    ∧ (¬ (src.all isAllowedByte = true ∧ bangsFollowed src = true) →
        ∃ msg, (NewLexer src).Tokenize = .error (str "unexpected character" ++ msg)) := by
  have h35 : 35 ∉ src := fun hc => (h 35 hc).2.2 rfl
  have h34 : 34 ∉ src := fun hc => (h 34 hc).1 rfl
  have h39 : 39 ∉ src := fun hc => (h 39 hc).2.1 rfl
  rcases Tokenize_cases src with ⟨segs, hsrc, hwf⟩ | ⟨segs, r1, col1, hsrc, -, hf, herr⟩
  · obtain ⟨toks, hok, -⟩ := Tokenize_segs segs hwf
    subst hsrc
    have hall := segsText_allowed segs hwf h35 h34 h39
    exact ⟨⟨fun _ => hall, fun _ => ⟨toks, hok⟩⟩, fun hn => absurd hall hn⟩
  · cases r1 with
    | nil => simp [lexFails] at hf
    | cons c r0 =>
      have hc : c ∈ src := by rw [hsrc]; simp
      have hbad : ¬ (src.all isAllowedByte = true ∧ bangsFollowed src = true) := by
        rintro ⟨hall, hbang⟩
        simp only [lexFails, Bool.or_eq_true, Bool.and_eq_true, beq_iff_eq, bne_iff_ne, ne_eq,
          Bool.not_eq_true'] at hf
        rcases hf with (hun | ⟨h33, hhead⟩) | ⟨hq, -⟩
        · have := List.all_eq_true.1 hall c hc
          rw [isUnexpectedChar_not_allowed c hun] at this
          cases this
        · rw [hsrc] at hbang
          have := bangsFollowed_append_right _ _ hbang
          subst h33
          simp only [bangsFollowed, bne_self_eq_false, Bool.false_or, Bool.and_eq_true,
            beq_iff_eq] at this
          exact hhead this.1
        · rcases hq with rfl | rfl
          · exact h34 hc
          · exact h39 hc
      have hmsg : ∃ msg, lexFailure (1 + segsLines segs) col1 (c :: r0)
          = str "unexpected character" ++ msg := by
        have hq : (c == 34 || c == 39) = false := by
          have := h c hc
          simp [this.1, this.2.1]
        simp only [lexFailure, hq, Bool.false_eq_true, if_false]
        exact ⟨str " '" ++ fmtC c ++ str "' at line " ++ fmtD (1 + segsLines segs)
          ++ str ", column " ++ fmtD col1, by simp [str]⟩
      obtain ⟨msg, hmsg⟩ := hmsg
      refine ⟨⟨fun hok => ?_, fun hall => absurd hall hbad⟩, fun _ => ⟨msg, by rw [herr, hmsg]⟩⟩
      obtain ⟨toks, hok⟩ := hok
      rw [herr] at hok
      cases hok

theorem C17_unexpected_character_witness :
    (((∃ toks, (NewLexer (str "a != b ! c")).Tokenize = .ok toks)
        ↔ ((str "a != b ! c").all isAllowedByte = true ∧ bangsFollowed (str "a != b ! c") = true))
      ∧ (¬ ((str "a != b ! c").all isAllowedByte = true ∧ bangsFollowed (str "a != b ! c") = true)
        → ∃ msg, (NewLexer (str "a != b ! c")).Tokenize
            = .error (str "unexpected character" ++ msg)))
    ∧ bangsFollowed (str "a != b ! c") = false
    ∧ (NewLexer (str "a != b ! c")).Tokenize
        = .error (str "unexpected character '!' at line 1, column 8")
    ∧ (NewLexer (str "a $ b")).Tokenize
        = .error (str "unexpected character '$' at line 1, column 3")
    ∧ isAllowedByte 36 = false :=
  ⟨C17_unexpected_character (str "a != b ! c") (by decide), by decide, by decide, by decide,
    by decide⟩

/-! ## C18: line feed against carriage return, line feed -/

/-- C19: a comment followed by a lone carriage return runs through it to the
next line feed: `Tokenize` of `#c`, carriage return, `x` gives the end marker
alone, on line 1, while the same text without the comment gives a NEWLINE, the
identifier `x` on line 2 and the end marker. -/
theorem C19_comment_runs_through_lone_CR :
    (NewLexer (str "#c\rx")).Tokenize = .ok [⟨EOF, [], 1, 5⟩]
    ∧ (NewLexer (str "\rx")).Tokenize
        = .ok [⟨NEWLINE, str "\n", 1, 2⟩, ⟨IDENTIFIER, str "x", 2, 2⟩, ⟨EOF, [], 2, 2⟩]
    ∧ (NewLexer (str "#c\nx")).Tokenize
        = .ok [⟨NEWLINE, str "\n", 1, 4⟩, ⟨IDENTIFIER, str "x", 2, 2⟩, ⟨EOF, [], 2, 2⟩]
    ∧ (NewLexer (str "#c\r\nx")).Tokenize
        = .ok [⟨NEWLINE, str "\n", 1, 5⟩, ⟨IDENTIFIER, str "x", 2, 2⟩, ⟨EOF, [], 2, 2⟩] := by
  refine ⟨?_, ?_, ?_, ?_⟩ <;> decide

/-! ## C20: generation of if/else -/

mutual

theorem generateStatement_indent (g : GoGenerator) (s : Statement) :
    (generateStatement g s).2 = g := by
  cases s with
  | PrintStatement Arguments => rfl
  | AssignmentStatement Name Value => rfl
  | IfStatement Condition Body Else =>
    simp only [generateStatement]
    split
    · simp only [generateStatements_indent]
      rfl
    · simp only [generateStatements_indent]
      rfl
  | ForStatement Variable Iterable Body =>
    cases Iterable with
    | RangeExpression End =>
      simp only [generateStatement, generateStatements_indent]
      rfl
    | _ => rfl
  | ExpressionStatement Expression => rfl

theorem generateStatements_indent (g : GoGenerator) (stmts : List Statement) :
    (generateStatements g stmts).2 = g := by
  cases stmts with
  | nil => rfl
  | cons stmt stmts =>
    simp only [generateStatements]
    rw [generateStatements_indent, generateStatement_indent]

end

theorem generateStatements_blockLines (g : GoGenerator) (stmts : List Statement) :
    (generateStatements g stmts).1
      = blockLines g.indent (stmts.map fun s => (generateStatement g s).1) := by
  induction stmts with
  | nil => rfl
  | cons stmt stmts ih =>
    simp only [generateStatements, List.map_cons, blockLines, generateStatement_indent, ih,
      indentString, tabs]

/-- C20: generated while the indentation counter is `k`, an if statement gives
`if C {` and a line feed, the lines of the body at `k + 1` tabs (one line for
each statement whose code is not empty), then, exactly when the else branch is
not empty, `k` tabs, `} else {`, a line feed and the lines of the else branch
at `k + 1` tabs, and at last `k` tabs and `}`; the codes of the body and of
the else branch are those `generateStatement` gives at counter `k + 1`, and the
counter is `k` afterwards. -/
theorem C20_if_else_generation (k : Nat) (c : Expression) (body els : List Statement) :
    generateStatement { indent := k } (.IfStatement c body els)
      = (str "if " ++ generateExpression c ++ str " \x7b\n"
          ++ blockLines (k + 1) (body.map fun s => (generateStatement { indent := k + 1 } s).1)
          ++ (if els.isEmpty then []
              else tabs k ++ str "\x7d else \x7b\n"
                ++ blockLines (k + 1)
                    (els.map fun s => (generateStatement { indent := k + 1 } s).1))
          ++ tabs k ++ str "\x7d",
         { indent := k }) := by
  cases els with
  | nil =>
    simp [generateStatement, generateStatements_indent, generateStatements_blockLines,
      indentString, tabs]
  | cons e els =>
    simp [generateStatement, generateStatements_indent, generateStatements_blockLines,
      indentString, tabs]

/-! ## Simple statements: print and assignment -/

theorem parseExpression_leaf (t : Token) (ht : t.isPrimary = true) :
    ParsesAs parseExpression stopComparison [t] t.leaf :=
  parseExpression_parsesAs_depth _ _ _ fun _ =>
    parseComparison_lift _ _ _ (parseAddition_lift _ _ _ (parseMultiplication_lift _ _ _
      (parsePrimary_token _ t ht)))

theorem stopComparison_of_stopLine (ty : TokenType) (h : stopLine ty = true) :
    stopComparison ty = true := by
  simp only [stopLine, Bool.or_eq_true, beq_iff_eq] at h
  rcases h with rfl | rfl <;> rfl

theorem argTokens_length (args : List (Token × Token)) :
    (argTokens args).length = 2 * args.length := by
  induction args with
  | nil => rfl
  | cons x args ih =>
    obtain ⟨c, p⟩ := x
    simp [argTokens, ih]
    omega

theorem printArgsLoop_args (args : List (Token × Token)) :
    ∀ (n : Nat) (acc : List Expression) (pre rest : List Token) (u : Token),
      (∀ x ∈ args, x.1.Typ = COMMA ∧ x.2.isPrimary = true) →
      stopLine u.Typ = true → args.length < n →
      printArgsLoop n acc (parserAt pre (argTokens args ++ u :: rest)) =
        .ok (acc ++ args.map (fun x => x.2.leaf), parserAt (pre ++ argTokens args) (u :: rest)) := by
  induction args with
  | nil =>
    intro n acc pre rest u _ hu hn
    obtain ⟨n, rfl⟩ : ∃ m, n = m + 1 := ⟨n - 1, by simp at hn; omega⟩
    have hm : ¬ (u.Typ ≠ EOF ∧ u.Typ ∈ [COMMA]) := by
      simp only [stopLine, Bool.or_eq_true, beq_iff_eq] at hu
      rcases hu with h | h <;> simp [h]
    simp only [argTokens, List.nil_append, printArgsLoop, matchTypes_parserAt, if_neg hm,
      Result.bind_ok]
    simp
  | cons x args ih =>
    intro n acc pre rest u hargs hu hn
    obtain ⟨c, p⟩ := x
    obtain ⟨n, rfl⟩ : ∃ m, n = m + 1 := ⟨n - 1, by simp at hn; omega⟩
    have hx := hargs (c, p) (List.mem_cons_self _ _)
    simp only at hx
    have hm : c.Typ ≠ EOF ∧ c.Typ ∈ [COMMA] := by simp [hx.1]
    obtain ⟨v, rest1, hv, hstop⟩ : ∃ v rest1, argTokens args ++ u :: rest = v :: rest1
        ∧ stopComparison v.Typ = true := by
      cases args with
      | nil => exact ⟨u, rest, rfl, stopComparison_of_stopLine _ hu⟩
      | cons y args =>
        obtain ⟨c1, p1⟩ := y
        have hy := hargs (c1, p1) (List.mem_cons_of_mem _ (List.mem_cons_self _ _))
        exact ⟨c1, _, rfl, by rw [hy.1]; rfl⟩
    have hexpr := parseExpression_leaf p hx.2 (pre ++ [c]) v rest1 hstop
    have hrec := ih n (acc ++ [p.leaf]) (pre ++ [c] ++ [p]) rest u
      (fun y hy => hargs y (List.mem_cons_of_mem _ hy)) hu (by simp at hn; omega)
    simp only [argTokens, List.cons_append, printArgsLoop, matchTypes_parserAt, if_pos hm,
      Result.bind_ok, if_true]
    rw [hv]
    simp only [List.singleton_append] at hexpr
    rw [hexpr]
    simp only [Result.bind_ok]
    rw [← hv, hrec]
    simp

theorem parsePrintStatement_args (tpr t0 : Token) (args : List (Token × Token))
    (hpr : tpr.Typ = PRINT) (h0 : t0.isPrimary = true)
    (hargs : ∀ x ∈ args, x.1.Typ = COMMA ∧ x.2.isPrimary = true) :
    ParsesAs parsePrintStatement stopLine (tpr :: t0 :: argTokens args)
      (PrintStatement (t0.leaf :: args.map fun x => x.2.leaf)) := by
  intro pre u rest hu
  have hcons := consume_parserAt pre (t0 :: argTokens args ++ u :: rest) tpr PRINT
    (str "Expected 'print'")
  rw [if_pos ⟨by rw [hpr]; decide, hpr⟩] at hcons
  obtain ⟨v, rest1, hv, hstop⟩ : ∃ v rest1, argTokens args ++ u :: rest = v :: rest1
      ∧ stopComparison v.Typ = true := by
    cases args with
    | nil => exact ⟨u, rest, rfl, stopComparison_of_stopLine _ hu⟩
    | cons y args =>
      obtain ⟨c1, p1⟩ := y
      have hy := hargs (c1, p1) (List.mem_cons_self _ _)
      exact ⟨c1, _, rfl, by rw [hy.1]; rfl⟩
  have hexpr := parseExpression_leaf t0 h0 (pre ++ [tpr]) v rest1 hstop
  have hloop := printArgsLoop_args args
    ((parserAt (pre ++ [tpr] ++ [t0]) (argTokens args ++ u :: rest)).tokens.length + 1)
    [t0.leaf] (pre ++ [tpr] ++ [t0]) rest u hargs hu (by
      simp [argTokens_length]
      omega)
  have h01 : t0.Typ ≠ NEWLINE ∧ t0.Typ ≠ EOF := by
    simp only [Token.isPrimary, Bool.or_eq_true, beq_iff_eq] at h0
    rcases h0 with (h | h) | h <;> simp [h]
  simp only [List.cons_append, List.append_assoc, List.singleton_append, List.nil_append]
    at hexpr hcons hloop ⊢
  simp only [parsePrintStatement, hcons, Result.bind_ok, check_parserAt, isAtEnd_parserAt]
  have hb : (!t0.Typ == EOF && t0.Typ == NEWLINE) = false := by simp [h01.1]
  have hb2 : (!t0.Typ == EOF) = true := by simp [h01.2]
  rw [hb, hv, hexpr]
  simp only [Bool.false_eq_true, if_false, Result.bind_ok, hb2, if_true]
  rw [← hv, hloop]
  rfl

theorem parsePrintStatement_none (tpr : Token) (hpr : tpr.Typ = PRINT) :
    ParsesAs parsePrintStatement stopLine [tpr] (PrintStatement []) := by
  intro pre u rest hu
  have hcons := consume_parserAt pre (u :: rest) tpr PRINT (str "Expected 'print'")
  rw [if_pos ⟨by rw [hpr]; decide, hpr⟩] at hcons
  simp only [stopLine, Bool.or_eq_true, beq_iff_eq] at hu
  simp only [List.singleton_append, parsePrintStatement, hcons, Result.bind_ok, check_parserAt,
    isAtEnd_parserAt]
  rcases hu with h | h <;> simp [h]

theorem parseAssignmentStatement_leaf (tn ta tv : Token) (hn : tn.Typ = IDENTIFIER)
    (ha : ta.Typ = ASSIGN) (hv : tv.isPrimary = true) :
    ParsesAs parseAssignmentStatement stopComparison [tn, ta, tv]
      (AssignmentStatement tn.Value tv.leaf) := by
  intro pre u rest hu
  have h1 := advance_parserAt pre (ta :: tv :: u :: rest) tn (by rw [hn]; decide)
  have h2 := consume_parserAt (pre ++ [tn]) (tv :: u :: rest) ta ASSIGN (str "Expected '='")
  rw [if_pos ⟨by rw [ha]; decide, ha⟩] at h2
  have h3 := parseExpression_leaf tv hv (pre ++ [tn] ++ [ta]) u rest hu
  simp only [List.cons_append, List.append_assoc, List.singleton_append, List.nil_append]
    at h1 h2 h3 ⊢
  simp only [parseAssignmentStatement, check_parserAt, peek_parserAt, Result.bind_ok, hn, h1, h2,
    h3]
  simp

theorem parseStatementDepth_assign (depth : Nat) (stop : TokenType → Bool) (t0 t1 : Token)
    (ts : List Token) (stmt : Statement) (h0 : t0.Typ = IDENTIFIER) (h1 : t1.Typ = ASSIGN)
    (h : ParsesAs parseAssignmentStatement stop (t0 :: t1 :: ts) stmt) :
    ParsesAs (parseStatementDepth (depth + 1)) stop (t0 :: t1 :: ts) stmt := by
  intro pre u rest hu
  have hp := h pre u rest hu
  simp only [List.cons_append] at hp ⊢
  simp [parseStatementDepth, h0, h1, hp, checkNext_parserAt]

theorem head?_append_of_ne_nil (a b : GoString) (h : a ≠ []) : (a ++ b).head? = a.head? := by
  cases a with
  | nil => exact absurd rfl h
  | cons c a => rfl

/-- The bytes that end a word and a number. -/
theorem Primary.seg_endsBefore (p : Primary) (c : Nat)
    (hc : isIdentChar c = false ∧ isNumberChar c = false) :
    p.seg.endsBefore (some c) = true := by
  cases p <;> simp [Primary.seg, Seg.endsBefore, hc.1, hc.2]

theorem Primary.seg_head (p : Primary) (hp : p.wf = true) (rest : GoString) :
    ∃ c, (p.seg.text ++ rest).head? = some c ∧ isBlankChar c = false := by
  obtain ⟨c, r, h1, h2⟩ := Seg.text_head_of_token p.seg (Primary.seg_wf p hp).1
    (Primary.seg_wf p hp).2
  exact ⟨c, by rw [h1]; rfl, h2⟩

/-- What may follow a simple statement in a source: nothing, a line feed or,
after an argument of `print`, a comma. -/
theorem argsSegs_wfIn (ps : List Primary) (rest : GoString)
    (hrest : rest.head? = none ∨ rest.head? = some 10) (hwf : ∀ p ∈ ps, p.wf = true) :
    segsWfIn (argsSegs ps) rest = true
      ∧ ((segsText (argsSegs ps) ++ rest).head? = none
          ∨ (segsText (argsSegs ps) ++ rest).head? = some 10
          ∨ (segsText (argsSegs ps) ++ rest).head? = some 44) := by
  induction ps with
  | nil =>
    refine ⟨rfl, ?_⟩
    rcases hrest with h | h
    · exact Or.inl h
    · exact Or.inr (Or.inl h)
  | cons p ps ih =>
    have hp := hwf p (List.mem_cons_self _ _)
    obtain ⟨ih1, ih2⟩ := ih (fun q hq => hwf q (List.mem_cons_of_mem _ hq))
    refine ⟨?_, Or.inr (Or.inr rfl)⟩
    obtain ⟨c, hc1, hc2⟩ := Primary.seg_head p hp (segsText (argsSegs ps) ++ rest)
    have hend : p.seg.endsBefore (segsText (argsSegs ps) ++ rest).head? = true := by
      rcases ih2 with h | h | h <;> rw [h]
      · rfl
      · exact Primary.seg_endsBefore p 10 (by decide)
      · exact Primary.seg_endsBefore p 44 (by decide)
    simp only [argsSegs, segsWfIn, segsText, List.append_assoc, hc1, ih1, hend,
      (Primary.seg_wf p hp).1, Bool.and_true, Bool.true_and, Bool.and_eq_true]
    refine ⟨⟨rfl, rfl⟩, rfl, ?_⟩
    simp [Seg.endsBefore, hc2]

theorem Simple.segs_wfIn (s : Simple) (hwf : s.wf = true) (rest : GoString)
    (hrest : rest.head? = none ∨ rest.head? = some 10) :
    segsWfIn s.segs rest = true := by
  cases s with
  | print args =>
    cases args with
    | nil =>
      simp only [Simple.segs, segsWfIn, segsText, List.nil_append, Bool.and_true]
      rcases hrest with h | h <;> rw [h] <;> rfl
    | cons p ps =>
      simp only [Simple.wf, List.all_cons, Bool.and_eq_true, List.all_eq_true] at hwf
      obtain ⟨h1, h2⟩ := argsSegs_wfIn ps rest hrest hwf.2
      obtain ⟨c, hc1, hc2⟩ := Primary.seg_head p hwf.1 (segsText (argsSegs ps) ++ rest)
      have hend : p.seg.endsBefore (segsText (argsSegs ps) ++ rest).head? = true := by
        rcases h2 with h | h | h <;> rw [h]
        · rfl
        · exact Primary.seg_endsBefore p 10 (by decide)
        · exact Primary.seg_endsBefore p 44 (by decide)
      simp only [Simple.segs, segsWfIn, segsText, List.append_assoc, hc1, h1, hend,
        (Primary.seg_wf p hwf.1).1, Bool.and_true, Bool.true_and, Bool.and_eq_true]
      refine ⟨⟨rfl, rfl⟩, rfl, ?_⟩
      simp [Seg.endsBefore, hc2]
  | assign name value =>
    simp only [Simple.wf, Bool.and_eq_true, isIdentifierText] at hwf
    obtain ⟨c, hc1, hc2⟩ := Primary.seg_head value hwf.2 rest
    have hend : value.seg.endsBefore rest.head? = true := by
      rcases hrest with h | h <;> rw [h]
      · rfl
      · exact Primary.seg_endsBefore value 10 (by decide)
    simp only [Simple.segs, segsWfIn, segsText, List.append_assoc, List.nil_append, hc1, hend,
      (Primary.seg_wf value hwf.2).1, Bool.and_true, Bool.true_and, Bool.and_eq_true]
    refine ⟨⟨?_, rfl⟩, ⟨rfl, rfl⟩, ⟨rfl, rfl⟩, rfl, ?_⟩
    · exact hwf.1.1
    · simp [Seg.endsBefore, hc2]

theorem argsSegs_text (ps : List Primary) : segsText (argsSegs ps) = argsText ps := by
  induction ps with
  | nil => rfl
  | cons p ps ih =>
    simp only [argsSegs, segsText, ih, Primary.seg_text]
    simp [argsText, Seg.text, symbolText, str]

theorem Simple.segs_text (s : Simple) : segsText s.segs = s.text := by
  cases s with
  | print args =>
    cases args with
    | nil => simp [Simple.segs, segsText, Simple.text, Seg.text]
    | cons p ps =>
      simp only [Simple.segs, segsText, argsSegs_text, Primary.seg_text]
      simp [Simple.text, Seg.text, str]
  | assign name value =>
    simp only [Simple.segs, segsText, Primary.seg_text]
    simp [Simple.text, Seg.text, symbolText, str]

theorem tokens_of_argsSegs (ps : List Primary) (hwf : ∀ p ∈ ps, p.wf = true) :
    ∀ (toks : List Token) (ks : List (TokenType × GoString)),
      toks.map Token.key = segsKeys (argsSegs ps) ++ ks →
      ∃ (args : List (Token × Token)) (ts : List Token),
        toks = argTokens args ++ ts ∧ ts.map Token.key = ks
        ∧ (∀ x ∈ args, x.1.Typ = COMMA ∧ x.2.isPrimary = true)
        ∧ args.map (fun x => x.2.leaf) = ps.map Primary.tree := by
  induction ps with
  | nil =>
    intro toks ks h
    exact ⟨[], toks, rfl, h, by simp, rfl⟩
  | cons p ps ih =>
    intro toks ks h
    have hp := hwf p (List.mem_cons_self _ _)
    simp only [argsSegs, segsKeys, Primary.seg_keys p hp] at h
    simp only [Seg.keys, List.cons_append, List.nil_append] at h
    obtain ⟨tc, ts, rfl, hkc, h⟩ := map_key_cons h
    obtain ⟨tp, ts, rfl, hkp, h⟩ := map_key_cons h
    obtain ⟨args, ts1, rfl, hks, hargs, htree⟩ :=
      ih (fun q hq => hwf q (List.mem_cons_of_mem _ hq)) ts ks h
    obtain ⟨hp1, hp2⟩ := Primary.leaf_of_key p tp hkp
    refine ⟨(tc, tp) :: args, ts1, by simp [argTokens], hks, ?_, by simp [hp2, htree]⟩
    intro x hx
    rcases List.mem_cons.1 hx with rfl | hx
    · exact ⟨(key_typ hkc).1, hp1⟩
    · exact hargs x hx

/-- Tokens with the kinds and texts of a simple statement are parsed into its
tree by `parseStatement`, up to a NEWLINE or EOF token. -/
theorem tokens_of_simple (s : Simple) (hwf : s.wf = true) (toks : List Token)
    (ks : List (TokenType × GoString)) (h : toks.map Token.key = segsKeys s.segs ++ ks) :
    ∃ (t0 : Token) (stoks ts : List Token),
      toks = t0 :: stoks ++ ts ∧ ts.map Token.key = ks
      ∧ (t0.Typ = PRINT ∨ t0.Typ = IDENTIFIER)
      ∧ ∀ depth, ParsesAs (parseStatementDepth (depth + 1)) stopLine (t0 :: stoks) s.tree := by
  cases s with
  | print args =>
    cases args with
    | nil =>
      simp only [Simple.segs, segsKeys, Seg.keys, List.cons_append, List.nil_append] at h
      obtain ⟨tpr, ts, rfl, hkpr, h⟩ := map_key_cons h
      have hpr : tpr.Typ = PRINT := (key_typ hkpr).1
      exact ⟨tpr, [], ts, rfl, h, Or.inl hpr, fun depth =>
        parseStatementDepth_print depth _ tpr [] _ hpr (parsePrintStatement_none tpr hpr)⟩
    | cons p ps =>
      simp only [Simple.wf, List.all_cons, Bool.and_eq_true, List.all_eq_true] at hwf
      simp only [Simple.segs, segsKeys, Primary.seg_keys p hwf.1] at h
      simp only [Seg.keys, List.cons_append, List.nil_append] at h
      obtain ⟨tpr, ts, rfl, hkpr, h⟩ := map_key_cons h
      obtain ⟨tp, ts, rfl, hkp, h⟩ := map_key_cons h
      obtain ⟨args, ts1, rfl, hks, hargs, htree⟩ := tokens_of_argsSegs ps hwf.2 ts ks h
      have hpr : tpr.Typ = PRINT := (key_typ hkpr).1
      obtain ⟨hp1, hp2⟩ := Primary.leaf_of_key p tp hkp
      refine ⟨tpr, tp :: argTokens args, ts1, by simp, hks, Or.inl hpr, fun depth => ?_⟩
      have := parsePrintStatement_args tpr tp args hpr hp1 hargs
      rw [hp2, htree] at this
      exact parseStatementDepth_print depth _ tpr _ _ hpr this
  | assign name value =>
    simp only [Simple.wf, Bool.and_eq_true, isIdentifierText, decide_eq_true_eq] at hwf
    simp only [Simple.segs, segsKeys, Primary.seg_keys value hwf.2] at h
    simp only [Seg.keys, List.cons_append, List.nil_append, hwf.1.2] at h
    obtain ⟨tn, ts, rfl, hkn, h⟩ := map_key_cons h
    obtain ⟨ta, ts, rfl, hka, h⟩ := map_key_cons h
    obtain ⟨tv, ts, rfl, hkv, h⟩ := map_key_cons h
    obtain ⟨hn1, hn2⟩ := key_typ hkn
    obtain ⟨hv1, hv2⟩ := Primary.leaf_of_key value tv hkv
    refine ⟨tn, [ta, tv], ts, by simp, h, Or.inr hn1, fun depth => ?_⟩
    have := parseAssignmentStatement_leaf tn ta tv hn1 (key_typ hka).1 hv1
    rw [hn2, hv2] at this
    exact parseStatementDepth_assign depth _ tn ta [tv] _ hn1 (key_typ hka).1
      (this.mono stopComparison_of_stopLine)

/-! ## Sequences of statements (C12) -/

theorem segsText_append (a b : List Seg) : segsText (a ++ b) = segsText a ++ segsText b := by
  induction a with
  | nil => rfl
  | cons s a ih => simp [segsText, ih]

theorem segsKeys_append (a b : List Seg) : segsKeys (a ++ b) = segsKeys a ++ segsKeys b := by
  induction a with
  | nil => rfl
  | cons s a ih => simp [segsKeys, ih]

theorem segsWfIn_append (a b : List Seg) (rest : GoString) :
    segsWfIn (a ++ b) rest = (segsWfIn a (segsText b ++ rest) && segsWfIn b rest) := by
  induction a with
  | nil => simp [segsWfIn]
  | cons s a ih => simp [segsWfIn, ih, segsText_append, Bool.and_assoc]

theorem newlines_text (n : Nat) : segsText (List.replicate n Seg.newline) = List.replicate n 10 := by
  induction n with
  | zero => rfl
  | succ n ih => simp [List.replicate_succ, segsText, ih, Seg.text, str]

theorem newlines_keys (n : Nat) :
    segsKeys (List.replicate n Seg.newline) = List.replicate n (NEWLINE, str "\n") := by
  induction n with
  | zero => rfl
  | succ n ih => simp [List.replicate_succ, segsKeys, ih, Seg.keys]

theorem newlines_wfIn (n : Nat) (rest : GoString) :
    segsWfIn (List.replicate n Seg.newline) rest = true := by
  induction n with
  | zero => rfl
  | succ n ih =>
    simp only [List.replicate_succ, segsWfIn, ih, Bool.and_true, Bool.and_eq_true]
    refine ⟨rfl, ?_⟩
    cases (segsText (List.replicate n Seg.newline) ++ rest).head? <;> rfl

theorem linesSegs_text (lines : List (Simple × Nat)) :
    segsText (linesSegs lines) = linesText lines := by
  induction lines with
  | nil => rfl
  | cons l ls ih =>
    obtain ⟨s, n⟩ := l
    simp only [linesSegs, linesText, segsText_append, Simple.segs_text, newlines_text, ih]

theorem linesSegs_wfIn (lines : List (Simple × Nat)) (rest : GoString)
    (hwf : ∀ l ∈ lines, l.1.wf = true) : segsWfIn (linesSegs lines) rest = true := by
  induction lines with
  | nil => rfl
  | cons l ls ih =>
    obtain ⟨s, n⟩ := l
    simp only [linesSegs, segsWfIn_append, newlines_wfIn, Bool.true_and, Bool.and_true,
      Bool.and_eq_true]
    refine ⟨?_, ih (fun l hl => hwf l (List.mem_cons_of_mem _ hl))⟩
    refine Simple.segs_wfIn s (hwf (s, n) (List.mem_cons_self _ _)) _ (Or.inr ?_)
    rw [newlines_text]
    rfl

theorem tokens_of_newlines (n : Nat) :
    ∀ (toks : List Token) (ks : List (TokenType × GoString)),
      toks.map Token.key = List.replicate n (NEWLINE, str "\n") ++ ks →
      ∃ nls ts, toks = nls ++ ts ∧ ts.map Token.key = ks ∧ nls.length = n
        ∧ ∀ t ∈ nls, t.Typ = NEWLINE := by
  induction n with
  | zero => intro toks ks h; exact ⟨[], toks, rfl, by simpa using h, rfl, by simp⟩
  | succ n ih =>
    intro toks ks h
    rw [List.replicate_succ, List.cons_append] at h
    obtain ⟨t, ts, rfl, hk, h⟩ := map_key_cons h
    obtain ⟨nls, ts1, rfl, hks, hlen, hnl⟩ := ih ts ks h
    refine ⟨t :: nls, ts1, rfl, hks, by simp [hlen], ?_⟩
    intro x hx
    rcases List.mem_cons.1 hx with rfl | hx
    · exact (key_typ hk).1
    · exact hnl x hx

theorem skipNewlinesLoop_run (nls : List Token) :
    ∀ (n : Nat) (pre rest : List Token) (u : Token),
      (∀ t ∈ nls, t.Typ = NEWLINE) → u.Typ ≠ NEWLINE → nls.length < n →
      skipNewlinesLoop n (parserAt pre (nls ++ u :: rest)) =
        .ok (parserAt (pre ++ nls) (u :: rest)) := by
  induction nls with
  | nil =>
    intro n pre rest u _ hu hn
    obtain ⟨n, rfl⟩ : ∃ m, n = m + 1 := ⟨n - 1, by simp at hn; omega⟩
    simp [skipNewlinesLoop, hu]
  | cons t nls ih =>
    intro n pre rest u hnl hu hn
    obtain ⟨n, rfl⟩ : ∃ m, n = m + 1 := ⟨n - 1, by simp at hn; omega⟩
    have ht := hnl t (List.mem_cons_self _ _)
    have hadv := advance_parserAt pre (nls ++ u :: rest) t (by rw [ht]; decide)
    have hrec := ih n (pre ++ [t]) rest u (fun x hx => hnl x (List.mem_cons_of_mem _ hx)) hu
      (by simp at hn; omega)
    simp only [List.cons_append, skipNewlinesLoop, check_parserAt, ht, Result.bind_ok, hadv]
    simp only [List.append_assoc, List.singleton_append] at hrec
    simp [hrec]

theorem skipNewlines_run (nls pre rest : List Token) (u : Token)
    (hnl : ∀ t ∈ nls, t.Typ = NEWLINE) (hu : u.Typ ≠ NEWLINE) :
    (parserAt pre (nls ++ u :: rest)).skipNewlines = .ok (parserAt (pre ++ nls) (u :: rest)) :=
  skipNewlinesLoop_run nls _ pre rest u hnl hu (by simp; omega)

theorem parseProgramLoop_newlines (nls : List Token) :
    ∀ (fuel : Nat) (acc : List Statement) (pre rest : List Token),
      (∀ t ∈ nls, t.Typ = NEWLINE) →
      parseProgramLoop (fuel + nls.length) acc (parserAt pre (nls ++ rest)) =
        parseProgramLoop fuel acc (parserAt (pre ++ nls) rest) := by
  induction nls with
  | nil => intro fuel acc pre rest _; simp
  | cons t nls ih =>
    intro fuel acc pre rest hnl
    have ht := hnl t (List.mem_cons_self _ _)
    have hadv := advance_parserAt pre (nls ++ rest) t (by rw [ht]; decide)
    have hrec := ih fuel acc (pre ++ [t]) rest (fun x hx => hnl x (List.mem_cons_of_mem _ hx))
    have hf : fuel + (t :: nls).length = (fuel + nls.length) + 1 := by simp; omega
    simp only [List.append_assoc, List.singleton_append] at hrec
    rw [hf]
    simp only [List.cons_append, parseProgramLoop, isAtEnd_parserAt, check_parserAt, ht,
      Result.bind_ok, hadv]
    simp [hrec]

theorem parseProgramLoop_statement (t0 u : Token) (stoks nls rest : List Token)
    (tree : Statement) (fuel : Nat) (acc : List Statement) (pre : List Token)
    (h : ParsesAs parseStatement stopLine (t0 :: stoks) tree)
    (h0 : t0.Typ ≠ EOF ∧ t0.Typ ≠ NEWLINE) (hnl : ∀ t ∈ nls, t.Typ = NEWLINE)
    (hu : u.Typ ≠ NEWLINE) (hlast : nls = [] → u.Typ = EOF) :
    parseProgramLoop (fuel + 1) acc (parserAt pre (t0 :: stoks ++ nls ++ u :: rest)) =
      parseProgramLoop fuel (acc ++ [tree]) (parserAt (pre ++ t0 :: stoks ++ nls) (u :: rest)) := by
  obtain ⟨v, rest1, hv, hstop⟩ : ∃ v rest1, nls ++ u :: rest = v :: rest1
      ∧ stopLine v.Typ = true := by
    cases nls with
    | nil => exact ⟨u, rest, rfl, by rw [hlast rfl]; rfl⟩
    | cons t nls => exact ⟨t, _, rfl, by rw [hnl t (List.mem_cons_self _ _)]; rfl⟩
  have hstmt := h pre v rest1 hstop
  have hskip := skipNewlines_run nls (pre ++ t0 :: stoks) rest u hnl hu
  simp only [List.cons_append, List.append_assoc] at hstmt hskip ⊢
  simp only [parseProgramLoop, isAtEnd_parserAt, check_parserAt, Result.bind_ok]
  have hb1 : (t0.Typ == EOF) = false := by simpa using h0.1
  have hb2 : (t0.Typ == NEWLINE) = false := by simpa using h0.2
  simp only [hb1, hb2, Bool.false_eq_true, if_false, Bool.and_false]
  rw [hv, hstmt, Result.bind_ok, ← hv, hskip, Result.bind_ok]

theorem parseProgramLoop_eof (eof : Token) (rest : List Token) (fuel : Nat)
    (acc : List Statement) (pre : List Token) (heof : eof.Typ = EOF) :
    parseProgramLoop (fuel + 1) acc (parserAt pre (eof :: rest)) = .ok ⟨acc⟩ := by
  simp [parseProgramLoop, heof]

theorem parseStatement_simple (t0 : Token) (stoks : List Token) (tree : Statement)
    (h : ∀ depth, ParsesAs (parseStatementDepth (depth + 1)) stopLine (t0 :: stoks) tree) :
    ParsesAs parseStatement stopLine (t0 :: stoks) tree :=
  parseStatement_parsesAs _ _ _ fun depth => h (depth + 1)

/-- Tokens with the kinds and texts of statements written one per line: the
loop of `parseProgram` reads them in one iteration each. -/
theorem tokens_of_lines (lines : List (Simple × Nat)) (hwf : ∀ l ∈ lines, l.1.wf = true) :
    ∀ (toks : List Token) (ks : List (TokenType × GoString)),
      toks.map Token.key = segsKeys (linesSegs lines) ++ ks →
      (∃ k ks1, ks = k :: ks1 ∧ k.1 ≠ NEWLINE) →
      ∃ ltoks ts, toks = ltoks ++ ts ∧ ts.map Token.key = ks
        ∧ lines.length ≤ ltoks.length
        ∧ (∃ u rest, toks = u :: rest ∧ u.Typ ≠ NEWLINE)
        ∧ ∀ (fuel : Nat) (acc : List Statement) (pre : List Token),
            parseProgramLoop (fuel + lines.length) acc (parserAt pre (ltoks ++ ts)) =
              parseProgramLoop fuel (acc ++ lines.map (fun l => l.1.tree))
                (parserAt (pre ++ ltoks) ts) := by
  induction lines with
  | nil =>
    intro toks ks h hks
    obtain ⟨k, ks1, rfl, hk⟩ := hks
    simp only [linesSegs, segsKeys, List.nil_append] at h
    obtain ⟨u, rest, rfl, hu, hrest⟩ := map_key_cons h
    refine ⟨[], u :: rest, rfl, by simp [hu, hrest], le_refl _, ⟨u, rest, rfl, ?_⟩, ?_⟩
    · intro hn
      apply hk
      rw [← hu]
      exact hn
    · intro fuel acc pre
      simp
  | cons l ls ih =>
    obtain ⟨s, n⟩ := l
    intro toks ks h hks
    have hs := hwf (s, n) (List.mem_cons_self _ _)
    simp only [linesSegs, segsKeys_append, newlines_keys, List.append_assoc] at h
    obtain ⟨t0, stoks, ts, rfl, h, ht0, hparse⟩ := tokens_of_simple s hs toks _ h
    obtain ⟨nls, ts, rfl, h, hlen, hnl⟩ := tokens_of_newlines (n + 1) ts _ h
    obtain ⟨ltoks, ts, rfl, h, hle, ⟨u, rest, hu, hun⟩, hloop⟩ :=
      ih (fun l hl => hwf l (List.mem_cons_of_mem _ hl)) ts ks h hks
    have h0 : t0.Typ ≠ EOF ∧ t0.Typ ≠ NEWLINE := by
      rcases ht0 with h | h <;> simp [h]
    refine ⟨t0 :: stoks ++ nls ++ ltoks, ts, by simp, h, by simp; omega,
      ⟨t0, _, rfl, h0.2⟩, ?_⟩
    intro fuel acc pre
    have hstep := parseProgramLoop_statement t0 u stoks nls rest s.tree (fuel + ls.length) acc pre
      (parseStatement_simple t0 stoks _ hparse) h0 hnl hun
      (fun hnil => by rw [hnil] at hlen; simp at hlen)
    have hrec := hloop fuel (acc ++ [s.tree]) (pre ++ t0 :: stoks ++ nls)
    rw [← hu] at hstep
    have hf : fuel + ((s, n) :: ls).length = fuel + ls.length + 1 := by simp; omega
    simp only [List.cons_append, List.append_assoc, List.map_cons] at hstep hrec ⊢
    rw [hf, hstep, hrec]
    simp

theorem Simple.keys_head (s : Simple) (hwf : s.wf = true) :
    ∃ k ks, segsKeys s.segs = k :: ks ∧ k.1 ≠ NEWLINE := by
  cases s with
  | print args =>
    cases args with
    | nil => exact ⟨_, _, rfl, by decide⟩
    | cons p ps => exact ⟨_, _, rfl, by decide⟩
  | assign name value =>
    simp only [Simple.wf, Bool.and_eq_true, isIdentifierText, decide_eq_true_eq] at hwf
    refine ⟨(identifierType name, name), _, rfl, ?_⟩
    rw [hwf.1.2]
    simp

/-- C12: for simple statements (`print e1, ..., ek` with `k ≥ 0`, or `name = e`,
every `e` a number literal or an identifier that is not a keyword, `name` such
an identifier) written one per line, after `lead` line feeds, each statement of
`lines` followed by one or more line feeds, and the optional statement `last`
by none, `Parse` returns the program of exactly their print and assignment
statements, in source order. -/
theorem C12_statement_sequence (lead : Nat) (lines : List (Simple × Nat))
    (last : Option Simple) (hlines : ∀ l ∈ lines, l.1.wf = true)
    (hlast : ∀ s ∈ last, s.wf = true) :
    Parse (List.replicate lead 10 ++ linesText lines ++ lastText last)
      = .ok ⟨lines.map (fun l => l.1.tree) ++ last.toList.map Simple.tree⟩ := by
  have hwf : segsWf (List.replicate lead Seg.newline ++ (linesSegs lines ++ lastSegs last))
      = true := by
    rw [← segsWfIn_nil, segsWfIn_append, segsWfIn_append, newlines_wfIn,
      linesSegs_wfIn lines _ hlines]
    cases last with
    | none => rfl
    | some s => exact Simple.segs_wfIn s (hlast s rfl) [] (Or.inl rfl)
  have htext : segsText (List.replicate lead Seg.newline ++ (linesSegs lines ++ lastSegs last))
      = List.replicate lead 10 ++ linesText lines ++ lastText last := by
    rw [segsText_append, segsText_append, newlines_text, linesSegs_text, List.append_assoc]
    cases last with
    | none => rfl
    | some s => rw [lastSegs, lastText, Simple.segs_text]
  obtain ⟨toks, hkeys, hparse⟩ := Parse_segs _ hwf
  rw [htext] at hparse
  rw [hparse, parseProgram]
  rw [segsKeys_append, segsKeys_append, newlines_keys, List.append_assoc, List.append_assoc]
    at hkeys
  obtain ⟨nls, ts, rfl, hkeys, hlen, hnl⟩ := tokens_of_newlines lead toks _ hkeys
  cases last with
  | none =>
    simp only [lastSegs, segsKeys, List.nil_append] at hkeys
    obtain ⟨ltoks, ts, rfl, hks, hle, -, hloop⟩ :=
      tokens_of_lines lines hlines ts _ hkeys ⟨_, _, rfl, by decide⟩
    obtain ⟨eof, ts, rfl, hke, hks⟩ := map_key_cons hks
    obtain ⟨F, hF⟩ : ∃ F, (parserAt [] (nls ++ (ltoks ++ eof :: ts))).tokens.length + 1
        = ((F + 1) + lines.length) + nls.length :=
      ⟨ltoks.length - lines.length + ts.length + 1, by simp; omega⟩
    rw [hF, parseProgramLoop_newlines nls _ _ _ _ hnl, hloop,
      parseProgramLoop_eof eof ts F _ _ (key_typ hke).1]
    simp
  | some s =>
    simp only [lastSegs] at hkeys
    obtain ⟨ltoks, ts, rfl, hks, hle, -, hloop⟩ :=
      tokens_of_lines lines hlines ts _ hkeys (by
        obtain ⟨k, ks, hk, hne⟩ := Simple.keys_head s (hlast s rfl)
        exact ⟨k, ks ++ [(EOF, [])], by rw [hk]; rfl, hne⟩)
    obtain ⟨t0, stoks, ts, rfl, hks, ht0, hstmt⟩ := tokens_of_simple s (hlast s rfl) ts _ hks
    obtain ⟨eof, ts, rfl, hke, hks⟩ := map_key_cons hks
    have heof : eof.Typ = EOF := (key_typ hke).1
    have h0 : t0.Typ ≠ EOF ∧ t0.Typ ≠ NEWLINE := by
      rcases ht0 with h | h <;> simp [h]
    obtain ⟨F, hF⟩ : ∃ F,
        (parserAt [] (nls ++ (ltoks ++ (t0 :: stoks ++ eof :: ts)))).tokens.length + 1
          = (((F + 1) + 1) + lines.length) + nls.length :=
      ⟨ltoks.length - lines.length + stoks.length + ts.length + 1, by simp; omega⟩
    have hstep := parseProgramLoop_statement t0 eof stoks [] ts s.tree (F + 1)
      ([] ++ lines.map (fun l => l.1.tree)) ([] ++ nls ++ ltoks)
      (parseStatement_simple t0 stoks _ hstmt) h0 (by simp) (by rw [heof]; decide)
      (fun _ => heof)
    simp only [List.append_nil] at hstep
    rw [hF, parseProgramLoop_newlines nls _ _ _ _ hnl, hloop, hstep,
      parseProgramLoop_eof eof ts F _ _ heof]
    simp

theorem C12_statement_sequence_witness :
    Parse (str "x = 42\nprint x")
      = .ok ⟨[AssignmentStatement (str "x") (NumberLiteral (str "42")),
          PrintStatement [Identifier (str "x")]]⟩
    ∧ Parse (str "\n\nprint\n\n\ny = x\nprint x, 1, y\n")
      = .ok ⟨[PrintStatement [], AssignmentStatement (str "y") (Identifier (str "x")),
          PrintStatement [Identifier (str "x"), NumberLiteral (str "1"),
            Identifier (str "y")]]⟩ :=
  ⟨C12_statement_sequence 0 [(.assign (str "x") (.number (str "42")), 0)]
      (some (.print [.identifier (str "x")])) (by decide) (by decide),
    C12_statement_sequence 2 [(.print [], 2), (.assign (str "y") (.identifier (str "x")), 0),
      (.print [.identifier (str "x"), .number (str "1"), .identifier (str "y")], 0)]
      none (by decide) (by decide)⟩

/-! ## If statements (C13) -/

theorem parseIndentedBlock_nls (statement : Parser → Res Statement) (stop : TokenType → Bool)
    (s0 nl : Token) (ss nls : List Token) (stmt : Statement)
    (h : ParsesAs statement stop (s0 :: ss) stmt)
    (h0 : s0.Typ ∉ [EOF, NEWLINE, IF, FOR, ELSE]) (hstop : stop NEWLINE = true)
    (hnl : nl.Typ = NEWLINE) (hnls : ∀ t ∈ nls, t.Typ = NEWLINE) :
    ParsesAs (parseIndentedBlock statement) (fun ty => ty != NEWLINE) (s0 :: ss ++ nl :: nls)
      [stmt] := by
  intro pre u rest hu
  simp only [bne_iff_ne, ne_eq] at hu
  simp only [List.mem_cons, List.mem_singleton, not_or, List.not_mem_nil, or_false] at h0
  obtain ⟨h01, h02, h03, h04, h05⟩ := h0
  have hstmt := h pre nl (nls ++ u :: rest) (by rw [hnl]; exact hstop)
  have hskip0 := skipNewlines_parserAt pre (ss ++ nl :: nls ++ u :: rest) s0 h02
  have hskip1 := skipNewlines_run (nl :: nls) (pre ++ s0 :: ss) rest u (by
    intro t ht
    rcases List.mem_cons.1 ht with rfl | ht
    · exact hnl
    · exact hnls t ht) hu
  simp only [List.cons_append, List.append_assoc] at hstmt hskip0 hskip1 ⊢
  simp only [parseIndentedBlock, hskip0, Result.bind_ok, tokens_parserAt, indentedBlockLoop,
    isAtEnd_parserAt, check_parserAt, hstmt, hskip1]
  simp [h01, h02, h03, h04, h05]

theorem parseIfStatement_else (statement : Parser → Res Statement)
    (stop : TokenType → Bool) (tif tc tnl te tc2 tnl2 : Token) (ctoks btoks etoks : List Token)
    (cond : Expression) (body els : List Statement)
    (hcond : ParsesAs parseExpression (fun ty => ty == COLON) ctoks cond)
    (hbody : ParsesAs (parseIndentedBlock statement) (fun ty => ty != NEWLINE) btoks body)
    (helse : ParsesAs (parseIndentedBlock statement) stop etoks els)
    (hif : tif.Typ = IF) (hc : tc.Typ = COLON) (hnl : tnl.Typ = NEWLINE) (he : te.Typ = ELSE)
    (hc2 : tc2.Typ = COLON) (hnl2 : tnl2.Typ = NEWLINE) :
    ParsesAs (parseIfStatement statement) stop
      (tif :: ctoks ++ tc :: tnl :: btoks ++ te :: tc2 :: tnl2 :: etoks)
      (IfStatement cond body els) := by
  intro pre u rest hu
  have h1 := consume_parserAt pre
    (ctoks ++ tc :: tnl :: btoks ++ te :: tc2 :: tnl2 :: etoks ++ u :: rest) tif IF
    (str "Expected 'if'")
  rw [if_pos ⟨by rw [hif]; decide, hif⟩] at h1
  have h2 := hcond (pre ++ [tif]) tc (tnl :: btoks ++ te :: tc2 :: tnl2 :: etoks ++ u :: rest)
    (by simp [hc])
  have h3 := consume_parserAt (pre ++ [tif] ++ ctoks)
    (tnl :: btoks ++ te :: tc2 :: tnl2 :: etoks ++ u :: rest) tc COLON
    (str "Expected ':' after if condition")
  rw [if_pos ⟨by rw [hc]; decide, hc⟩] at h3
  have h4 := advance_parserAt (pre ++ [tif] ++ ctoks ++ [tc])
    (btoks ++ te :: tc2 :: tnl2 :: etoks ++ u :: rest) tnl (by rw [hnl]; decide)
  have h5 := hbody (pre ++ [tif] ++ ctoks ++ [tc] ++ [tnl]) te
    (tc2 :: tnl2 :: etoks ++ u :: rest) (by rw [he]; rfl)
  have h6 := advance_parserAt (pre ++ [tif] ++ ctoks ++ [tc] ++ [tnl] ++ btoks)
    (tc2 :: tnl2 :: etoks ++ u :: rest) te (by rw [he]; decide)
  have h7 := consume_parserAt (pre ++ [tif] ++ ctoks ++ [tc] ++ [tnl] ++ btoks ++ [te])
    (tnl2 :: etoks ++ u :: rest) tc2 COLON (str "Expected ':' after else")
  rw [if_pos ⟨by rw [hc2]; decide, hc2⟩] at h7
  have h8 := advance_parserAt
    (pre ++ [tif] ++ ctoks ++ [tc] ++ [tnl] ++ btoks ++ [te] ++ [tc2])
    (etoks ++ u :: rest) tnl2 (by rw [hnl2]; decide)
  have h9 := helse (pre ++ [tif] ++ ctoks ++ [tc] ++ [tnl] ++ btoks ++ [te] ++ [tc2] ++ [tnl2])
    u rest hu
  simp only [List.append_assoc, List.cons_append, List.nil_append] at h1 h2 h3 h4 h5 h6 h7 h8 h9 ⊢
  simp only [parseIfStatement, h1, Result.bind_ok, check_parserAt, h2, h3, h4, h5, h6, h7, h8, h9,
    hnl, he, hnl2]
  simp [he, hnl2, h4, h5, h6, h7, h8, h9]

theorem parseIfStatement_noelse (statement : Parser → Res Statement)
    (stop : TokenType → Bool) (tif tc tnl : Token) (ctoks btoks : List Token)
    (cond : Expression) (body : List Statement)
    (hcond : ParsesAs parseExpression (fun ty => ty == COLON) ctoks cond)
    (hbody : ParsesAs (parseIndentedBlock statement) stop btoks body)
    (hif : tif.Typ = IF) (hc : tc.Typ = COLON) (hnl : tnl.Typ = NEWLINE) :
    ParsesAs (parseIfStatement statement) (fun ty => stop ty && ty != ELSE)
      (tif :: ctoks ++ tc :: tnl :: btoks) (IfStatement cond body []) := by
  intro pre u rest hu
  simp only [Bool.and_eq_true, bne_iff_ne, ne_eq] at hu
  have h1 := consume_parserAt pre (ctoks ++ tc :: tnl :: btoks ++ u :: rest) tif IF
    (str "Expected 'if'")
  rw [if_pos ⟨by rw [hif]; decide, hif⟩] at h1
  have h2 := hcond (pre ++ [tif]) tc (tnl :: btoks ++ u :: rest) (by simp [hc])
  have h3 := consume_parserAt (pre ++ [tif] ++ ctoks) (tnl :: btoks ++ u :: rest) tc COLON
    (str "Expected ':' after if condition")
  rw [if_pos ⟨by rw [hc]; decide, hc⟩] at h3
  have h4 := advance_parserAt (pre ++ [tif] ++ ctoks ++ [tc]) (btoks ++ u :: rest) tnl
    (by rw [hnl]; decide)
  have h5 := hbody (pre ++ [tif] ++ ctoks ++ [tc] ++ [tnl]) u rest hu.1
  simp only [List.append_assoc, List.cons_append, List.nil_append] at h1 h2 h3 h4 h5 ⊢
  simp only [parseIfStatement, h1, Result.bind_ok, check_parserAt, h2, h3, h4, h5, hnl]
  simp [h4, h5, hu.2]

theorem parseStatementDepth_if (depth : Nat) (stop : TokenType → Bool) (t0 : Token)
    (ts : List Token) (stmt : Statement) (h0 : t0.Typ = IF)
    (h : ParsesAs (parseIfStatement (parseStatementDepth depth)) stop (t0 :: ts) stmt) :
    ParsesAs (parseStatementDepth (depth + 1)) stop (t0 :: ts) stmt := by
  intro pre u rest hu
  have hp := h pre u rest hu
  simp only [List.cons_append] at hp ⊢
  simp [parseStatementDepth, h0, hp]

/-- The condition `a q b` up to the colon. -/
theorem parseExpression_comparison (ta tq tb : Token) (ha : ta.isPrimary = true)
    (hb : tb.isPrimary = true)
    (hq : tq.Typ ∈ [GREATER, GREATER_EQ, LESS, LESS_EQ, EQUAL, NOT_EQUAL]) :
    ParsesAs parseExpression (fun ty => ty == COLON) [ta, tq, tb]
      (BinaryExpression ta.leaf tq.Value tb.leaf) := by
  have h : ParsesAs parseExpression stopComparison [ta, tq, tb]
      (BinaryExpression ta.leaf tq.Value tb.leaf) :=
    parseExpression_parsesAs_depth _ _ _ fun _ =>
      parseComparison_chain _ [ta] ta.leaf [(tq, [tb], tb.leaf)]
        (parseAddition_lift _ _ _ (parseMultiplication_lift _ _ _ (parsePrimary_token _ ta ha)))
        (fun x hx => by
          simp only [List.mem_singleton] at hx
          subst hx
          exact ⟨hq, parseAddition_lift _ _ _ (parseMultiplication_lift _ _ _
            (parsePrimary_token _ tb hb))⟩)
  exact h.mono (fun ty hty => by
    simp only [beq_iff_eq] at hty
    subst hty
    rfl)

theorem Simple.segs_head (s : Simple) (hwf : s.wf = true) (rest : GoString) :
    ∃ c, (segsText s.segs ++ rest).head? = some c ∧ isBlankChar c = false := by
  cases s with
  | print args =>
    cases args with
    | nil => exact ⟨112, rfl, rfl⟩
    | cons p ps => exact ⟨112, rfl, rfl⟩
  | assign name value =>
    simp only [Simple.wf, Bool.and_eq_true, isIdentifierText] at hwf
    cases name with
    | nil => simp [isWord] at hwf
    | cons c name =>
      refine ⟨c, rfl, ?_⟩
      have hc : isAlpha c = true := by
        have := hwf.1.1
        simp only [isWord, Bool.and_eq_true] at this
        exact this.1
      cases hb : isBlankChar c with
      | false => rfl
      | true =>
        simp only [isBlankChar, Bool.or_eq_true, beq_iff_eq] at hb
        rcases hb with rfl | rfl <;> simp [isAlpha] at hc

theorem Simple.first_not_block_end (t0 : Token) (h : t0.Typ = PRINT ∨ t0.Typ = IDENTIFIER) :
    t0.Typ ∉ [EOF, NEWLINE, IF, FOR, ELSE] := by
  rcases h with h | h <;> simp [h]

/-- The segments of `if a q b:`, a line feed and two spaces. -/
theorem ifHead_wfIn (a b : Primary) (q : TokenType) (ha : a.wf = true) (hb : b.wf = true)
    (hq : symbolText q ≠ []) (rest : GoString)
    (hrest : ∃ c, rest.head? = some c ∧ isBlankChar c = false) :
    segsWfIn (ifHeadSegs a q b) rest = true := by
  unfold ifHeadSegs
  obtain ⟨c, hc1, hc2⟩ := hrest
  obtain ⟨ca, hca1, hca2⟩ := Primary.seg_head a ha
    (segsText [.blank (str " "), .symbol q, .blank (str " "), b.seg, .symbol COLON, .newline,
      .blank (str "  ")] ++ rest)
  obtain ⟨cb, hcb1, hcb2⟩ := Primary.seg_head b hb
    (segsText [.symbol COLON, .newline, .blank (str "  ")] ++ rest)
  obtain ⟨cq, rq, hcq1, hcq2⟩ := Seg.text_head_of_token (.symbol q) (symbol_seg_wf q hq).1
    (symbol_seg_wf q hq).2
  have hqh : (segsText [.symbol q, .blank (str " "), b.seg, .symbol COLON, .newline,
      .blank (str "  ")] ++ rest).head? = some cq := by
    rw [segsText, hcq1]
    rfl
  have ea : a.seg.endsBefore (segsText [.blank (str " "), .symbol q, .blank (str " "), b.seg,
      .symbol COLON, .newline, .blank (str "  ")] ++ rest).head? = true :=
    Primary.seg_endsBefore a 32 (by decide)
  have eb : b.seg.endsBefore (segsText [.symbol COLON, .newline, .blank (str "  ")]
      ++ rest).head? = true :=
    Primary.seg_endsBefore b 58 (by decide)
  simp only [segsWfIn, (Primary.seg_wf a ha).1, (Primary.seg_wf b hb).1, ea, eb, Bool.and_true,
    Bool.true_and, Bool.and_eq_true]
  simp only [segsText, List.append_assoc] at hca1 hcb1 hqh ⊢
  rw [hca1, hcb1, hqh]
  split_ands <;> first
    | rfl
    | exact (symbol_seg_wf q hq).1
    | (simp [Seg.endsBefore, hca2]; done)
    | (simp [Seg.endsBefore, hcq2]; done)
    | (simp [Seg.endsBefore, hcb2]; done)
    | (simp [Seg.endsBefore, Seg.text, str]; done)
    | simp [Seg.text, str, segsText, hc1, Seg.endsBefore, hc2]

/-- The segments of a line feed, `else:`, a line feed and two spaces. -/
theorem elseHead_wfIn (rest : GoString)
    (hrest : ∃ c, rest.head? = some c ∧ isBlankChar c = false) :
    segsWfIn elseHeadSegs rest = true := by
  unfold elseHeadSegs
  obtain ⟨c, hc1, hc2⟩ := hrest
  simp only [segsWfIn, Bool.and_true, Bool.true_and, Bool.and_eq_true]
  split_ands <;> first
    | rfl
    | simp [Seg.text, str, segsText, hc1, Seg.endsBefore, hc2]

theorem ifHead_keys (a b : Primary) (q : TokenType) (ha : a.wf = true) (hb : b.wf = true) :
    segsKeys (ifHeadSegs a q b)
      = [(IF, str "if"), a.key, (q, symbolText q), b.key, (COLON, str ":"),
          (NEWLINE, str "\n")] := by
  simp only [ifHeadSegs, segsKeys, Primary.seg_keys a ha, Primary.seg_keys b hb]
  rfl

theorem ifHead_text (a b : Primary) (q : TokenType) :
    segsText (ifHeadSegs a q b)
      = str "if " ++ a.text ++ str " " ++ symbolText q ++ str " " ++ b.text ++ str ":\n  " := by
  simp only [ifHeadSegs, segsText, Primary.seg_text]
  simp [Seg.text, str, symbolText]

theorem comparison_symbol (q : TokenType)
    (hq : q ∈ [EQUAL, NOT_EQUAL, LESS, LESS_EQ, GREATER, GREATER_EQ]) :
    symbolText q ≠ [] ∧ q ∈ [GREATER, GREATER_EQ, LESS, LESS_EQ, EQUAL, NOT_EQUAL] := by
  simp only [List.mem_cons, List.mem_singleton, List.not_mem_nil, or_false] at hq
  rcases hq with rfl | rfl | rfl | rfl | rfl | rfl <;> exact ⟨by decide, by decide⟩

theorem Parse_if_else (a b : Primary) (q : TokenType) (s1 s2 : Simple)
    (ha : a.wf = true) (hb : b.wf = true)
    (hq : q ∈ [EQUAL, NOT_EQUAL, LESS, LESS_EQ, GREATER, GREATER_EQ])
    (h1 : s1.wf = true) (h2 : s2.wf = true) :
    Parse (str "if " ++ a.text ++ str " " ++ symbolText q ++ str " " ++ b.text ++ str ":\n  "
        ++ s1.text ++ str "\nelse:\n  " ++ s2.text)
      = .ok ⟨[IfStatement (BinaryExpression a.tree (symbolText q) b.tree) [s1.tree]
          [s2.tree]]⟩ := by
  obtain ⟨hq1, hq2⟩ := comparison_symbol q hq
  have hwf : segsWf (ifHeadSegs a q b ++ (s1.segs ++ (elseHeadSegs ++ s2.segs))) = true := by
    have w4 := Simple.segs_wfIn s2 h2 [] (Or.inl rfl)
    have w3 := elseHead_wfIn (segsText s2.segs ++ []) (Simple.segs_head s2 h2 [])
    have w2 := Simple.segs_wfIn s1 h1 (segsText (elseHeadSegs ++ s2.segs) ++ [])
      (Or.inr (by simp [elseHeadSegs, segsText, Seg.text, str]))
    have w1 := ifHead_wfIn a b q ha hb hq1
      (segsText (s1.segs ++ (elseHeadSegs ++ s2.segs)) ++ []) (by
        rw [segsText_append, List.append_assoc]
        exact Simple.segs_head s1 h1 _)
    rw [← segsWfIn_nil, segsWfIn_append, segsWfIn_append, segsWfIn_append, w1, w2, w3, w4]
    rfl
  obtain ⟨toks, hkeys, hparse⟩ := Parse_segs _ hwf
  rw [segsText_append, segsText_append, segsText_append, ifHead_text, Simple.segs_text,
    Simple.segs_text] at hparse
  have htext : str "if " ++ a.text ++ str " " ++ symbolText q ++ str " " ++ b.text
      ++ str ":\n  " ++ (s1.text ++ (segsText elseHeadSegs ++ s2.text))
      = str "if " ++ a.text ++ str " " ++ symbolText q ++ str " " ++ b.text ++ str ":\n  "
        ++ s1.text ++ str "\nelse:\n  " ++ s2.text := by
    simp [elseHeadSegs, segsText, Seg.text, str, symbolText]
  rw [htext] at hparse
  rw [hparse]
  rw [segsKeys_append, segsKeys_append, segsKeys_append, ifHead_keys a b q ha hb] at hkeys
  simp only [List.cons_append, List.nil_append, List.append_assoc] at hkeys
  obtain ⟨tif, ts, rfl, hkif, hkeys⟩ := map_key_cons hkeys
  obtain ⟨ta, ts, rfl, hka, hkeys⟩ := map_key_cons hkeys
  obtain ⟨tq, ts, rfl, hkq, hkeys⟩ := map_key_cons hkeys
  obtain ⟨tb, ts, rfl, hkb, hkeys⟩ := map_key_cons hkeys
  obtain ⟨tc, ts, rfl, hkc, hkeys⟩ := map_key_cons hkeys
  obtain ⟨tnl, ts, rfl, hknl, hkeys⟩ := map_key_cons hkeys
  obtain ⟨t1, stoks1, ts, rfl, hkeys, ht1, hparse1⟩ := tokens_of_simple s1 h1 ts _ hkeys
  simp only [elseHeadSegs, segsKeys, Seg.keys, List.cons_append, List.nil_append] at hkeys
  obtain ⟨nl, ts, rfl, hknl1, hkeys⟩ := map_key_cons hkeys
  obtain ⟨te, ts, rfl, hke, hkeys⟩ := map_key_cons hkeys
  obtain ⟨tc2, ts, rfl, hkc2, hkeys⟩ := map_key_cons hkeys
  obtain ⟨tnl2, ts, rfl, hknl2, hkeys⟩ := map_key_cons hkeys
  obtain ⟨t2, stoks2, ts, rfl, hkeys, ht2, hparse2⟩ := tokens_of_simple s2 h2 ts _ hkeys
  obtain ⟨eof, ts, rfl, hkeof, hkeys⟩ := map_key_cons hkeys
  have hnil : ts = [] := by simpa using hkeys
  subst hnil
  obtain ⟨ha1, ha2⟩ := Primary.leaf_of_key a ta hka
  obtain ⟨hb1, hb2⟩ := Primary.leaf_of_key b tb hkb
  obtain ⟨hq3, hq4⟩ := key_typ hkq
  have hcond := parseExpression_comparison ta tq tb ha1 hb1 (by rw [hq3]; exact hq2)
  rw [ha2, hb2, hq4] at hcond
  have hstmt : ParsesAs parseStatement (fun ty => stopLine ty && ty != NEWLINE)
      (tif :: [ta, tq, tb] ++ tc :: tnl :: (t1 :: stoks1 ++ nl :: []) ++ te :: tc2 :: tnl2
        :: (t2 :: stoks2))
      (IfStatement (BinaryExpression a.tree (symbolText q) b.tree) [s1.tree] [s2.tree]) :=
    parseStatement_parsesAs _ _ _ fun depth =>
      parseStatementDepth_if (depth + 1) _ tif _ _ (key_typ hkif).1
        (parseIfStatement_else (parseStatementDepth (depth + 1))
          (fun ty => stopLine ty && ty != NEWLINE) tif tc tnl te tc2 tnl2 [ta, tq, tb]
          (t1 :: stoks1 ++ nl :: []) (t2 :: stoks2)
          (BinaryExpression a.tree (symbolText q) b.tree) [s1.tree] [s2.tree] hcond
          (parseIndentedBlock_nls (parseStatementDepth (depth + 1)) stopLine t1 nl stoks1 []
            s1.tree (hparse1 depth) (Simple.first_not_block_end t1 ht1) rfl (key_typ hknl1).1
            (by simp))
          (parseIndentedBlock_one (parseStatementDepth (depth + 1)) stopLine t2 stoks2 s2.tree
            (hparse2 depth) (Simple.first_not_block_end t2 ht2))
          (key_typ hkif).1 (key_typ hkc).1 (key_typ hknl).1 (key_typ hke).1 (key_typ hkc2).1
          (key_typ hknl2).1)
  have hprog := parseProgram_one _ tif eof _ _ hstmt rfl (key_typ hkeof).1
    (by rw [(key_typ hkif).1]; exact ⟨by decide, by decide⟩)
  simp only [List.append_eq, List.cons_append, List.nil_append, List.append_assoc] at hprog ⊢
  exact hprog

theorem Parse_if (a b : Primary) (q : TokenType) (s1 : Simple)
    (ha : a.wf = true) (hb : b.wf = true)
    (hq : q ∈ [EQUAL, NOT_EQUAL, LESS, LESS_EQ, GREATER, GREATER_EQ]) (h1 : s1.wf = true) :
    Parse (str "if " ++ a.text ++ str " " ++ symbolText q ++ str " " ++ b.text ++ str ":\n  "
        ++ s1.text)
      = .ok ⟨[IfStatement (BinaryExpression a.tree (symbolText q) b.tree) [s1.tree] []]⟩ := by
  obtain ⟨hq1, hq2⟩ := comparison_symbol q hq
  have hwf : segsWf (ifHeadSegs a q b ++ s1.segs) = true := by
    have w2 := Simple.segs_wfIn s1 h1 [] (Or.inl rfl)
    have w1 := ifHead_wfIn a b q ha hb hq1 (segsText s1.segs ++ []) (Simple.segs_head s1 h1 [])
    rw [← segsWfIn_nil, segsWfIn_append, w1, w2]
    rfl
  obtain ⟨toks, hkeys, hparse⟩ := Parse_segs _ hwf
  rw [segsText_append, ifHead_text, Simple.segs_text] at hparse
  rw [hparse]
  rw [segsKeys_append, ifHead_keys a b q ha hb] at hkeys
  simp only [List.cons_append, List.nil_append, List.append_assoc] at hkeys
  obtain ⟨tif, ts, rfl, hkif, hkeys⟩ := map_key_cons hkeys
  obtain ⟨ta, ts, rfl, hka, hkeys⟩ := map_key_cons hkeys
  obtain ⟨tq, ts, rfl, hkq, hkeys⟩ := map_key_cons hkeys
  obtain ⟨tb, ts, rfl, hkb, hkeys⟩ := map_key_cons hkeys
  obtain ⟨tc, ts, rfl, hkc, hkeys⟩ := map_key_cons hkeys
  obtain ⟨tnl, ts, rfl, hknl, hkeys⟩ := map_key_cons hkeys
  obtain ⟨t1, stoks1, ts, rfl, hkeys, ht1, hparse1⟩ := tokens_of_simple s1 h1 ts _ hkeys
  obtain ⟨eof, ts, rfl, hkeof, hkeys⟩ := map_key_cons hkeys
  have hnil : ts = [] := by simpa using hkeys
  subst hnil
  obtain ⟨ha1, ha2⟩ := Primary.leaf_of_key a ta hka
  obtain ⟨hb1, hb2⟩ := Primary.leaf_of_key b tb hkb
  obtain ⟨hq3, hq4⟩ := key_typ hkq
  have hcond := parseExpression_comparison ta tq tb ha1 hb1 (by rw [hq3]; exact hq2)
  rw [ha2, hb2, hq4] at hcond
  have hstmt : ParsesAs parseStatement
      (fun ty => (fun ty => stopLine ty && ty != NEWLINE) ty && ty != ELSE)
      (tif :: [ta, tq, tb] ++ tc :: tnl :: (t1 :: stoks1))
      (IfStatement (BinaryExpression a.tree (symbolText q) b.tree) [s1.tree] []) :=
    parseStatement_parsesAs _ _ _ fun depth =>
      parseStatementDepth_if (depth + 1) _ tif _ _ (key_typ hkif).1
        (parseIfStatement_noelse _ _ tif tc tnl [ta, tq, tb] _ _ _ hcond
          (parseIndentedBlock_one _ stopLine t1 stoks1 s1.tree (hparse1 depth)
            (Simple.first_not_block_end t1 ht1))
          (key_typ hkif).1 (key_typ hkc).1 (key_typ hknl).1)
  have hprog := parseProgram_one _ tif eof _ _ hstmt rfl (key_typ hkeof).1
    (by rw [(key_typ hkif).1]; exact ⟨by decide, by decide⟩)
  simp only [List.append_eq, List.cons_append, List.nil_append, List.append_assoc] at hprog ⊢
  exact hprog

/-- C13: for a condition `a q b` (`a`, `b` number literals or identifiers that
are not keywords, `q` a comparison operator) and simple statements `s1`, `s2`
(print or assignment), `Parse` of `if a q b:`, line feed, two spaces, `s1`, line
feed, `else:`, line feed, two spaces, `s2` is the program of one if statement
with the tree of the condition, body `[s1]` and else branch `[s2]`; and `Parse`
of the same text up to `s1` is the program of one if statement with body `[s1]`
and an empty else branch. -/
theorem C13_if_else_parsing (a b : Primary) (q : TokenType) (s1 s2 : Simple)
    (ha : a.wf = true) (hb : b.wf = true)
    (hq : q ∈ [EQUAL, NOT_EQUAL, LESS, LESS_EQ, GREATER, GREATER_EQ])
    (h1 : s1.wf = true) (h2 : s2.wf = true) :
    Parse (str "if " ++ a.text ++ str " " ++ symbolText q ++ str " " ++ b.text ++ str ":\n  "
        ++ s1.text ++ str "\nelse:\n  " ++ s2.text)
      = .ok ⟨[IfStatement (BinaryExpression a.tree (symbolText q) b.tree) [s1.tree]
          [s2.tree]]⟩
    ∧ Parse (str "if " ++ a.text ++ str " " ++ symbolText q ++ str " " ++ b.text
        ++ str ":\n  " ++ s1.text)
      = .ok ⟨[IfStatement (BinaryExpression a.tree (symbolText q) b.tree) [s1.tree] []]⟩ :=
  ⟨Parse_if_else a b q s1 s2 ha hb hq h1 h2, Parse_if a b q s1 ha hb hq h1⟩

theorem C13_if_else_parsing_witness :
    Parse (str "if x >= 10:\n  print x, 1\nelse:\n  y = 0")
      = .ok ⟨[IfStatement
          (BinaryExpression (Identifier (str "x")) (str ">=") (NumberLiteral (str "10")))
          [PrintStatement [Identifier (str "x"), NumberLiteral (str "1")]]
          [AssignmentStatement (str "y") (NumberLiteral (str "0"))]]⟩
    ∧ Parse (str "if x >= 10:\n  print x, 1")
      = .ok ⟨[IfStatement
          (BinaryExpression (Identifier (str "x")) (str ">=") (NumberLiteral (str "10")))
          [PrintStatement [Identifier (str "x"), NumberLiteral (str "1")]] []]⟩ :=
  C13_if_else_parsing (.identifier (str "x")) (.number (str "10")) GREATER_EQ
    (.print [.identifier (str "x"), .number (str "1")])
    (.assign (str "y") (.number (str "0"))) (by decide) (by decide) (by decide) (by decide)
    (by decide)

/-! ## Occurrences of a text in a text -/

theorem prefix_of_append_barrier {P L B : GoString} {c : Nat} (hc : c ∉ P)
    (h : P <+: L ++ c :: B) : P <+: L := by
  rcases List.prefix_or_prefix_of_prefix h (List.prefix_append L (c :: B)) with h1 | h1
  · exact h1
  · obtain ⟨r, hr⟩ := h1
    subst hr
    rw [List.prefix_append_right_inj] at h
    rcases List.prefix_cons_iff.1 h with rfl | ⟨t, rfl, -⟩
    · simp
    · exact absurd (by simp) hc

theorem infix_append_barrier (P A B : GoString) (c : Nat) (hc : c ∉ P) (hP : P ≠ []) :
    P <:+: A ++ c :: B ↔ P <:+: A ∨ P <:+: B := by
  induction A with
  | nil =>
    rw [List.nil_append, List.infix_cons_iff, List.infix_nil]
    constructor
    · rintro (h | h)
      · rcases List.prefix_cons_iff.1 h with rfl | ⟨t, rfl, -⟩
        · exact absurd rfl hP
        · exact absurd (by simp) hc
      · exact Or.inr h
    · rintro (h | h)
      · exact absurd h hP
      · exact Or.inr h
  | cons a A ih =>
    rw [List.cons_append, List.infix_cons_iff, ih, @List.infix_cons_iff _ P a A]
    constructor
    · rintro (h | h | h)
      · exact Or.inl (Or.inl (prefix_of_append_barrier (L := a :: A) hc h))
      · exact Or.inl (Or.inr h)
      · exact Or.inr h
    · rintro ((h | h) | h)
      · exact Or.inl (h.trans (List.prefix_append (a :: A) (c :: B)))
      · exact Or.inr (Or.inl h)
      · exact Or.inr (Or.inr h)

theorem countOcc_eq_zero (P : GoString) (hP : P ≠ []) (T : GoString) :
    countOcc P T = 0 ↔ ¬ P <:+: T := by
  induction T with
  | nil => simp [countOcc, hP]
  | cons a T ih =>
    simp only [countOcc, Nat.add_eq_zero, ih, List.infix_cons_iff]
    by_cases h : P <+: a :: T
    · simp [List.isPrefixOf_iff_prefix.2 h, h]
    · have hb : P.isPrefixOf (a :: T) = false := by
        rw [Bool.eq_false_iff]
        exact fun hh => h (List.isPrefixOf_iff_prefix.1 hh)
      simp [hb, h]

theorem countOcc_append_barrier (P A B : GoString) (c : Nat) (hc : c ∉ P) (hP : P ≠ []) :
    countOcc P (A ++ c :: B) = countOcc P A + countOcc P B := by
  induction A with
  | nil =>
    have hb : P.isPrefixOf (c :: B) = false := by
      rw [Bool.eq_false_iff]
      intro hh
      rcases List.prefix_cons_iff.1 (List.isPrefixOf_iff_prefix.1 hh) with rfl | ⟨t, rfl, -⟩
      · exact hP rfl
      · exact hc (by simp)
    simp [countOcc, hb]
  | cons a A ih =>
    have hb : P.isPrefixOf (a :: (A ++ c :: B)) = P.isPrefixOf (a :: A) := by
      rw [Bool.eq_iff_iff, List.isPrefixOf_iff_prefix, List.isPrefixOf_iff_prefix]
      exact ⟨fun h => prefix_of_append_barrier (L := a :: A) hc h,
        fun h => h.trans (List.prefix_append (a :: A) (c :: B))⟩
    rw [List.cons_append, countOcc, countOcc, hb, ih]
    omega

/-- The splits of a text are its prefixes and the rests after them. -/
theorem append_eq_split {L r P : GoString} (h : L ++ r = P) :
    ∃ k, k < P.length + 1 ∧ L = P.take k ∧ r = P.drop k := by
  subst h
  exact ⟨L.length, by simp; omega, by simp, by simp⟩

theorem phrase_space_split (P : GoString) (hP : P = packageMain ∨ P = funcMain)
    (L r : GoString) (h : L ++ 32 :: r = P) : r.head? = some 109 := by
  obtain ⟨k, hk, -, hr⟩ := append_eq_split h
  have key : ∀ P, P = packageMain ∨ P = funcMain → ∀ k, k < 13 →
      ∀ r, 32 :: r = P.drop k → r.head? = some 109 := by
    intro P hP
    rcases hP with rfl | rfl
    · intro k hk
      interval_cases k <;> intro r hr <;> simp [packageMain, str] at hr; simp [hr]
    · intro k hk
      interval_cases k <;> intro r hr <;> simp [funcMain, str] at hr; simp [hr]
  refine key P hP k ?_ r hr
  rcases hP with rfl | rfl
  · exact hk
  · have : funcMain.length = 11 := rfl
    omega

theorem phrase_paren_split (P : GoString) (hP : P = packageMain ∨ P = funcMain)
    (L r : GoString) (h : L ++ 41 :: r = P) : L.getLast? = some 40 := by
  obtain ⟨k, hk, hL, hr⟩ := append_eq_split h
  have key : ∀ P, P = packageMain ∨ P = funcMain → ∀ k, k < 13 →
      ∀ r, 41 :: r = P.drop k → (P.take k).getLast? = some 40 := by
    intro P hP
    rcases hP with rfl | rfl
    · intro k hk
      interval_cases k <;> intro r hr <;> simp [packageMain, str] at hr
    · intro k hk
      interval_cases k <;> intro r hr <;> simp [funcMain, str] at hr; rfl
  rw [hL]
  refine key P hP k ?_ r hr
  rcases hP with rfl | rfl
  · exact hk
  · have : funcMain.length = 11 := rfl
    omega

theorem phrase_ne_nil (P : GoString) (hP : P = packageMain ∨ P = funcMain) : P ≠ [] := by
  rcases hP with rfl | rfl <;> decide

theorem phrase_has_space (P : GoString) (hP : P = packageMain ∨ P = funcMain) : 32 ∈ P := by
  rcases hP with rfl | rfl <;> decide

theorem phrase_head (P : GoString) (hP : P = packageMain ∨ P = funcMain) :
    ∃ c t, P = c :: t ∧ (c = 112 ∨ c = 102) := by
  rcases hP with rfl | rfl
  · exact ⟨112, _, rfl, Or.inl rfl⟩
  · exact ⟨102, _, rfl, Or.inr rfl⟩

/-- A byte that no phrase starts with can be dropped from the front. -/
theorem phrase_infix_cons (P : GoString) (hP : P = packageMain ∨ P = funcMain) (a : Nat)
    (T : GoString) (ha : a ≠ 112 ∧ a ≠ 102) : P <:+: a :: T ↔ P <:+: T := by
  obtain ⟨c, t, rfl, hc⟩ := phrase_head P hP
  rw [List.infix_cons_iff, List.cons_prefix_cons]
  constructor
  · rintro (⟨h, -⟩ | h)
    · rcases hc with rfl | rfl
      · exact absurd h.symm ha.1
      · exact absurd h.symm ha.2
    · exact h
  · exact Or.inr

theorem phrase_not_infix_atom (P : GoString) (hP : P = packageMain ∨ P = funcMain)
    (v : GoString) (hv : 32 ∉ v) : ¬ P <:+: v :=
  fun h => hv (List.IsInfix.mem (phrase_has_space P hP) h)

theorem isAtomText_not_mem (v : GoString) (hv : isAtomText v = true) : 32 ∉ v ∧ 40 ∉ v := by
  simp only [isAtomText, List.all_eq_true] at hv
  constructor <;> intro h <;> have := hv _ h <;>
    simp [isIdentChar, isNumberChar, isAlnum, isAlpha, isDigit] at this

theorem getLast?_ne_of_not_mem (v : GoString) (c : Nat) (h : c ∉ v) : v.getLast? ≠ some c :=
  fun hl => h (List.mem_of_getLast?_eq_some hl)

theorem prefix_of_append_space (P : GoString) (hP : P = packageMain ∨ P = funcMain)
    (L T : GoString) (c : Nat) (hc : c ≠ 109) (h : P <+: L ++ 32 :: c :: T) : P <+: L := by
  rcases List.prefix_or_prefix_of_prefix h (List.prefix_append L (32 :: c :: T)) with h1 | h1
  · exact h1
  · obtain ⟨r, hr⟩ := h1
    subst hr
    rw [List.prefix_append_right_inj] at h
    rcases List.prefix_cons_iff.1 h with rfl | ⟨t, rfl, ht⟩
    · simp
    · have hm := phrase_space_split _ hP L t rfl
      cases t with
      | nil => simp at hm
      | cons d t =>
        simp only [List.head?_cons, Option.some.injEq] at hm
        subst hm
        rw [List.cons_prefix_cons] at ht
        exact absurd ht.1.symm hc

/-- A text followed by a space and a byte other than `m`: a phrase lies in the
text or after the space. -/
theorem infix_append_space (P : GoString) (hP : P = packageMain ∨ P = funcMain)
    (E T : GoString) (c : Nat) (hc : c ≠ 109) :
    P <:+: E ++ 32 :: c :: T ↔ P <:+: E ∨ P <:+: c :: T := by
  induction E with
  | nil =>
    rw [List.nil_append, phrase_infix_cons P hP 32 _ (by decide), List.infix_nil]
    exact ⟨Or.inr, fun h => h.resolve_left (phrase_ne_nil P hP)⟩
  | cons a E ih =>
    rw [List.cons_append, List.infix_cons_iff, ih, @List.infix_cons_iff _ P a E]
    constructor
    · rintro (h | h | h)
      · exact Or.inl (Or.inl (prefix_of_append_space P hP (a :: E) T c hc h))
      · exact Or.inl (Or.inr h)
      · exact Or.inr h
    · rintro ((h | h) | h)
      · exact Or.inl (h.trans (List.prefix_append (a :: E) _))
      · exact Or.inr (Or.inl h)
      · exact Or.inr (Or.inr h)

theorem prefix_of_append_rparen (P : GoString) (hP : P = packageMain ∨ P = funcMain)
    (L T : GoString) (hL : L.getLast? ≠ some 40) (h : P <+: L ++ 41 :: T) : P <+: L := by
  rcases List.prefix_or_prefix_of_prefix h (List.prefix_append L (41 :: T)) with h1 | h1
  · exact h1
  · obtain ⟨r, hr⟩ := h1
    subst hr
    rw [List.prefix_append_right_inj] at h
    rcases List.prefix_cons_iff.1 h with rfl | ⟨t, rfl, -⟩
    · simp
    · exact absurd (phrase_paren_split _ hP L t rfl) hL

/-- A text that does not end with `(`, followed by `)`: a phrase lies in the
text or after the `)`. -/
theorem infix_append_rparen (P : GoString) (hP : P = packageMain ∨ P = funcMain)
    (E T : GoString) (hE : E.getLast? ≠ some 40) :
    P <:+: E ++ 41 :: T ↔ P <:+: E ∨ P <:+: T := by
  induction E with
  | nil =>
    rw [List.nil_append, phrase_infix_cons P hP 41 _ (by decide), List.infix_nil]
    exact ⟨Or.inr, fun h => h.resolve_left (phrase_ne_nil P hP)⟩
  | cons a E ih =>
    have hE1 : E.getLast? ≠ some 40 := by
      cases E with
      | nil => simp
      | cons b E => simpa [List.getLast?_cons_cons] using hE
    rw [List.cons_append, List.infix_cons_iff, ih hE1, @List.infix_cons_iff _ P a E]
    constructor
    · rintro (h | h | h)
      · exact Or.inl (Or.inl (prefix_of_append_rparen P hP (a :: E) T hE h))
      · exact Or.inl (Or.inr h)
      · exact Or.inr h
    · rintro ((h | h) | h)
      · exact Or.inl (h.trans (List.prefix_append (a :: E) _))
      · exact Or.inr (Or.inl h)
      · exact Or.inr (Or.inr h)

/-- A byte that is in no phrase. -/
theorem phrase_barrier (P : GoString) (hP : P = packageMain ∨ P = funcMain) (c : Nat)
    (hc : c ∉ packageMain ∧ c ∉ funcMain) (A B : GoString) :
    P <:+: A ++ c :: B ↔ P <:+: A ∨ P <:+: B :=
  infix_append_barrier P A B c (by rcases hP with rfl | rfl; exact hc.1; exact hc.2)
    (phrase_ne_nil P hP)

/-! ## The phrases in the generated text -/

theorem phrase_infix_append_left (P : GoString) (hP : P = packageMain ∨ P = funcMain)
    (lit T : GoString) (hlit : ∀ c ∈ lit, c ≠ 112 ∧ c ≠ 102) : P <:+: lit ++ T ↔ P <:+: T := by
  induction lit with
  | nil => rfl
  | cons a lit ih =>
    rw [List.cons_append, phrase_infix_cons P hP a _ (hlit a (List.mem_cons_self _ _)),
      ih (fun c hc => hlit c (List.mem_cons_of_mem _ hc))]

theorem phrase_infix_tabs (P : GoString) (hP : P = packageMain ∨ P = funcMain) (k : Nat)
    (T : GoString) : P <:+: tabs k ++ T ↔ P <:+: T :=
  phrase_infix_append_left P hP _ T (by
    intro c hc
    rw [tabs, List.mem_replicate] at hc
    rw [hc.2]
    decide)

theorem operatorText_cases (op : GoString) (h : op ∈ operatorTexts) :
    ∃ c op1, op = c :: op1 ∧ c ≠ 109 ∧ ∀ d ∈ c :: op1, d ≠ 112 ∧ d ≠ 102 := by
  simp only [operatorTexts, List.mem_cons, List.mem_singleton, List.not_mem_nil, or_false] at h
  rcases h with rfl | rfl | rfl | rfl | rfl | rfl | rfl | rfl | rfl | rfl | rfl <;>
    exact ⟨_, _, rfl, by decide, by decide⟩

/-- The text `(l op r)` of a binary expression. -/
theorem binary_text_clean (P : GoString) (hP : P = packageMain ∨ P = funcMain)
    (gl gr op : GoString) (hl : ¬ P <:+: gl) (hr : ¬ P <:+: gr) (hrl : gr.getLast? ≠ some 40)
    (hop : op ∈ operatorTexts) :
    ¬ P <:+: str "(" ++ gl ++ str " " ++ op ++ str " " ++ gr ++ str ")" := by
  obtain ⟨c, op1, rfl, hc, hop1⟩ := operatorText_cases op hop
  have e : str "(" ++ gl ++ str " " ++ (c :: op1) ++ str " " ++ gr ++ str ")"
      = 40 :: (gl ++ 32 :: c :: (op1 ++ 32 :: (gr ++ 41 :: []))) := by
    simp [str]
  rw [e, phrase_infix_cons P hP 40 _ (by decide), infix_append_space P hP gl _ c hc]
  rintro (h | h)
  · exact hl h
  · have e2 : c :: (op1 ++ 32 :: (gr ++ [41])) = (c :: op1 ++ [32]) ++ (gr ++ [41]) := by simp
    rw [e2, phrase_infix_append_left P hP _ _ (by
      intro d hd
      rcases List.mem_append.1 hd with hd | hd
      · exact hop1 d hd
      · rw [List.mem_singleton.1 hd]
        decide), infix_append_rparen P hP gr [] hrl, List.infix_nil] at h
    rcases h with h | h
    · exact hr h
    · exact phrase_ne_nil P hP h

theorem sprintf_head (P : GoString) (hP : P = packageMain ∨ P = funcMain) (T : GoString) :
    P <:+: str "fmt.Sprintf(\"%v%v\", " ++ T ↔ P <:+: T := by
  rcases hP with rfl | rfl <;>
    simp [str, packageMain, funcMain, List.infix_cons_iff, List.cons_prefix_cons]

/-- The text `fmt.Sprintf("%v%v", l, r)` of a concatenation. -/
theorem sprintf_text_clean (P : GoString) (hP : P = packageMain ∨ P = funcMain)
    (gl gr : GoString) (hl : ¬ P <:+: gl) (hr : ¬ P <:+: gr) (hrl : gr.getLast? ≠ some 40) :
    ¬ P <:+: str "fmt.Sprintf(\"%v%v\", " ++ gl ++ str ", " ++ gr ++ str ")" := by
  have e : str "fmt.Sprintf(\"%v%v\", " ++ gl ++ str ", " ++ gr ++ str ")"
      = str "fmt.Sprintf(\"%v%v\", " ++ (gl ++ 44 :: (32 :: (gr ++ 41 :: []))) := by
    simp [str]
  rw [e, sprintf_head P hP, phrase_barrier P hP 44 (by decide),
    phrase_infix_cons P hP 32 _ (by decide), infix_append_rparen P hP gr [] hrl, List.infix_nil]
  rintro (h | h | h)
  · exact hl h
  · exact hr h
  · exact phrase_ne_nil P hP h

theorem getLast?_append_rparen (T : GoString) : (T ++ str ")").getLast? ≠ some 40 := by
  simp [str]

/-- The text of a plain expression contains no phrase and does not end with
`(`. -/
theorem generateExpression_clean (P : GoString) (hP : P = packageMain ∨ P = funcMain)
    (e : Expression) (he : e.plain = true) :
    ¬ P <:+: generateExpression e ∧ (generateExpression e).getLast? ≠ some 40 := by
  induction e with
  | Identifier v =>
    simp only [Expression.plain] at he
    exact ⟨phrase_not_infix_atom P hP v (isAtomText_not_mem v he).1,
      getLast?_ne_of_not_mem v 40 (isAtomText_not_mem v he).2⟩
  | NumberLiteral v =>
    simp only [Expression.plain] at he
    exact ⟨phrase_not_infix_atom P hP v (isAtomText_not_mem v he).1,
      getLast?_ne_of_not_mem v 40 (isAtomText_not_mem v he).2⟩
  | StringLiteral v =>
    simp only [Expression.plain, noPhrase, Bool.and_eq_true, Bool.not_eq_true',
      decide_eq_false_iff_not] at he
    have hv : ¬ P <:+: v := by rcases hP with rfl | rfl; exact he.1; exact he.2
    have e : generateExpression (StringLiteral v) = 34 :: (v ++ 34 :: []) := by
      simp [generateExpression, str]
    rw [e]
    refine ⟨?_, by
      rw [← List.cons_append, List.getLast?_append]
      simp⟩
    rw [phrase_infix_cons P hP 34 _ (by decide), phrase_barrier P hP 34 (by decide),
      List.infix_nil]
    rintro (h | h)
    · exact hv h
    · exact phrase_ne_nil P hP h
  | BinaryExpression l op r ihl ihr =>
    simp only [Expression.plain, Bool.and_eq_true, decide_eq_true_eq] at he
    obtain ⟨⟨hl, hop⟩, hr⟩ := he
    rw [generateExpression, generateBinaryExpression]
    split
    · exact ⟨sprintf_text_clean P hP _ _ (ihl hl).1 (ihr hr).1 (ihr hr).2,
        getLast?_append_rparen _⟩
    · exact ⟨binary_text_clean P hP _ _ op (ihl hl).1 (ihr hr).1 (ihr hr).2 hop,
        getLast?_append_rparen _⟩
  | RangeExpression e ih =>
    simp only [Expression.plain] at he
    rw [generateExpression]
    exact ih he

theorem generatePrintStatement_text (args : List Expression) :
    generatePrintStatement args
      = str "fmt.Println(" ++ stringsJoin (args.map generateExpression) (str ", ") ++ str ")" := by
  rw [generatePrintStatement]
  cases args with
  | nil => rfl
  | cons a rest =>
    cases rest with
    | nil => simp [stringsJoin_singleton]
    | cons b rest => simp

theorem stringsJoin_cons_cons (a b : GoString) (rest : List GoString) (sep : GoString) :
    stringsJoin (a :: b :: rest) sep = a ++ sep ++ stringsJoin (b :: rest) sep := by
  simp [stringsJoin, List.intercalate, List.intersperse]

theorem println_head (P : GoString) (hP : P = packageMain ∨ P = funcMain) (T : GoString) :
    P <:+: str "fmt.Println(" ++ T ↔ P <:+: T := by
  rcases hP with rfl | rfl <;>
    simp [str, packageMain, funcMain, List.infix_cons_iff, List.cons_prefix_cons]

theorem if_head (P : GoString) (hP : P = packageMain ∨ P = funcMain) (T : GoString) :
    P <:+: str "if " ++ T ↔ P <:+: T := by
  rcases hP with rfl | rfl <;>
    simp [str, packageMain, funcMain, List.infix_cons_iff, List.cons_prefix_cons]

theorem for_head (P : GoString) (hP : P = packageMain ∨ P = funcMain) (T : GoString) :
    P <:+: str "for " ++ T ↔ P <:+: T := by
  rcases hP with rfl | rfl <;>
    simp [str, packageMain, funcMain, List.infix_cons_iff, List.cons_prefix_cons]

/-- The arguments of `fmt.Println` up to the closing parenthesis. -/
theorem join_clean (P : GoString) (hP : P = packageMain ∨ P = funcMain) (texts : List GoString)
    (h : ∀ e ∈ texts, ¬ P <:+: e ∧ e.getLast? ≠ some 40) :
    ¬ P <:+: stringsJoin texts (str ", ") ++ str ")" := by
  induction texts with
  | nil =>
    rcases hP with rfl | rfl <;> decide
  | cons a rest ih =>
    cases rest with
    | nil =>
      have e : stringsJoin [a] (str ", ") ++ str ")" = a ++ 41 :: [] := by
        simp [stringsJoin_singleton, str]
      rw [e, infix_append_rparen P hP a [] (h a (List.mem_cons_self _ _)).2, List.infix_nil]
      rintro (h1 | h1)
      · exact (h a (List.mem_cons_self _ _)).1 h1
      · exact phrase_ne_nil P hP h1
    | cons b rest =>
      have e : stringsJoin (a :: b :: rest) (str ", ") ++ str ")"
          = a ++ 44 :: (32 :: (stringsJoin (b :: rest) (str ", ") ++ str ")")) := by
        rw [stringsJoin_cons_cons]
        simp [str]
      rw [e, phrase_barrier P hP 44 (by decide), phrase_infix_cons P hP 32 _ (by decide)]
      rintro (h1 | h1)
      · exact (h a (List.mem_cons_self _ _)).1 h1
      · exact ih (fun e he => h e (List.mem_cons_of_mem _ he)) h1

theorem generatePrintStatement_clean (P : GoString) (hP : P = packageMain ∨ P = funcMain)
    (args : List Expression) (h : args.all Expression.plain = true) :
    ¬ P <:+: generatePrintStatement args := by
  rw [generatePrintStatement_text, List.append_assoc, println_head P hP]
  refine join_clean P hP _ ?_
  intro e he
  obtain ⟨x, hx, rfl⟩ := List.mem_map.1 he
  exact generateExpression_clean P hP x (List.all_eq_true.1 h x hx)

theorem generateAssignmentStatement_clean (P : GoString) (hP : P = packageMain ∨ P = funcMain)
    (name : GoString) (value : Expression) (hn : isAtomText name = true)
    (hv : value.plain = true) : ¬ P <:+: generateAssignmentStatement name value := by
  have e : generateAssignmentStatement name value
      = name ++ 32 :: 58 :: ([61, 32] ++ generateExpression value) := by
    simp [generateAssignmentStatement, str]
  rw [e, infix_append_space P hP name _ 58 (by decide), phrase_infix_cons P hP 58 _ (by decide),
    phrase_infix_append_left P hP _ _ (by decide)]
  rintro (h | h)
  · exact phrase_not_infix_atom P hP name (isAtomText_not_mem name hn).1 h
  · exact (generateExpression_clean P hP value hv).1 h

theorem generateStatement_if_text (g : GoGenerator) (c : Expression) (body els : List Statement) :
    (generateStatement g (.IfStatement c body els)).1
      = str "if " ++ (generateExpression c ++ 32 :: 123 :: 10 ::
          ((generateStatements { indent := g.indent + 1 } body).1
            ++ (tabs g.indent ++ ((if els.isEmpty then []
                else str "\x7d else \x7b\n"
                  ++ ((generateStatements { indent := g.indent + 1 } els).1 ++ tabs g.indent))
              ++ str "\x7d")))) := by
  cases els with
  | nil => simp [generateStatement, generateStatements_indent, indentString, tabs, str]
  | cons e els => simp [generateStatement, generateStatements_indent, indentString, tabs, str]

theorem generateStatement_for_text (g : GoGenerator) (v : GoString) (e : Expression)
    (body : List Statement) :
    (generateStatement g (.ForStatement v (.RangeExpression e) body)).1
      = str "for " ++ (v ++ 32 :: 58 :: ([61, 32, 48, 59, 32] ++ (v ++ 32 :: 60 :: (32 ::
          (generateExpression e ++ 59 :: (32 :: (v ++ 43 :: ([43, 32, 123, 10]
            ++ ((generateStatements { indent := g.indent + 1 } body).1
              ++ (tabs g.indent ++ str "\x7d")))))))))) := by
  simp [generateStatement, generateStatements_indent, indentString, tabs, str]

theorem generateStatement_todo_clean (P : GoString) (hP : P = packageMain ∨ P = funcMain)
    (e : Expression) :
    ¬ P <:+: str "// TODO: Implement iteration over " ++ e.fmtT ++ str "\n" := by
  rcases hP with rfl | rfl <;> cases e <;> simp only [Expression.fmtT] <;> decide

theorem rbrace_clean (P : GoString) (hP : P = packageMain ∨ P = funcMain) :
    ¬ P <:+: str "\x7d" := by
  rcases hP with rfl | rfl <;> decide

theorem block_end_clean (P : GoString) (hP : P = packageMain ∨ P = funcMain) (k : Nat) :
    ¬ P <:+: tabs k ++ str "\x7d" := by
  rw [phrase_infix_tabs P hP]
  exact rbrace_clean P hP

mutual

/-- The code of a plain statement contains no phrase. -/
theorem generateStatement_clean (P : GoString) (hP : P = packageMain ∨ P = funcMain)
    (g : GoGenerator) (s : Statement) (hs : s.plain = true) :
    ¬ P <:+: (generateStatement g s).1 := by
  cases s with
  | PrintStatement args =>
    simp only [Statement.plain] at hs
    exact generatePrintStatement_clean P hP args hs
  | AssignmentStatement name value =>
    simp only [Statement.plain, Bool.and_eq_true] at hs
    exact generateAssignmentStatement_clean P hP name value hs.1 hs.2
  | IfStatement c body els =>
    simp only [Statement.plain, Bool.and_eq_true] at hs
    obtain ⟨⟨hc, hbody⟩, hels⟩ := hs
    rw [generateStatement_if_text, if_head P hP, infix_append_space P hP _ _ 123 (by decide),
      phrase_infix_cons P hP 123 _ (by decide), phrase_infix_cons P hP 10 _ (by decide)]
    rintro (h | h)
    · exact (generateExpression_clean P hP c hc).1 h
    · have h1 := generateStatements_clean P hP _ body hbody _ h
      rw [phrase_infix_tabs P hP] at h1
      cases els with
      | nil => exact rbrace_clean P hP (by simpa using h1)
      | cons e els =>
        simp only [List.isEmpty_cons, Bool.false_eq_true, if_false, List.append_assoc] at h1
        rw [phrase_infix_append_left P hP _ _ (by decide)] at h1
        exact block_end_clean P hP _ (generateStatements_clean P hP _ (e :: els) hels _ h1)
  | ForStatement v iterable body =>
    simp only [Statement.plain, Bool.and_eq_true] at hs
    obtain ⟨⟨hv, hit⟩, hbody⟩ := hs
    have hv1 : ¬ P <:+: v := phrase_not_infix_atom P hP v (isAtomText_not_mem v hv).1
    cases iterable with
    | RangeExpression e =>
      simp only [Expression.plain] at hit
      rw [generateStatement_for_text, for_head P hP, infix_append_space P hP _ _ 58 (by decide),
        phrase_infix_cons P hP 58 _ (by decide), phrase_infix_append_left P hP _ _ (by decide),
        infix_append_space P hP _ _ 60 (by decide), phrase_infix_cons P hP 60 _ (by decide),
        phrase_infix_cons P hP 32 _ (by decide), phrase_barrier P hP 59 (by decide),
        phrase_infix_cons P hP 32 _ (by decide), phrase_barrier P hP 43 (by decide),
        phrase_infix_append_left P hP _ _ (by decide)]
      rintro (h | h | h | h | h)
      · exact hv1 h
      · exact hv1 h
      · exact (generateExpression_clean P hP e hit).1 h
      · exact hv1 h
      · exact block_end_clean P hP _ (generateStatements_clean P hP _ body hbody _ h)
    | Identifier x =>
      simp only [generateStatement]
      exact generateStatement_todo_clean P hP _
    | StringLiteral x =>
      simp only [generateStatement]
      exact generateStatement_todo_clean P hP _
    | NumberLiteral x =>
      simp only [generateStatement]
      exact generateStatement_todo_clean P hP _
    | BinaryExpression l op r =>
      simp only [generateStatement]
      exact generateStatement_todo_clean P hP _
  | ExpressionStatement e =>
    simp only [Statement.plain] at hs
    exact (generateExpression_clean P hP e hs).1

/-- The lines of plain statements contain no phrase, whatever text follows. -/
theorem generateStatements_clean (P : GoString) (hP : P = packageMain ∨ P = funcMain)
    (g : GoGenerator) (ss : List Statement) (hs : Statement.plainList ss = true)
    (T : GoString) (h : P <:+: (generateStatements g ss).1 ++ T) : P <:+: T := by
  cases ss with
  | nil => exact h
  | cons s ss =>
    simp only [Statement.plainList, Bool.and_eq_true] at hs
    simp only [generateStatements, generateStatement_indent] at h
    by_cases hcode : (generateStatement g s).1 = []
    · simp only [hcode, ne_eq, not_true_eq_false, if_false, List.nil_append] at h
      exact generateStatements_clean P hP g ss hs.2 T h
    · have e : (if (generateStatement g s).1 ≠ [] then
            g.indentString ++ (generateStatement g s).1 ++ str "\n" else [])
            ++ (generateStatements g ss).1 ++ T
          = (tabs g.indent ++ (generateStatement g s).1)
            ++ 10 :: ((generateStatements g ss).1 ++ T) := by
        simp [hcode, indentString, tabs, str]
      rw [e, phrase_barrier P hP 10 (by decide), phrase_infix_tabs P hP] at h
      rcases h with h | h
      · exact absurd h (generateStatement_clean P hP g s hs.1)
      · exact generateStatements_clean P hP g ss hs.2 T h

end

/-- The text generated for a plain program has exactly one occurrence of each
phrase. -/
theorem GenerateGoCode_countOcc (P : GoString) (hP : P = packageMain ∨ P = funcMain)
    (prog : Program) (h : Statement.plainList prog.Statements = true) :
    countOcc P (GenerateGoCode prog) = 1 := by
  have e : GenerateGoCode prog
      = str "package main\n\nimport (\n\t\"fmt\"\n)\n\nfunc main() \x7b"
        ++ 10 :: ((generateStatements { indent := 1 } prog.Statements).1 ++ str "\x7d\n") := by
    simp [GenerateGoCode, generateProgram, str]
  have h0 : countOcc P ((generateStatements { indent := 1 } prog.Statements).1 ++ str "\x7d\n")
      = 0 := by
    rw [countOcc_eq_zero P (phrase_ne_nil P hP)]
    intro hin
    have := generateStatements_clean P hP _ _ h _ hin
    revert this
    rcases hP with rfl | rfl <;> decide
  rw [e, countOcc_append_barrier P _ _ 10 (by rcases hP with rfl | rfl <;> decide)
    (phrase_ne_nil P hP), h0]
  rcases hP with rfl | rfl <;> decide

/-! ## What the parser puts into a tree comes from the tokens -/

theorem peek_mem (p : Parser) (t : Token) (h : p.peek = .ok t) : t ∈ p.tokens := by
  simp only [Parser.peek] at h
  split at h
  · rename_i u hu
    injection h with h
    subst h
    exact List.getElem?_mem hu
  · cases h

theorem previous_mem (p : Parser) (t : Token) (h : p.previous = .ok t) : t ∈ p.tokens := by
  simp only [Parser.previous] at h
  split at h
  · cases h
  · split at h
    · rename_i u hu
      injection h with h
      subst h
      exact List.getElem?_mem hu
    · cases h

theorem check_true (p : Parser) (ty : TokenType) (h : p.check ty = .ok true) :
    ∃ t, p.peek = .ok t ∧ t.Typ = ty ∧ p.isAtEnd = .ok false := by
  simp only [Parser.check, Result.bind_eq_ok] at h
  obtain ⟨atEnd, hat, h⟩ := h
  cases atEnd with
  | true => simp at h
  | false =>
    simp only [Bool.false_eq_true, if_false, Result.bind_eq_ok] at h
    obtain ⟨t, ht, h⟩ := h
    injection h with h
    exact ⟨t, ht, by simpa using h, hat⟩

theorem advance_tokens (p : Parser) (t : Token) (p1 : Parser) (h : p.advance = .ok (t, p1)) :
    p1.tokens = p.tokens ∧ t ∈ p.tokens := by
  simp only [Parser.advance, Result.bind_eq_ok] at h
  obtain ⟨atEnd, -, u, hu, h⟩ := h
  simp only [Result.ok.injEq, Prod.mk.injEq] at h
  obtain ⟨rfl, rfl⟩ := h
  have hm := previous_mem _ _ hu
  cases atEnd <;> exact ⟨rfl, by simpa using hm⟩

/-- After a successful `check`, `advance` returns the token that was checked. -/
theorem advance_checked (p : Parser) (ty : TokenType) (t : Token) (p1 : Parser)
    (hc : p.check ty = .ok true) (h : p.advance = .ok (t, p1)) :
    p1.tokens = p.tokens ∧ t ∈ p.tokens ∧ t.Typ = ty ∧ p1.previous = .ok t := by
  obtain ⟨u, hu, hty, hat⟩ := check_true p ty hc
  have htok := advance_tokens p t p1 h
  simp only [Parser.advance, hat, Result.bind_ok, Bool.not_false, if_true, Result.bind_eq_ok]
    at h
  obtain ⟨v, hv, h⟩ := h
  simp only [Result.ok.injEq, Prod.mk.injEq] at h
  obtain ⟨rfl, rfl⟩ := h
  refine ⟨htok.1, htok.2, ?_, hv⟩
  have : v = u := by
    simp only [Parser.previous, Nat.add_eq_zero, one_ne_zero, and_false, if_false,
      Nat.add_sub_cancel] at hv
    simp only [Parser.peek] at hu
    cases hg : p.tokens[p.current]? with
    | none => simp [hg] at hu
    | some w =>
      simp only [hg] at hu hv
      injection hu with hu
      injection hv with hv
      rw [← hu, ← hv]
  rw [this]
  exact hty

theorem matchTypes_spec (types : List TokenType) (p : Parser) (b : Bool) (p1 : Parser)
    (h : p.matchTypes types = .ok (b, p1)) :
    p1.tokens = p.tokens
      ∧ (b = true → ∃ t, p1.previous = .ok t ∧ t.Typ ∈ types ∧ t ∈ p.tokens) := by
  induction types with
  | nil =>
    simp only [Parser.matchTypes, Result.ok.injEq, Prod.mk.injEq] at h
    obtain ⟨rfl, rfl⟩ := h
    exact ⟨rfl, fun hb => by cases hb⟩
  | cons ty types ih =>
    simp only [Parser.matchTypes, Result.bind_eq_ok] at h
    obtain ⟨c, hc, h⟩ := h
    cases c with
    | true =>
      simp only [if_true, Result.bind_eq_ok] at h
      obtain ⟨r, hr, h⟩ := h
      simp only [Result.ok.injEq, Prod.mk.injEq] at h
      obtain ⟨rfl, rfl⟩ := h
      obtain ⟨h1, h2, h3, h4⟩ := advance_checked p ty r.1 r.2 hc hr
      exact ⟨h1, fun _ => ⟨r.1, h4, by rw [h3]; exact List.mem_cons_self _ _, h2⟩⟩
    | false =>
      simp only [Bool.false_eq_true, if_false] at h
      obtain ⟨h1, h2⟩ := ih h
      exact ⟨h1, fun hb => by
        obtain ⟨t, ht1, ht2, ht3⟩ := h2 hb
        exact ⟨t, ht1, List.mem_cons_of_mem _ ht2, ht3⟩⟩

theorem consume_tokens (p : Parser) (ty : TokenType) (msg : GoString) (o : Option GoString)
    (p1 : Parser) (h : p.consume ty msg = .ok (o, p1)) : p1.tokens = p.tokens := by
  simp only [Parser.consume, Result.bind_eq_ok] at h
  obtain ⟨c, -, h⟩ := h
  cases c with
  | true =>
    simp only [if_true, Result.bind_eq_ok] at h
    obtain ⟨r, hr, h⟩ := h
    simp only [Result.ok.injEq, Prod.mk.injEq] at h
    obtain ⟨-, rfl⟩ := h
    exact (advance_tokens p r.1 r.2 hr).1
  | false =>
    simp only [Bool.false_eq_true, if_false, Result.bind_eq_ok] at h
    obtain ⟨t, -, h⟩ := h
    simp only [Result.ok.injEq, Prod.mk.injEq] at h
    rw [← h.2]

theorem skipNewlinesLoop_tokens (n : Nat) :
    ∀ (p p1 : Parser), skipNewlinesLoop n p = .ok p1 → p1.tokens = p.tokens := by
  induction n with
  | zero => intro p p1 h; cases h
  | succ n ih =>
    intro p p1 h
    simp only [skipNewlinesLoop, Result.bind_eq_ok] at h
    obtain ⟨c, -, h⟩ := h
    cases c with
    | true =>
      simp only [if_true, Result.bind_eq_ok] at h
      obtain ⟨r, hr, h⟩ := h
      rw [ih _ _ h, (advance_tokens p r.1 r.2 hr).1]
    | false =>
      simp only [Bool.false_eq_true, if_false, Result.ok.injEq] at h
      rw [h]

theorem skipNewlines_tokens (p p1 : Parser) (h : p.skipNewlines = .ok p1) :
    p1.tokens = p.tokens :=
  skipNewlinesLoop_tokens _ p p1 h

theorem Token.plain_atom (t : Token) (h : t.plain = true)
    (ht : t.Typ = IDENTIFIER ∨ t.Typ = NUMBER) : isAtomText t.Value = true := by
  simp only [Token.plain, Bool.and_eq_true, Bool.or_eq_true, Bool.not_eq_true',
    beq_iff_eq] at h
  rcases h.1.1 with h1 | h1
  · rcases ht with ht | ht <;> simp [ht] at h1
  · exact h1

theorem Token.plain_string (t : Token) (h : t.plain = true) (ht : t.Typ = STRING) :
    noPhrase t.Value = true := by
  simp only [Token.plain, Bool.and_eq_true, Bool.or_eq_true, Bool.not_eq_true',
    beq_iff_eq] at h
  rcases h.2 with h1 | h1
  · simp [ht] at h1
  · exact h1

theorem Token.plain_operator (t : Token) (h : t.plain = true) (ht : t.Typ ∈ operatorKinds) :
    t.Value ∈ operatorTexts := by
  simp only [Token.plain, Bool.and_eq_true, Bool.or_eq_true, Bool.not_eq_true',
    decide_eq_false_iff_not, decide_eq_true_eq] at h
  rcases h.1.2 with h1 | h1
  · exact absurd ht h1
  · exact h1

theorem parsePrimary_preserves (expression : Parser → Res Expression)
    (hexpr : Preserves expression fun e => e.plain = true) :
    Preserves (parsePrimary expression) fun e => e.plain = true := by
  intro p e p1 hp h
  simp only [parsePrimary, Result.bind_eq_ok] at h
  obtain ⟨m1, hm1, h⟩ := h
  obtain ⟨t1, s1⟩ := matchTypes_spec _ p m1.1 m1.2 hm1
  by_cases b1 : m1.1 = true
  · simp only [b1, if_true, Result.bind_eq_ok] at h
    obtain ⟨t, ht, h⟩ := h
    simp only [Result.ok.injEq, Prod.mk.injEq] at h
    obtain ⟨rfl, rfl⟩ := h
    obtain ⟨u, hu, hty, hmem⟩ := s1 b1
    rw [ht] at hu
    injection hu with hu
    subst hu
    exact ⟨t1, Token.plain_atom t (hp t hmem) (Or.inr (by simpa using hty))⟩
  simp only [b1, Bool.false_eq_true, if_false, Result.bind_eq_ok] at h
  obtain ⟨m2, hm2, h⟩ := h
  obtain ⟨t2, s2⟩ := matchTypes_spec _ m1.2 m2.1 m2.2 hm2
  by_cases b2 : m2.1 = true
  · simp only [b2, if_true, Result.bind_eq_ok] at h
    obtain ⟨t, ht, h⟩ := h
    simp only [Result.ok.injEq, Prod.mk.injEq] at h
    obtain ⟨rfl, rfl⟩ := h
    obtain ⟨u, hu, hty, hmem⟩ := s2 b2
    rw [ht] at hu
    injection hu with hu
    subst hu
    rw [t1] at hmem
    exact ⟨t2.trans t1, Token.plain_string t (hp t hmem) (by simpa using hty)⟩
  simp only [b2, Bool.false_eq_true, if_false, Result.bind_eq_ok] at h
  obtain ⟨m3, hm3, h⟩ := h
  obtain ⟨t3, s3⟩ := matchTypes_spec _ m2.2 m3.1 m3.2 hm3
  have e3 : m3.2.tokens = p.tokens := t3.trans (t2.trans t1)
  by_cases b3 : m3.1 = true
  · simp only [b3, if_true, Result.bind_eq_ok] at h
    obtain ⟨t, ht, c, -, h⟩ := h
    obtain ⟨u, hu, hty, hmem⟩ := s3 b3
    rw [ht] at hu
    injection hu with hu
    subst hu
    rw [t2, t1] at hmem
    split at h
    · simp only [Result.bind_eq_ok] at h
      obtain ⟨a, ha, e1, he1, r, hr, h⟩ := h
      simp only [Result.ok.injEq, Prod.mk.injEq] at h
      obtain ⟨rfl, rfl⟩ := h
      have ea : a.2.tokens = p.tokens := (advance_tokens _ _ _ ha).1.trans e3
      obtain ⟨q1, q2⟩ := hexpr a.2 e1.1 e1.2 (by rw [ea]; exact hp) he1
      exact ⟨(consume_tokens _ _ _ _ _ hr).trans (q1.trans ea), q2⟩
    · simp only [Result.ok.injEq, Prod.mk.injEq] at h
      obtain ⟨rfl, rfl⟩ := h
      exact ⟨e3, Token.plain_atom t (hp t hmem) (Or.inl (by simpa using hty))⟩
  simp only [b3, Bool.false_eq_true, if_false, Result.bind_eq_ok] at h
  obtain ⟨m4, hm4, h⟩ := h
  obtain ⟨t4, -⟩ := matchTypes_spec _ m3.2 m4.1 m4.2 hm4
  by_cases b4 : m4.1 = true
  · simp only [b4, if_true, Result.bind_eq_ok] at h
    obtain ⟨e1, he1, r, hr, h⟩ := h
    simp only [Result.ok.injEq, Prod.mk.injEq] at h
    obtain ⟨rfl, rfl⟩ := h
    have e4 : m4.2.tokens = p.tokens := t4.trans e3
    obtain ⟨q1, q2⟩ := hexpr m4.2 e1.1 e1.2 (by rw [e4]; exact hp) he1
    exact ⟨(consume_tokens _ _ _ _ _ hr).trans (q1.trans e4), q2⟩
  · simp only [b4, Bool.false_eq_true, if_false, Result.bind_eq_ok] at h
    obtain ⟨t, -, h⟩ := h
    cases h

theorem binaryLoop_preserves (types : List TokenType) (htypes : ∀ ty ∈ types, ty ∈ operatorKinds)
    (operand : Parser → Res Expression) (hop : Preserves operand fun e => e.plain = true) :
    ∀ (n : Nat) (acc : Expression) (p : Parser) (e : Expression) (p1 : Parser),
      (∀ t ∈ p.tokens, t.plain = true) → acc.plain = true →
      binaryLoop types operand n acc p = .ok (e, p1) →
      p1.tokens = p.tokens ∧ e.plain = true := by
  intro n
  induction n with
  | zero => intro acc p e p1 _ _ h; cases h
  | succ n ih =>
    intro acc p e p1 hp hacc h
    simp only [binaryLoop, Result.bind_eq_ok] at h
    obtain ⟨m, hm, h⟩ := h
    obtain ⟨t1, s1⟩ := matchTypes_spec _ p m.1 m.2 hm
    by_cases b : m.1 = true
    · simp only [b, if_true, Result.bind_eq_ok] at h
      obtain ⟨op, hop1, right, hright, h⟩ := h
      obtain ⟨u, hu, hty, hmem⟩ := s1 b
      rw [hop1] at hu
      injection hu with hu
      subst hu
      obtain ⟨q1, q2⟩ := hop m.2 right.1 right.2 (by rw [t1]; exact hp) hright
      have e2 : right.2.tokens = p.tokens := q1.trans t1
      obtain ⟨r1, r2⟩ := ih (.BinaryExpression acc op.Value right.1) right.2 e p1
        (by rw [e2]; exact hp) (by
          simp only [Expression.plain, hacc, q2, Bool.true_and, Bool.and_true,
            decide_eq_true_eq]
          exact Token.plain_operator op (hp op hmem) (htypes _ hty)) h
      exact ⟨r1.trans e2, r2⟩
    · simp only [b, Bool.false_eq_true, if_false, Result.ok.injEq, Prod.mk.injEq] at h
      obtain ⟨rfl, rfl⟩ := h
      exact ⟨t1, hacc⟩

theorem binaryLevel_preserves (types : List TokenType)
    (htypes : ∀ ty ∈ types, ty ∈ operatorKinds) (operand : Parser → Res Expression)
    (hop : Preserves operand fun e => e.plain = true) :
    Preserves (binaryLevel types operand) fun e => e.plain = true := by
  intro p e p1 hp h
  simp only [binaryLevel, Result.bind_eq_ok] at h
  obtain ⟨first, hfirst, h⟩ := h
  obtain ⟨q1, q2⟩ := hop p first.1 first.2 hp hfirst
  obtain ⟨r1, r2⟩ := binaryLoop_preserves types htypes operand hop _ first.1 first.2 e p1
    (by rw [q1]; exact hp) q2 h
  exact ⟨r1.trans q1, r2⟩

theorem parseExpressionDepth_preserves (depth : Nat) :
    Preserves (parseExpressionDepth depth) fun e => e.plain = true := by
  induction depth with
  | zero => intro p e p1 _ h; cases h
  | succ d ih =>
    intro p e p1 hp h
    rw [parseExpressionDepth] at h
    exact binaryLevel_preserves _ (by decide) _
      (binaryLevel_preserves _ (by decide) _
        (binaryLevel_preserves _ (by decide) _ (parsePrimary_preserves _ ih))) p e p1 hp h

theorem parseExpression_preserves : Preserves parseExpression fun e => e.plain = true :=
  fun p e p1 hp h => parseExpressionDepth_preserves _ p e p1 hp h

theorem plainList_append_one (acc : List Statement) (s : Statement)
    (hacc : Statement.plainList acc = true) (hs : s.plain = true) :
    Statement.plainList (acc ++ [s]) = true := by
  induction acc with
  | nil => simp [Statement.plainList, hs]
  | cons a acc ih =>
    simp only [Statement.plainList, Bool.and_eq_true] at hacc
    rw [List.cons_append, Statement.plainList, hacc.1, ih hacc.2]
    rfl

theorem printArgsLoop_preserves :
    ∀ (n : Nat) (acc : List Expression) (p : Parser) (args : List Expression) (p1 : Parser),
      (∀ t ∈ p.tokens, t.plain = true) → acc.all Expression.plain = true →
      printArgsLoop n acc p = .ok (args, p1) →
      p1.tokens = p.tokens ∧ args.all Expression.plain = true := by
  intro n
  induction n with
  | zero => intro acc p args p1 _ _ h; cases h
  | succ n ih =>
    intro acc p args p1 hp hacc h
    simp only [printArgsLoop, Result.bind_eq_ok] at h
    obtain ⟨m, hm, h⟩ := h
    obtain ⟨t1, -⟩ := matchTypes_spec _ p m.1 m.2 hm
    by_cases b : m.1 = true
    · simp only [b, if_true, Result.bind_eq_ok] at h
      obtain ⟨e, he, h⟩ := h
      obtain ⟨q1, q2⟩ := parseExpression_preserves m.2 e.1 e.2 (by rw [t1]; exact hp) he
      have e2 : e.2.tokens = p.tokens := q1.trans t1
      obtain ⟨r1, r2⟩ := ih (acc ++ [e.1]) e.2 args p1 (by rw [e2]; exact hp)
        (by simp [List.all_append, hacc, q2]) h
      exact ⟨r1.trans e2, r2⟩
    · simp only [b, Bool.false_eq_true, if_false, Result.ok.injEq, Prod.mk.injEq] at h
      obtain ⟨rfl, rfl⟩ := h
      exact ⟨t1, hacc⟩

theorem parsePrintStatement_preserves :
    Preserves parsePrintStatement fun s => s.plain = true := by
  intro p s p1 hp h
  simp only [parsePrintStatement, Result.bind_eq_ok] at h
  obtain ⟨c, hc, isNewline, -, hasArgs, -, h⟩ := h
  have e1 : c.2.tokens = p.tokens := consume_tokens _ _ _ _ _ hc
  cases hasArgs with
  | true =>
    simp only [if_true, Result.bind_eq_ok] at h
    obtain ⟨e, he, r, hr, h⟩ := h
    simp only [Result.ok.injEq, Prod.mk.injEq] at h
    obtain ⟨rfl, rfl⟩ := h
    obtain ⟨q1, q2⟩ := parseExpression_preserves c.2 e.1 e.2 (by rw [e1]; exact hp) he
    have e2 : e.2.tokens = p.tokens := q1.trans e1
    obtain ⟨r1, r2⟩ := printArgsLoop_preserves _ [e.1] e.2 r.1 r.2 (by rw [e2]; exact hp)
      (by simp [q2]) hr
    exact ⟨r1.trans e2, by simpa [Statement.plain] using r2⟩
  | false =>
    simp only [Bool.false_eq_true, if_false, Result.ok.injEq, Prod.mk.injEq] at h
    obtain ⟨rfl, rfl⟩ := h
    exact ⟨e1, rfl⟩

theorem parseAssignmentStatement_preserves :
    Preserves parseAssignmentStatement fun s => s.plain = true := by
  intro p s p1 hp h
  simp only [parseAssignmentStatement, Result.bind_eq_ok] at h
  obtain ⟨c, hc, h⟩ := h
  cases c with
  | false => simp at h
  | true =>
    simp only [Bool.not_true, Bool.false_eq_true, if_false, Result.bind_eq_ok] at h
    obtain ⟨t, ht, a, ha, c1, hc1, value, hvalue, h⟩ := h
    simp only [Result.ok.injEq, Prod.mk.injEq] at h
    obtain ⟨rfl, rfl⟩ := h
    obtain ⟨u, hu, hty, -⟩ := check_true p IDENTIFIER hc
    rw [ht] at hu
    injection hu with hu
    subst hu
    have e1 : c1.2.tokens = p.tokens :=
      (consume_tokens _ _ _ _ _ hc1).trans (advance_tokens _ _ _ ha).1
    obtain ⟨q1, q2⟩ := parseExpression_preserves c1.2 value.1 value.2 (by rw [e1]; exact hp)
      hvalue
    exact ⟨q1.trans e1, by
      simp only [Statement.plain, q2, Bool.and_true]
      exact Token.plain_atom t (hp t (peek_mem p t ht)) (Or.inl hty)⟩

theorem indentedBlockLoop_preserves (statement : Parser → Res Statement)
    (hst : Preserves statement fun s => s.plain = true) :
    ∀ (n : Nat) (acc : List Statement) (p : Parser) (ss : List Statement) (p1 : Parser),
      (∀ t ∈ p.tokens, t.plain = true) → Statement.plainList acc = true →
      indentedBlockLoop statement n acc p = .ok (ss, p1) →
      p1.tokens = p.tokens ∧ Statement.plainList ss = true := by
  intro n
  induction n with
  | zero => intro acc p ss p1 _ _ h; cases h
  | succ n ih =>
    intro acc p ss p1 hp hacc h
    simp only [indentedBlockLoop, Result.bind_eq_ok] at h
    obtain ⟨atEnd, -, h⟩ := h
    cases atEnd with
    | true =>
      simp only [if_true, Result.ok.injEq, Prod.mk.injEq] at h
      obtain ⟨rfl, rfl⟩ := h
      exact ⟨rfl, hacc⟩
    | false =>
      simp only [Bool.false_eq_true, if_false, Result.bind_eq_ok] at h
      obtain ⟨isNewline, -, h⟩ := h
      cases isNewline with
      | true =>
        simp only [if_true, Result.bind_eq_ok] at h
        obtain ⟨a, ha, h⟩ := h
        have e1 := (advance_tokens _ _ _ ha).1
        obtain ⟨r1, r2⟩ := ih acc a.2 ss p1 (by rw [e1]; exact hp) hacc h
        exact ⟨r1.trans e1, r2⟩
      | false =>
        simp only [Bool.false_eq_true, if_false, Result.bind_eq_ok] at h
        obtain ⟨isIf, -, stop, -, h⟩ := h
        cases stop with
        | true =>
          simp only [if_true, Result.ok.injEq, Prod.mk.injEq] at h
          obtain ⟨rfl, rfl⟩ := h
          exact ⟨rfl, hacc⟩
        | false =>
          simp only [Bool.false_eq_true, if_false, Result.bind_eq_ok] at h
          obtain ⟨stmt, hstmt, q, hq, h⟩ := h
          simp only [Result.ok.injEq, Prod.mk.injEq] at h
          obtain ⟨rfl, rfl⟩ := h
          obtain ⟨q1, q2⟩ := hst p stmt.1 stmt.2 hp hstmt
          exact ⟨(skipNewlines_tokens _ _ hq).trans q1, plainList_append_one acc stmt.1 hacc q2⟩

theorem parseIndentedBlock_preserves (statement : Parser → Res Statement)
    (hst : Preserves statement fun s => s.plain = true) :
    Preserves (parseIndentedBlock statement) fun ss => Statement.plainList ss = true := by
  intro p ss p1 hp h
  simp only [parseIndentedBlock, Result.bind_eq_ok] at h
  obtain ⟨q, hq, h⟩ := h
  have e1 := skipNewlines_tokens _ _ hq
  obtain ⟨r1, r2⟩ := indentedBlockLoop_preserves statement hst _ [] q ss p1
    (by rw [e1]; exact hp) rfl h
  exact ⟨r1.trans e1, r2⟩

theorem parseIfStatement_preserves (statement : Parser → Res Statement)
    (hst : Preserves statement fun s => s.plain = true) :
    Preserves (parseIfStatement statement) fun s => s.plain = true := by
  intro p s p1 hp h
  simp only [parseIfStatement, Result.bind_eq_ok] at h
  obtain ⟨c, hc, cond, hcond, c1, hc1, isNewline, -, q1, hq1, body, hbody, isElse, -, h⟩ := h
  have e1 : c.2.tokens = p.tokens := consume_tokens _ _ _ _ _ hc
  obtain ⟨a1, a2⟩ := parseExpression_preserves c.2 cond.1 cond.2 (by rw [e1]; exact hp) hcond
  have e2 : c1.2.tokens = p.tokens := (consume_tokens _ _ _ _ _ hc1).trans (a1.trans e1)
  have e3 : q1.tokens = p.tokens := by
    cases isNewline with
    | true =>
      simp only [if_true, Result.bind_eq_ok] at hq1
      obtain ⟨a, ha, hq1⟩ := hq1
      injection hq1 with hq1
      rw [← hq1, (advance_tokens _ _ _ ha).1, e2]
    | false =>
      simp only [Bool.false_eq_true, if_false] at hq1
      injection hq1 with hq1
      rw [← hq1, e2]
  obtain ⟨b1, b2⟩ := parseIndentedBlock_preserves statement hst q1 body.1 body.2
    (by rw [e3]; exact hp) hbody
  have e4 : body.2.tokens = p.tokens := b1.trans e3
  cases isElse with
  | true =>
    simp only [if_true, Result.bind_eq_ok] at h
    obtain ⟨a, ha, c2, hc2, isNewline2, -, q2, hq2, els, hels, h⟩ := h
    simp only [Result.ok.injEq, Prod.mk.injEq] at h
    obtain ⟨rfl, rfl⟩ := h
    have e5 : c2.2.tokens = p.tokens :=
      (consume_tokens _ _ _ _ _ hc2).trans ((advance_tokens _ _ _ ha).1.trans e4)
    have e6 : q2.tokens = p.tokens := by
      cases isNewline2 with
      | true =>
        simp only [if_true, Result.bind_eq_ok] at hq2
        obtain ⟨a3, ha3, hq2⟩ := hq2
        injection hq2 with hq2
        rw [← hq2, (advance_tokens _ _ _ ha3).1, e5]
      | false =>
        simp only [Bool.false_eq_true, if_false] at hq2
        injection hq2 with hq2
        rw [← hq2, e5]
    obtain ⟨d1, d2⟩ := parseIndentedBlock_preserves statement hst q2 els.1 els.2
      (by rw [e6]; exact hp) hels
    exact ⟨d1.trans e6, by simp [Statement.plain, a2, b2, d2]⟩
  | false =>
    simp only [Bool.false_eq_true, if_false, Result.ok.injEq, Prod.mk.injEq] at h
    obtain ⟨rfl, rfl⟩ := h
    exact ⟨e4, by simp [Statement.plain, a2, b2, Statement.plainList]⟩

theorem parseForStatement_preserves (statement : Parser → Res Statement)
    (hst : Preserves statement fun s => s.plain = true) :
    Preserves (parseForStatement statement) fun s => s.plain = true := by
  intro p s p1 hp h
  simp only [parseForStatement, Result.bind_eq_ok] at h
  obtain ⟨c, hc, isIdent, hident, h⟩ := h
  have e1 : c.2.tokens = p.tokens := consume_tokens _ _ _ _ _ hc
  cases isIdent with
  | false => simp at h
  | true =>
    simp only [Bool.not_true, Bool.false_eq_true, if_false, Result.bind_eq_ok] at h
    obtain ⟨t, ht, a, ha, c1, hc1, iter, hiter, c2, hc2, isNewline, -, q1, hq1, body, hbody, h⟩
      := h
    simp only [Result.ok.injEq, Prod.mk.injEq] at h
    obtain ⟨rfl, rfl⟩ := h
    obtain ⟨u, hu, hty, -⟩ := check_true c.2 IDENTIFIER hident
    rw [ht] at hu
    injection hu with hu
    subst hu
    have hmem : t ∈ p.tokens := by rw [← e1]; exact peek_mem c.2 t ht
    have e2 : c1.2.tokens = p.tokens :=
      (consume_tokens _ _ _ _ _ hc1).trans ((advance_tokens _ _ _ ha).1.trans e1)
    obtain ⟨a1, a2⟩ := parseExpression_preserves c1.2 iter.1 iter.2 (by rw [e2]; exact hp) hiter
    have e3 : c2.2.tokens = p.tokens := (consume_tokens _ _ _ _ _ hc2).trans (a1.trans e2)
    have e4 : q1.tokens = p.tokens := by
      cases isNewline with
      | true =>
        simp only [if_true, Result.bind_eq_ok] at hq1
        obtain ⟨a3, ha3, hq1⟩ := hq1
        injection hq1 with hq1
        rw [← hq1, (advance_tokens _ _ _ ha3).1, e3]
      | false =>
        simp only [Bool.false_eq_true, if_false] at hq1
        injection hq1 with hq1
        rw [← hq1, e3]
    obtain ⟨b1, b2⟩ := parseIndentedBlock_preserves statement hst q1 body.1 body.2
      (by rw [e4]; exact hp) hbody
    exact ⟨b1.trans e4, by
      simp only [Statement.plain, a2, b2, Bool.and_true]
      exact Token.plain_atom t (hp t hmem) (Or.inl hty)⟩

theorem parseStatementDepth_preserves (depth : Nat) :
    Preserves (parseStatementDepth depth) fun s => s.plain = true := by
  induction depth with
  | zero => intro p s p1 _ h; cases h
  | succ d ih =>
    intro p s p1 hp h
    simp only [parseStatementDepth, Result.bind_eq_ok] at h
    obtain ⟨isPrint, -, h⟩ := h
    cases isPrint with
    | true => exact parsePrintStatement_preserves p s p1 hp (by simpa using h)
    | false =>
      simp only [Bool.false_eq_true, if_false, Result.bind_eq_ok] at h
      obtain ⟨isIf, -, h⟩ := h
      cases isIf with
      | true => exact parseIfStatement_preserves _ ih p s p1 hp (by simpa using h)
      | false =>
        simp only [Bool.false_eq_true, if_false, Result.bind_eq_ok] at h
        obtain ⟨isFor, -, h⟩ := h
        cases isFor with
        | true => exact parseForStatement_preserves _ ih p s p1 hp (by simpa using h)
        | false =>
          simp only [Bool.false_eq_true, if_false, Result.bind_eq_ok] at h
          obtain ⟨isIdent, -, isAssign, -, h⟩ := h
          cases isAssign with
          | true => exact parseAssignmentStatement_preserves p s p1 hp (by simpa using h)
          | false =>
            simp only [Bool.false_eq_true, if_false, Result.bind_eq_ok] at h
            obtain ⟨e, he, h⟩ := h
            simp only [Result.ok.injEq, Prod.mk.injEq] at h
            obtain ⟨rfl, rfl⟩ := h
            obtain ⟨q1, q2⟩ := parseExpression_preserves p e.1 e.2 hp he
            exact ⟨q1, by simpa [Statement.plain] using q2⟩

theorem parseProgramLoop_plain :
    ∀ (n : Nat) (acc : List Statement) (p : Parser) (prog : Program),
      (∀ t ∈ p.tokens, t.plain = true) → Statement.plainList acc = true →
      parseProgramLoop n acc p = .ok prog → Statement.plainList prog.Statements = true := by
  intro n
  induction n with
  | zero => intro acc p prog _ _ h; cases h
  | succ n ih =>
    intro acc p prog hp hacc h
    simp only [parseProgramLoop, Result.bind_eq_ok] at h
    obtain ⟨atEnd, -, h⟩ := h
    cases atEnd with
    | true =>
      simp only [if_true, Result.ok.injEq] at h
      rw [← h]
      exact hacc
    | false =>
      simp only [Bool.false_eq_true, if_false, Result.bind_eq_ok] at h
      obtain ⟨isNewline, -, h⟩ := h
      cases isNewline with
      | true =>
        simp only [if_true, Result.bind_eq_ok] at h
        obtain ⟨a, ha, h⟩ := h
        exact ih acc a.2 prog (by rw [(advance_tokens _ _ _ ha).1]; exact hp) hacc h
      | false =>
        simp only [Bool.false_eq_true, if_false, Result.bind_eq_ok] at h
        obtain ⟨stmt, hstmt, q, hq, h⟩ := h
        obtain ⟨q1, q2⟩ := parseStatementDepth_preserves _ p stmt.1 stmt.2 hp hstmt
        exact ih (acc ++ [stmt.1]) q prog
          (by rw [skipNewlines_tokens _ _ hq, q1]; exact hp)
          (plainList_append_one acc stmt.1 hacc q2) h

/-- A program parsed from plain tokens is plain. -/
theorem parseProgram_plain (p : Parser) (prog : Program)
    (hp : ∀ t ∈ p.tokens, t.plain = true) (h : p.parseProgram = .ok prog) :
    Statement.plainList prog.Statements = true :=
  parseProgramLoop_plain _ [] p prog hp rfl h

/-! ## C11: one module declaration and one entry point -/

theorem identifierType_not_operator (w : GoString) :
    identifierType w ∉ operatorKinds ∧ identifierType w ≠ NUMBER := by
  unfold identifierType
  repeat' split
  all_goals exact ⟨by decide, by decide⟩

theorem isAtomText_of_isWord (w : GoString) (h : isWord w = true) : isAtomText w = true := by
  cases w with
  | nil => simp [isWord] at h
  | cons c w =>
    simp only [isWord, Bool.and_eq_true, List.all_eq_true] at h
    simp only [isAtomText, List.all_cons, Bool.and_eq_true, List.all_eq_true, Bool.or_eq_true]
    exact ⟨Or.inl (by simp [isIdentChar, isAlnum, h.1]), fun x hx => Or.inl (h.2 x hx)⟩

theorem isAtomText_of_isNumberText (w : GoString) (h : isNumberText w = true) :
    isAtomText w = true := by
  cases w with
  | nil => simp [isNumberText] at h
  | cons c w =>
    simp only [isNumberText, Bool.and_eq_true, List.all_eq_true] at h
    simp only [isAtomText, List.all_cons, Bool.and_eq_true, List.all_eq_true, Bool.or_eq_true]
    exact ⟨Or.inr (by simp [isNumberChar, h.1]), fun x hx => Or.inr (h.2 x hx)⟩

theorem symbolText_operator (t : TokenType) (h : t ∈ operatorKinds) :
    symbolText t ∈ operatorTexts := by
  simp only [operatorKinds, List.mem_cons, List.mem_singleton, List.not_mem_nil, or_false] at h
  rcases h with rfl | rfl | rfl | rfl | rfl | rfl | rfl | rfl | rfl | rfl | rfl <;> decide

/-- The tokens of a well-formed segment, but for what a string holds, are
plain. -/
theorem Seg.keys_plain (s : Seg) (hwf : s.wf = true) :
    ∀ k ∈ s.keys, ((k.1 = IDENTIFIER ∨ k.1 = NUMBER) → isAtomText k.2 = true)
      ∧ (k.1 ∈ operatorKinds → k.2 ∈ operatorTexts) := by
  intro k hk
  cases s with
  | word w =>
    simp only [Seg.keys, List.mem_singleton] at hk
    subst hk
    exact ⟨fun _ => isAtomText_of_isWord w hwf,
      fun h => absurd h (identifierType_not_operator w).1⟩
  | number w =>
    simp only [Seg.keys, List.mem_singleton] at hk
    subst hk
    exact ⟨fun _ => isAtomText_of_isNumberText w hwf, fun h => by simp [operatorKinds] at h⟩
  | blank w => simp [Seg.keys] at hk
  | symbol t =>
    simp only [Seg.keys, List.mem_singleton] at hk
    subst hk
    refine ⟨fun h => ?_, symbolText_operator t⟩
    simp only [Seg.wf, decide_eq_true_eq] at hwf
    rcases h with h | h <;> simp only at h <;> subst h <;> simp [symbolText] at hwf
  | newline =>
    simp only [Seg.keys, List.mem_singleton] at hk
    subst hk
    exact ⟨fun h => by simp at h, fun h => by simp [operatorKinds] at h⟩
  | cr =>
    simp only [Seg.keys, List.mem_singleton] at hk
    subst hk
    exact ⟨fun h => by simp at h, fun h => by simp [operatorKinds] at h⟩
  | crlf =>
    simp only [Seg.keys, List.mem_singleton] at hk
    subst hk
    exact ⟨fun h => by simp at h, fun h => by simp [operatorKinds] at h⟩
  | comment w => simp [Seg.keys] at hk
  | string q v =>
    simp only [Seg.keys, List.mem_singleton] at hk
    subst hk
    exact ⟨fun h => by simp at h, fun h => by simp [operatorKinds] at h⟩

theorem segsKeys_plain (segs : List Seg) :
    segsWf segs = true →
    ∀ k ∈ segsKeys segs, ((k.1 = IDENTIFIER ∨ k.1 = NUMBER) → isAtomText k.2 = true)
      ∧ (k.1 ∈ operatorKinds → k.2 ∈ operatorTexts) := by
  induction segs with
  | nil => intro _ k hk; simp [segsKeys] at hk
  | cons s ss ih =>
    intro hwf k hk
    simp only [segsWf, Bool.and_eq_true] at hwf
    simp only [segsKeys, List.mem_append] at hk
    rcases hk with hk | hk
    · exact Seg.keys_plain s hwf.1.1 k hk
    · exact ih hwf.2 k hk

/-- The tokens `Tokenize` returns are plain when the string literals are. -/
theorem Tokenize_plain (src : GoString) (toks : List Token)
    (h : (NewLexer src).Tokenize = .ok toks) (hs : stringLiteralsPlain src = true) :
    ∀ t ∈ toks, t.plain = true := by
  intro t ht
  simp only [stringLiteralsPlain, h, List.all_eq_true] at hs
  have hstr := hs t ht
  rcases Tokenize_cases src with ⟨segs, hsrc, hwf⟩ | ⟨segs, r1, col1, -, -, -, herr⟩
  · obtain ⟨toks1, hok, hkeys⟩ := Tokenize_segs segs hwf
    rw [hsrc, hok] at h
    injection h with h
    subst h
    have hk : t.key ∈ segsKeys segs ++ [(EOF, [])] := by
      rw [← hkeys]
      exact List.mem_map_of_mem _ ht
    have hplain : ((t.Typ = IDENTIFIER ∨ t.Typ = NUMBER) → isAtomText t.Value = true)
        ∧ (t.Typ ∈ operatorKinds → t.Value ∈ operatorTexts) := by
      rcases List.mem_append.1 hk with hk | hk
      · exact segsKeys_plain segs hwf _ hk
      · simp only [List.mem_singleton, Token.key, Prod.mk.injEq] at hk
        constructor
        · intro h
          rw [hk.1] at h
          simp at h
        · intro h
          rw [hk.1] at h
          simp [operatorKinds] at h
    simp only [Token.plain, Bool.and_eq_true, Bool.or_eq_true, Bool.not_eq_true',
      decide_eq_false_iff_not, decide_eq_true_eq, beq_iff_eq, beq_eq_false_iff_ne,
      Bool.or_eq_false_iff, ne_eq]
    refine ⟨⟨?_, ?_⟩, ?_⟩
    · by_cases h1 : t.Typ = IDENTIFIER ∨ t.Typ = NUMBER
      · exact Or.inr (hplain.1 h1)
      · exact Or.inl (not_or.1 h1)
    · by_cases h1 : t.Typ ∈ operatorKinds
      · exact Or.inr (hplain.2 h1)
      · exact Or.inl h1
    · simpa using hstr
  · rw [herr] at h
    cases h

/-- C11 (counterexample): a print of the string literal `package main` is
accepted, and the generated text then has two occurrences of `package main`;
likewise for `func main()`. -/
theorem C11_phrase_in_string_literal :
    Parse (str "print \"package main\"")
      = .ok ⟨[PrintStatement [StringLiteral (str "package main")]]⟩
    ∧ countOcc packageMain
        (GenerateGoCode ⟨[PrintStatement [StringLiteral (str "package main")]]⟩) = 2
    ∧ Parse (str "print \"func main()\"")
      = .ok ⟨[PrintStatement [StringLiteral (str "func main()")]]⟩
    ∧ countOcc funcMain
        (GenerateGoCode ⟨[PrintStatement [StringLiteral (str "func main()")]]⟩) = 2 := by
  refine ⟨rfl, ?_, rfl, ?_⟩ <;> decide

/-- C11 (amended): for every source that `Parse` accepts and none of whose
string literals contains `package main` or `func main()`, the text
`GenerateGoCode` produces from the tree has exactly one occurrence of
`package main` and exactly one of `func main()`. -/
theorem C11_one_module_one_entry_point (src : GoString) (prog : Program)
    (h : Parse src = .ok prog) (hs : stringLiteralsPlain src = true) :
    countOcc packageMain (GenerateGoCode prog) = 1
      ∧ countOcc funcMain (GenerateGoCode prog) = 1 := by
  have hplain : Statement.plainList prog.Statements = true := by
    simp only [Parse] at h
    cases htok : (NewLexer src).Tokenize with
    | ok toks =>
      rw [htok] at h
      exact parseProgram_plain _ prog (Tokenize_plain src toks htok hs) h
    | error e => rw [htok] at h; cases h
    | fault => rw [htok] at h; cases h
    | outOfFuel => rw [htok] at h; cases h
  exact ⟨GenerateGoCode_countOcc _ (Or.inl rfl) prog hplain,
    GenerateGoCode_countOcc _ (Or.inr rfl) prog hplain⟩

theorem C11_one_module_one_entry_point_witness :
    countOcc packageMain (GenerateGoCode ⟨[AssignmentStatement (str "main")
        (StringLiteral (str "func")), PrintStatement [Identifier (str "package"),
          Identifier (str "main")]]⟩) = 1
      ∧ countOcc funcMain (GenerateGoCode ⟨[AssignmentStatement (str "main")
        (StringLiteral (str "func")), PrintStatement [Identifier (str "package"),
          Identifier (str "main")]]⟩) = 1 :=
  C11_one_module_one_entry_point (str "main = \"func\"\nprint package, main") _ rfl (by decide)

/-! ## The parser returns, with its cursor inside the tokens and moved forward -/

theorem Runs.bind_runs {α β : Type} {k j : Nat} {p : Parser} {r : Res α} {f : α × Parser → Res β}
    (h : Runs k p r)
    (hf : ∀ a p1, r = .ok (a, p1) → p1.tokens = p.tokens → p1.inRange = true →
      p.current + k ≤ p1.current → Runs j p1 (f (a, p1))) :
    Runs (k + j) p (r.bind f) := by
  cases r with
  | ok v =>
    obtain ⟨a, p1⟩ := v
    obtain ⟨h1, h2, h3⟩ := h
    have := hf a p1 rfl h1 h2 h3
    simp only [Result.bind_ok]
    cases hr : f (a, p1) with
    | ok w =>
      obtain ⟨b, p2⟩ := w
      rw [hr] at this
      obtain ⟨g1, g2, g3⟩ := this
      exact ⟨g1.trans h1, g2, by omega⟩
    | error m => trivial
    | fault => rw [hr] at this; exact this
    | outOfFuel => rw [hr] at this; exact this
  | error m => trivial
  | fault => exact h
  | outOfFuel => exact h

theorem Runs.weaken {α : Type} {k j : Nat} {p : Parser} {r : Res α} (h : Runs k p r)
    (hj : j ≤ k) : Runs j p r := by
  cases r with
  | ok v =>
    obtain ⟨a, p1⟩ := v
    obtain ⟨h1, h2, h3⟩ := h
    exact ⟨h1, h2, by omega⟩
  | error m => trivial
  | fault => exact h
  | outOfFuel => exact h

theorem Runs.of_eq {α : Type} {k : Nat} {p : Parser} {r : Res α} {a : α} {p1 : Parser}
    (h : Runs k p r) (hr : r = .ok (a, p1)) :
    p1.tokens = p.tokens ∧ p1.inRange = true ∧ p.current + k ≤ p1.current := by
  subst hr
  exact h

theorem inRange_iff (p : Parser) :
    p.inRange = true ↔ p.current < p.tokens.length ∧ endsInEOF p.tokens = true := by
  simp [Parser.inRange]

theorem endsInEOF_getElem (tokens : List Token) (i : Nat) (t : Token)
    (h : endsInEOF tokens = true) (hi : tokens[i]? = some t) (ht : t.Typ ≠ EOF) :
    i + 1 < tokens.length := by
  have hlt : i < tokens.length := by
    by_contra hc
    rw [List.getElem?_eq_none (by omega)] at hi
    cases hi
  by_contra hc
  have hlast : tokens.getLast? = some t := by
    rw [List.getLast?_eq_getElem?, ← hi]
    congr 1
    omega
  simp only [endsInEOF, hlast, beq_iff_eq] at h
  exact ht h

theorem peek_inRange (p : Parser) (h : p.inRange = true) :
    ∃ t, p.peek = .ok t ∧ p.tokens[p.current]? = some t := by
  obtain ⟨hlt, -⟩ := (inRange_iff p).1 h
  refine ⟨p.tokens[p.current], ?_, ?_⟩
  · simp [Parser.peek, List.getElem?_eq_getElem hlt]
  · exact List.getElem?_eq_getElem hlt

theorem isAtEnd_inRange (p : Parser) (h : p.inRange = true) :
    ∃ t, p.tokens[p.current]? = some t ∧ p.isAtEnd = .ok (t.Typ == EOF) := by
  obtain ⟨t, ht, hget⟩ := peek_inRange p h
  exact ⟨t, hget, by simp [Parser.isAtEnd, ht]⟩

theorem check_inRange (p : Parser) (ty : TokenType) (h : p.inRange = true) :
    ∃ t, p.tokens[p.current]? = some t
      ∧ p.check ty = .ok (!(t.Typ == EOF) && t.Typ == ty) := by
  obtain ⟨t, ht, hget⟩ := peek_inRange p h
  refine ⟨t, hget, ?_⟩
  simp only [Parser.check, Parser.isAtEnd, ht, Result.bind_ok]
  cases hb : (t.Typ == EOF) <;> simp

/-- After a successful `check`, `advance` moves the cursor by one, and the token
before the new cursor is the one that was checked. -/
theorem advance_inRange (p : Parser) (ty : TokenType) (h : p.inRange = true)
    (hc : p.check ty = .ok true) :
    ∃ t, p.advance = .ok (t, { p with current := p.current + 1 })
      ∧ ({ p with current := p.current + 1 } : Parser).inRange = true
      ∧ ({ p with current := p.current + 1 } : Parser).previous = .ok t
      ∧ t.Typ = ty := by
  obtain ⟨t, hget, hcheck⟩ := check_inRange p ty h
  rw [hc] at hcheck
  injection hcheck with hcheck
  have hne : t.Typ ≠ EOF := by
    intro he
    simp [he] at hcheck
  have hty : t.Typ = ty := by
    cases hb : (t.Typ == EOF)
    · simpa [hb] using hcheck.symm
    · exact absurd (by simpa using hb) hne
  obtain ⟨hlt, heof⟩ := (inRange_iff p).1 h
  have hnext := endsInEOF_getElem p.tokens p.current t heof hget hne
  obtain ⟨t1, hget1, hend⟩ := isAtEnd_inRange p h
  have : t1 = t := by
    rw [hget] at hget1
    injection hget1 with h1
    exact h1.symm
  subst this
  have hprev : ({ p with current := p.current + 1 } : Parser).previous = .ok t1 := by
    simp [Parser.previous, hget]
  refine ⟨t1, ?_, ?_, hprev, hty⟩
  · have hf : (t1.Typ == EOF) = false := by simpa using hne
    simp only [Parser.advance, hend, hf, Result.bind_ok, Bool.not_false, if_true, hprev]
  · simp [Parser.inRange, hnext, heof]

theorem checkNext_inRange (p : Parser) (ty : TokenType) :
    ∃ b, p.checkNext ty = .ok b := by
  simp only [Parser.checkNext]
  split
  · exact ⟨false, rfl⟩
  · rename_i hlt
    have hlt1 : p.current + 1 < p.tokens.length := by omega
    rw [List.getElem?_eq_getElem hlt1]
    exact ⟨_, rfl⟩

theorem Runs.bind0 {α β : Type} {k : Nat} {p : Parser} {r : Res α} {f : α × Parser → Res β}
    (h : Runs k p r)
    (hf : ∀ a p1, r = .ok (a, p1) → p1.tokens = p.tokens → p1.inRange = true →
      p.current + k ≤ p1.current → Runs 0 p1 (f (a, p1))) :
    Runs k p (r.bind f) :=
  Runs.bind_runs h hf

/-- Sequencing after a call that returns a value and leaves the parser alone. -/
theorem Runs.bind_val {α β : Type} {k : Nat} {p : Parser} {r : Result β} {f : β → Res α}
    (hr : ∃ b, r = .ok b) (hf : ∀ b, r = .ok b → Runs k p (f b)) :
    Runs k p (r.bind f) := by
  obtain ⟨b, hb⟩ := hr
  rw [hb]
  exact hf b hb

theorem check_returns (p : Parser) (ty : TokenType) (h : p.inRange = true) :
    ∃ b, p.check ty = .ok b := by
  obtain ⟨t, -, hc⟩ := check_inRange p ty h
  exact ⟨_, hc⟩

theorem isAtEnd_returns (p : Parser) (h : p.inRange = true) : ∃ b, p.isAtEnd = .ok b := by
  obtain ⟨t, -, hc⟩ := isAtEnd_inRange p h
  exact ⟨_, hc⟩

theorem peek_returns (p : Parser) (h : p.inRange = true) : ∃ t, p.peek = .ok t := by
  obtain ⟨t, ht, -⟩ := peek_inRange p h
  exact ⟨t, ht⟩

theorem advance_runs (p : Parser) (ty : TokenType) (h : p.inRange = true)
    (hc : p.check ty = .ok true) : Runs 1 p p.advance := by
  obtain ⟨t, ha, hin, -, -⟩ := advance_inRange p ty h hc
  rw [ha]
  exact ⟨rfl, hin, le_refl _⟩

/-- `match` either leaves the parser alone or moves the cursor by one, past a
token of one of the kinds. -/
theorem matchTypes_inRange (types : List TokenType) (p : Parser) (h : p.inRange = true) :
    p.matchTypes types = .ok (false, p)
    ∨ ∃ t, p.matchTypes types = .ok (true, { p with current := p.current + 1 })
        ∧ ({ p with current := p.current + 1 } : Parser).inRange = true
        ∧ ({ p with current := p.current + 1 } : Parser).previous = .ok t
        ∧ t.Typ ∈ types := by
  induction types with
  | nil => exact Or.inl rfl
  | cons ty types ih =>
    obtain ⟨b, hb⟩ := check_returns p ty h
    cases b with
    | false =>
      rcases ih with ih | ⟨t, h1, h2, h3, h4⟩
      · left
        simp [Parser.matchTypes, hb, ih]
      · right
        exact ⟨t, by simp [Parser.matchTypes, hb, h1], h2, h3, List.mem_cons_of_mem _ h4⟩
    | true =>
      obtain ⟨t, ha, hin, hprev, hty⟩ := advance_inRange p ty h hb
      right
      exact ⟨t, by simp [Parser.matchTypes, hb, ha], hin, hprev, by simp [hty]⟩

theorem matchTypes_runs (types : List TokenType) (p : Parser) (h : p.inRange = true) :
    Runs 0 p (p.matchTypes types) := by
  rcases matchTypes_inRange types p h with h1 | ⟨t, h1, h2, -, -⟩
  · rw [h1]
    exact ⟨rfl, h, le_refl _⟩
  · rw [h1]
    exact ⟨rfl, h2, by simp⟩

theorem consume_runs (p : Parser) (ty : TokenType) (msg : GoString) (h : p.inRange = true) :
    Runs 0 p (p.consume ty msg) := by
  obtain ⟨b, hb⟩ := check_returns p ty h
  cases b with
  | false =>
    obtain ⟨t, ht⟩ := peek_returns p h
    simp only [Parser.consume, hb, ht, Result.bind_ok, Bool.false_eq_true, if_false]
    exact ⟨rfl, h, le_refl _⟩
  | true =>
    obtain ⟨t, ha, hin, -, -⟩ := advance_inRange p ty h hb
    simp only [Parser.consume, hb, ha, Result.bind_ok, if_true]
    exact ⟨rfl, hin, by simp⟩

theorem consume_runs_checked (p : Parser) (ty : TokenType) (msg : GoString)
    (h : p.inRange = true) (hb : p.check ty = .ok true) :
    Runs 1 p (p.consume ty msg) := by
  obtain ⟨t, ha, hin, -, -⟩ := advance_inRange p ty h hb
  simp only [Parser.consume, hb, ha, Result.bind_ok, if_true]
  exact ⟨rfl, hin, by simp⟩

theorem skipNewlinesLoop_runs :
    ∀ (n : Nat) (p : Parser), p.inRange = true → p.tokens.length ≤ n + p.current →
      ∃ p1, skipNewlinesLoop n p = .ok p1 ∧ p1.tokens = p.tokens ∧ p1.inRange = true
        ∧ p.current ≤ p1.current := by
  intro n
  induction n with
  | zero =>
    intro p h hn
    have := ((inRange_iff p).1 h).1
    omega
  | succ n ih =>
    intro p h hn
    obtain ⟨b, hb⟩ := check_returns p NEWLINE h
    cases b with
    | false => exact ⟨p, by simp [Parser.skipNewlinesLoop, hb], rfl, h, le_refl _⟩
    | true =>
      obtain ⟨t, ha, hin, -, -⟩ := advance_inRange p NEWLINE h hb
      obtain ⟨p1, h1, h2, h3, h4⟩ := ih _ hin (by simp; omega)
      refine ⟨p1, by simp [Parser.skipNewlinesLoop, hb, ha, h1], h2, h3, ?_⟩
      simp at h4
      omega

theorem skipNewlines_runs (p : Parser) (h : p.inRange = true) :
    ∃ p1, p.skipNewlines = .ok p1 ∧ p1.tokens = p.tokens ∧ p1.inRange = true
      ∧ p.current ≤ p1.current :=
  skipNewlinesLoop_runs _ p h (by omega)

/-! ## Expressions -/

theorem parsePrimary_runs (expression : Parser → Res Expression) (p : Parser)
    (h : p.inRange = true)
    (hexpr : ∀ q : Parser, q.tokens = p.tokens → q.inRange = true →
      p.current + 1 ≤ q.current →
      Runs 0 q (expression q)) :
    Runs 1 p (parsePrimary expression p) := by
  have hstep : ∀ (t : Token) (f : Token → Res Expression),
      ({ p with current := p.current + 1 } : Parser).previous = .ok t →
      Runs 0 { p with current := p.current + 1 } (f t) →
      Runs 1 p ((({ p with current := p.current + 1 } : Parser).previous).bind f) := by
    intro t f ht hf
    rw [ht]
    simp only [Result.bind_ok]
    cases hr : f t with
    | ok v =>
      rw [hr] at hf
      obtain ⟨h1, h2, h3⟩ := hf
      exact ⟨h1, h2, by simpa using h3⟩
    | error m => trivial
    | fault => rw [hr] at hf; exact hf
    | outOfFuel => rw [hr] at hf; exact hf
  rw [parsePrimary]
  rcases matchTypes_inRange [NUMBER] p h with h1 | ⟨t, h1, h2, h3, -⟩
  swap
  · rw [h1]
    simp only [Result.bind_ok, if_true]
    exact hstep t _ h3 ⟨rfl, h2, le_refl _⟩
  rw [h1]
  simp only [Result.bind_ok, Bool.false_eq_true, if_false]
  rcases matchTypes_inRange [STRING] p h with h1 | ⟨t, h1, h2, h3, -⟩
  swap
  · rw [h1]
    simp only [Result.bind_ok, if_true]
    exact hstep t _ h3 ⟨rfl, h2, le_refl _⟩
  rw [h1]
  simp only [Result.bind_ok, Bool.false_eq_true, if_false]
  rcases matchTypes_inRange [IDENTIFIER] p h with h1 | ⟨t, h1, h2, h3, -⟩
  swap
  · rw [h1]
    simp only [Result.bind_ok, if_true]
    refine hstep t _ h3 ?_
    refine Runs.bind_val (check_returns _ LPAREN h2) ?_
    intro c hc
    split
    · rename_i hcond
      have hc1 : c = true := by
        cases c
        · simp at hcond
        · rfl
      subst hc1
      refine Runs.bind0 ((advance_runs _ LPAREN h2 hc).weaken (Nat.zero_le _)) ?_
      intro a p1 ha htok hin hle
      obtain ⟨-, -, hle1⟩ := Runs.of_eq (advance_runs _ LPAREN h2 hc) ha
      refine Runs.bind0 (hexpr p1 htok hin (by simp at hle1; omega)) ?_
      intro e p2 _ htok2 hin2 _
      refine Runs.bind0 (consume_runs p2 RPAREN _ hin2) ?_
      intro r p3 _ htok3 hin3 _
      exact ⟨rfl, hin3, le_refl _⟩
    · exact ⟨rfl, h2, le_refl _⟩
  rw [h1]
  simp only [Result.bind_ok, Bool.false_eq_true, if_false]
  rcases matchTypes_inRange [LPAREN] p h with h1 | ⟨t, h1, h2, h3, -⟩
  swap
  · rw [h1]
    simp only [Result.bind_ok, if_true]
    have hq := hexpr { p with current := p.current + 1 } rfl h2 (le_refl _)
    have : Runs 0 { p with current := p.current + 1 }
        ((expression { p with current := p.current + 1 }).bind fun e =>
          (e.2.consume RPAREN (str "Expected ')' after expression")).bind
            fun r => .ok (e.1, r.2)) := by
      refine Runs.bind0 hq ?_
      intro e p2 _ htok2 hin2 _
      refine Runs.bind0 (consume_runs p2 RPAREN _ hin2) ?_
      intro r p3 _ htok3 hin3 _
      exact ⟨rfl, hin3, le_refl _⟩
    revert this
    generalize ((expression { p with current := p.current + 1 }).bind fun e =>
          (e.2.consume RPAREN (str "Expected ')' after expression")).bind
            fun r => .ok (e.1, r.2)) = r
    intro hr
    cases r with
    | ok v =>
      obtain ⟨g1, g2, g3⟩ := hr
      exact ⟨g1, g2, by simpa using g3⟩
    | error m => trivial
    | fault => exact hr
    | outOfFuel => exact hr
  rw [h1]
  simp only [Result.bind_ok, Bool.false_eq_true, if_false]
  obtain ⟨t, ht⟩ := peek_returns p h
  rw [ht]
  trivial

theorem binaryLoop_runs (types : List TokenType) (operand : Parser → Res Expression)
    (toks : List Token) (c : Nat)
    (hop : ∀ q : Parser, q.tokens = toks → q.inRange = true → c ≤ q.current →
      Runs 0 q (operand q)) :
    ∀ (n : Nat) (expr : Expression) (p : Parser), p.tokens = toks → p.inRange = true →
      c ≤ p.current → p.tokens.length ≤ n + p.current →
      Runs 0 p (binaryLoop types operand n expr p) := by
  intro n
  induction n with
  | zero =>
    intro expr p _ h _ hn
    have := ((inRange_iff p).1 h).1
    omega
  | succ n ih =>
    intro expr p hp h hc hn
    rw [binaryLoop]
    rcases matchTypes_inRange types p h with h1 | ⟨t, h1, h2, h3, -⟩
    · rw [h1]
      exact ⟨rfl, h, le_refl _⟩
    · rw [h1]
      simp only [Result.bind_ok, if_true, h3]
      have hq := hop { p with current := p.current + 1 } hp h2 (Nat.le_succ_of_le hc)
      have : Runs 0 { p with current := p.current + 1 }
          ((operand { p with current := p.current + 1 }).bind fun right =>
            binaryLoop types operand n (.BinaryExpression expr t.Value right.1) right.2) := by
        refine Runs.bind0 hq ?_
        intro e p2 _ htok2 hin2 hle
        simp at hle
        refine ih _ p2 (htok2.trans hp) hin2 (by omega) ?_
        rw [htok2]
        simp
        omega
      revert this
      generalize ((operand { p with current := p.current + 1 }).bind fun right =>
            binaryLoop types operand n (.BinaryExpression expr t.Value right.1) right.2) = r
      intro hr
      cases r with
      | ok v =>
        obtain ⟨g1, g2, g3⟩ := hr
        exact ⟨g1, g2, by simp at g3 ⊢; omega⟩
      | error m => trivial
      | fault => exact hr
      | outOfFuel => exact hr

theorem binaryLevel_runs (types : List TokenType) (operand : Parser → Res Expression)
    (p : Parser) (h : p.inRange = true)
    (hop : ∀ q : Parser, q.tokens = p.tokens → q.inRange = true → p.current ≤ q.current →
      Runs 1 q (operand q)) :
    Runs 1 p (binaryLevel types operand p) := by
  rw [binaryLevel]
  refine Runs.bind0 (hop p rfl h (le_refl _)) ?_
  intro e p1 _ htok hin hle
  refine binaryLoop_runs types operand p.tokens p.current ?_ _ _ p1 htok hin (by omega)
    (by simp only []; omega)
  intro q hq hqin hqc
  exact (hop q hq hqin hqc).weaken (Nat.zero_le _)

theorem parseExpressionDepth_runs :
    ∀ (depth : Nat) (p : Parser), p.inRange = true →
      p.tokens.length + 1 ≤ depth + p.current → Runs 1 p (parseExpressionDepth depth p) := by
  intro depth
  induction depth with
  | zero =>
    intro p h hn
    have := ((inRange_iff p).1 h).1
    omega
  | succ depth ih =>
    intro p h hn
    rw [parseExpressionDepth, parseComparison]
    refine binaryLevel_runs _ _ p h ?_
    intro q hq hqin hqc
    rw [parseAddition]
    refine binaryLevel_runs _ _ q hqin ?_
    intro q1 hq1 hqin1 hqc1
    rw [parseMultiplication]
    refine binaryLevel_runs _ _ q1 hqin1 ?_
    intro q2 hq2 hqin2 hqc2
    refine parsePrimary_runs _ q2 hqin2 ?_
    intro q3 hq3 hqin3 hqc3
    refine (ih q3 hqin3 ?_).weaken (Nat.zero_le _)
    rw [hq3, hq2, hq1, hq]
    omega

theorem parseExpression_runs (p : Parser) (h : p.inRange = true) :
    Runs 1 p p.parseExpression :=
  parseExpressionDepth_runs _ p h (by omega)

/-! ## Statements -/

theorem printArgsLoop_runs :
    ∀ (n : Nat) (args : List Expression) (p : Parser), p.inRange = true →
      p.tokens.length ≤ n + p.current → Runs 0 p (printArgsLoop n args p) := by
  intro n
  induction n with
  | zero =>
    intro args p h hn
    have := ((inRange_iff p).1 h).1
    omega
  | succ n ih =>
    intro args p h hn
    rw [printArgsLoop]
    rcases matchTypes_inRange [COMMA] p h with h1 | ⟨t, h1, h2, h3, -⟩
    · rw [h1]
      exact ⟨rfl, h, le_refl _⟩
    · rw [h1]
      simp only [Result.bind_ok, if_true]
      have : Runs 0 { p with current := p.current + 1 }
          ((({ p with current := p.current + 1 } : Parser).parseExpression).bind fun e =>
            printArgsLoop n (args ++ [e.1]) e.2) := by
        refine Runs.bind0 ((parseExpression_runs _ h2).weaken (Nat.zero_le _)) ?_
        intro e p2 _ htok2 hin2 hle
        simp at hle
        refine ih _ p2 hin2 ?_
        rw [htok2]
        simp
        omega
      revert this
      generalize ((({ p with current := p.current + 1 } : Parser).parseExpression).bind fun e =>
            printArgsLoop n (args ++ [e.1]) e.2) = r
      intro hr
      cases r with
      | ok v =>
        obtain ⟨g1, g2, g3⟩ := hr
        exact ⟨g1, g2, by simp at g3 ⊢; omega⟩
      | error m => trivial
      | fault => exact hr
      | outOfFuel => exact hr

theorem parsePrintStatement_runs (p : Parser) (h : p.inRange = true)
    (hc : p.check PRINT = .ok true) : Runs 1 p p.parsePrintStatement := by
  rw [parsePrintStatement]
  refine Runs.bind0 (consume_runs_checked p PRINT _ h hc) ?_
  intro c p1 _ htok hin _
  refine Runs.bind_val (check_returns p1 NEWLINE hin) ?_
  intro isNewline _
  have hargs : ∃ b, (if isNewline = true then (Result.ok false : Result Bool)
      else (p1.isAtEnd).bind fun e => .ok (!e)) = .ok b := by
    cases isNewline
    · obtain ⟨b, hb⟩ := isAtEnd_returns p1 hin
      exact ⟨!b, by simp [hb]⟩
    · exact ⟨false, rfl⟩
  refine Runs.bind_val hargs ?_
  intro hasArgs _
  cases hasArgs with
  | false => exact ⟨rfl, hin, le_refl _⟩
  | true =>
    simp only [if_true]
    refine Runs.bind0 ((parseExpression_runs p1 hin).weaken (Nat.zero_le _)) ?_
    intro e p2 _ htok2 hin2 _
    refine Runs.bind0 (printArgsLoop_runs _ _ p2 hin2 (by simp only []; omega)) ?_
    intro r p3 _ htok3 hin3 _
    exact ⟨rfl, hin3, le_refl _⟩

theorem parseAssignmentStatement_runs (p : Parser) (h : p.inRange = true) :
    Runs 1 p p.parseAssignmentStatement := by
  rw [parseAssignmentStatement]
  refine Runs.bind_val (check_returns p IDENTIFIER h) ?_
  intro c hc
  cases c with
  | false => trivial
  | true =>
    simp only [Bool.not_true, Bool.false_eq_true, if_false]
    refine Runs.bind_val (peek_returns p h) ?_
    intro t _
    refine Runs.bind0 (advance_runs p IDENTIFIER h hc) ?_
    intro a p1 _ htok hin _
    refine Runs.bind0 (consume_runs p1 ASSIGN _ hin) ?_
    intro c p2 _ htok2 hin2 _
    refine Runs.bind0 ((parseExpression_runs p2 hin2).weaken (Nat.zero_le _)) ?_
    intro v p3 _ htok3 hin3 _
    exact ⟨rfl, hin3, le_refl _⟩

theorem indentedBlockLoop_runs (statement : Parser → Res Statement) (toks : List Token)
    (hst : ∀ q : Parser, q.tokens = toks → q.inRange = true → q.check IF = .ok false →
      q.check FOR = .ok false → Runs 0 q (statement q)) :
    ∀ (n : Nat) (statements : List Statement) (p : Parser), p.tokens = toks →
      p.inRange = true → p.tokens.length ≤ n + p.current →
      Runs 0 p (indentedBlockLoop statement n statements p) := by
  intro n
  induction n with
  | zero =>
    intro statements p _ h hn
    have := ((inRange_iff p).1 h).1
    omega
  | succ n ih =>
    intro statements p hp h hn
    rw [indentedBlockLoop]
    refine Runs.bind_val (isAtEnd_returns p h) ?_
    intro atEnd _
    cases atEnd with
    | true => exact ⟨rfl, h, le_refl _⟩
    | false =>
      simp only [Bool.false_eq_true, if_false]
      refine Runs.bind_val (check_returns p NEWLINE h) ?_
      intro isNewline hnl
      cases isNewline with
      | true =>
        simp only [if_true]
        refine Runs.bind0 ((advance_runs p NEWLINE h hnl).weaken (Nat.zero_le _)) ?_
        intro a p1 ha htok hin _
        obtain ⟨-, -, hle⟩ := Runs.of_eq (advance_runs p NEWLINE h hnl) ha
        refine ih _ p1 (htok.trans hp) hin ?_
        rw [htok]
        omega
      | false =>
        simp only [Bool.false_eq_true, if_false]
        refine Runs.bind_val (check_returns p IF h) ?_
        intro isIf hif
        cases isIf with
        | true =>
          simp only [if_true, Result.bind_ok]
          exact ⟨rfl, h, le_refl _⟩
        | false =>
          simp only [Bool.false_eq_true, if_false]
          obtain ⟨isFor, hfor⟩ := check_returns p FOR h
          rw [hfor]
          cases isFor with
          | true =>
            simp only [if_true, Result.bind_ok]
            exact ⟨rfl, h, le_refl _⟩
          | false =>
            simp only [Bool.false_eq_true, if_false, Result.bind_ok]
            refine Runs.bind_val (check_returns p ELSE h) ?_
            intro stop _
            cases stop with
            | true => exact ⟨rfl, h, le_refl _⟩
            | false =>
              simp only [Bool.false_eq_true, if_false]
              refine Runs.bind0 (hst p hp h hif hfor) ?_
              intro stmt p1 _ htok hin _
              obtain ⟨p2, h1, h2, h3, h4⟩ := skipNewlines_runs p1 hin
              simp only [h1, Result.bind_ok]
              exact ⟨h2, h3, by omega⟩

theorem parseIndentedBlock_runs (statement : Parser → Res Statement) (p : Parser)
    (h : p.inRange = true)
    (hst : ∀ q : Parser, q.tokens = p.tokens → q.inRange = true → q.check IF = .ok false →
      q.check FOR = .ok false → Runs 0 q (statement q)) :
    Runs 0 p (parseIndentedBlock statement p) := by
  rw [parseIndentedBlock]
  obtain ⟨p1, h1, h2, h3, h4⟩ := skipNewlines_runs p h
  simp only [h1, Result.bind_ok]
  have := indentedBlockLoop_runs statement p.tokens hst (p1.tokens.length + 1) [] p1 h2 h3
    (by omega)
  revert this
  generalize indentedBlockLoop statement (p1.tokens.length + 1) [] p1 = r
  intro hr
  cases r with
  | ok v =>
    obtain ⟨g1, g2, g3⟩ := hr
    exact ⟨g1.trans h2, g2, by omega⟩
  | error m => trivial
  | fault => exact hr
  | outOfFuel => exact hr

/-- The optional line break after the colon of a header. -/
theorem optionalNewline_runs (p : Parser) (h : p.inRange = true) (isNewline : Bool)
    (hc : p.check NEWLINE = .ok isNewline) :
    ∃ p1, (if isNewline = true then (p.advance).bind fun a => .ok a.2 else .ok p) = .ok p1
      ∧ p1.tokens = p.tokens ∧ p1.inRange = true ∧ p.current ≤ p1.current := by
  cases isNewline with
  | false => exact ⟨p, rfl, rfl, h, le_refl _⟩
  | true =>
    obtain ⟨t, ha, hin, -, -⟩ := advance_inRange p NEWLINE h hc
    exact ⟨{ p with current := p.current + 1 }, by simp [ha], rfl, hin, by simp⟩

theorem blockAfterColon_runs (statement : Parser → Res Statement) (p : Parser)
    (h : p.inRange = true)
    (hst : ∀ q : Parser, q.tokens = p.tokens → q.inRange = true → q.check IF = .ok false →
      q.check FOR = .ok false → Runs 0 q (statement q))
    {α : Type} (f : List Statement × Parser → Res α)
    (hf : ∀ body p2, p2.tokens = p.tokens → p2.inRange = true → Runs 0 p2 (f (body, p2))) :
    Runs 0 p ((p.check NEWLINE).bind fun isNewline =>
      (if isNewline then (p.advance).bind fun a => .ok a.2 else .ok p).bind fun p1 =>
        (parseIndentedBlock statement p1).bind f) := by
  refine Runs.bind_val (check_returns p NEWLINE h) ?_
  intro isNewline hnl
  obtain ⟨p1, h1, h2, h3, h4⟩ := optionalNewline_runs p h isNewline hnl
  rw [h1]
  simp only [Result.bind_ok]
  have : Runs 0 p1 ((parseIndentedBlock statement p1).bind f) := by
    refine Runs.bind0 (parseIndentedBlock_runs statement p1 h3 ?_) ?_
    · intro q hq
      exact hst q (hq.trans h2)
    · intro body p2 _ htok hin _
      exact hf body p2 (htok.trans h2) hin
  revert this
  generalize (parseIndentedBlock statement p1).bind f = r
  intro hr
  cases r with
  | ok v =>
    obtain ⟨g1, g2, g3⟩ := hr
    exact ⟨g1.trans h2, g2, by omega⟩
  | error m => trivial
  | fault => exact hr
  | outOfFuel => exact hr

theorem parseIfStatement_runs (statement : Parser → Res Statement) (p : Parser)
    (h : p.inRange = true) (hc : p.check IF = .ok true)
    (hst : ∀ q : Parser, q.tokens = p.tokens → q.inRange = true → q.check IF = .ok false →
      q.check FOR = .ok false → Runs 0 q (statement q)) :
    Runs 1 p (parseIfStatement statement p) := by
  rw [parseIfStatement]
  refine Runs.bind0 (consume_runs_checked p IF _ h hc) ?_
  intro c p1 _ htok hin _
  refine Runs.bind0 ((parseExpression_runs p1 hin).weaken (Nat.zero_le _)) ?_
  intro condition p2 _ htok2 hin2 _
  refine Runs.bind0 (consume_runs p2 COLON _ hin2) ?_
  intro c p3 _ htok3 hin3 _
  have h3 : p3.tokens = p.tokens := htok3.trans (htok2.trans htok)
  refine blockAfterColon_runs statement p3 hin3 (fun q hq => hst q (hq.trans h3)) _ ?_
  intro body p4 htok4 hin4
  refine Runs.bind_val (check_returns p4 ELSE hin4) ?_
  intro isElse helse
  cases isElse with
  | false => exact ⟨rfl, hin4, le_refl _⟩
  | true =>
    simp only [if_true]
    refine Runs.bind0 ((advance_runs p4 ELSE hin4 helse).weaken (Nat.zero_le _)) ?_
    intro a p5 _ htok5 hin5 _
    refine Runs.bind0 (consume_runs p5 COLON _ hin5) ?_
    intro c p6 _ htok6 hin6 _
    have h6 : p6.tokens = p.tokens := htok6.trans (htok5.trans (htok4.trans h3))
    refine blockAfterColon_runs statement p6 hin6 (fun q hq => hst q (hq.trans h6)) _ ?_
    intro elseBody p7 htok7 hin7
    exact ⟨rfl, hin7, le_refl _⟩

theorem parseForStatement_runs (statement : Parser → Res Statement) (p : Parser)
    (h : p.inRange = true) (hc : p.check FOR = .ok true)
    (hst : ∀ q : Parser, q.tokens = p.tokens → q.inRange = true → q.check IF = .ok false →
      q.check FOR = .ok false → Runs 0 q (statement q)) :
    Runs 1 p (parseForStatement statement p) := by
  rw [parseForStatement]
  refine Runs.bind0 (consume_runs_checked p FOR _ h hc) ?_
  intro c p1 _ htok hin _
  refine Runs.bind_val (check_returns p1 IDENTIFIER hin) ?_
  intro isIdent hid
  cases isIdent with
  | false => trivial
  | true =>
    simp only [Bool.not_true, Bool.false_eq_true, if_false]
    refine Runs.bind_val (peek_returns p1 hin) ?_
    intro t _
    refine Runs.bind0 ((advance_runs p1 IDENTIFIER hin hid).weaken (Nat.zero_le _)) ?_
    intro a p2 _ htok2 hin2 _
    refine Runs.bind0 (consume_runs p2 IN _ hin2) ?_
    intro c p3 _ htok3 hin3 _
    refine Runs.bind0 ((parseExpression_runs p3 hin3).weaken (Nat.zero_le _)) ?_
    intro iterable p4 _ htok4 hin4 _
    refine Runs.bind0 (consume_runs p4 COLON _ hin4) ?_
    intro c p5 _ htok5 hin5 _
    have h5 : p5.tokens = p.tokens :=
      htok5.trans (htok4.trans (htok3.trans (htok2.trans htok)))
    refine blockAfterColon_runs statement p5 hin5 (fun q hq => hst q (hq.trans h5)) _ ?_
    intro body p6 htok6 hin6
    exact ⟨rfl, hin6, le_refl _⟩

/-- Where no `if` and no `for` starts, `parseStatement` does not call itself. -/
theorem parseStatementDepth_simple_runs (depth : Nat) (p : Parser) (h : p.inRange = true)
    (hif : p.check IF = .ok false) (hfor : p.check FOR = .ok false) :
    Runs 1 p (parseStatementDepth (depth + 1) p) := by
  rw [parseStatementDepth]
  refine Runs.bind_val (check_returns p PRINT h) ?_
  intro isPrint hprint
  cases isPrint with
  | true => exact parsePrintStatement_runs p h hprint
  | false =>
    simp only [Bool.false_eq_true, if_false, hif, hfor, Result.bind_ok]
    refine Runs.bind_val (check_returns p IDENTIFIER h) ?_
    intro isIdent _
    have hassign : ∃ b, (if isIdent = true then p.checkNext ASSIGN else .ok false) = .ok b := by
      cases isIdent
      · exact ⟨false, rfl⟩
      · exact checkNext_inRange p ASSIGN
    refine Runs.bind_val hassign ?_
    intro isAssign _
    cases isAssign with
    | true => exact parseAssignmentStatement_runs p h
    | false =>
      simp only [Bool.false_eq_true, if_false]
      refine Runs.bind0 (parseExpression_runs p h) ?_
      intro e p1 _ htok hin _
      exact ⟨rfl, hin, le_refl _⟩

theorem parseStatementDepth_runs (depth : Nat) (p : Parser) (h : p.inRange = true) :
    Runs 1 p (parseStatementDepth (depth + 2) p) := by
  have hst : ∀ q : Parser, q.tokens = p.tokens → q.inRange = true → q.check IF = .ok false →
      q.check FOR = .ok false → Runs 0 q (parseStatementDepth (depth + 1) q) :=
    fun q _ hq hif hfor => (parseStatementDepth_simple_runs depth q hq hif hfor).weaken
      (Nat.zero_le _)
  obtain ⟨isIf, hif⟩ := check_returns p IF h
  obtain ⟨isFor, hfor⟩ := check_returns p FOR h
  cases isIf with
  | true =>
    obtain ⟨t, hget, hprint⟩ := check_inRange p PRINT h
    obtain ⟨t1, hget1, hif1⟩ := check_inRange p IF h
    have ht : t1 = t := by
      rw [hget] at hget1
      injection hget1 with h1
      exact h1.symm
    subst ht
    have hp : p.check PRINT = .ok false := by
      rw [hprint]
      rw [hif] at hif1
      injection hif1 with hif1
      cases hty : t1.Typ <;> simp [hty] at hif1 ⊢
    rw [parseStatementDepth]
    simp only [hp, hif, Result.bind_ok, Bool.false_eq_true, if_false, if_true]
    exact parseIfStatement_runs _ p h hif hst
  | false =>
    cases isFor with
    | true =>
      obtain ⟨t, hget, hprint⟩ := check_inRange p PRINT h
      obtain ⟨t1, hget1, hfor1⟩ := check_inRange p FOR h
      have ht : t1 = t := by
        rw [hget] at hget1
        injection hget1 with h1
        exact h1.symm
      subst ht
      have hp : p.check PRINT = .ok false := by
        rw [hprint]
        rw [hfor] at hfor1
        injection hfor1 with hfor1
        cases hty : t1.Typ <;> simp [hty] at hfor1 ⊢
      rw [parseStatementDepth]
      simp only [hp, hif, hfor, Result.bind_ok, Bool.false_eq_true, if_false, if_true]
      exact parseForStatement_runs _ p h hfor hst
    | false => exact parseStatementDepth_simple_runs (depth + 1) p h hif hfor

theorem parseStatement_runs (p : Parser) (h : p.inRange = true) :
    Runs 1 p p.parseStatement := by
  have hlen := ((inRange_iff p).1 h).1
  have : p.tokens.length + 1 = (p.tokens.length - 1) + 2 := by omega
  rw [parseStatement, this]
  exact parseStatementDepth_runs _ p h

theorem parseProgramLoop_returned :
    ∀ (n : Nat) (statements : List Statement) (p : Parser), p.inRange = true →
      p.tokens.length ≤ n + p.current →
      (parseProgramLoop n statements p).returned = true := by
  intro n
  induction n with
  | zero =>
    intro statements p h hn
    have := ((inRange_iff p).1 h).1
    omega
  | succ n ih =>
    intro statements p h hn
    rw [parseProgramLoop]
    obtain ⟨atEnd, hat⟩ := isAtEnd_returns p h
    rw [hat]
    cases atEnd with
    | true => rfl
    | false =>
      simp only [Result.bind_ok, Bool.false_eq_true, if_false]
      obtain ⟨isNewline, hnl⟩ := check_returns p NEWLINE h
      rw [hnl]
      cases isNewline with
      | true =>
        obtain ⟨t, ha, hin, -, -⟩ := advance_inRange p NEWLINE h hnl
        simp only [Result.bind_ok, if_true, ha]
        exact ih _ _ hin (by simp; omega)
      | false =>
        simp only [Result.bind_ok, Bool.false_eq_true, if_false]
        have hs := parseStatement_runs p h
        cases hr : p.parseStatement with
        | ok v =>
          obtain ⟨stmt, p1⟩ := v
          obtain ⟨h1, h2, h3⟩ := Runs.of_eq hs hr
          obtain ⟨p2, g1, g2, g3, g4⟩ := skipNewlines_runs p1 h2
          simp only [Result.bind_ok, g1]
          exact ih _ _ g3 (by rw [g2, h1]; omega)
        | error m => rfl
        | fault => rw [hr] at hs; exact hs.elim
        | outOfFuel => rw [hr] at hs; exact hs.elim

theorem parseProgram_returned (tokens : List Token) (h : endsInEOF tokens = true) :
    (parseProgram { tokens := tokens, current := 0 }).returned = true := by
  have hne : 0 < tokens.length := by
    cases tokens with
    | nil => simp [endsInEOF] at h
    | cons t ts => simp
  exact parseProgramLoop_returned _ _ _ (by simp [Parser.inRange, hne, h]) (by simp)

/-! ## The lexer side: the tokens end with `EOF`, every step moves on -/

theorem Tokenize_endsInEOF (src : GoString) (tokens : List Token)
    (h : (NewLexer src).Tokenize = .ok tokens) : endsInEOF tokens = true := by
  rw [Lexer.Tokenize] at h
  split at h
  · injection h with h
    subst h
    simp [Lexer.addToken, endsInEOF]
  · cases h
  · cases h
  · cases h

theorem Tokenize_returned (src : GoString) : ((NewLexer src).Tokenize).returned = true := by
  rcases Tokenize_cases src with ⟨segs, rfl, hwf⟩ | ⟨segs, r1, col1, -, -, -, h⟩
  · obtain ⟨toks, h, -⟩ := Tokenize_segs segs hwf
    rw [h]
    rfl
  · rw [h]
    rfl

theorem Parse_returned (src : GoString) : (Parse src).returned = true := by
  have hr := Tokenize_returned src
  rw [Parse]
  cases ht : (NewLexer src).Tokenize with
  | ok tokens => exact parseProgram_returned tokens (Tokenize_endsInEOF src tokens ht)
  | error e => rfl
  | fault => rw [ht] at hr; cases hr
  | outOfFuel => rw [ht] at hr; cases hr

theorem lexer_eq_lexAt (l : Lexer) (h : l.position ≤ l.input.length) :
    l = lexAt (l.input.take l.position) (l.input.drop l.position) l.line l.column l.tokens := by
  cases l with
  | mk input position line column tokens =>
    simp only [lexAt, List.take_append_drop, List.length_take, Lexer.mk.injEq, true_and,
      and_true]
    simp only at h
    omega

theorem scanToken_at_end (l : Lexer) (h : l.input.length ≤ l.position) (l1 : Lexer) :
    l.scanToken ≠ .ok l1 := by
  have hc : l.currentChar = 0 := by simp [Lexer.currentChar, h]
  simp [Lexer.scanToken, hc, isDigit, isAlpha, Lexer.unexpectedCharacter]

/-- A step of the lexer that succeeds has read at least one byte. -/
theorem scanToken_progress (l l1 : Lexer) (h : l.scanToken = .ok l1) :
    l.position < l1.position := by
  by_cases hpos : l.position < l.input.length
  · rw [lexer_eq_lexAt l (le_of_lt hpos)] at h
    cases hr : l.input.drop l.position with
    | nil =>
      have := congrArg List.length hr
      simp at this
      omega
    | cons c r0 =>
      rw [hr] at h
      cases hf : lexFails (c :: r0) with
      | true =>
        rw [scanToken_fails _ _ _ _ _ hf] at h
        cases h
      | false =>
        obtain ⟨s, r1, hs, hwf, hend, hne⟩ := segment_step c r0 hf
        obtain ⟨col1, ts, hscan, -, -⟩ :=
          scanToken_segAt s (l.input.take l.position) r1 l.line l.column l.tokens hwf hend
        rw [hs, hscan] at h
        injection h with h
        subst h
        have hlen : 0 < s.text.length := List.length_pos.2 hne
        simp [lexAt]
        omega
  · exact absurd h (scanToken_at_end l (by omega) l1)

/-! ## Index safety (C24) and progress (C25) -/

theorem peek_fault_iff (p : Parser) : p.peek = .fault ↔ ¬ p.current < p.tokens.length := by
  simp only [Parser.peek]
  constructor
  · intro h hlt
    rw [List.getElem?_eq_getElem hlt] at h
    cases h
  · intro h
    rw [List.getElem?_eq_none (by omega)]

theorem previous_fault_iff (p : Parser) :
    p.previous = .fault ↔ (p.current = 0 ∨ ¬ p.current - 1 < p.tokens.length) := by
  simp only [Parser.previous]
  by_cases h0 : p.current = 0
  · simp [h0]
  · simp only [h0, if_false, false_or]
    constructor
    · intro h hlt
      rw [List.getElem?_eq_getElem hlt] at h
      cases h
    · intro h
      rw [List.getElem?_eq_none (by omega)]

theorem parseStatement_out_of_range (p : Parser) (h : ¬ p.current < p.tokens.length) :
    p.parseStatement = .fault := by
  have hp := (peek_fault_iff p).2 h
  simp [parseStatement, parseStatementDepth, Parser.check, Parser.isAtEnd, hp]

theorem inRange_mk (tokens : List Token) (cur : Nat) (h : endsInEOF tokens = true)
    (hc : cur < tokens.length) :
    ({ tokens := tokens, current := cur } : Parser).inRange = true := by
  simp [Parser.inRange, h, hc]

/-- C24: on a token list that ends with `EOF` the parser makes no token access
out of range. In the model `peek` stops with `fault` exactly where the cursor is
no index of the tokens, `previous` exactly where the cursor is 0 or the place
before it is no index, and nothing else does. Wherever the cursor is an index,
`parseStatement` does not stop with `fault`, and after a statement the cursor is
an index of the same tokens; `parseProgram` does not stop with `fault`; hence
`Parse` does not stop with `fault` on any source: it returns a tree or an
error. -/
theorem C24_parser_index_safety (tokens : List Token) (src : GoString)
    (h : endsInEOF tokens = true) :
    (∀ p : Parser, p.peek = .fault ↔ ¬ p.current < p.tokens.length)
    ∧ (∀ p : Parser,
        p.previous = .fault ↔ (p.current = 0 ∨ ¬ p.current - 1 < p.tokens.length))
    ∧ (∀ cur : Nat, cur < tokens.length →
        parseStatement { tokens := tokens, current := cur } ≠ .fault
        ∧ ∀ s p1, parseStatement { tokens := tokens, current := cur } = .ok (s, p1) →
            p1.tokens = tokens ∧ p1.current < tokens.length)
    ∧ parseProgram { tokens := tokens, current := 0 } ≠ .fault
    ∧ Parse src ≠ .fault
    ∧ ((∃ prog, Parse src = .ok prog) ∨ ∃ e, Parse src = .error e) := by
  refine ⟨peek_fault_iff, previous_fault_iff, ?_, ?_, ?_, ?_⟩
  · intro cur hc
    have hrun := parseStatement_runs _ (inRange_mk tokens cur h hc)
    refine ⟨?_, ?_⟩
    · intro hf
      rw [hf] at hrun
      exact hrun
    · intro s p1 hs
      obtain ⟨h1, h2, -⟩ := Runs.of_eq hrun hs
      refine ⟨h1, ?_⟩
      have := ((inRange_iff p1).1 h2).1
      rw [h1] at this
      exact this
  · intro hf
    have := parseProgram_returned tokens h
    rw [hf] at this
    cases this
  · intro hf
    have := Parse_returned src
    rw [hf] at this
    cases this
  · have := Parse_returned src
    cases hr : Parse src with
    | ok prog => exact Or.inl ⟨prog, rfl⟩
    | error e => exact Or.inr ⟨e, rfl⟩
    | fault => rw [hr] at this; cases this
    | outOfFuel => rw [hr] at this; cases this

theorem C24_parser_index_safety_witness :
    endsInEOF
        [⟨PRINT, str "print", 1, 1⟩, ⟨RPAREN, str ")", 1, 7⟩, ⟨EOF, str "", 1, 8⟩] = true
    ∧ parseProgram { tokens := [⟨PRINT, str "print", 1, 1⟩, ⟨RPAREN, str ")", 1, 7⟩,
          ⟨EOF, str "", 1, 8⟩], current := 0 } ≠ .fault
    ∧ Parse (str "print )") ≠ .fault :=
  ⟨rfl,
    (C24_parser_index_safety [⟨PRINT, str "print", 1, 1⟩, ⟨RPAREN, str ")", 1, 7⟩,
      ⟨EOF, str "", 1, 8⟩] (str "print )") rfl).2.2.2.1,
    (C24_parser_index_safety [⟨PRINT, str "print", 1, 1⟩, ⟨RPAREN, str ")", 1, 7⟩,
      ⟨EOF, str "", 1, 8⟩] (str "print )") rfl).2.2.2.2.1⟩

/-- C25: on a token list that ends with `EOF`, a call of `parseStatement` that
returns a statement leaves the cursor strictly greater than it was, although
`parseIndentedBlock` can return with the cursor where it was; no call of
`parseStatement` at an index and no run of `parseProgram` is stopped by the
bound of its loops, which is how the model counts iterations that the code does
not count. In the same way a step of `scanToken` that succeeds leaves the
position of the lexer strictly greater, and neither `Tokenize` nor `Parse` is
stopped by a bound on any source. -/
theorem C25_parser_and_lexer_progress (tokens : List Token) (src : GoString)
    (h : endsInEOF tokens = true) :
    (∀ (cur : Nat) (s : Statement) (p1 : Parser),
        parseStatement { tokens := tokens, current := cur } = .ok (s, p1) → cur < p1.current)
    ∧ (∀ cur : Nat, cur < tokens.length →
        parseStatement { tokens := tokens, current := cur } ≠ .outOfFuel)
    ∧ (∃ p : Parser, p.inRange = true ∧ parseIndentedBlock parseStatement p = .ok ([], p))
    ∧ parseProgram { tokens := tokens, current := 0 } ≠ .outOfFuel
    ∧ (∀ l l1 : Lexer, l.scanToken = .ok l1 → l.position < l1.position)
    ∧ (NewLexer src).Tokenize ≠ .outOfFuel
    ∧ Parse src ≠ .outOfFuel := by
  refine ⟨?_, ?_, ?_, ?_, scanToken_progress, ?_, ?_⟩
  · intro cur s p1 hs
    by_cases hc : cur < tokens.length
    · obtain ⟨-, -, h3⟩ := Runs.of_eq (parseStatement_runs _ (inRange_mk tokens cur h hc)) hs
      exact h3
    · rw [parseStatement_out_of_range _ (by simpa using hc)] at hs
      cases hs
  · intro cur hc hf
    have hrun := parseStatement_runs _ (inRange_mk tokens cur h hc)
    rw [hf] at hrun
    exact hrun
  · exact ⟨{ tokens := [⟨EOF, str "", 1, 1⟩], current := 0 }, rfl, rfl⟩
  · intro hf
    have := parseProgram_returned tokens h
    rw [hf] at this
    cases this
  · intro hf
    have := Tokenize_returned src
    rw [hf] at this
    cases this
  · intro hf
    have := Parse_returned src
    rw [hf] at this
    cases this

theorem C25_parser_and_lexer_progress_witness :
    endsInEOF [⟨IDENTIFIER, str "x", 1, 1⟩, ⟨NEWLINE, str "\n", 1, 2⟩,
        ⟨EOF, str "", 2, 1⟩] = true
    ∧ parseStatement { tokens := [⟨IDENTIFIER, str "x", 1, 1⟩, ⟨NEWLINE, str "\n", 1, 2⟩,
          ⟨EOF, str "", 2, 1⟩], current := 0 } =
        .ok (ExpressionStatement (Identifier (str "x")),
          { tokens := [⟨IDENTIFIER, str "x", 1, 1⟩, ⟨NEWLINE, str "\n", 1, 2⟩,
              ⟨EOF, str "", 2, 1⟩], current := 1 })
    ∧ 0 < 1
    ∧ Parse (str "x\n") ≠ .outOfFuel :=
  ⟨rfl, rfl,
    (C25_parser_and_lexer_progress [⟨IDENTIFIER, str "x", 1, 1⟩, ⟨NEWLINE, str "\n", 1, 2⟩,
      ⟨EOF, str "", 2, 1⟩] (str "x\n") rfl).1 0 _ _ rfl,
    (C25_parser_and_lexer_progress [⟨IDENTIFIER, str "x", 1, 1⟩, ⟨NEWLINE, str "\n", 1, 2⟩,
      ⟨EOF, str "", 2, 1⟩] (str "x\n") rfl).2.2.2.2.2.2⟩

/-! ## The shape of parsed trees (C21) -/

theorem parsePrintStatement_isSimple (p : Parser) (s : Statement) (p1 : Parser)
    (h : p.parsePrintStatement = .ok (s, p1)) : s.isSimple = true := by
  simp only [parsePrintStatement, Result.bind_eq_ok] at h
  obtain ⟨c, -, isNewline, -, hasArgs, -, h⟩ := h
  cases hasArgs with
  | true =>
    simp only [if_true, Result.bind_eq_ok, Result.ok.injEq, Prod.mk.injEq] at h
    obtain ⟨e, -, r, -, rfl, -⟩ := h
    rfl
  | false =>
    simp only [Bool.false_eq_true, if_false, Result.ok.injEq, Prod.mk.injEq] at h
    obtain ⟨rfl, -⟩ := h
    rfl

theorem parseAssignmentStatement_isSimple (p : Parser) (s : Statement) (p1 : Parser)
    (h : p.parseAssignmentStatement = .ok (s, p1)) : s.isSimple = true := by
  simp only [parseAssignmentStatement, Result.bind_eq_ok] at h
  obtain ⟨c, -, h⟩ := h
  cases c with
  | false => simp at h
  | true =>
    simp only [Bool.not_true, Bool.false_eq_true, if_false, Result.bind_eq_ok,
      Result.ok.injEq, Prod.mk.injEq] at h
    obtain ⟨t, -, a, -, c, -, v, -, rfl, -⟩ := h
    rfl

/-- Where `check(IF)` and `check(FOR)` are false, `parseStatement` returns a
print, assignment or expression statement. -/
theorem parseStatementDepth_isSimple (depth : Nat) (p : Parser) (s : Statement) (p1 : Parser)
    (hif : p.check IF = .ok false) (hfor : p.check FOR = .ok false)
    (h : parseStatementDepth depth p = .ok (s, p1)) : s.isSimple = true := by
  cases depth with
  | zero => cases h
  | succ d =>
    simp only [parseStatementDepth, Result.bind_eq_ok] at h
    obtain ⟨isPrint, -, h⟩ := h
    cases isPrint with
    | true => exact parsePrintStatement_isSimple p s p1 (by simpa using h)
    | false =>
      simp only [Bool.false_eq_true, if_false, hif, hfor, Result.bind_ok,
        Result.bind_eq_ok] at h
      obtain ⟨isIdent, -, isAssign, -, h⟩ := h
      cases isAssign with
      | true => exact parseAssignmentStatement_isSimple p s p1 (by simpa using h)
      | false =>
        simp only [Bool.false_eq_true, if_false, Result.bind_eq_ok, Result.ok.injEq,
          Prod.mk.injEq] at h
        obtain ⟨e, -, rfl, -⟩ := h
        rfl

theorem indentedBlockLoop_flat (statement : Parser → Res Statement)
    (hst : ∀ (q : Parser) (s : Statement) (q1 : Parser), q.check IF = .ok false →
      q.check FOR = .ok false → statement q = .ok (s, q1) → s.isSimple = true) :
    ∀ (n : Nat) (p : Parser) (block : List Statement) (p1 : Parser),
      indentedBlockLoop statement n [] p = .ok (block, p1) → isFlatBlock block = true := by
  intro n
  induction n with
  | zero => intro p block p1 h; cases h
  | succ n ih =>
    intro p block p1 h
    simp only [indentedBlockLoop, Result.bind_eq_ok] at h
    obtain ⟨atEnd, -, h⟩ := h
    cases atEnd with
    | true =>
      simp only [if_true, Result.ok.injEq, Prod.mk.injEq] at h
      obtain ⟨rfl, -⟩ := h
      rfl
    | false =>
      simp only [Bool.false_eq_true, if_false, Result.bind_eq_ok] at h
      obtain ⟨isNewline, -, h⟩ := h
      cases isNewline with
      | true =>
        simp only [if_true, Result.bind_eq_ok] at h
        obtain ⟨a, -, h⟩ := h
        exact ih a.2 block p1 h
      | false =>
        simp only [Bool.false_eq_true, if_false, Result.bind_eq_ok] at h
        obtain ⟨isIf, hif, stop, hstop, h⟩ := h
        cases stop with
        | true =>
          simp only [if_true, Result.ok.injEq, Prod.mk.injEq] at h
          obtain ⟨rfl, -⟩ := h
          rfl
        | false =>
          simp only [Bool.false_eq_true, if_false, Result.bind_eq_ok] at h
          obtain ⟨stmt, hstmt, q, -, h⟩ := h
          simp only [Result.ok.injEq, Prod.mk.injEq] at h
          obtain ⟨rfl, -⟩ := h
          cases isIf with
          | true => simp at hstop
          | false =>
            simp only [Bool.false_eq_true, if_false, Result.bind_eq_ok] at hstop
            obtain ⟨isFor, hfor, hstop⟩ := hstop
            cases isFor with
            | true => simp at hstop
            | false =>
              have := hst p stmt.1 stmt.2 hif hfor hstmt
              simp [isFlatBlock, this]

theorem parseIndentedBlock_flat (statement : Parser → Res Statement)
    (hst : ∀ (q : Parser) (s : Statement) (q1 : Parser), q.check IF = .ok false →
      q.check FOR = .ok false → statement q = .ok (s, q1) → s.isSimple = true)
    (p : Parser) (block : List Statement) (p1 : Parser)
    (h : parseIndentedBlock statement p = .ok (block, p1)) : isFlatBlock block = true := by
  simp only [parseIndentedBlock, Result.bind_eq_ok] at h
  obtain ⟨q, -, h⟩ := h
  exact indentedBlockLoop_flat statement hst _ q block p1 h

theorem parseIfStatement_flat (statement : Parser → Res Statement)
    (hst : ∀ (q : Parser) (s : Statement) (q1 : Parser), q.check IF = .ok false →
      q.check FOR = .ok false → statement q = .ok (s, q1) → s.isSimple = true)
    (p : Parser) (s : Statement) (p1 : Parser)
    (h : parseIfStatement statement p = .ok (s, p1)) : s.flat = true := by
  simp only [parseIfStatement, Result.bind_eq_ok] at h
  obtain ⟨c, -, cond, -, c1, -, isNewline, -, q1, -, body, hbody, isElse, -, h⟩ := h
  have hb := parseIndentedBlock_flat statement hst q1 body.1 body.2 hbody
  cases isElse with
  | true =>
    simp only [if_true, Result.bind_eq_ok] at h
    obtain ⟨a, -, c2, -, isNewline2, -, q2, -, els, hels, h⟩ := h
    simp only [Result.ok.injEq, Prod.mk.injEq] at h
    obtain ⟨rfl, -⟩ := h
    have he := parseIndentedBlock_flat statement hst q2 els.1 els.2 hels
    simp [Statement.flat, hb, he]
  | false =>
    simp only [Bool.false_eq_true, if_false, Result.ok.injEq, Prod.mk.injEq] at h
    obtain ⟨rfl, -⟩ := h
    simp only [Statement.flat, hb, Bool.true_and]
    rfl

theorem parseForStatement_flat (statement : Parser → Res Statement)
    (hst : ∀ (q : Parser) (s : Statement) (q1 : Parser), q.check IF = .ok false →
      q.check FOR = .ok false → statement q = .ok (s, q1) → s.isSimple = true)
    (p : Parser) (s : Statement) (p1 : Parser)
    (h : parseForStatement statement p = .ok (s, p1)) : s.flat = true := by
  simp only [parseForStatement, Result.bind_eq_ok] at h
  obtain ⟨c, -, isIdent, -, h⟩ := h
  cases isIdent with
  | false => simp at h
  | true =>
    simp only [Bool.not_true, Bool.false_eq_true, if_false, Result.bind_eq_ok] at h
    obtain ⟨t, -, a, -, c1, -, it, -, c2, -, isNewline, -, q1, -, body, hbody, h⟩ := h
    simp only [Result.ok.injEq, Prod.mk.injEq] at h
    obtain ⟨rfl, -⟩ := h
    have hb := parseIndentedBlock_flat statement hst q1 body.1 body.2 hbody
    simp [Statement.flat, hb]

theorem isSimple_flat (s : Statement) (h : s.isSimple = true) : s.flat = true := by
  cases s <;> simp [Statement.isSimple] at h <;> rfl

theorem parseStatementDepth_flat (depth : Nat) (p : Parser) (s : Statement) (p1 : Parser)
    (h : parseStatementDepth depth p = .ok (s, p1)) : s.flat = true := by
  cases depth with
  | zero => cases h
  | succ d =>
    have hst : ∀ (q : Parser) (s : Statement) (q1 : Parser), q.check IF = .ok false →
        q.check FOR = .ok false → parseStatementDepth d q = .ok (s, q1) → s.isSimple = true :=
      fun q s q1 hif hfor hq => parseStatementDepth_isSimple d q s q1 hif hfor hq
    simp only [parseStatementDepth, Result.bind_eq_ok] at h
    obtain ⟨isPrint, -, h⟩ := h
    cases isPrint with
    | true =>
      exact isSimple_flat s (parsePrintStatement_isSimple p s p1 (by simpa using h))
    | false =>
      simp only [Bool.false_eq_true, if_false, Result.bind_eq_ok] at h
      obtain ⟨isIf, -, h⟩ := h
      cases isIf with
      | true => exact parseIfStatement_flat _ hst p s p1 (by simpa using h)
      | false =>
        simp only [Bool.false_eq_true, if_false, Result.bind_eq_ok] at h
        obtain ⟨isFor, -, h⟩ := h
        cases isFor with
        | true => exact parseForStatement_flat _ hst p s p1 (by simpa using h)
        | false =>
          simp only [Bool.false_eq_true, if_false, Result.bind_eq_ok] at h
          obtain ⟨isIdent, -, isAssign, -, h⟩ := h
          cases isAssign with
          | true =>
            exact isSimple_flat s (parseAssignmentStatement_isSimple p s p1 (by simpa using h))
          | false =>
            simp only [Bool.false_eq_true, if_false, Result.bind_eq_ok, Result.ok.injEq,
              Prod.mk.injEq] at h
            obtain ⟨e, -, rfl, -⟩ := h
            rfl

theorem parseProgramLoop_flat :
    ∀ (n : Nat) (acc : List Statement) (p : Parser) (prog : Program),
      (∀ s ∈ acc, s.flat = true) → parseProgramLoop n acc p = .ok prog →
      ∀ s ∈ prog.Statements, s.flat = true := by
  intro n
  induction n with
  | zero => intro acc p prog _ h; cases h
  | succ n ih =>
    intro acc p prog hacc h
    simp only [parseProgramLoop, Result.bind_eq_ok] at h
    obtain ⟨atEnd, -, h⟩ := h
    cases atEnd with
    | true =>
      simp only [if_true, Result.ok.injEq] at h
      rw [← h]
      exact hacc
    | false =>
      simp only [Bool.false_eq_true, if_false, Result.bind_eq_ok] at h
      obtain ⟨isNewline, -, h⟩ := h
      cases isNewline with
      | true =>
        simp only [if_true, Result.bind_eq_ok] at h
        obtain ⟨a, -, h⟩ := h
        exact ih acc a.2 prog hacc h
      | false =>
        simp only [Bool.false_eq_true, if_false, Result.bind_eq_ok] at h
        obtain ⟨stmt, hstmt, q, -, h⟩ := h
        refine ih (acc ++ [stmt.1]) q prog ?_ h
        intro s hs
        rcases List.mem_append.1 hs with hs | hs
        · exact hacc s hs
        · rw [List.mem_singleton.1 hs]
          exact parseStatementDepth_flat _ p stmt.1 stmt.2 hstmt

theorem Parse_eq_parseProgram (src : GoString) (prog : Program)
    (h : Parse src = .ok prog) :
    ∃ tokens, (NewLexer src).Tokenize = .ok tokens
      ∧ parseProgram { tokens := tokens, current := 0 } = .ok prog := by
  rw [Parse] at h
  cases ht : (NewLexer src).Tokenize with
  | ok tokens =>
    rw [ht] at h
    exact ⟨tokens, rfl, h⟩
  | error e => rw [ht] at h; cases h
  | fault => rw [ht] at h; cases h
  | outOfFuel => rw [ht] at h; cases h

/-- C21: in the tree of every source that `Parse` accepts, every `Body` and
`Else` of an `IfStatement` and every `Body` of a `ForStatement` has at most one
statement, and that statement is a print, assignment or expression statement.
Such a statement holds no statement list, so the top-level statements are the
only places where an `if` or a `for` occurs. -/
theorem C21_blocks_hold_at_most_one_simple_statement (src : GoString) (prog : Program)
    (h : Parse src = .ok prog) :
    ∀ s ∈ prog.Statements,
      match s with
      | .IfStatement _ body els =>
        body.length ≤ 1 ∧ els.length ≤ 1
          ∧ (∀ b ∈ body, b.isSimple = true) ∧ (∀ b ∈ els, b.isSimple = true)
      | .ForStatement _ _ body => body.length ≤ 1 ∧ ∀ b ∈ body, b.isSimple = true
      | _ => True := by
  obtain ⟨tokens, -, hp⟩ := Parse_eq_parseProgram src prog h
  intro s hs
  have := parseProgramLoop_flat _ [] _ prog (by simp) hp s hs
  cases s with
  | IfStatement c body els =>
    simpa [Statement.flat, isFlatBlock, and_assoc, and_left_comm] using this
  | ForStatement v it body => simpa [Statement.flat, isFlatBlock] using this
  | PrintStatement a => trivial
  | AssignmentStatement n v => trivial
  | ExpressionStatement e => trivial

theorem C21_blocks_hold_at_most_one_simple_statement_witness :
    Parse (str "if x:\n  a = 1\nelse:\n  print 2\nfor i in range(3):\n  print i") =
        .ok ⟨[IfStatement (Identifier (str "x"))
                [AssignmentStatement (str "a") (NumberLiteral (str "1"))]
                [PrintStatement [NumberLiteral (str "2")]],
              ForStatement (str "i") (RangeExpression (NumberLiteral (str "3")))
                [PrintStatement [Identifier (str "i")]]]⟩
    ∧ ∀ s ∈ [IfStatement (Identifier (str "x"))
                [AssignmentStatement (str "a") (NumberLiteral (str "1"))]
                [PrintStatement [NumberLiteral (str "2")]],
              ForStatement (str "i") (RangeExpression (NumberLiteral (str "3")))
                [PrintStatement [Identifier (str "i")]]],
      match s with
      | .IfStatement _ body els =>
        body.length ≤ 1 ∧ els.length ≤ 1
          ∧ (∀ b ∈ body, b.isSimple = true) ∧ (∀ b ∈ els, b.isSimple = true)
      | .ForStatement _ _ body => body.length ≤ 1 ∧ ∀ b ∈ body, b.isSimple = true
      | _ => True :=
  ⟨rfl, C21_blocks_hold_at_most_one_simple_statement
    (str "if x:\n  a = 1\nelse:\n  print 2\nfor i in range(3):\n  print i") _ rfl⟩

/-! ## The parser does not look at positions (C23) -/

theorem Result.alike.bind_alike {α β : Type} {R : α → α → Prop} {S : β → β → Prop}
    {r1 r2 : Result α} {f g : α → Result β} (h : Result.alike R r1 r2)
    (hf : ∀ a b, R a b → Result.alike S (f a) (g b)) :
    Result.alike S (r1.bind f) (r2.bind g) := by
  cases r1 <;> cases r2 <;> first | exact h.elim | trivial | exact hf _ _ h

theorem Result.alike.bind_same {α β : Type} {S : β → β → Prop}
    {r : Result α} {f g : α → Result β} (hf : ∀ a, Result.alike S (f a) (g a)) :
    Result.alike S (r.bind f) (r.bind g) := by
  cases r <;> first | trivial | exact hf _

theorem Parser.alike.length {p q : Parser} (h : p.alike q) :
    p.tokens.length = q.tokens.length := by
  have := congrArg List.length h.2
  simpa using this

theorem Parser.alike.getElem {p q : Parser} (h : p.alike q) (i : Nat) :
    (p.tokens[i]?).map Token.key = (q.tokens[i]?).map Token.key := by
  have := congrArg (fun l => l[i]?) h.2
  simpa [List.getElem?_map] using this

theorem Parser.alike.step {p q : Parser} (h : p.alike q) :
    Parser.alike { p with current := p.current + 1 } { q with current := q.current + 1 } :=
  ⟨by simp [h.1], h.2⟩

theorem key_eq {a b : Token} (h : a.key = b.key) : a.Typ = b.Typ ∧ a.Value = b.Value := by
  simpa [Token.key] using h

theorem getElem_alike {p q : Parser} (h : p.alike q) (i : Nat) :
    Result.alike (fun a b : Token => a.key = b.key)
      (match p.tokens[i]? with | some t => .ok t | none => .fault)
      (match q.tokens[i]? with | some t => .ok t | none => .fault) := by
  have hk := h.getElem i
  cases hp : p.tokens[i]? <;> cases hq : q.tokens[i]? <;> rw [hp, hq] at hk <;>
    simp at hk
  · trivial
  · exact hk

theorem peek_alike {p q : Parser} (h : p.alike q) :
    Result.alike (fun a b : Token => a.key = b.key) p.peek q.peek := by
  have := getElem_alike h p.current
  rw [Parser.peek, Parser.peek, ← h.1]
  exact this

theorem previous_alike {p q : Parser} (h : p.alike q) :
    Result.alike (fun a b : Token => a.key = b.key) p.previous q.previous := by
  have := getElem_alike h (p.current - 1)
  rw [Parser.previous, Parser.previous, ← h.1]
  split
  · trivial
  · exact this

theorem isAtEnd_alike {p q : Parser} (h : p.alike q) : p.isAtEnd = q.isAtEnd := by
  have hp := peek_alike h
  rw [Parser.isAtEnd, Parser.isAtEnd]
  cases h1 : p.peek <;> cases h2 : q.peek <;> rw [h1, h2] at hp <;>
    first | exact hp.elim | rfl | skip
  · simp only [Result.bind_ok]
    rw [(key_eq hp).1]
  · simp [Parser.peek] at h1
    split at h1 <;> cases h1

theorem check_alike {p q : Parser} (h : p.alike q) (ty : TokenType) :
    p.check ty = q.check ty := by
  have hp := peek_alike h
  rw [Parser.check, Parser.check, isAtEnd_alike h]
  cases hq : q.isAtEnd with
  | ok atEnd =>
    simp only [Result.bind_ok]
    cases atEnd with
    | true => rfl
    | false =>
      simp only [Bool.false_eq_true, if_false]
      cases h1 : p.peek <;> cases h2 : q.peek <;> rw [h1, h2] at hp <;>
        first | exact hp.elim | rfl | skip
      · simp only [Result.bind_ok]
        rw [(key_eq hp).1]
      · simp [Parser.peek] at h1
        split at h1 <;> cases h1
  | error e => rfl
  | fault => rfl
  | outOfFuel => rfl

theorem checkNext_alike {p q : Parser} (h : p.alike q) (ty : TokenType) :
    p.checkNext ty = q.checkNext ty := by
  have hk := h.getElem (p.current + 1)
  rw [Parser.checkNext, Parser.checkNext, ← h.1, ← h.length]
  split
  · rfl
  · cases hp : p.tokens[p.current + 1]? with
    | none =>
      cases hq : q.tokens[p.current + 1]? with
      | none => rfl
      | some b => rw [hp, hq] at hk; simp at hk
    | some a =>
      cases hq : q.tokens[p.current + 1]? with
      | none => rw [hp, hq] at hk; simp at hk
      | some b =>
        rw [hp, hq] at hk
        simp only [Option.map_some', Option.some.injEq] at hk
        simp only
        rw [(key_eq hk).1]

theorem advance_alike {p q : Parser} (h : p.alike q) :
    Result.alike (fun a b : Token × Parser => a.1.key = b.1.key ∧ a.2.alike b.2)
      p.advance q.advance := by
  rw [Parser.advance, Parser.advance, isAtEnd_alike h]
  refine Result.alike.bind_same ?_
  intro atEnd
  cases atEnd with
  | false =>
    simp only [Bool.not_false, if_true]
    refine Result.alike.bind_alike (previous_alike h.step) ?_
    intro a b hab
    exact ⟨hab, h.step⟩
  | true =>
    simp only [Bool.not_true, Bool.false_eq_true, if_false]
    refine Result.alike.bind_alike (previous_alike h) ?_
    intro a b hab
    exact ⟨hab, h⟩

theorem matchTypes_alike (types : List TokenType) {p q : Parser} (h : p.alike q) :
    Res.alike (p.matchTypes types) (q.matchTypes types) := by
  induction types with
  | nil => exact ⟨rfl, h⟩
  | cons ty types ih =>
    rw [Parser.matchTypes, Parser.matchTypes, check_alike h ty]
    refine Result.alike.bind_same ?_
    intro c
    cases c with
    | true =>
      simp only [if_true]
      refine Result.alike.bind_alike (advance_alike h) ?_
      intro a b hab
      exact ⟨rfl, hab.2⟩
    | false => exact ih

theorem consume_alike {p q : Parser} (h : p.alike q) (ty : TokenType) (msg : GoString) :
    Result.alike (fun a b : Option GoString × Parser => a.2.alike b.2)
      (p.consume ty msg) (q.consume ty msg) := by
  rw [Parser.consume, Parser.consume, check_alike h ty]
  refine Result.alike.bind_same ?_
  intro c
  cases c with
  | true =>
    simp only [if_true]
    refine Result.alike.bind_alike (advance_alike h) ?_
    intro a b hab
    exact hab.2
  | false =>
    simp only [Bool.false_eq_true, if_false]
    refine Result.alike.bind_alike (peek_alike h) ?_
    intro a b _
    exact h

theorem skipNewlinesLoop_alike :
    ∀ (n : Nat) {p q : Parser}, p.alike q →
      Result.alike Parser.alike (skipNewlinesLoop n p) (skipNewlinesLoop n q) := by
  intro n
  induction n with
  | zero => intro p q _; trivial
  | succ n ih =>
    intro p q h
    rw [skipNewlinesLoop, skipNewlinesLoop, check_alike h NEWLINE]
    refine Result.alike.bind_same ?_
    intro c
    cases c with
    | true =>
      simp only [if_true]
      refine Result.alike.bind_alike (advance_alike h) ?_
      intro a b hab
      exact ih hab.2
    | false => exact h

theorem skipNewlines_alike {p q : Parser} (h : p.alike q) :
    Result.alike Parser.alike p.skipNewlines q.skipNewlines := by
  rw [skipNewlines, skipNewlines, h.length]
  exact skipNewlinesLoop_alike _ h

theorem Res.alike.bind_pair {α β : Type} {r1 r2 : Res α} {f g : α × Parser → Res β}
    (h : Res.alike r1 r2)
    (hf : ∀ (a : α) (p q : Parser), p.alike q → Res.alike (f (a, p)) (g (a, q))) :
    Res.alike (r1.bind f) (r2.bind g) := by
  refine Result.alike.bind_alike h ?_
  intro a b hab
  obtain ⟨a1, p⟩ := a
  obtain ⟨b1, q⟩ := b
  obtain ⟨h1, h2⟩ := hab
  simp only at h1
  subst h1
  exact hf a1 p q h2

/-- Sequencing after a call that gives both runs a token of the same kind and
text. -/
theorem alike_bind_token {β : Type} {S : β → β → Prop} {r1 r2 : Result Token}
    {f g : Token → Result β}
    (h : Result.alike (fun a b : Token => a.key = b.key) r1 r2)
    (hf : ∀ a b : Token, a.Typ = b.Typ → a.Value = b.Value → Result.alike S (f a) (g b)) :
    Result.alike S (r1.bind f) (r2.bind g) :=
  Result.alike.bind_alike h fun a b hab => hf a b (key_eq hab).1 (key_eq hab).2

theorem parsePrimary_alike (expression : Parser → Res Expression)
    (hexpr : ∀ p q : Parser, p.alike q → Res.alike (expression p) (expression q))
    {p q : Parser} (h : p.alike q) :
    Res.alike (parsePrimary expression p) (parsePrimary expression q) := by
  rw [parsePrimary, parsePrimary]
  refine Res.alike.bind_pair (matchTypes_alike _ h) ?_
  intro m1 p1 q1 h1
  cases m1 with
  | true =>
    simp only [if_true]
    refine alike_bind_token (previous_alike h1) ?_
    intro a b _ hv
    exact ⟨by simp [hv], h1⟩
  | false =>
    simp only [Bool.false_eq_true, if_false]
    refine Res.alike.bind_pair (matchTypes_alike _ h1) ?_
    intro m2 p2 q2 h2
    cases m2 with
    | true =>
      simp only [if_true]
      refine alike_bind_token (previous_alike h2) ?_
      intro a b _ hv
      exact ⟨by simp [hv], h2⟩
    | false =>
      simp only [Bool.false_eq_true, if_false]
      refine Res.alike.bind_pair (matchTypes_alike _ h2) ?_
      intro m3 p3 q3 h3
      cases m3 with
      | true =>
        simp only [if_true]
        refine alike_bind_token (previous_alike h3) ?_
        intro a b _ hv
        rw [check_alike h3 LPAREN, hv]
        refine Result.alike.bind_same ?_
        intro c
        split
        · refine Result.alike.bind_alike (advance_alike h3) ?_
          intro x y hxy
          refine Res.alike.bind_pair (hexpr _ _ hxy.2) ?_
          intro e p4 q4 h4
          refine Result.alike.bind_alike (consume_alike h4 _ _) ?_
          intro x1 y1 hxy1
          exact ⟨rfl, hxy1⟩
        · exact ⟨rfl, h3⟩
      | false =>
        simp only [Bool.false_eq_true, if_false]
        refine Res.alike.bind_pair (matchTypes_alike _ h3) ?_
        intro m4 p4 q4 h4
        cases m4 with
        | true =>
          simp only [if_true]
          refine Res.alike.bind_pair (hexpr _ _ h4) ?_
          intro e p5 q5 h5
          refine Result.alike.bind_alike (consume_alike h5 _ _) ?_
          intro x1 y1 hxy1
          exact ⟨rfl, hxy1⟩
        | false =>
          simp only [Bool.false_eq_true, if_false]
          refine Result.alike.bind_alike (peek_alike h4) ?_
          intro a b _
          trivial

theorem binaryLoop_alike (types : List TokenType) (operand : Parser → Res Expression)
    (hop : ∀ p q : Parser, p.alike q → Res.alike (operand p) (operand q)) :
    ∀ (n : Nat) (expr : Expression) {p q : Parser}, p.alike q →
      Res.alike (binaryLoop types operand n expr p) (binaryLoop types operand n expr q) := by
  intro n
  induction n with
  | zero => intro expr p q _; trivial
  | succ n ih =>
    intro expr p q h
    rw [binaryLoop, binaryLoop]
    refine Res.alike.bind_pair (matchTypes_alike _ h) ?_
    intro m p1 q1 h1
    cases m with
    | true =>
      simp only [if_true]
      refine alike_bind_token (previous_alike h1) ?_
      intro a b _ hv
      refine Res.alike.bind_pair (hop _ _ h1) ?_
      intro right p2 q2 h2
      rw [hv]
      exact ih _ h2
    | false => exact ⟨rfl, h1⟩

theorem binaryLevel_alike (types : List TokenType) (operand : Parser → Res Expression)
    (hop : ∀ p q : Parser, p.alike q → Res.alike (operand p) (operand q))
    {p q : Parser} (h : p.alike q) :
    Res.alike (binaryLevel types operand p) (binaryLevel types operand q) := by
  rw [binaryLevel, binaryLevel]
  refine Res.alike.bind_pair (hop _ _ h) ?_
  intro first p1 q1 h1
  simp only
  rw [h1.length]
  exact binaryLoop_alike types operand hop _ _ h1

theorem parseExpressionDepth_alike :
    ∀ (depth : Nat) (p q : Parser), p.alike q →
      Res.alike (parseExpressionDepth depth p) (parseExpressionDepth depth q) := by
  intro depth
  induction depth with
  | zero => intro p q _; trivial
  | succ depth ih =>
    intro p q h
    rw [parseExpressionDepth, parseExpressionDepth]
    refine binaryLevel_alike _ _ ?_ h
    intro p1 q1 h1
    refine binaryLevel_alike _ _ ?_ h1
    intro p2 q2 h2
    refine binaryLevel_alike _ _ ?_ h2
    intro p3 q3 h3
    exact parsePrimary_alike _ ih h3

theorem parseExpression_alike {p q : Parser} (h : p.alike q) :
    Res.alike p.parseExpression q.parseExpression := by
  rw [parseExpression, parseExpression, h.length]
  exact parseExpressionDepth_alike _ p q h

theorem printArgsLoop_alike :
    ∀ (n : Nat) (args : List Expression) {p q : Parser}, p.alike q →
      Res.alike (printArgsLoop n args p) (printArgsLoop n args q) := by
  intro n
  induction n with
  | zero => intro args p q _; trivial
  | succ n ih =>
    intro args p q h
    rw [printArgsLoop, printArgsLoop]
    refine Res.alike.bind_pair (matchTypes_alike _ h) ?_
    intro m p1 q1 h1
    cases m with
    | true =>
      simp only [if_true]
      refine Res.alike.bind_pair (parseExpression_alike h1) ?_
      intro e p2 q2 h2
      exact ih _ h2
    | false => exact ⟨rfl, h1⟩

theorem parsePrintStatement_alike {p q : Parser} (h : p.alike q) :
    Res.alike p.parsePrintStatement q.parsePrintStatement := by
  rw [parsePrintStatement, parsePrintStatement]
  refine Result.alike.bind_alike (consume_alike h _ _) ?_
  intro c1 c2 hc
  simp only
  rw [check_alike hc NEWLINE, isAtEnd_alike hc]
  refine Result.alike.bind_same ?_
  intro isNewline
  refine Result.alike.bind_same ?_
  intro hasArgs
  cases hasArgs with
  | true =>
    simp only [if_true]
    refine Res.alike.bind_pair (parseExpression_alike hc) ?_
    intro e p2 q2 h2
    simp only
    rw [h2.length]
    refine Res.alike.bind_pair (printArgsLoop_alike _ _ h2) ?_
    intro r p3 q3 h3
    exact ⟨rfl, h3⟩
  | false => exact ⟨rfl, hc⟩

theorem parseAssignmentStatement_alike {p q : Parser} (h : p.alike q) :
    Res.alike p.parseAssignmentStatement q.parseAssignmentStatement := by
  rw [parseAssignmentStatement, parseAssignmentStatement, check_alike h IDENTIFIER]
  refine Result.alike.bind_same ?_
  intro c
  cases c with
  | false => trivial
  | true =>
    simp only [Bool.not_true, Bool.false_eq_true, if_false]
    refine alike_bind_token (peek_alike h) ?_
    intro a b _ hv
    refine Result.alike.bind_alike (advance_alike h) ?_
    intro x y hxy
    refine Result.alike.bind_alike (consume_alike hxy.2 _ _) ?_
    intro c1 c2 hc
    refine Res.alike.bind_pair (parseExpression_alike hc) ?_
    intro v p2 q2 h2
    exact ⟨by simp [hv], h2⟩

theorem indentedBlockLoop_alike (statement : Parser → Res Statement)
    (hst : ∀ p q : Parser, p.alike q → Res.alike (statement p) (statement q)) :
    ∀ (n : Nat) (statements : List Statement) {p q : Parser}, p.alike q →
      Res.alike (indentedBlockLoop statement n statements p)
        (indentedBlockLoop statement n statements q) := by
  intro n
  induction n with
  | zero => intro statements p q _; trivial
  | succ n ih =>
    intro statements p q h
    rw [indentedBlockLoop, indentedBlockLoop, isAtEnd_alike h, check_alike h NEWLINE,
      check_alike h IF, check_alike h FOR, check_alike h ELSE]
    refine Result.alike.bind_same ?_
    intro atEnd
    cases atEnd with
    | true => exact ⟨rfl, h⟩
    | false =>
      simp only [Bool.false_eq_true, if_false]
      refine Result.alike.bind_same ?_
      intro isNewline
      cases isNewline with
      | true =>
        simp only [if_true]
        refine Result.alike.bind_alike (advance_alike h) ?_
        intro x y hxy
        exact ih _ hxy.2
      | false =>
        simp only [Bool.false_eq_true, if_false]
        refine Result.alike.bind_same ?_
        intro isIf
        refine Result.alike.bind_same ?_
        intro stop
        cases stop with
        | true => exact ⟨rfl, h⟩
        | false =>
          simp only [Bool.false_eq_true, if_false]
          refine Res.alike.bind_pair (hst _ _ h) ?_
          intro stmt p1 q1 h1
          refine Result.alike.bind_alike (skipNewlines_alike h1) ?_
          intro p2 q2 h2
          exact ⟨rfl, h2⟩

theorem parseIndentedBlock_alike (statement : Parser → Res Statement)
    (hst : ∀ p q : Parser, p.alike q → Res.alike (statement p) (statement q))
    {p q : Parser} (h : p.alike q) :
    Res.alike (parseIndentedBlock statement p) (parseIndentedBlock statement q) := by
  rw [parseIndentedBlock, parseIndentedBlock]
  refine Result.alike.bind_alike (skipNewlines_alike h) ?_
  intro p1 q1 h1
  rw [h1.length]
  exact indentedBlockLoop_alike statement hst _ _ h1

/-- The optional line break after the colon of a header, then the block. -/
theorem blockAfterColon_alike (statement : Parser → Res Statement)
    (hst : ∀ p q : Parser, p.alike q → Res.alike (statement p) (statement q))
    {α : Type} (f : List Statement × Parser → Res α)
    (hf : ∀ (body : List Statement) (p q : Parser), p.alike q →
      Res.alike (f (body, p)) (f (body, q)))
    {p q : Parser} (h : p.alike q) :
    Res.alike
      ((p.check NEWLINE).bind fun isNewline =>
        (if isNewline then (p.advance).bind fun a => .ok a.2 else .ok p).bind fun p1 =>
          (parseIndentedBlock statement p1).bind f)
      ((q.check NEWLINE).bind fun isNewline =>
        (if isNewline then (q.advance).bind fun a => .ok a.2 else .ok q).bind fun p1 =>
          (parseIndentedBlock statement p1).bind f) := by
  rw [check_alike h NEWLINE]
  refine Result.alike.bind_same ?_
  intro isNewline
  have hopt : Result.alike Parser.alike
      (if isNewline = true then (p.advance).bind fun a => .ok a.2 else .ok p)
      (if isNewline = true then (q.advance).bind fun a => .ok a.2 else .ok q) := by
    cases isNewline with
    | true =>
      simp only [if_true]
      refine Result.alike.bind_alike (advance_alike h) ?_
      intro x y hxy
      exact hxy.2
    | false => exact h
  refine Result.alike.bind_alike hopt ?_
  intro p1 q1 h1
  refine Res.alike.bind_pair (parseIndentedBlock_alike statement hst h1) ?_
  intro body p2 q2 h2
  exact hf body p2 q2 h2

theorem parseIfStatement_alike (statement : Parser → Res Statement)
    (hst : ∀ p q : Parser, p.alike q → Res.alike (statement p) (statement q))
    {p q : Parser} (h : p.alike q) :
    Res.alike (parseIfStatement statement p) (parseIfStatement statement q) := by
  rw [parseIfStatement, parseIfStatement]
  refine Result.alike.bind_alike (consume_alike h _ _) ?_
  intro c1 c2 hc
  refine Res.alike.bind_pair (parseExpression_alike hc) ?_
  intro condition p2 q2 h2
  refine Result.alike.bind_alike (consume_alike h2 _ _) ?_
  intro c3 c4 hc3
  refine blockAfterColon_alike statement hst _ ?_ hc3
  intro body p4 q4 h4
  simp only
  rw [check_alike h4 ELSE]
  refine Result.alike.bind_same ?_
  intro isElse
  cases isElse with
  | false => exact ⟨rfl, h4⟩
  | true =>
    simp only [if_true]
    refine Result.alike.bind_alike (advance_alike h4) ?_
    intro x y hxy
    refine Result.alike.bind_alike (consume_alike hxy.2 _ _) ?_
    intro c5 c6 hc5
    refine blockAfterColon_alike statement hst _ ?_ hc5
    intro elseBody p7 q7 h7
    exact ⟨rfl, h7⟩

theorem parseForStatement_alike (statement : Parser → Res Statement)
    (hst : ∀ p q : Parser, p.alike q → Res.alike (statement p) (statement q))
    {p q : Parser} (h : p.alike q) :
    Res.alike (parseForStatement statement p) (parseForStatement statement q) := by
  rw [parseForStatement, parseForStatement]
  refine Result.alike.bind_alike (consume_alike h _ _) ?_
  intro c1 c2 hc
  simp only
  rw [check_alike hc IDENTIFIER]
  refine Result.alike.bind_same ?_
  intro isIdent
  cases isIdent with
  | false => trivial
  | true =>
    simp only [Bool.not_true, Bool.false_eq_true, if_false]
    refine alike_bind_token (peek_alike hc) ?_
    intro a b _ hv
    refine Result.alike.bind_alike (advance_alike hc) ?_
    intro x y hxy
    refine Result.alike.bind_alike (consume_alike hxy.2 _ _) ?_
    intro c3 c4 hc3
    refine Res.alike.bind_pair (parseExpression_alike hc3) ?_
    intro iterable p4 q4 h4
    refine Result.alike.bind_alike (consume_alike h4 _ _) ?_
    intro c5 c6 hc5
    rw [hv]
    refine blockAfterColon_alike statement hst _ ?_ hc5
    intro body p6 q6 h6
    exact ⟨rfl, h6⟩

theorem parseStatementDepth_alike :
    ∀ (depth : Nat) (p q : Parser), p.alike q →
      Res.alike (parseStatementDepth depth p) (parseStatementDepth depth q) := by
  intro depth
  induction depth with
  | zero => intro p q _; trivial
  | succ depth ih =>
    intro p q h
    rw [parseStatementDepth, parseStatementDepth, check_alike h PRINT, check_alike h IF,
      check_alike h FOR, check_alike h IDENTIFIER, checkNext_alike h ASSIGN]
    refine Result.alike.bind_same ?_
    intro isPrint
    cases isPrint with
    | true => exact parsePrintStatement_alike h
    | false =>
      simp only [Bool.false_eq_true, if_false]
      refine Result.alike.bind_same ?_
      intro isIf
      cases isIf with
      | true => exact parseIfStatement_alike _ ih h
      | false =>
        simp only [Bool.false_eq_true, if_false]
        refine Result.alike.bind_same ?_
        intro isFor
        cases isFor with
        | true => exact parseForStatement_alike _ ih h
        | false =>
          simp only [Bool.false_eq_true, if_false]
          refine Result.alike.bind_same ?_
          intro isIdent
          refine Result.alike.bind_same ?_
          intro isAssign
          cases isAssign with
          | true => exact parseAssignmentStatement_alike h
          | false =>
            simp only [Bool.false_eq_true, if_false]
            refine Res.alike.bind_pair (parseExpression_alike h) ?_
            intro e p1 q1 h1
            exact ⟨rfl, h1⟩

theorem parseStatement_alike {p q : Parser} (h : p.alike q) :
    Res.alike p.parseStatement q.parseStatement := by
  rw [parseStatement, parseStatement, h.length]
  exact parseStatementDepth_alike _ p q h

theorem parseProgramLoop_alike :
    ∀ (n : Nat) (statements : List Statement) {p q : Parser}, p.alike q →
      Result.alike (fun a b : Program => a = b) (parseProgramLoop n statements p)
        (parseProgramLoop n statements q) := by
  intro n
  induction n with
  | zero => intro statements p q _; trivial
  | succ n ih =>
    intro statements p q h
    rw [parseProgramLoop, parseProgramLoop, isAtEnd_alike h, check_alike h NEWLINE]
    refine Result.alike.bind_same ?_
    intro atEnd
    cases atEnd with
    | true => exact rfl
    | false =>
      simp only [Bool.false_eq_true, if_false]
      refine Result.alike.bind_same ?_
      intro isNewline
      cases isNewline with
      | true =>
        simp only [if_true]
        refine Result.alike.bind_alike (advance_alike h) ?_
        intro x y hxy
        exact ih _ hxy.2
      | false =>
        simp only [Bool.false_eq_true, if_false]
        refine Result.alike.bind_alike (parseStatement_alike h) ?_
        intro x y hxy
        refine Result.alike.bind_alike (skipNewlines_alike hxy.2) ?_
        intro p2 q2 h2
        rw [hxy.1]
        exact ih _ h2

theorem parseProgram_alike (tokens1 tokens2 : List Token)
    (h : tokens1.map Token.key = tokens2.map Token.key) :
    Result.alike (fun a b : Program => a = b)
      (parseProgram { tokens := tokens1, current := 0 })
      (parseProgram { tokens := tokens2, current := 0 }) := by
  have ha : Parser.alike { tokens := tokens1, current := 0 } { tokens := tokens2, current := 0 } :=
    ⟨rfl, h⟩
  rw [parseProgram, parseProgram, ha.length]
  exact parseProgramLoop_alike _ _ ha

theorem sameTree_of_alike (r1 r2 : Result Program)
    (h : Result.alike (fun a b : Program => a = b) r1 r2) (hr : r1.returned = true) :
    sameTreeOrBothFail r1 r2 := by
  cases r1 with
  | ok a =>
    cases r2 with
    | ok b =>
      have hab : a = b := h
      subst hab
      exact Or.inl ⟨a, rfl, rfl⟩
    | error e => exact h.elim
    | fault => exact h.elim
    | outOfFuel => exact h.elim
  | error e1 =>
    cases r2 with
    | ok b => exact h.elim
    | error e2 => exact Or.inr ⟨e1, e2, rfl, rfl⟩
    | fault => exact h.elim
    | outOfFuel => exact h.elim
  | fault => cases hr
  | outOfFuel => cases hr

theorem endsInEOF_of_keys (toks : List Token) (ks : List (TokenType × GoString))
    (h : toks.map Token.key = ks ++ [(EOF, [])]) : endsInEOF toks = true := by
  have hl : (toks.map Token.key).getLast? = some (EOF, []) := by
    rw [h]
    simp
  rw [List.getLast?_map] at hl
  cases ht : toks.getLast? with
  | none => rw [ht] at hl; cases hl
  | some t =>
    rw [ht] at hl
    simp only [Option.map_some', Option.some.injEq, Token.key, Prod.mk.injEq] at hl
    simp [endsInEOF, ht, hl.1]

theorem parseProgram_sameTree (tokens1 tokens2 : List Token)
    (hEOF : endsInEOF tokens1 = true)
    (h : tokens1.map Token.key = tokens2.map Token.key) :
    sameTreeOrBothFail (parseProgram { tokens := tokens1, current := 0 })
      (parseProgram { tokens := tokens2, current := 0 }) :=
  sameTree_of_alike _ _ (parseProgram_alike tokens1 tokens2 h)
    (parseProgram_returned tokens1 hEOF)

theorem segsKeys_dropBlankRuns (segs : List Seg) :
    segsKeys (dropBlankRuns segs) = segsKeys segs := by
  induction segs with
  | nil => rfl
  | cons s ss ih =>
    cases s <;> simp [dropBlankRuns, segsKeys, Seg.keys, ih]

theorem Parse_sameTree_of_segs (segs1 segs2 : List Seg)
    (h1 : segsWf segs1 = true) (h2 : segsWf segs2 = true)
    (h : segsKeys segs1 = segsKeys segs2) :
    sameTreeOrBothFail (Parse (segsText segs1)) (Parse (segsText segs2)) := by
  obtain ⟨toks1, hk1, hp1⟩ := Parse_segs segs1 h1
  obtain ⟨toks2, hk2, hp2⟩ := Parse_segs segs2 h2
  rw [hp1, hp2]
  exact parseProgram_sameTree toks1 toks2 (endsInEOF_of_keys toks1 _ hk1)
    (by rw [hk1, hk2, h])

/-- C23 (counterexample): the blank between the tokens `print` and `x` cannot
be removed without changing the tree: `print x` is a print statement with one
argument, `printx` is an expression statement of one identifier. -/
theorem C23_removed_blank_changes_tree :
    Parse (str "print x") = .ok ⟨[PrintStatement [Identifier (str "x")]]⟩
    ∧ Parse (str "printx") = .ok ⟨[ExpressionStatement (Identifier (str "printx"))]⟩
    ∧ Parse (str "print x") ≠ Parse (str "printx") := by
  have h1 : Parse (str "print x") = .ok ⟨[PrintStatement [Identifier (str "x")]]⟩ := rfl
  have h2 : Parse (str "printx") =
      .ok ⟨[ExpressionStatement (Identifier (str "printx"))]⟩ := rfl
  refine ⟨h1, h2, ?_⟩
  rw [h1, h2]
  intro h
  injection h with h
  injection h with h
  injection h with h
  cases h

/-- C23 (amended): the parser does not look at `Line` and `Column`. For two
token lists that agree, one by one, in kind and text, the first ending with
`EOF`, `parseProgram` returns the same tree on both or an error on both (the
messages may differ: they print the token with its position). Hence two sources
whose tokens agree in kind and text get the same tree from `Parse`, or both an
error; in particular two sequences of well-formed segments that differ only in
their runs of spaces and tabs, wherever these stand, the start of a line
included. -/
theorem C23_parser_ignores_positions (tokens1 tokens2 : List Token)
    (hEOF : endsInEOF tokens1 = true)
    (h : tokens1.map Token.key = tokens2.map Token.key) :
    sameTreeOrBothFail (parseProgram { tokens := tokens1, current := 0 })
      (parseProgram { tokens := tokens2, current := 0 })
    ∧ (∀ src1 src2 : GoString, (NewLexer src1).Tokenize = .ok tokens1 →
        (NewLexer src2).Tokenize = .ok tokens2 →
        sameTreeOrBothFail (Parse src1) (Parse src2))
    ∧ (∀ segs1 segs2 : List Seg, segsWf segs1 = true → segsWf segs2 = true →
        dropBlankRuns segs1 = dropBlankRuns segs2 →
        sameTreeOrBothFail (Parse (segsText segs1)) (Parse (segsText segs2))) := by
  refine ⟨parseProgram_sameTree tokens1 tokens2 hEOF h, ?_, ?_⟩
  · intro src1 src2 h1 h2
    rw [Parse, Parse, h1, h2]
    exact parseProgram_sameTree tokens1 tokens2 hEOF h
  · intro segs1 segs2 h1 h2 hf
    refine Parse_sameTree_of_segs segs1 segs2 h1 h2 ?_
    rw [← segsKeys_dropBlankRuns segs1, ← segsKeys_dropBlankRuns segs2, hf]

theorem C23_parser_ignores_positions_witness :
    endsInEOF
      [⟨IF, str "if", 1, 3⟩, ⟨IDENTIFIER, str "x", 1, 5⟩, ⟨COLON, str ":", 1, 5⟩,
        ⟨NEWLINE, str "\n", 1, 7⟩, ⟨PRINT, str "print", 2, 10⟩,
        ⟨IDENTIFIER, str "x", 2, 12⟩, ⟨EOF, str "", 2, 12⟩] = true
    ∧ sameTreeOrBothFail
        (parseProgram ⟨
      [⟨IF, str "if", 1, 3⟩, ⟨IDENTIFIER, str "x", 1, 5⟩, ⟨COLON, str ":", 1, 5⟩,
        ⟨NEWLINE, str "\n", 1, 7⟩, ⟨PRINT, str "print", 2, 10⟩,
        ⟨IDENTIFIER, str "x", 2, 12⟩, ⟨EOF, str "", 2, 12⟩], 0⟩)
        (parseProgram ⟨
      [⟨IF, str "if", 1, 5⟩, ⟨IDENTIFIER, str "x", 1, 8⟩, ⟨COLON, str ":", 1, 9⟩,
        ⟨NEWLINE, str "\n", 1, 11⟩, ⟨PRINT, str "print", 2, 6⟩,
        ⟨IDENTIFIER, str "x", 2, 8⟩, ⟨EOF, str "", 2, 8⟩], 0⟩)
    ∧ sameTreeOrBothFail (Parse (str "if x:\n    print x"))
        (Parse (str "  if  x :\nprint\tx")) :=
  ⟨rfl,
    (C23_parser_ignores_positions
      [⟨IF, str "if", 1, 3⟩, ⟨IDENTIFIER, str "x", 1, 5⟩, ⟨COLON, str ":", 1, 5⟩,
        ⟨NEWLINE, str "\n", 1, 7⟩, ⟨PRINT, str "print", 2, 10⟩,
        ⟨IDENTIFIER, str "x", 2, 12⟩, ⟨EOF, str "", 2, 12⟩]
      [⟨IF, str "if", 1, 5⟩, ⟨IDENTIFIER, str "x", 1, 8⟩, ⟨COLON, str ":", 1, 9⟩,
        ⟨NEWLINE, str "\n", 1, 11⟩, ⟨PRINT, str "print", 2, 6⟩,
        ⟨IDENTIFIER, str "x", 2, 8⟩, ⟨EOF, str "", 2, 8⟩] rfl rfl).1,
    (C23_parser_ignores_positions
      [⟨IF, str "if", 1, 3⟩, ⟨IDENTIFIER, str "x", 1, 5⟩, ⟨COLON, str ":", 1, 5⟩,
        ⟨NEWLINE, str "\n", 1, 7⟩, ⟨PRINT, str "print", 2, 10⟩,
        ⟨IDENTIFIER, str "x", 2, 12⟩, ⟨EOF, str "", 2, 12⟩]
      [⟨IF, str "if", 1, 5⟩, ⟨IDENTIFIER, str "x", 1, 8⟩, ⟨COLON, str ":", 1, 9⟩,
        ⟨NEWLINE, str "\n", 1, 11⟩, ⟨PRINT, str "print", 2, 6⟩,
        ⟨IDENTIFIER, str "x", 2, 8⟩, ⟨EOF, str "", 2, 8⟩] rfl rfl).2.1
      (str "if x:\n    print x") (str "  if  x :\nprint\tx") rfl rfl⟩

/-! ## Generate, then parse: the round trip on expressions (C22) -/

theorem operatorKind_spec (op : GoString) (h : op ∈ operatorTexts) :
    symbolText (operatorKind op) = op ∧ operatorKind op ∈ operatorKinds := by
  simp only [operatorTexts, List.mem_cons, List.mem_singleton, List.not_mem_nil, or_false] at h
  rcases h with rfl | rfl | rfl | rfl | rfl | rfl | rfl | rfl | rfl | rfl | rfl <;> decide

theorem operatorKind_head (op : GoString) (h : op ∈ operatorTexts) :
    ∃ c t, op = c :: t ∧ isBlankChar c = false := by
  simp only [operatorTexts, List.mem_cons, List.mem_singleton, List.not_mem_nil, or_false] at h
  rcases h with rfl | rfl | rfl | rfl | rfl | rfl | rfl | rfl | rfl | rfl | rfl <;>
    exact ⟨_, _, rfl, by decide⟩

theorem isArithmetic_binary {l r : Expression} {op : GoString}
    (h : (BinaryExpression l op r).isArithmetic = true) :
    l.isArithmetic = true ∧ op ∈ operatorTexts ∧ r.isArithmetic = true := by
  simpa [Expression.isArithmetic, and_assoc] using h

theorem isArithmetic_not_string (e : Expression) (h : e.isArithmetic = true) :
    isStringExpression e = false := by
  cases e <;> simp [Expression.isArithmetic] at h <;> rfl

theorem exprSegs_text (e : Expression) (h : e.isArithmetic = true) :
    segsText (exprSegs e) = generateExpression e := by
  induction e with
  | Identifier v => simp [exprSegs, segsText, Seg.text, generateExpression]
  | StringLiteral v => simp [Expression.isArithmetic] at h
  | NumberLiteral v => simp [exprSegs, segsText, Seg.text, generateExpression]
  | RangeExpression e _ => simp [Expression.isArithmetic] at h
  | BinaryExpression l op r ihl ihr =>
    obtain ⟨hl, hop, hr⟩ := isArithmetic_binary h
    have hk := (operatorKind_spec op hop).1
    simp only [exprSegs, segsText, segsText_append, Seg.text, hk, ihl hl, ihr hr,
      generateExpression, generateBinaryExpression, isArithmetic_not_string l hl,
      isArithmetic_not_string r hr, Bool.or_false, Bool.and_false, Bool.false_eq_true,
      if_false, List.append_assoc, List.append_nil]
    simp [str, symbolText]

theorem exprSegs_head (e : Expression) (h : e.isArithmetic = true) :
    ∃ c t, segsText (exprSegs e) = c :: t ∧ isBlankChar c = false := by
  cases e with
  | Identifier v =>
    simp only [Expression.isArithmetic, isIdentifierText, Bool.and_eq_true] at h
    cases v with
    | nil => simp [isWord] at h
    | cons c t =>
      refine ⟨c, t, by simp [exprSegs, segsText, Seg.text], ?_⟩
      have hc : isAlpha c = true := by
        have := h.1
        simp only [isWord, Bool.and_eq_true] at this
        exact this.1
      simp only [isAlpha, Bool.or_eq_true, Bool.and_eq_true, decide_eq_true_eq,
        beq_iff_eq] at hc
      simp only [isBlankChar, Bool.or_eq_false_iff, beq_eq_false_iff_ne, ne_eq]
      omega
  | StringLiteral v => simp [Expression.isArithmetic] at h
  | NumberLiteral v =>
    simp only [Expression.isArithmetic] at h
    cases v with
    | nil => simp [isNumberText] at h
    | cons c t =>
      refine ⟨c, t, by simp [exprSegs, segsText, Seg.text], ?_⟩
      have hc : isDigit c = true := by
        simp only [isNumberText, Bool.and_eq_true] at h
        exact h.1
      simp only [isDigit, Bool.and_eq_true, decide_eq_true_eq] at hc
      simp only [isBlankChar, Bool.or_eq_false_iff, beq_eq_false_iff_ne, ne_eq]
      omega
  | RangeExpression e => simp [Expression.isArithmetic] at h
  | BinaryExpression l op r =>
    exact ⟨40, _, by simp [exprSegs, segsText, Seg.text, str]; rfl, by decide⟩

/-- The segments of a generated expression are well formed before the end of
the text, a space or a closing parenthesis. -/
theorem exprSegs_wfIn (e : Expression) (h : e.isArithmetic = true) :
    ∀ rest : GoString, (rest.head? = none ∨ rest.head? = some 32 ∨ rest.head? = some 41) →
      segsWfIn (exprSegs e) rest = true := by
  induction e with
  | Identifier v =>
    intro rest hrest
    simp only [Expression.isArithmetic, isIdentifierText, Bool.and_eq_true] at h
    rcases hrest with hr | hr | hr <;>
      simp [exprSegs, segsWfIn, segsText, Seg.wf, Seg.endsBefore, h.1, hr] <;> decide
  | StringLiteral v => simp [Expression.isArithmetic] at h
  | NumberLiteral v =>
    intro rest hrest
    simp only [Expression.isArithmetic] at h
    rcases hrest with hr | hr | hr <;>
      simp [exprSegs, segsWfIn, segsText, Seg.wf, Seg.endsBefore, h, hr] <;> decide
  | RangeExpression e _ => simp [Expression.isArithmetic] at h
  | BinaryExpression l op r ihl ihr =>
    intro rest _
    obtain ⟨hl, hop, hr⟩ := isArithmetic_binary h
    obtain ⟨hk, hkind⟩ := operatorKind_spec op hop
    obtain ⟨c, t, hc, hcb⟩ := operatorKind_head op hop
    obtain ⟨cr, tr, hcr, hcrb⟩ := exprSegs_head r hr
    have hne : symbolText (operatorKind op) ≠ [] := by
      rw [hk, hc]
      simp
    have hpwf : ∀ ty : TokenType, ty = LPAREN ∨ ty = RPAREN → (Seg.symbol ty).wf = true := by
      intro ty hty
      rcases hty with rfl | rfl <;> simp [Seg.wf, symbolText, str]
    have hpend : ∀ (ty : TokenType) (o : Option Nat), ty = LPAREN ∨ ty = RPAREN →
        (Seg.symbol ty).endsBefore o = true := by
      intro ty o hty
      rcases hty with rfl | rfl <;> cases o <;> simp [Seg.endsBefore]
    have hbwf : (Seg.blank (str " ")).wf = true := rfl
    have hbend : ∀ (x : Nat) (tl : GoString), isBlankChar x = false →
        (Seg.blank (str " ")).endsBefore (x :: tl).head? = true := by
      intro x tl hx
      simp [Seg.endsBefore, hx]
    have h1 := ihl hl (segsText (Seg.blank (str " ") :: Seg.symbol (operatorKind op)
      :: Seg.blank (str " ") :: (exprSegs r ++ [Seg.symbol RPAREN])) ++ rest)
      (Or.inr (Or.inl (by simp [segsText, Seg.text, str])))
    have h2 := ihr hr (segsText [Seg.symbol RPAREN] ++ rest)
      (Or.inr (Or.inr (by simp [segsText, Seg.text, str, symbolText])))
    have e1 : segsText (Seg.symbol (operatorKind op) :: Seg.blank (str " ")
        :: (exprSegs r ++ [Seg.symbol RPAREN])) ++ rest =
        c :: (t ++ segsText (Seg.blank (str " ") :: (exprSegs r ++ [Seg.symbol RPAREN]))
          ++ rest) := by
      rw [segsText]
      simp only [Seg.text, hk]
      rw [hc]
      simp
    have e2 : segsText (Seg.blank (str " ") :: (exprSegs r ++ [Seg.symbol RPAREN])) ++ rest =
        32 :: (segsText (exprSegs r ++ [Seg.symbol RPAREN]) ++ rest) := by
      simp [segsText, Seg.text, str]
    have e3 : segsText (exprSegs r ++ [Seg.symbol RPAREN]) ++ rest =
        cr :: (tr ++ segsText [Seg.symbol RPAREN] ++ rest) := by
      simp [segsText_append, hcr]
    rw [exprSegs, segsWfIn, hpwf LPAREN (Or.inl rfl), hpend LPAREN _ (Or.inl rfl),
      segsWfIn_append, h1, segsWfIn, e1, hbwf, hbend c _ hcb, segsWfIn, e2,
      segsWfIn, e3, hbwf, hbend cr _ hcrb, segsWfIn_append, h2, segsWfIn,
      hpwf RPAREN (Or.inr rfl), hpend RPAREN _ (Or.inr rfl), segsWfIn]
    simp [Seg.wf, hne, Seg.endsBefore]

theorem parsePrimary_parenthesized (expression : Parser → Res Expression) (toks : List Token)
    (tree : Expression) (tl tp : Token)
    (h : ParsesAs expression (fun ty => ty == RPAREN) toks tree)
    (hl : tl.Typ = LPAREN) (hp : tp.Typ = RPAREN) :
    ParsesAs (parsePrimary expression) (fun _ => true) (tl :: toks ++ [tp]) tree := by
  intro pre u rest _
  have hexpr := h (pre ++ [tl]) tp (u :: rest) (by simp [hp])
  have hcons := consume_parserAt (pre ++ [tl] ++ toks) (u :: rest) tp RPAREN
    (str "Expected ')' after expression")
  rw [if_pos ⟨by rw [hp]; decide, hp⟩] at hcons
  simp only [parsePrimary, matchTypes_parserAt, List.cons_append, List.append_assoc,
    List.nil_append, hl]
  simp only [List.append_assoc, List.cons_append, List.nil_append] at hexpr hcons
  simp [matchTypes_parserAt, hl, hexpr, hcons]

theorem parseExpressionDepth_succ_parsesAs (depth : Nat) (stop : TokenType → Bool)
    (toks : List Token) (tree : Expression)
    (h : ParsesAs (parseComparison (parseExpressionDepth depth)) stop toks tree) :
    ParsesAs (parseExpressionDepth (depth + 1)) stop toks tree := by
  intro pre u rest hu
  rw [parseExpressionDepth]
  exact h pre u rest hu

/-- Two operands and an operator between them, read by `parseComparison`. -/
theorem binary_parsesAs (expression : Parser → Res Expression) (ltoks rtoks : List Token)
    (l r : Expression) (top : Token) (hop : top.Typ ∈ operatorKinds)
    (hl : ParsesAs (parsePrimary expression) stopPrimary ltoks l)
    (hr : ParsesAs (parsePrimary expression) stopPrimary rtoks r) :
    ParsesAs (parseComparison expression) stopComparison (ltoks ++ top :: rtoks)
      (BinaryExpression l top.Value r) := by
  have hm : top.Typ ∈ [DIVIDE, MULTIPLY, MODULO] ∨ top.Typ ∈ [MINUS, PLUS]
      ∨ top.Typ ∈ [GREATER, GREATER_EQ, LESS, LESS_EQ, EQUAL, NOT_EQUAL] := by
    simp only [operatorKinds, List.mem_cons, List.mem_singleton, List.not_mem_nil,
      or_false] at hop ⊢
    tauto
  have hshape : ltoks ++ top :: rtoks = ltoks ++ chainTokens [(top, rtoks, r)] := by
    simp [chainTokens]
  have htree : BinaryExpression l top.Value r = chainTree l [(top, rtoks, r)] := rfl
  rw [hshape, htree]
  rcases hm with hm | hm | hm
  · refine parseComparison_lift _ _ _ (parseAddition_lift _ _ _ ?_)
    exact parseMultiplication_chain expression ltoks l _ hl (fun x hx => by
      rw [List.mem_singleton] at hx
      subst hx
      exact ⟨hm, hr⟩)
  · refine parseComparison_lift _ _ _ ?_
    exact parseAddition_chain expression ltoks l _ (parseMultiplication_lift _ _ _ hl)
      (fun x hx => by
        rw [List.mem_singleton] at hx
        subst hx
        exact ⟨hm, parseMultiplication_lift _ _ _ hr⟩)
  · exact parseComparison_chain expression ltoks l _
      (parseAddition_lift _ _ _ (parseMultiplication_lift _ _ _ hl))
      (fun x hx => by
        rw [List.mem_singleton] at hx
        subst hx
        exact ⟨hm, parseAddition_lift _ _ _ (parseMultiplication_lift _ _ _ hr)⟩)

theorem stopComparison_RPAREN (ty : TokenType) (h : (ty == RPAREN) = true) :
    stopComparison ty = true := by
  have : ty = RPAREN := by simpa using h
  subst this
  decide

/-- The tokens of the segments of a tree of the round trip: `parsePrimary`
reads them back into the tree, at every recursion depth that is at least the
nesting of the tree. -/
theorem tokens_of_exprSegs (e : Expression) (h : e.isArithmetic = true) :
    ∀ (toks : List Token) (ks : List (TokenType × GoString)),
      toks.map Token.key = segsKeys (exprSegs e) ++ ks →
      ∃ (t0 : Token) (etoks ts : List Token),
        toks = t0 :: etoks ++ ts ∧ ts.map Token.key = ks
        ∧ (t0.Typ = NUMBER ∨ t0.Typ = LPAREN ∨ (t0.Typ = IDENTIFIER ∧ etoks = []))
        ∧ e.nesting ≤ etoks.length
        ∧ ∀ depth, e.nesting ≤ depth →
            ParsesAs (parsePrimary (parseExpressionDepth depth)) stopPrimary (t0 :: etoks) e := by
  induction e with
  | Identifier v =>
    intro toks ks hk
    simp only [Expression.isArithmetic, isIdentifierText, Bool.and_eq_true,
      decide_eq_true_eq] at h
    simp only [exprSegs, segsKeys, Seg.keys, h.2, List.append_nil, List.singleton_append] at hk
    obtain ⟨t0, ts, rfl, h0, hts⟩ := map_key_cons hk
    obtain ⟨hty, hv⟩ := key_typ h0
    refine ⟨t0, [], ts, rfl, hts, Or.inr (Or.inr ⟨hty, rfl⟩), Nat.zero_le _, ?_⟩
    intro depth _
    have hp := parsePrimary_token (parseExpressionDepth depth) t0 (by simp [Token.isPrimary, hty])
    have hleaf : t0.leaf = Identifier v := by simp [Token.leaf, hty, hv]
    rw [hleaf] at hp
    exact hp
  | StringLiteral v => simp [Expression.isArithmetic] at h
  | NumberLiteral v =>
    intro toks ks hk
    simp only [exprSegs, segsKeys, Seg.keys, List.append_nil, List.singleton_append] at hk
    obtain ⟨t0, ts, rfl, h0, hts⟩ := map_key_cons hk
    obtain ⟨hty, hv⟩ := key_typ h0
    refine ⟨t0, [], ts, rfl, hts, Or.inl hty, Nat.zero_le _, ?_⟩
    intro depth _
    have hp := parsePrimary_token (parseExpressionDepth depth) t0 (by simp [Token.isPrimary, hty])
    have hleaf : t0.leaf = NumberLiteral v := by simp [Token.leaf, hty, hv]
    rw [hleaf] at hp
    exact hp
  | RangeExpression e _ => simp [Expression.isArithmetic] at h
  | BinaryExpression l op r ihl ihr =>
    intro toks ks hk
    obtain ⟨hl, hop, hr⟩ := isArithmetic_binary h
    obtain ⟨hsym, hkind⟩ := operatorKind_spec op hop
    simp only [exprSegs, segsKeys, segsKeys_append, Seg.keys, List.append_nil,
      List.singleton_append, List.nil_append, List.cons_append, List.append_assoc] at hk
    obtain ⟨tl, ts0, rfl, htl, hk⟩ := map_key_cons hk
    obtain ⟨l0, ltoks, ts1, rfl, hk, -, hln, hlp⟩ := ihl hl ts0 _ hk
    obtain ⟨top, ts2, rfl, htop, hk⟩ := map_key_cons hk
    obtain ⟨r0, rtoks, ts3, rfl, hk, -, hrn, hrp⟩ := ihr hr ts2 _ hk
    obtain ⟨tp, ts, rfl, htp, hk⟩ := map_key_cons hk
    obtain ⟨htlty, -⟩ := key_typ htl
    obtain ⟨htopty, htopv⟩ := key_typ htop
    obtain ⟨htpty, -⟩ := key_typ htp
    refine ⟨tl, (l0 :: ltoks) ++ top :: (r0 :: rtoks) ++ [tp], ts, by simp, hk,
      Or.inr (Or.inl htlty), ?_, ?_⟩
    · simp only [Expression.nesting, List.length_append, List.length_cons, List.length_nil]
      omega
    · intro depth hd
      simp only [Expression.nesting] at hd
      obtain ⟨d, rfl⟩ : ∃ d, depth = d + 1 := ⟨depth - 1, by omega⟩
      have hbin := binary_parsesAs (parseExpressionDepth d) (l0 :: ltoks) (r0 :: rtoks) l r top
        (by rw [htopty]; exact hkind) (hlp d (by omega)) (hrp d (by omega))
      rw [htopv, hsym] at hbin
      have hinner := parseExpressionDepth_succ_parsesAs d _ _ _
        (ParsesAs.mono hbin stopComparison_RPAREN)
      exact ParsesAs.mono (parsePrimary_parenthesized _ _ _ tl tp hinner htlty htpty)
        (fun _ _ => rfl)

theorem parseExpression_parsesAs_nesting (stop : TokenType → Bool) (toks : List Token)
    (tree : Expression)
    (h : ∀ depth, toks.length ≤ depth + 1 →
      ParsesAs (parseComparison (parseExpressionDepth depth)) stop toks tree) :
    ParsesAs parseExpression stop toks tree := by
  intro pre u rest hu
  rw [parseExpression, parseExpressionDepth]
  refine h _ ?_ pre u rest hu
  simp [parserAt]
  omega

/-- C22: for every expression tree built from number literals (a digit followed
by digits and dots), identifiers (a word that is no keyword) and binary nodes
with one of the operators `+ - * / % == != < <= > >=`, parsing the text that
`generateExpression` emits for the tree succeeds and returns the program of one
expression statement holding that same tree. -/
theorem C22_generate_parse_round_trip (e : Expression) (h : e.isArithmetic = true) :
    Parse (generateExpression e) = .ok ⟨[ExpressionStatement e]⟩ := by
  have hwf : segsWf (exprSegs e) = true := by
    rw [← segsWfIn_nil]
    exact exprSegs_wfIn e h [] (Or.inl rfl)
  obtain ⟨toks, hkeys, hparse⟩ := Parse_segs _ hwf
  obtain ⟨t0, etoks, ts, rfl, hts, h0, hn, hp⟩ := tokens_of_exprSegs e h toks [(EOF, [])] hkeys
  obtain ⟨eof, ts1, rfl, heof, hnil⟩ := map_key_cons hts
  have hts1 : ts1 = [] := by simpa using hnil
  subst hts1
  have heofty := (key_typ heof).1
  rw [← exprSegs_text e h, hparse]
  have hexpr : ParsesAs parseExpression stopComparison (t0 :: etoks) e := by
    refine parseExpression_parsesAs_nesting _ _ _ ?_
    intro depth hd
    simp only [List.length_cons] at hd
    exact parseComparison_lift _ _ _ (parseAddition_lift _ _ _
      (parseMultiplication_lift _ _ _ (hp depth (by omega))))
  have h0not : t0.Typ ∉ [EOF, NEWLINE, PRINT, IF, FOR] := by
    rcases h0 with h0 | h0 | ⟨h0, -⟩ <;> rw [h0] <;> decide
  cases etoks with
  | nil =>
    refine parseProgram_expression stopComparison [t0] [] t0 eof eof e rfl hexpr rfl heofty
      h0not ?_
    rintro ⟨-, h1⟩
    rw [heofty] at h1
    cases h1
  | cons t1 rest =>
    refine parseProgram_expression stopComparison (t0 :: t1 :: rest) (rest ++ [eof]) t0 t1 eof e
      rfl hexpr rfl heofty h0not ?_
    rintro ⟨h1, -⟩
    rcases h0 with h0 | h0 | ⟨-, h0⟩
    · rw [h0] at h1
      cases h1
    · rw [h0] at h1
      cases h1
    · cases h0

theorem C22_generate_parse_round_trip_witness :
    (BinaryExpression
        (BinaryExpression (Identifier (str "a")) (str "+") (NumberLiteral (str "1")))
        (str "*")
        (BinaryExpression (Identifier (str "range")) (str "<=")
          (NumberLiteral (str "2.5")))).isArithmetic = true
    ∧ generateExpression (BinaryExpression
        (BinaryExpression (Identifier (str "a")) (str "+") (NumberLiteral (str "1")))
        (str "*")
        (BinaryExpression (Identifier (str "range")) (str "<=")
          (NumberLiteral (str "2.5")))) = str "((a + 1) * (range <= 2.5))"
    ∧ Parse (generateExpression (BinaryExpression
        (BinaryExpression (Identifier (str "a")) (str "+") (NumberLiteral (str "1")))
        (str "*")
        (BinaryExpression (Identifier (str "range")) (str "<=")
          (NumberLiteral (str "2.5"))))) =
      .ok ⟨[ExpressionStatement (BinaryExpression
        (BinaryExpression (Identifier (str "a")) (str "+") (NumberLiteral (str "1")))
        (str "*")
        (BinaryExpression (Identifier (str "range")) (str "<=")
          (NumberLiteral (str "2.5"))))]⟩ :=
  ⟨rfl, rfl, C22_generate_parse_round_trip _ rfl⟩

/-! ## C14: the iterable of a for statement -/

/-- C14 (counterexample): `for i in x: print i` is accepted, and the iterable of
its for statement is the identifier `x`, not a range expression; the generator
then writes its placeholder for a loop it cannot translate. -/
theorem C14_non_range_iterable_accepted :
    Parse (str "for i in x: print i")
      = .ok ⟨[ForStatement (str "i") (Identifier (str "x"))
          [PrintStatement [Identifier (str "i")]]]⟩
    ∧ (generateStatement { indent := 1 } (ForStatement (str "i") (Identifier (str "x"))
          [PrintStatement [Identifier (str "i")]])).1
      = str "// TODO: Implement iteration over *parser.Identifier\n" := by
  exact ⟨rfl, rfl⟩

/-- The statement `parseForStatement` returns holds the text of the variable
token and the very tree `parseExpression` returned. -/
theorem parseForStatement_iterable (statement : Parser → Res Statement)
    (p p1 : Parser) (stmt : Statement) (h : parseForStatement statement p = .ok (stmt, p1)) :
    ∃ (c : Option GoString × Parser) (t : Token) (a : Token × Parser)
      (c1 : Option GoString × Parser) (p2 : Parser) (iterable : Expression)
      (body : List Statement),
      p.consume FOR (str "Expected 'for'") = .ok c
      ∧ c.2.check IDENTIFIER = .ok true ∧ c.2.peek = .ok t
      ∧ c.2.advance = .ok a
      ∧ a.2.consume IN (str "Expected 'in' after for variable") = .ok c1
      ∧ c1.2.parseExpression = .ok (iterable, p2)
      ∧ stmt = ForStatement t.Value iterable body := by
  simp only [parseForStatement, Result.bind_eq_ok] at h
  obtain ⟨c, hc, isIdent, hid, h⟩ := h
  cases isIdent with
  | false => simp at h
  | true =>
    simp only [Bool.not_true, Bool.false_eq_true, if_false, Result.bind_eq_ok] at h
    obtain ⟨t, ht, a, ha, c1, hc1, iterable, hiter, c2, -, isNewline, -, p3, -, body, -, h⟩ := h
    simp only [Result.ok.injEq, Prod.mk.injEq] at h
    exact ⟨c, t, a, c1, iterable.2, iterable.1, body.1, hc, hid, ht, ha, hc1, hiter, h.1.symm⟩

theorem parseIfStatement_not_for (statement : Parser → Res Statement)
    (p p1 : Parser) (var : GoString) (iterable : Expression) (body : List Statement) :
    parseIfStatement statement p ≠ .ok (ForStatement var iterable body, p1) := by
  intro h
  simp only [parseIfStatement, Result.bind_eq_ok] at h
  obtain ⟨c, -, cond, -, c1, -, isNewline, -, q1, -, b, -, isElse, -, h⟩ := h
  cases isElse with
  | true =>
    simp only [if_true, Result.bind_eq_ok] at h
    obtain ⟨a, -, c2, -, isNewline2, -, q2, -, els, -, h⟩ := h
    simp only [Result.ok.injEq, Prod.mk.injEq] at h
    cases h.1
  | false =>
    simp only [Bool.false_eq_true, if_false, Result.ok.injEq, Prod.mk.injEq] at h
    cases h.1

/-- A for statement comes out of `parseStatement` only through
`parseForStatement`, called where `check(FOR)` holds. -/
theorem parseStatementDepth_forHeadAt (depth : Nat) (p p1 : Parser) (var : GoString)
    (iterable : Expression) (body : List Statement)
    (h : parseStatementDepth depth p = .ok (ForStatement var iterable body, p1)) :
    forHeadAt p var iterable := by
  cases depth with
  | zero => cases h
  | succ d =>
    simp only [parseStatementDepth, Result.bind_eq_ok] at h
    obtain ⟨isPrint, -, h⟩ := h
    cases isPrint with
    | true =>
      have := parsePrintStatement_isSimple p _ p1 (by simpa using h)
      cases this
    | false =>
      simp only [Bool.false_eq_true, if_false, Result.bind_eq_ok] at h
      obtain ⟨isIf, -, h⟩ := h
      cases isIf with
      | true => exact absurd (by simpa using h) (parseIfStatement_not_for _ p p1 var iterable body)
      | false =>
        simp only [Bool.false_eq_true, if_false, Result.bind_eq_ok] at h
        obtain ⟨isFor, hfor, h⟩ := h
        cases isFor with
        | true =>
          obtain ⟨c, t, a, c1, p2, it, b, hc, hid, ht, ha, hc1, hiter, hs⟩ :=
            parseForStatement_iterable _ p p1 _ (by simpa using h)
          injection hs with hv hi hb
          subst hi
          exact ⟨c, t, a, c1, p2, hfor, hc, hid, ht, hv, ha, hc1, hiter⟩
        | false =>
          simp only [Bool.false_eq_true, if_false, Result.bind_eq_ok] at h
          obtain ⟨isIdent, -, isAssign, -, h⟩ := h
          cases isAssign with
          | true =>
            have := parseAssignmentStatement_isSimple p _ p1 (by simpa using h)
            cases this
          | false =>
            simp only [Bool.false_eq_true, if_false, Result.bind_eq_ok, Result.ok.injEq,
              Prod.mk.injEq] at h
            obtain ⟨e, -, h, -⟩ := h
            cases h

theorem parseProgramLoop_forHeadAt (tokens : List Token) :
    ∀ (n : Nat) (acc : List Statement) (p : Parser) (prog : Program),
      p.tokens = tokens → p.inRange = true →
      (∀ var iterable body, ForStatement var iterable body ∈ acc →
        ∃ cur, forHeadAt { tokens := tokens, current := cur } var iterable) →
      parseProgramLoop n acc p = .ok prog →
      ∀ var iterable body, ForStatement var iterable body ∈ prog.Statements →
        ∃ cur, forHeadAt { tokens := tokens, current := cur } var iterable := by
  intro n
  induction n with
  | zero => intro acc p prog _ _ _ h; cases h
  | succ n ih =>
    intro acc p prog hp hin hacc h
    simp only [parseProgramLoop, Result.bind_eq_ok] at h
    obtain ⟨atEnd, -, h⟩ := h
    cases atEnd with
    | true =>
      simp only [if_true, Result.ok.injEq] at h
      rw [← h]
      exact hacc
    | false =>
      simp only [Bool.false_eq_true, if_false, Result.bind_eq_ok] at h
      obtain ⟨isNewline, hnl, h⟩ := h
      cases isNewline with
      | true =>
        simp only [if_true, Result.bind_eq_ok] at h
        obtain ⟨a, ha, h⟩ := h
        obtain ⟨t, ha1, hin1, -, -⟩ := advance_inRange p NEWLINE hin hnl
        rw [ha1] at ha
        injection ha with ha
        subst ha
        exact ih acc { p with current := p.current + 1 } prog hp hin1 hacc h
      | false =>
        simp only [Bool.false_eq_true, if_false, Result.bind_eq_ok] at h
        obtain ⟨stmt, hstmt, q, hq, h⟩ := h
        obtain ⟨stmt, p1⟩ := stmt
        obtain ⟨h1, h2, -⟩ := Runs.of_eq (parseStatement_runs p hin) hstmt
        obtain ⟨q1, hq1, g1, g2, -⟩ := skipNewlines_runs p1 h2
        simp only at hq
        rw [hq1] at hq
        injection hq with hq
        subst hq
        refine ih (acc ++ [stmt]) q1 prog (by rw [g1, h1, hp]) g2 ?_ h
        intro var iterable body hmem
        rcases List.mem_append.1 hmem with hmem | hmem
        · exact hacc var iterable body hmem
        · rw [List.mem_singleton] at hmem
          subst hmem
          refine ⟨p.current, ?_⟩
          have := parseStatementDepth_forHeadAt _ p p1 var iterable body hstmt
          cases p
          simp only at hp
          subst hp
          exact this

/-- C14 (amended): in the tree of every source that `Parse` accepts, the
top-level statements are the only for statements (the statements inside a
`Body` or `Else` are print, assignment or expression statements), and the
iterable of each is the very tree that `parseExpression` returned on the tokens
of the source at the place where `parseForStatement` calls it: at a cursor
where `check(FOR)` holds, after `consume(FOR)`, `advance` over the variable
token (whose text is the variable of the statement) and `consume(IN)`. The
iterable has whatever shape that expression has. -/
theorem C14_for_iterable_is_parsed_expression (src : GoString) (prog : Program)
    (h : Parse src = .ok prog) :
    (∀ s ∈ prog.Statements, s.flat = true)
    ∧ ∀ (var : GoString) (iterable : Expression) (body : List Statement),
        ForStatement var iterable body ∈ prog.Statements →
        ∃ (tokens : List Token) (cur : Nat) (c : Option GoString × Parser) (t : Token)
          (a : Token × Parser) (c1 : Option GoString × Parser) (p2 : Parser),
          (NewLexer src).Tokenize = .ok tokens
          ∧ Parser.check { tokens := tokens, current := cur } FOR = .ok true
          ∧ Parser.consume { tokens := tokens, current := cur } FOR (str "Expected 'for'")
              = .ok c
          ∧ c.2.check IDENTIFIER = .ok true ∧ c.2.peek = .ok t ∧ var = t.Value
          ∧ c.2.advance = .ok a
          ∧ a.2.consume IN (str "Expected 'in' after for variable") = .ok c1
          ∧ c1.2.parseExpression = .ok (iterable, p2) := by
  obtain ⟨tokens, htok, hp⟩ := Parse_eq_parseProgram src prog h
  refine ⟨parseProgramLoop_flat _ [] _ prog (by simp) hp, ?_⟩
  intro var iterable body hmem
  have hin : ({ tokens := tokens, current := 0 } : Parser).inRange = true := by
    have hEOF := Tokenize_endsInEOF src tokens htok
    have hne : 0 < tokens.length := by
      cases tokens with
      | nil => simp [endsInEOF] at hEOF
      | cons t ts => simp
    exact inRange_mk tokens 0 hEOF hne
  obtain ⟨cur, c, t, a, c1, p2, h1, h2, h3, h4, h5, h6, h7, h8⟩ :=
    parseProgramLoop_forHeadAt tokens _ [] _ prog rfl hin (by simp) hp var iterable body hmem
  exact ⟨tokens, cur, c, t, a, c1, p2, htok, h1, h2, h3, h4, h5, h6, h7, h8⟩

theorem C14_for_iterable_is_parsed_expression_witness :
    Parse (str "for i in x: print i")
      = .ok ⟨[ForStatement (str "i") (Identifier (str "x"))
          [PrintStatement [Identifier (str "i")]]]⟩
    ∧ ∃ (tokens : List Token) (cur : Nat) (c : Option GoString × Parser) (t : Token)
        (a : Token × Parser) (c1 : Option GoString × Parser) (p2 : Parser),
        (NewLexer (str "for i in x: print i")).Tokenize = .ok tokens
        ∧ Parser.check { tokens := tokens, current := cur } FOR = .ok true
        ∧ Parser.consume { tokens := tokens, current := cur } FOR (str "Expected 'for'")
            = .ok c
        ∧ c.2.check IDENTIFIER = .ok true ∧ c.2.peek = .ok t ∧ str "i" = t.Value
        ∧ c.2.advance = .ok a
        ∧ a.2.consume IN (str "Expected 'in' after for variable") = .ok c1
        ∧ c1.2.parseExpression = .ok (Identifier (str "x"), p2) :=
  ⟨rfl,
    (C14_for_iterable_is_parsed_expression (str "for i in x: print i")
      ⟨[ForStatement (str "i") (Identifier (str "x")) [PrintStatement [Identifier (str "i")]]]⟩
      rfl).2 (str "i") (Identifier (str "x")) [PrintStatement [Identifier (str "i")]]
      (List.mem_cons_self _ _)⟩

end Klo
